import Mathlib

/-! # LZSS compressor / decompressor (`compression.c`)

A shallow embedding of `decompress_lzss`, `init_state`, `insert_node`,
`delete_node` and `compress_lzss`, followed by the properties proved about them.

Conventions of the embedding:
* C arrays are total functions `Nat → Nat`; a store `a[i] = v` is `upd a i v`.
* bytes and `int` values that never become negative are `Nat`; the comparison
  result `cmp` and the counter `len` are `Int`.
* every unbounded C loop takes a fuel argument and returns `none` when the fuel
  runs out (the loop has not stopped within that many iterations).
* the destination buffer is the list of bytes written so far; `dst < dstend`
  is `dst.length < dstlen`.
-/

namespace LZSS

/-! ## Constants -/

/-- Size of the ring buffer. -/
def N : Nat := 4096
/-- Upper limit for `match_length`. -/
def F : Nat := 18
/-- A match is encoded as a pair only when longer than this. -/
def THRESHOLD : Nat := 2
/-- Index standing for "no node". -/
def NIL : Nat := N

/-- The array store `a[i] = v`. -/
def upd (a : Nat → Nat) (i v : Nat) : Nat → Nat := fun j => if j = i then v else a j

/-! ## Packing of a position-and-length pair -/

/-- First byte of a pair as the encoder stores it (line 308). -/
def pair_byte0 (match_position : Nat) : Nat := match_position % 256

/-- Second byte of a pair as the encoder stores it (lines 309-311). -/
def pair_byte1 (match_position match_length : Nat) : Nat :=
  (((match_position >>> 4) &&& 0xF0) ||| (match_length - (THRESHOLD + 1))) % 256

/-- The position the decoder reads out of the two bytes of a pair (line 113). -/
def pair_position (i j : Nat) : Nat := i ||| ((j &&& 0xF0) <<< 4)

/-- The bound `j` of the copy loop the decoder reads out of a pair (line 114);
the loop runs for `k = 0 .. j`. -/
def pair_bound (j : Nat) : Nat := (j &&& 0x0F) + THRESHOLD

/-! ## Decoder -/

/-- Local variables of `decompress_lzss` that live across loop iterations. -/
structure dec_state where
  text_buf : Nat → Nat
  r : Nat
  flags : Nat
  src : List Nat
  dst : List Nat

/-- The loop `for (k = 0; k <= j; k++)` of `decompress_lzss` (lines 115-123);
`n` is the number of iterations still to run, `j + 1 - k`. -/
def copy_loop (dstlen i : Nat) : Nat → Nat → dec_state → dec_state
  | 0, _, st => st
  | n + 1, k, st =>
    let c := st.text_buf ((i + k) &&& (N - 1))
    if st.dst.length < dstlen then
      copy_loop dstlen i n (k + 1)
        { st with dst := st.dst ++ [c], text_buf := upd st.text_buf st.r c,
                  r := (st.r + 1) &&& (N - 1) }
    else st

/-- The loop `for ( ; ; )` of `decompress_lzss` (lines 85-125). The result is
the list of bytes written to `dst` when the loop is left. -/
def decompress_loop (dstlen : Nat) : Nat → dec_state → Option (List Nat)
  | 0, _ => none
  | fuel + 1, st =>
    let flags := st.flags >>> 1
    if flags &&& 0x100 = 0 then
      match st.src with
      | [] => some st.dst
      | c :: src1 =>
        let flags := c ||| 0xFF00
        if flags &&& 1 ≠ 0 then
          match src1 with
          | [] => some st.dst
          | c :: src2 =>
            if st.dst.length < dstlen then
              decompress_loop dstlen fuel
                { st with flags := flags, src := src2, dst := st.dst ++ [c],
                          text_buf := upd st.text_buf st.r c, r := (st.r + 1) &&& (N - 1) }
            else some st.dst
        else
          match src1 with
          | i :: j :: src3 =>
            let i := pair_position i j
            let j := pair_bound j
            decompress_loop dstlen fuel
              (copy_loop dstlen i (j + 1) 0 { st with flags := flags, src := src3 })
          | _ => some st.dst
    else
      if flags &&& 1 ≠ 0 then
        match st.src with
        | [] => some st.dst
        | c :: src2 =>
          if st.dst.length < dstlen then
            decompress_loop dstlen fuel
              { st with flags := flags, src := src2, dst := st.dst ++ [c],
                        text_buf := upd st.text_buf st.r c, r := (st.r + 1) &&& (N - 1) }
          else some st.dst
      else
        match st.src with
        | i :: j :: src3 =>
          let i := pair_position i j
          let j := pair_bound j
          decompress_loop dstlen fuel
            (copy_loop dstlen i (j + 1) 0 { st with flags := flags, src := src3 })
        | _ => some st.dst

/-- The state of `decompress_lzss` on entry to its loop (lines 80-84): the
first `N - F` bytes of `text_buf` are spaces, the others are what the stack
held. -/
def dec_init (stack : Nat → Nat) (src : List Nat) : dec_state :=
  { text_buf := fun i => if i < N - F then 32 else stack i,
    r := N - F, flags := 0, src := src, dst := [] }

/-- The conversion `(int)` of line 127, which takes the difference
`dst - dststart` to the 32-bit type `int` of the result: a value below `2^31`
is kept, and a larger one is reduced modulo `2^32` into the range
`-2^31 .. 2^31 - 1`, as the compilers of two's complement machines define it. -/
def int_cast (n : Nat) : Int :=
  if n % 2 ^ 32 < 2 ^ 31 then ((n % 2 ^ 32 : Nat) : Int)
  else ((n % 2 ^ 32 : Nat) : Int) - 2 ^ 32

/-- The function `decompress_lzss(dst, dstlen, src, srclen)`. `src` is the list
of the `srclen` source bytes; `stack` is the content of the local array
`text_buf` on entry, which C leaves unspecified. The result is the value
returned, `(int)(dst - dststart)`, together with the bytes written to `dst`;
`none` means that the loop ran for more than `srclen + 1` iterations. -/
def decompress_lzss (stack : Nat → Nat) (dstlen : Nat) (src : List Nat) :
    Option (Int × List Nat) :=
  (decompress_loop dstlen (src.length + 1) (dec_init stack src)).map
    fun out => (int_cast out.length, out)

/-! ## Encoder state and search trees -/

/-- The C type `struct encode_state`. -/
structure encode_state where
  lchild : Nat → Nat
  rchild : Nat → Nat
  parent : Nat → Nat
  text_buf : Nat → Nat
  match_position : Nat
  match_length : Nat

/-- The function `init_state`: `bzero`, then the three initialising loops. -/
def init_state : encode_state where
  lchild := fun _ => 0
  rchild := fun i => if N + 1 ≤ i ∧ i ≤ N + 256 then NIL else 0
  parent := fun i => if i < N then NIL else 0
  text_buf := fun i => if i < N - F then 32 else 0
  match_position := 0
  match_length := 0

/-- The loop `for (i = 1; i < F; i++)` of `insert_node` (lines 189-192), with
`key = &text_buf[r]`; `n` is the number of iterations still to run. Returns the
final values of `i` and `cmp`. -/
def cmp_loop (tb : Nat → Nat) (r p : Nat) : Nat → Nat → Int → Nat × Int
  | 0, i, cmp => (i, cmp)
  | n + 1, i, _ =>
    let cmp : Int := (tb (r + i) : Int) - (tb (p + i) : Int)
    if cmp ≠ 0 then (i, cmp) else cmp_loop tb r p n (i + 1) cmp

/-- Lines 199-208 of `insert_node`: node `r` takes the place of node `p`. -/
def replace_node (sp : encode_state) (r p : Nat) : encode_state :=
  let pa := upd sp.parent r (sp.parent p)
  let lc := upd sp.lchild r (sp.lchild p)
  let rc := upd sp.rchild r (sp.rchild p)
  let pa := upd pa (lc p) r
  let pa := upd pa (rc p) r
  if rc (pa p) = p then
    { sp with lchild := lc, rchild := upd rc (pa p) r, parent := upd pa p NIL }
  else
    { sp with lchild := upd lc (pa p) r, rchild := rc, parent := upd pa p NIL }

/-- The loop `for ( ; ; )` of `insert_node` (lines 171-198) followed by the
replacement code it breaks to. -/
def insert_loop : Nat → encode_state → Nat → Nat → Int → Option encode_state
  | 0, _, _, _, _ => none
  | fuel + 1, sp, r, p, cmp =>
    let next : Option Nat :=
      if cmp ≥ 0 then
        if sp.rchild p ≠ NIL then some (sp.rchild p) else none
      else
        if sp.lchild p ≠ NIL then some (sp.lchild p) else none
    match next with
    | none =>
      if cmp ≥ 0 then
        some { sp with rchild := upd sp.rchild p r, parent := upd sp.parent r p }
      else
        some { sp with lchild := upd sp.lchild p r, parent := upd sp.parent r p }
    | some p =>
      let ic := cmp_loop sp.text_buf r p (F - 1) 1 cmp
      if ic.1 > sp.match_length then
        let sp := { sp with match_position := p, match_length := ic.1 }
        if ic.1 ≥ F then some (replace_node sp r p)
        else insert_loop fuel sp r p ic.2
      else insert_loop fuel sp r p ic.2

/-- The function `insert_node(sp, r)`. The descent is given `fuel` iterations. -/
def insert_node_fuel (fuel : Nat) (sp : encode_state) (r : Nat) : Option encode_state :=
  let p := N + 1 + sp.text_buf r
  let lc := upd sp.lchild r NIL
  let rc := upd sp.rchild r NIL
  insert_loop fuel { sp with lchild := lc, rchild := rc, match_length := 0 } r p 1

/-- The function `insert_node(sp, r)`; `none` when the descent takes more than
`N + 1` iterations. -/
def insert_node (sp : encode_state) (r : Nat) : Option encode_state :=
  insert_node_fuel (N + 1) sp r

/-- The loop `do q = rchild[q]; while (rchild[q] != NIL)` of `delete_node`. -/
def pred_loop (rc : Nat → Nat) : Nat → Nat → Option Nat
  | 0, _ => none
  | fuel + 1, q =>
    let q := rc q
    if rc q ≠ NIL then pred_loop rc fuel q else some q

/-- Lines 236-241 of `delete_node`: `q` is linked where `p` was. -/
def delete_link (sp : encode_state) (p q : Nat) : encode_state :=
  let pa := upd sp.parent q (sp.parent p)
  if sp.rchild (pa p) = p then
    { sp with rchild := upd sp.rchild (pa p) q, parent := upd pa p NIL }
  else
    { sp with lchild := upd sp.lchild (pa p) q, parent := upd pa p NIL }

/-- The function `delete_node(sp, p)`, its inner loop given `fuel` iterations. -/
def delete_node_fuel (fuel : Nat) (sp : encode_state) (p : Nat) : Option encode_state :=
  if sp.parent p = NIL then some sp
  else if sp.rchild p = NIL then some (delete_link sp p (sp.lchild p))
  else if sp.lchild p = NIL then some (delete_link sp p (sp.rchild p))
  else
    let q := sp.lchild p
    if sp.rchild q ≠ NIL then
      match pred_loop sp.rchild fuel q with
      | none => none
      | some q =>
        let rc := upd sp.rchild (sp.parent q) (sp.lchild q)
        let pa := upd sp.parent (sp.lchild q) (sp.parent q)
        let lc := upd sp.lchild q (sp.lchild p)
        let pa := upd pa (lc p) q
        let rc := upd rc q (rc p)
        let pa := upd pa (rc p) q
        some (delete_link { sp with lchild := lc, rchild := rc, parent := pa } p q)
    else
      let rc := upd sp.rchild q (sp.rchild p)
      let pa := upd sp.parent (rc p) q
      some (delete_link { sp with rchild := rc, parent := pa } p q)

/-- The function `delete_node(sp, p)`; `none` when the predecessor loop takes
more than `N` iterations. -/
def delete_node (sp : encode_state) (p : Nat) : Option encode_state :=
  delete_node_fuel N sp p

/-! ## Encoder -/

/-- What the encoder does to its search trees, its ring buffer and its code
buffer, in the order in which it does it. The log is a record kept beside the
program state: nothing the program computes depends on it. -/
inductive Event where
  /-- A call `insert_node(sp, r)` that returned, with `*sp` before and after. -/
  | inserted (before : encode_state) (r : Nat) (after : encode_state)
  /-- A call `delete_node(sp, p)` that returned, with `*sp` before and after. -/
  | deleted (before : encode_state) (p : Nat) (after : encode_state)
  /-- The store `text_buf[s] = c` of line 327, with its copy at `s + N` (line
  334) when there is one; `before` is `*sp` before the store. -/
  | stored (before : encode_state) (s c : Nat)
  /-- One byte sent uncoded (line 305). -/
  | literal (c : Nat)
  /-- A position-and-length pair sent (lines 308-311). -/
  | pair (match_position match_length : Nat)

/-- Local variables of `compress_lzss` that live across loop iterations, and
the log of events so far. -/
structure comp_state where
  sp : encode_state
  code_buf : Nat → Nat
  code_buf_ptr : Nat
  mask : Nat
  s : Nat
  r : Nat
  len : Int
  src : List Nat
  dst : List Nat
  log : List Event

/-- What `compress_lzss` leaves behind: the returned pointer (`none` for `NULL`,
`some k` for `dst + k`), the bytes it has written to the destination, and the
log of events. -/
structure compress_result where
  result : Option Nat
  dst : List Nat
  log : List Event

/-- The loop `for (i = 0; i < code_buf_ptr; i++)` that sends `code_buf` (lines
315-319 and 356-360); `n` is the number of iterations still to run. The flag is
`false` when the loop left through `goto finish`. -/
def flush_loop (dstlen : Nat) (code_buf : Nat → Nat) : Nat → Nat → List Nat → List Nat × Bool
  | 0, _, dst => (dst, true)
  | n + 1, i, dst =>
    if dst.length < dstlen then flush_loop dstlen code_buf n (i + 1) (dst ++ [code_buf i])
    else (dst, false)

/-- The loop `for (len = 0; len < F && src < srcend; len++)` (lines 280-281);
`n` is the number of iterations still allowed by `len < F`. -/
def fill_loop (r : Nat) : Nat → Nat → (Nat → Nat) → List Nat → Nat × (Nat → Nat) × List Nat
  | 0, len, tb, src => (len, tb, src)
  | _ + 1, len, tb, [] => (len, tb, [])
  | n + 1, len, tb, c :: src => fill_loop r n (len + 1) (upd tb (r + len) c) src

/-- The loop `for (i = 1; i <= F; i++) insert_node(sp, r - i)` (lines 290-291);
`n` is the number of iterations still to run. -/
def seed_loop (r : Nat) : Nat → Nat → encode_state → List Event →
    Option (encode_state × List Event)
  | 0, _, sp, log => some (sp, log)
  | n + 1, i, sp, log =>
    match insert_node sp (r - i) with
    | none => none
    | some sp1 => seed_loop r n (i + 1) sp1 (log ++ [Event.inserted sp (r - i) sp1])

/-- Lines 327-334: the store `text_buf[s] = c`, repeated at `s + N` when
`s < F - 1`. -/
def store_byte (tb : Nat → Nat) (s c : Nat) : Nat → Nat :=
  if s < F - 1 then upd (upd tb s c) (s + N) c else upd tb s c

/-- The loop `for (i = 0; i < last_match_length && src < srcend; i++)` (lines
324-342); `n` is the number of iterations still allowed by
`i < last_match_length`. Returns the final `i` and state. -/
def read_loop : Nat → Nat → comp_state → Option (Nat × comp_state)
  | 0, i, st => some (i, st)
  | n + 1, i, st =>
    match st.src with
    | [] => some (i, st)
    | c :: src =>
      match delete_node st.sp st.s with
      | none => none
      | some sp1 =>
        let sp2 := { sp1 with text_buf := store_byte sp1.text_buf st.s c }
        let s := (st.s + 1) &&& (N - 1)
        let r := (st.r + 1) &&& (N - 1)
        match insert_node sp2 r with
        | none => none
        | some sp3 =>
          read_loop n (i + 1)
            { st with sp := sp3, s := s, r := r, src := src,
                      log := st.log ++ [Event.deleted st.sp st.s sp1, Event.stored sp1 st.s c,
                                        Event.inserted sp2 r sp3] }

/-- The loop `while (i++ < last_match_length)` (lines 343-352); `n` is the
number of iterations still to run. -/
def drain_loop : Nat → comp_state → Option comp_state
  | 0, st => some st
  | n + 1, st =>
    match delete_node st.sp st.s with
    | none => none
    | some sp1 =>
      let s := (st.s + 1) &&& (N - 1)
      let r := (st.r + 1) &&& (N - 1)
      let len := st.len - 1
      if len ≠ 0 then
        match insert_node sp1 r with
        | none => none
        | some sp2 =>
          drain_loop n
            { st with sp := sp2, s := s, r := r, len := len,
                      log := st.log ++ [Event.deleted st.sp st.s sp1, Event.inserted sp1 r sp2] }
      else
        drain_loop n
          { st with sp := sp1, s := s, r := r, len := len,
                    log := st.log ++ [Event.deleted st.sp st.s sp1] }

/-- Lines 300-312: the match is clamped to `len` and one unit of code is put
into `code_buf`. -/
def emit_unit (st : comp_state) : comp_state :=
  let ml := if (st.sp.match_length : Int) > st.len then st.len.toNat else st.sp.match_length
  if ml ≤ THRESHOLD then
    { st with sp := { st.sp with match_length := 1 },
              code_buf := upd (upd st.code_buf 0 (st.code_buf 0 ||| st.mask))
                            st.code_buf_ptr (st.sp.text_buf st.r),
              code_buf_ptr := st.code_buf_ptr + 1,
              log := st.log ++ [Event.literal (st.sp.text_buf st.r)] }
  else
    { st with sp := { st.sp with match_length := ml },
              code_buf := upd (upd st.code_buf st.code_buf_ptr (pair_byte0 st.sp.match_position))
                            (st.code_buf_ptr + 1) (pair_byte1 st.sp.match_position ml),
              code_buf_ptr := st.code_buf_ptr + 2,
              log := st.log ++ [Event.pair st.sp.match_position ml] }

/-- Lines 313-322: after a unit the mask is shifted; when it has left the byte,
the code buffer is sent and reset. `none` is the `goto finish`, with the bytes
written until then. -/
def shift_mask (dstlen : Nat) (st : comp_state) : comp_state ⊕ List Nat :=
  let mask := (st.mask <<< 1) % 256
  if mask = 0 then
    let fl := flush_loop dstlen st.code_buf st.code_buf_ptr 0 st.dst
    if fl.2 then
      Sum.inl { st with dst := fl.1, code_buf := upd st.code_buf 0 0, code_buf_ptr := 1, mask := 1 }
    else Sum.inr fl.1
  else Sum.inl { st with mask := mask }

/-- Lines 355-368: the remaining code is sent and the result returned. -/
def finish (dstlen : Nat) (st : comp_state) : compress_result :=
  if st.code_buf_ptr > 1 then
    let fl := flush_loop dstlen st.code_buf st.code_buf_ptr 0 st.dst
    if fl.2 then ⟨some fl.1.length, fl.1, st.log⟩ else ⟨none, fl.1, st.log⟩
  else ⟨some st.dst.length, st.dst, st.log⟩

/-- The loop `do ... while (len > 0)` of `compress_lzss` (lines 298-353)
followed by the code after it (lines 355-368). -/
def main_loop (dstlen : Nat) : Nat → comp_state → Option compress_result
  | 0, _ => none
  | fuel + 1, st =>
    let st1 := emit_unit st
    match shift_mask dstlen st1 with
    | Sum.inr dst => some ⟨none, dst, st1.log⟩
    | Sum.inl st2 =>
      let last_match_length := st2.sp.match_length
      match read_loop last_match_length 0 st2 with
      | none => none
      | some (i, st3) =>
        match drain_loop (last_match_length - i) st3 with
        | none => none
        | some st4 =>
          if st4.len > 0 then main_loop dstlen fuel st4
          else some (finish dstlen st4)

/-- The function `compress_lzss(dst, dstlen, src, srclen)`, the working memory
being available. `src` is the list of the `srclen` source bytes. `none` means
that a loop has not stopped within its fuel. -/
def compress_lzss (dstlen : Nat) (src : List Nat) : Option compress_result :=
  let sp := init_state
  let code_buf : Nat → Nat := upd (fun _ => 0) 0 0
  let r := N - F
  let fl := fill_loop r F 0 sp.text_buf src
  if fl.1 = 0 then some ⟨none, [], []⟩
  else
    match seed_loop r F 1 { sp with text_buf := fl.2.1 } [] with
    | none => none
    | some (sp1, log1) =>
      match insert_node sp1 r with
      | none => none
      | some sp2 =>
        main_loop dstlen (src.length + 1)
          { sp := sp2, code_buf := code_buf, code_buf_ptr := 1, mask := 1, s := 0, r := r,
            len := fl.1, src := fl.2.2, dst := [], log := log1 ++ [Event.inserted sp1 r sp2] }

end LZSS

namespace LZSS

/-! ## One iteration of the decoder loop, in two halves -/

/-- Lines 86-92 of one iteration: shift the flags and read a flag byte when the
eight units are used up. `none` is the `break` on source exhaustion. -/
def dec_reload (st : dec_state) : Option dec_state :=
  if (st.flags >>> 1) &&& 0x100 = 0 then
    match st.src with
    | [] => none
    | c :: src1 => some { st with flags := c ||| 0xFF00, src := src1 }
  else some { st with flags := st.flags >>> 1 }

/-- Lines 93-124 of one iteration: decode one unit. `none` is a `break` of the
outer loop. -/
def dec_unit (dstlen : Nat) (st : dec_state) : Option dec_state :=
  if st.flags &&& 1 ≠ 0 then
    match st.src with
    | [] => none
    | c :: src2 =>
      if st.dst.length < dstlen then
        some { st with src := src2, dst := st.dst ++ [c],
                       text_buf := upd st.text_buf st.r c, r := (st.r + 1) &&& (N - 1) }
      else none
  else
    match st.src with
    | i :: j :: src3 =>
      some (copy_loop dstlen (pair_position i j) (pair_bound j + 1) 0 { st with src := src3 })
    | _ => none

end LZSS

namespace LZSS

/-! ## What the arrays are meant to represent -/

/-- The key of position `p`, `text_buf[p..p+F)`, comes strictly before the key
of position `q` in lexicographic order. -/
def keyLt (tb : Nat → Nat) (p q : Nat) : Prop :=
  ∃ i, i < F ∧ (∀ j, j < i → tb (p + j) = tb (q + j)) ∧ tb (p + i) < tb (q + i)

/-- The keys of positions `p` and `q` are the same string of `F` bytes. -/
def keyEq (tb : Nat → Nat) (p q : Nat) : Prop :=
  ∀ j, j < F → tb (p + j) = tb (q + j)

/-- Number of leading bytes on which `text_buf[p+i..]` and `text_buf[q+i..]`
agree, looking at `n` bytes at most. -/
def common_run (tb : Nat → Nat) (p q : Nat) : Nat → Nat → Nat
  | 0, _ => 0
  | n + 1, i => if tb (p + i) = tb (q + i) then common_run tb p q n (i + 1) + 1 else 0

/-- Length of the common prefix of the keys of `p` and `q`, at most `F`. -/
def lcp (tb : Nat → Nat) (p q : Nat) : Nat := common_run tb p q F 0

/-- Shape of a binary tree whose nodes are window positions. -/
inductive Tree where
  | leaf : Tree
  | node (left : Tree) (pos : Nat) (right : Tree) : Tree

/-- The nodes of a tree, left to right. -/
def Tree.toList : Tree → List Nat
  | Tree.leaf => []
  | Tree.node l v r => l.toList ++ v :: r.toList

/-- The tree is a search tree for the keys: everything in a left subtree is
strictly smaller than the node, everything in a right subtree strictly larger. -/
def Bst (tb : Nat → Nat) : Tree → Prop
  | Tree.leaf => True
  | Tree.node l v r =>
    (∀ x ∈ l.toList, keyLt tb x v) ∧ (∀ x ∈ r.toList, keyLt tb v x) ∧ Bst tb l ∧ Bst tb r

/-- The arrays `lc` (`lchild`), `rc` (`rchild`), `pa` (`parent`) hold the tree
`t` at the link `p` whose owner is `par`: an empty tree is the link `NIL`;
otherwise `p` is the root, a position below `N` whose `parent` is `par` and
whose `lchild` and `rchild` links hold the two subtrees. -/
def RepA (lc rc pa : Nat → Nat) : Nat → Nat → Tree → Prop
  | _, p, Tree.leaf => p = NIL
  | par, p, Tree.node l v r =>
    p = v ∧ v < N ∧ pa v = par ∧ RepA lc rc pa v (lc v) l ∧ RepA lc rc pa v (rc v) r

/-- The arrays of the state `sp` hold the tree `t` at the link `p` owned by `par`. -/
@[reducible] def Rep (sp : encode_state) (par p : Nat) (t : Tree) : Prop :=
  RepA sp.lchild sp.rchild sp.parent par p t

/-- The link followed from node `p` by the descent of `insert_node` when the
last comparison gave `cmp`: `rchild[p]` for `cmp >= 0`, else `lchild[p]`. -/
def link (sp : encode_state) (p : Nat) (cmp : Int) : Nat :=
  if cmp ≥ 0 then sp.rchild p else sp.lchild p

/-- The search-tree invariant of the encoder state: for each byte `c`, the link
`rchild[N + 1 + c]` holds a search tree `T c` whose members all start with the
byte `c`, and a position below `N` whose `parent` is not `NIL` is a member of
one of them. -/
structure Forest (sp : encode_state) (T : Nat → Tree) : Prop where
  rep : ∀ c, c < 256 → Rep sp (N + 1 + c) (sp.rchild (N + 1 + c)) (T c)
  bst : ∀ c, c < 256 → Bst sp.text_buf (T c)
  first : ∀ c, c < 256 → ∀ x ∈ (T c).toList, sp.text_buf x = c
  live : ∀ p, p < N → sp.parent p ≠ NIL → ∃ c, c < 256 ∧ p ∈ (T c).toList

/-- Position `p` is a member of one of the trees. -/
def Member (T : Nat → Tree) (p : Nat) : Prop := ∃ c, c < 256 ∧ p ∈ (T c).toList

end LZSS

namespace LZSS

/-- What a descent of `insert_node` for position `r`, started at the node `par`
with comparison result `cmp`, does to the tree `t` held at the link it starts
from: `sp` and `t` before, `sp'` and `t'` after. -/
structure InsertPost (sp : encode_state) (r par : Nat) (cmp : Int) (t : Tree)
    (sp' : encode_state) (t' : Tree) : Prop where
  rep : Rep sp' par (link sp' par cmp) t'
  mem : ∀ x, x ∈ t'.toList ↔ x = r ∨ (x ∈ t.toList ∧ ¬ keyEq sp.text_buf x r)
  bst : Bst sp.text_buf t'
  text : sp'.text_buf = sp.text_buf
  child : ∀ x, x ∉ t.toList → x ≠ r → x ≠ par →
    sp'.lchild x = sp.lchild x ∧ sp'.rchild x = sp.rchild x
  other_l : cmp ≥ 0 → sp'.lchild par = sp.lchild par
  other_r : cmp < 0 → sp'.rchild par = sp.rchild par
  parent : ∀ x, x ∉ t.toList → x ≠ r → x ≠ NIL → sp'.parent x = sp.parent x
  removed : ∀ x ∈ t.toList, keyEq sp.text_buf x r → sp'.parent x = NIL
  len_ge : sp.match_length ≤ sp'.match_length
  len_le : sp'.match_length ≤ F
  len_max : ∀ x ∈ t.toList, lcp sp.text_buf r x ≤ sp'.match_length
  found : (sp'.match_length = sp.match_length ∧ sp'.match_position = sp.match_position) ∨
    (sp'.match_position ∈ t.toList ∧
      lcp sp.text_buf r sp'.match_position = sp'.match_length)

end LZSS

namespace LZSS

/-- The tree `node l v r` without its rightmost node, and that node: the
rightmost node is replaced by its left subtree. -/
def popMax (l : Tree) (v : Nat) : Tree → Tree × Nat
  | Tree.leaf => (l, v)
  | Tree.node rl rv rr => (Tree.node l v (popMax rl rv rr).1, (popMax rl rv rr).2)

/-- What `delete_node(sp, p)` does to the tree `t` that contains `p` and is held
at the link of node `par` on the side given by `cmp` (as for `link`): `sp` and
`t` before, `sp'` and `t'` after. -/
structure DeletePost (sp : encode_state) (p par : Nat) (cmp : Int) (t : Tree)
    (sp' : encode_state) (t' : Tree) : Prop where
  rep : Rep sp' par (link sp' par cmp) t'
  mem : ∀ x, x ∈ t'.toList ↔ x ∈ t.toList ∧ x ≠ p
  bst : Bst sp.text_buf t'
  text : sp'.text_buf = sp.text_buf
  mlen : sp'.match_length = sp.match_length
  mpos : sp'.match_position = sp.match_position
  child : ∀ x, x ∉ t.toList → x ≠ par →
    sp'.lchild x = sp.lchild x ∧ sp'.rchild x = sp.rchild x
  other_l : cmp ≥ 0 → sp'.lchild par = sp.lchild par
  other_r : cmp < 0 → sp'.rchild par = sp.rchild par
  parent : ∀ x, x ∉ t.toList → x ≠ NIL → sp'.parent x = sp.parent x
  gone : sp'.parent p = NIL

end LZSS

namespace LZSS

/-! ## Units of code and what the decoder makes of them -/

/-- The flag bit of a unit of code: 1 for an uncoded byte, 0 for a pair. -/
def unit_flag : Event → Nat
  | Event.literal _ => 1
  | _ => 0

/-- The bytes of a unit of code in `code_buf`. -/
def unit_bytes : Event → List Nat
  | Event.literal c => [c]
  | Event.pair mp ml => [pair_byte0 mp, pair_byte1 mp ml]
  | _ => []

/-- The flag byte of a group of units, first unit in bit 0. -/
def group_flag : List Event → Nat
  | [] => 0
  | u :: us => unit_flag u + 2 * group_flag us

/-- The bytes of a group of units that follow its flag byte. -/
def group_bytes : List Event → List Nat
  | [] => []
  | u :: us => unit_bytes u ++ group_bytes us

/-- A unit of code the encoder may send: any byte, or a pair whose position is
a window position and whose length is between `THRESHOLD + 1` and `F`. -/
def UnitOk : Event → Prop
  | Event.literal _ => True
  | Event.pair mp ml => mp < N ∧ THRESHOLD < ml ∧ ml ≤ F
  | _ => False

/-- What the decoder does with one unit when the source holds its bytes: an
uncoded byte is written, a pair is copied out of the window. -/
def replay_unit (d : Nat) (st : dec_state) : Event → dec_state
  | Event.literal c =>
    { st with dst := st.dst ++ [c], text_buf := upd st.text_buf st.r c,
              r := (st.r + 1) &&& (N - 1) }
  | Event.pair mp ml => copy_loop d mp ml 0 st
  | _ => st

/-- What the decoder does with a sequence of units. -/
def replay (d : Nat) (st : dec_state) (us : List Event) : dec_state :=
  us.foldl (replay_unit d) st

/-- The decoder loop started in state `st` leaves with output `out`. -/
def Decodes (d : Nat) (st : dec_state) (out : List Nat) : Prop :=
  ∃ fuel, decompress_loop d fuel st = some out

/-- The stream the encoder works on, indexed from the start of the ring buffer:
`N - F` spaces followed by the source bytes. -/
def vstream (x : List Nat) (A : Nat) : Nat :=
  if A < N - F then 32 else x.getD (A - (N - F)) 0

/-- The ring buffer `tb` holds the last `N` bytes of the stream before index
`hi`, and the `F - 1` extra bytes repeat the start of the ring once written. -/
structure Win (x : List Nat) (tb : Nat → Nat) (hi : Nat) : Prop where
  ring : ∀ A, A < hi → hi ≤ A + N → tb (A % N) = vstream x A
  tail : ∀ A, N ≤ A → A < hi → hi ≤ A + N → A % N < F - 1 → tb (A % N + N) = vstream x A

end LZSS

namespace LZSS

/-- Two decoder states have the same window, write position and output. -/
def SameWin (a b : dec_state) : Prop :=
  a.text_buf = b.text_buf ∧ a.r = b.r ∧ a.dst = b.dst

end LZSS

namespace LZSS

/-! ## Invariants of the encoder -/

/-- What holds of a logged event. For a call of `insert_node`: the call returns
the state logged as `after`, the first character of the key is a byte, the
invariant holds before and after, the new position was not a member, the members after
are the new position and the old members with a different key, and the match
reported is the longest common prefix with any member. For a call of
`delete_node`: the call returns the state logged as `after`, the invariant
holds before and after and exactly `p` has left the trees. For a store into the ring buffer: no member's key covers the bytes
written. For a pair: the position is a window position and the length is
between `THRESHOLD + 1` and `F`. -/
def EventOk : Event → Prop
  | Event.inserted before r after =>
    insert_node before r = some after ∧
    before.text_buf r < 256 ∧
    r < N ∧ (∃ T, Forest before T) ∧ (∃ T, Forest after T) ∧ before.parent r = NIL ∧
    after.text_buf = before.text_buf ∧
    (∀ x, x < N → (after.parent x ≠ NIL ↔
      x = r ∨ (before.parent x ≠ NIL ∧ ¬ keyEq before.text_buf x r))) ∧
    after.match_length ≤ F ∧
    (∀ x, x < N → before.parent x ≠ NIL → lcp before.text_buf r x ≤ after.match_length) ∧
    (after.match_length = 0 ∨
      (after.match_position < N ∧ before.parent after.match_position ≠ NIL ∧
        lcp before.text_buf r after.match_position = after.match_length))
  | Event.deleted before p after =>
    delete_node before p = some after ∧
    p < N ∧ (∃ T, Forest before T) ∧ (∃ T, Forest after T) ∧
    after.text_buf = before.text_buf ∧
    (∀ x, x < N → (after.parent x ≠ NIL ↔ before.parent x ≠ NIL ∧ x ≠ p)) ∧
    (before.parent p = NIL → after = before)
  | Event.stored before s c =>
    s < N ∧ c < 256 ∧ (∃ T, Forest before T) ∧
    (∀ p, p < N → before.parent p ≠ NIL → ∀ i, i < F → p + i ≠ s ∧ p + i ≠ s + N)
  | Event.literal c => c < 256
  | Event.pair mp ml => mp < N ∧ THRESHOLD < ml ∧ ml ≤ F

/-- The pairs among the logged events, in the order of their emission. -/
def pair_events : List Event → List (Nat × Nat)
  | [] => []
  | Event.pair mp ml :: es => (mp, ml) :: pair_events es
  | _ :: es => pair_events es

/-- The encoder has taken in the first `k` source bytes of `x`: where `r` and
`s` are, what is left to read, what the ring buffer holds and which positions
the search trees may contain. -/
structure PosInv (x : List Nat) (k : Nat) (st : comp_state) : Prop where
  r_eq : st.r = (N - F + k) % N
  s_eq : st.s = k % N
  len_nonneg : 0 ≤ st.len
  len_le : st.len ≤ F
  k_le : k + st.len.toNat ≤ x.length
  src_eq : st.src = x.drop (k + st.len.toNat)
  full : st.src ≠ [] → st.len = F
  win : Win x st.sp.text_buf (N - F + k + st.len.toNat)
  tb_bytes : ∀ i, st.sp.text_buf i < 256
  forest : ∃ T, Forest st.sp T
  range : ∀ p, p < N → st.sp.parent p ≠ NIL → ∃ A, k ≤ A ∧ A ≤ N - F + k ∧ p = A % N
  log_ok : ∀ e ∈ st.log, EventOk e

/-- The match found for position `r`: a position inserted before `r` and still
in the window, whose bytes agree with those at `r` over the match length. -/
def MatchInv (k : Nat) (st : comp_state) : Prop :=
  st.sp.match_length ≤ F ∧
  (st.sp.match_length = 0 ∨
    ∃ A, k ≤ A ∧ A < N - F + k ∧ st.sp.match_position = A % N ∧
      ∀ i, i < st.sp.match_length →
        st.sp.text_buf (st.sp.match_position + i) = st.sp.text_buf (st.r + i))

/-- The decoder state `S` has written the first `m` bytes of `x` and its window
holds the last `N` bytes of the stream before them. -/
structure DecWin (x : List Nat) (m : Nat) (S : dec_state) : Prop where
  out : S.dst = x.take m
  rpos : S.r = (N - F + m) % N
  win : ∀ A, A < N - F + m → N - F + m ≤ A + N → S.text_buf (A % N) = vstream x A

/-- What the encoder has sent for the first `k` source bytes of `x`, seen from
a decoder with capacity `d`: the bytes written so far lead the decoder from its
start to the state `D0`, where it needs a flag byte; `cur` are the units kept in
`code_buf`; decoding them from `D0` gives the first `k` bytes of `x`. `g` and
`P` count the flag bytes and the other bytes written so far. -/
structure OutInv (x : List Nat) (stack : Nat → Nat) (d k : Nat) (st : comp_state)
    (D0 : dec_state) (cur : List Event) (g P : Nat) : Prop where
  chain : ∀ rest out, Decodes d { D0 with src := rest } out →
    Decodes d (dec_init stack (st.dst ++ rest)) out
  reload : (D0.flags >>> 1) &&& 0x100 = 0
  units : ∀ u ∈ cur, UnitOk u
  flag : st.code_buf 0 = group_flag cur
  ptr : st.code_buf_ptr = 1 + (group_bytes cur).length
  buf : ∀ i, i < (group_bytes cur).length → st.code_buf (1 + i) = (group_bytes cur).getD i 0
  dec : DecWin x k (replay d D0 cur)
  size : st.dst.length = g + P
  units_le : 8 * g + cur.length ≤ k
  bytes_le : P + (group_bytes cur).length ≤ k

end LZSS

namespace LZSS

/-- The state `st'` has the same destination, code buffer and mask as `st`. -/
def SameOut (st st' : comp_state) : Prop :=
  st'.dst = st.dst ∧ st'.code_buf = st.code_buf ∧ st'.code_buf_ptr = st.code_buf_ptr ∧
  st'.mask = st.mask

end LZSS

namespace LZSS

/-- What holds of the result `res` of `compress_lzss` on the source `x` with
destination capacity `c`, for a decoder with capacity `d` and stack content
`stack`: the logged events are as `EventOk` says; the result is `NULL` or the
end of the bytes written; on success, the decoder run on the bytes written,
followed by any further bytes `rest`, writes `x` first, and writes exactly `x`
when nothing follows; the stream is at most `len(x) + ceil(len(x) / 8)` bytes
long; and a capacity of that size is enough for success. -/
structure MainPost (x : List Nat) (stack : Nat → Nat) (d c : Nat) (res : compress_result) :
    Prop where
  log_ok : ∀ e ∈ res.log, EventOk e
  result : res.result = none ∨ res.result = some res.dst.length
  decodes : res.result ≠ none → ∀ rest, ∃ out,
    Decodes d (dec_init stack (res.dst ++ rest)) out ∧ x <+: out ∧ (rest = [] → out = x)
  bound : res.result ≠ none → res.dst.length ≤ x.length + (x.length + 7) / 8
  enough : x.length + (x.length + 7) / 8 ≤ c → res.result ≠ none

end LZSS

namespace LZSS

/-! ## Further views of the log -/

/-- The stores into the ring buffer among the logged events, as pairs of the
index `s` and the byte stored, in the order in which they were made. -/
def store_events : List Event → List (Nat × Nat)
  | [] => []
  | Event.stored _ s c :: es => (s, c) :: store_events es
  | _ :: es => store_events es

/-- The nodes that the descent of `insert_node` compares with the key of `r`,
in the order of the descent, each with the value of `i` that the comparison
loop of lines 189-192 left for it. The function follows `insert_loop` step by
step and keeps the node and `i` where `insert_loop` goes on or breaks. -/
def insert_visits : Nat → encode_state → Nat → Nat → Int → List (Nat × Nat)
  | 0, _, _, _, _ => []
  | fuel + 1, sp, r, p, cmp =>
    let next : Option Nat :=
      if cmp ≥ 0 then
        if sp.rchild p ≠ NIL then some (sp.rchild p) else none
      else
        if sp.lchild p ≠ NIL then some (sp.lchild p) else none
    match next with
    | none => []
    | some p =>
      let ic := cmp_loop sp.text_buf r p (F - 1) 1 cmp
      if ic.1 > sp.match_length then
        let sp := { sp with match_position := p, match_length := ic.1 }
        if ic.1 ≥ F then [(p, ic.1)]
        else (p, ic.1) :: insert_visits fuel sp r p ic.2
      else (p, ic.1) :: insert_visits fuel sp r p ic.2

/-- The nodes visited by a call `insert_node(sp, r)`, with their `i`. -/
def insert_node_visits (sp : encode_state) (r : Nat) : List (Nat × Nat) :=
  let p := N + 1 + sp.text_buf r
  let lc := upd sp.lchild r NIL
  let rc := upd sp.rchild r NIL
  insert_visits (N + 1) { sp with lchild := lc, rchild := rc, match_length := 0 } r p 1

/-- What a logged call of `insert_node` has done: the position inserted, the
nodes visited with their `i`, and the match reported. -/
def insert_report : Event → Option (Nat × List (Nat × Nat) × Nat × Nat)
  | Event.inserted before r after =>
    some (r, insert_node_visits before r, after.match_position, after.match_length)
  | _ => none

/-! ## The main loop, iteration by iteration -/

/-- The state of `compress_lzss` when it enters its main loop (lines 262-297):
`none` when the source is empty, or when a tree operation runs out of fuel. -/
def loop_entry (src : List Nat) : Option comp_state :=
  let sp := init_state
  let code_buf : Nat → Nat := upd (fun _ => 0) 0 0
  let r := N - F
  let fl := fill_loop r F 0 sp.text_buf src
  if fl.1 = 0 then none
  else
    match seed_loop r F 1 { sp with text_buf := fl.2.1 } [] with
    | none => none
    | some (sp1, log1) =>
      match insert_node sp1 r with
      | none => none
      | some sp2 =>
        some { sp := sp2, code_buf := code_buf, code_buf_ptr := 1, mask := 1, s := 0, r := r,
               len := fl.1, src := fl.2.2, dst := [], log := log1 ++ [Event.inserted sp1 r sp2] }

/-- One iteration of the main loop (lines 299-352) from the state `st` at its
head to the state at its condition `len > 0`: `none` when the iteration leaves
through `goto finish`, or when a tree operation runs out of fuel. -/
def loop_body (dstlen : Nat) (st : comp_state) : Option comp_state :=
  match shift_mask dstlen (emit_unit st) with
  | Sum.inr _ => none
  | Sum.inl st2 =>
    match read_loop st2.sp.match_length 0 st2 with
    | none => none
    | some (i, st3) => drain_loop (st2.sp.match_length - i) st3

/-- The states at the head of the iterations of the main loop started in `st`,
in order. -/
def loop_heads (dstlen : Nat) : Nat → comp_state → List comp_state
  | 0, _ => []
  | fuel + 1, st =>
    st :: (match loop_body dstlen st with
      | none => []
      | some st4 => if st4.len > 0 then loop_heads dstlen fuel st4 else [])

/-- The state in which the main loop started in `st` is left through its
condition `len > 0`, if it is. -/
def loop_exit (dstlen : Nat) : Nat → comp_state → Option comp_state
  | 0, _ => none
  | fuel + 1, st =>
    match loop_body dstlen st with
    | none => none
    | some st4 => if st4.len > 0 then loop_exit dstlen fuel st4 else some st4

/-- A state with one tree member: `init_state` after position 5, whose key is
a string of spaces, has been linked as the root of the tree of the space. -/
def one_node_state : encode_state where
  lchild := upd init_state.lchild 5 NIL
  rchild := upd (upd init_state.rchild 5 NIL) (N + 1 + 32) 5
  parent := upd init_state.parent 5 (N + 1 + 32)
  text_buf := init_state.text_buf
  match_position := 0
  match_length := 0

/-- The forest held by `one_node_state`. -/
def one_node_forest : Nat → Tree :=
  fun c => if c = 32 then Tree.node Tree.leaf 5 Tree.leaf else Tree.leaf

end LZSS

namespace LZSS

/-! ## Invariant of the code buffer at the head of an iteration -/

/-- What has been sent for the first `k` source bytes of `x`, with the decoder
left out: fewer than eight units are kept in `code_buf`, `mask` stands at the
bit of the next one, and the bytes written fit in the capacity `c`. -/
def OutOk (x : List Nat) (c k : Nat) (st : comp_state) : Prop :=
  ∃ D0 cur g P, OutInv x (fun _ => 0) x.length k st D0 cur g P ∧ cur.length < 8 ∧
    st.mask = 2 ^ cur.length ∧ st.dst.length ≤ c

/-! ## Array accesses of the encoder -/

/-- An access, read or write, to an element of one of the arrays of the
encoder: the four arrays of `struct encode_state` and the local `code_buf`. -/
inductive Access where
  | lchild (i : Nat)
  | rchild (i : Nat)
  | parent (i : Nat)
  | text_buf (i : Nat)
  | code_buf (i : Nat)

/-- The access is within the array as declared: `lchild[N + 1]`,
`rchild[N + 257]`, `parent[N + 1]`, `text_buf[N + F - 1]`, `code_buf[17]`. -/
def Access.in_bounds : Access → Prop
  | Access.lchild i => i < N + 1
  | Access.rchild i => i < N + 257
  | Access.parent i => i < N + 1
  | Access.text_buf i => i < N + F - 1
  | Access.code_buf i => i < 17

/-- The accesses made by the three loops of `init_state` (lines 145-150). -/
def init_state_trace : List Access :=
  (List.range (N - F)).map Access.text_buf ++
  (List.range 256).map (fun i => Access.rchild (N + 1 + i)) ++
  (List.range N).map Access.parent

/-- The accesses made by the comparison loop of `insert_node` (lines 189-192):
`key[i]`, which is `text_buf[r + i]`, and `text_buf[p + i]`. The function
follows `cmp_loop`. -/
def cmp_loop_trace (tb : Nat → Nat) (r p : Nat) : Nat → Nat → List Access
  | 0, _ => []
  | n + 1, i =>
    let cmp : Int := (tb (r + i) : Int) - (tb (p + i) : Int)
    Access.text_buf (r + i) :: Access.text_buf (p + i) ::
      (if cmp ≠ 0 then [] else cmp_loop_trace tb r p n (i + 1))

/-- The accesses made by lines 199-208 of `insert_node`, statement by
statement. The function follows `replace_node`. -/
def replace_node_trace (sp : encode_state) (r p : Nat) : List Access :=
  let pa := upd sp.parent r (sp.parent p)
  let lc := upd sp.lchild r (sp.lchild p)
  let rc := upd sp.rchild r (sp.rchild p)
  let pa := upd pa (lc p) r
  let pa := upd pa (rc p) r
  [Access.parent p, Access.parent r, Access.lchild p, Access.lchild r,
    Access.rchild p, Access.rchild r,
    Access.lchild p, Access.parent (lc p), Access.rchild p, Access.parent (rc p),
    Access.parent p, Access.rchild (pa p)] ++
  (if rc (pa p) = p then [Access.parent p, Access.rchild (pa p)]
   else [Access.parent p, Access.lchild (pa p)]) ++
  [Access.parent p]

/-- The accesses made by the loop `for ( ; ; )` of `insert_node` (lines
171-198) and the code it breaks to. The function follows `insert_loop`. -/
def insert_trace : Nat → encode_state → Nat → Nat → Int → List Access
  | 0, _, _, _, _ => []
  | fuel + 1, sp, r, p, cmp =>
    let next : Option Nat :=
      if cmp ≥ 0 then
        if sp.rchild p ≠ NIL then some (sp.rchild p) else none
      else
        if sp.lchild p ≠ NIL then some (sp.lchild p) else none
    (if cmp ≥ 0 then Access.rchild p else Access.lchild p) ::
    (if cmp ≥ 0 then Access.rchild p else Access.lchild p) ::
    match next with
    | none => [Access.parent r]
    | some p =>
      let ic := cmp_loop sp.text_buf r p (F - 1) 1 cmp
      cmp_loop_trace sp.text_buf r p (F - 1) 1 ++
      (if ic.1 > sp.match_length then
        let sp := { sp with match_position := p, match_length := ic.1 }
        if ic.1 ≥ F then replace_node_trace sp r p
        else insert_trace fuel sp r p ic.2
      else insert_trace fuel sp r p ic.2)

/-- The accesses made by a call `insert_node(sp, r)`: `key[0]`, the two stores
of line 168, and the descent. -/
def insert_node_trace (sp : encode_state) (r : Nat) : List Access :=
  let p := N + 1 + sp.text_buf r
  let lc := upd sp.lchild r NIL
  let rc := upd sp.rchild r NIL
  Access.text_buf r :: Access.rchild r :: Access.lchild r ::
    insert_trace (N + 1) { sp with lchild := lc, rchild := rc, match_length := 0 } r p 1

/-- The accesses made by the loop `do q = rchild[q]; while (rchild[q] != NIL)`
of `delete_node`. The function follows `pred_loop`. -/
def pred_loop_trace (rc : Nat → Nat) : Nat → Nat → List Access
  | 0, _ => []
  | fuel + 1, q =>
    Access.rchild q :: Access.rchild (rc q) ::
      (if rc (rc q) ≠ NIL then pred_loop_trace rc fuel (rc q) else [])

/-- The accesses made by lines 236-241 of `delete_node`. The function follows
`delete_link`. -/
def delete_link_trace (sp : encode_state) (p q : Nat) : List Access :=
  let pa := upd sp.parent q (sp.parent p)
  [Access.parent p, Access.parent q, Access.parent p, Access.rchild (pa p)] ++
  (if sp.rchild (pa p) = p then [Access.parent p, Access.rchild (pa p)]
   else [Access.parent p, Access.lchild (pa p)]) ++
  [Access.parent p]

/-- The accesses made by a call `delete_node(sp, p)`. The function follows
`delete_node_fuel` with the fuel of `delete_node`. -/
def delete_node_trace (sp : encode_state) (p : Nat) : List Access :=
  Access.parent p ::
  (if sp.parent p = NIL then []
  else Access.rchild p ::
    (if sp.rchild p = NIL then Access.lchild p :: delete_link_trace sp p (sp.lchild p)
    else Access.lchild p ::
      (if sp.lchild p = NIL then Access.rchild p :: delete_link_trace sp p (sp.rchild p)
      else
        let q := sp.lchild p
        Access.lchild p :: Access.rchild q ::
        (if sp.rchild q ≠ NIL then
          pred_loop_trace sp.rchild N q ++
          (match pred_loop sp.rchild N q with
          | none => []
          | some q =>
            let rc := upd sp.rchild (sp.parent q) (sp.lchild q)
            let pa := upd sp.parent (sp.lchild q) (sp.parent q)
            let lc := upd sp.lchild q (sp.lchild p)
            let pa2 := upd pa (lc p) q
            let rc2 := upd rc q (rc p)
            let pa3 := upd pa2 (rc2 p) q
            [Access.parent q, Access.lchild q, Access.rchild (sp.parent q),
              Access.lchild q, Access.parent q, Access.parent (sp.lchild q),
              Access.lchild p, Access.lchild q,
              Access.lchild p, Access.parent (lc p),
              Access.rchild p, Access.rchild q,
              Access.rchild p, Access.parent (rc2 p)] ++
            delete_link_trace { sp with lchild := lc, rchild := rc2, parent := pa3 } p q)
        else
          let rc := upd sp.rchild q (sp.rchild p)
          let pa := upd sp.parent (rc p) q
          [Access.rchild p, Access.rchild q, Access.rchild p, Access.parent (rc p)] ++
          delete_link_trace { sp with rchild := rc, parent := pa } p q))))

/-- The accesses made by the loop that reads the first bytes (lines 280-281).
The function follows `fill_loop`. -/
def fill_trace (r : Nat) : Nat → Nat → List Nat → List Access
  | 0, _, _ => []
  | _ + 1, _, [] => []
  | n + 1, len, _ :: src => Access.text_buf (r + len) :: fill_trace r n (len + 1) src

/-- The accesses made by lines 300-312 on the arrays. The function follows
`emit_unit`. -/
def unit_trace (st : comp_state) : List Access :=
  let ml := if (st.sp.match_length : Int) > st.len then st.len.toNat else st.sp.match_length
  if ml ≤ THRESHOLD then
    [Access.code_buf 0, Access.text_buf st.r, Access.code_buf st.code_buf_ptr]
  else [Access.code_buf st.code_buf_ptr, Access.code_buf (st.code_buf_ptr + 1)]

/-- The accesses made by the loop that sends `code_buf` (lines 315-319 and
356-360), `len` being the number of bytes in the destination. The function
follows `flush_loop`. -/
def flush_trace (dstlen : Nat) : Nat → Nat → Nat → List Access
  | 0, _, _ => []
  | n + 1, i, len =>
    if len < dstlen then Access.code_buf i :: flush_trace dstlen n (i + 1) (len + 1) else []

/-- The accesses made by lines 313-322. The function follows `shift_mask`. -/
def shift_trace (dstlen : Nat) (st : comp_state) : List Access :=
  if (st.mask <<< 1) % 256 = 0 then
    flush_trace dstlen st.code_buf_ptr 0 st.dst.length ++
    (if (flush_loop dstlen st.code_buf st.code_buf_ptr 0 st.dst).2 then [Access.code_buf 0]
     else [])
  else []

/-- The accesses made by the code after the main loop (lines 355-361). The
function follows `finish`. -/
def exit_trace (dstlen : Nat) (st : comp_state) : List Access :=
  if st.code_buf_ptr > 1 then flush_trace dstlen st.code_buf_ptr 0 st.dst.length else []

/-- The accesses that belong to a logged event: those of the call for a tree
operation, and the one or two stores of lines 327 and 334. -/
def event_trace : Event → List Access
  | Event.inserted before r _ => insert_node_trace before r
  | Event.deleted before p _ => delete_node_trace before p
  | Event.stored _ s _ =>
    Access.text_buf s :: (if s < F - 1 then [Access.text_buf (s + N)] else [])
  | _ => []

/-- All array accesses of a run of `compress_lzss`: those of `init_state`, the
store `code_buf[0] = 0` of line 272, the first reads, those of the logged tree
operations and stores, those of each iteration of the main loop at its head,
and those of the code after the loop. -/
def compress_trace (dstlen : Nat) (src : List Nat) : List Access :=
  init_state_trace ++ Access.code_buf 0 :: fill_trace (N - F) F 0 src ++
  (match compress_lzss dstlen src with
    | none => []
    | some res => res.log.flatMap event_trace) ++
  (match loop_entry src with
    | none => []
    | some st0 =>
      (loop_heads dstlen (src.length + 1) st0).flatMap
        (fun s => unit_trace s ++ shift_trace dstlen (emit_unit s)) ++
      (match loop_exit dstlen (src.length + 1) st0 with
        | none => []
        | some s => exit_trace dstlen s))

/-- The links of the members `M` of the trees stay among the members: a child
is `NIL` or a member whose parent is the node, and a parent is a member or a
root index whose `rchild` is the node. -/
def NodeOk (lc rc pa : Nat → Nat) (M : Nat → Prop) : Prop :=
  ∀ y, M y → y < N ∧ (lc y = NIL ∨ (M (lc y) ∧ pa (lc y) = y)) ∧
    (rc y = NIL ∨ (M (rc y) ∧ pa (rc y) = y)) ∧
    (M (pa y) ∨ (N < pa y ∧ pa y ≤ N + 256 ∧ rc (pa y) = y))

end LZSS

namespace LZSS

set_option maxRecDepth 100000 in
theorem land_F0_of_lt : ∀ y < 256, y &&& 0xF0 = y / 16 * 16 := by decide
set_option maxRecDepth 100000 in
theorem land_0F_of_lt : ∀ y < 256, y &&& 0x0F = y % 16 := by decide

theorem pair_byte1_eq (pos len : Nat) (hp : pos < 4096) (h1 : 3 ≤ len) (h2 : len ≤ 18) :
    pair_byte1 pos len = pos / 256 * 16 + (len - 3) := by
  unfold pair_byte1 THRESHOLD
  rw [Nat.shiftRight_eq_div_pow, land_F0_of_lt _ (by omega)]
  have e : pos / 2 ^ 4 / 16 * 16 = 2 ^ 4 * (pos / 256) := by omega
  rw [e, ← Nat.mul_add_lt_is_or (by omega)]
  omega

theorem pair_roundtrip (pos len : Nat) (hp : pos < N) (h1 : THRESHOLD + 1 ≤ len) (h2 : len ≤ F) :
    pair_position (pair_byte0 pos) (pair_byte1 pos len) = pos ∧
      pair_bound (pair_byte1 pos len) + 1 = len := by
  simp only [N, F, THRESHOLD] at hp h1 h2
  rw [pair_byte1_eq pos len hp h1 h2]
  unfold pair_position pair_bound pair_byte0 THRESHOLD
  rw [land_F0_of_lt _ (by omega), land_0F_of_lt _ (by omega), Nat.shiftLeft_eq]
  have e : (pos / 256 * 16 + (len - 3)) / 16 * 16 * 2 ^ 4 = 2 ^ 8 * (pos / 256) := by omega
  rw [e, Nat.lor_comm, ← Nat.mul_add_lt_is_or (by omega)]
  omega

end LZSS

namespace LZSS

theorem dec_reload_dst {st st1 : dec_state} (h : dec_reload st = some st1) :
    st1.dst = st.dst ∧ st1.text_buf = st.text_buf ∧ st1.r = st.r := by
  unfold dec_reload at h
  split at h
  · split at h
    · cases h
    · cases h; simp
  · cases h; simp

theorem decompress_loop_succ (dstlen fuel : Nat) (st : dec_state) :
    decompress_loop dstlen (fuel + 1) st =
      match dec_reload st with
      | none => some st.dst
      | some st1 =>
        match dec_unit dstlen st1 with
        | none => some st.dst
        | some st2 => decompress_loop dstlen fuel st2 := by
  rw [decompress_loop]
  unfold dec_reload dec_unit
  rcases st with ⟨tb, r, flags, src, dst⟩
  dsimp only
  by_cases h1 : (flags >>> 1) &&& 0x100 = 0
  · simp only [if_pos h1]
    rcases src with _ | ⟨c, src1⟩
    · rfl
    · dsimp only
      by_cases h2 : (c ||| 0xFF00) &&& 1 ≠ 0
      · simp only [if_pos h2]
        rcases src1 with _ | ⟨c2, src2⟩
        · rfl
        · dsimp only
          by_cases h3 : dst.length < dstlen
          · simp only [if_pos h3]
          · simp only [if_neg h3]
      · simp only [if_neg h2]
        rcases src1 with _ | ⟨i, _ | ⟨j, src3⟩⟩ <;> rfl
  · simp only [if_neg h1]
    by_cases h2 : (flags >>> 1) &&& 1 ≠ 0
    · simp only [if_pos h2]
      rcases src with _ | ⟨c2, src2⟩
      · rfl
      · dsimp only
        by_cases h3 : dst.length < dstlen
        · simp only [if_pos h3]
        · simp only [if_neg h3]
    · simp only [if_neg h2]
      rcases src with _ | ⟨i, _ | ⟨j, src3⟩⟩ <;> rfl

/-! ### The copy loop -/

theorem copy_loop_src (d i : Nat) : ∀ (n k : Nat) (st : dec_state),
    (copy_loop d i n k st).src = st.src ∧ (copy_loop d i n k st).flags = st.flags := by
  intro n
  induction n with
  | zero => intro k st; simp [copy_loop]
  | succ n ih =>
    intro k st
    rw [copy_loop]
    split
    · rw [(ih _ _).1, (ih _ _).2]; exact ⟨rfl, rfl⟩
    · simp

theorem copy_loop_grows (d i : Nat) : ∀ (n k : Nat) (st : dec_state),
    st.dst <+: (copy_loop d i n k st).dst := by
  intro n
  induction n with
  | zero => intro k st; simp [copy_loop]
  | succ n ih =>
    intro k st
    rw [copy_loop]
    split
    · refine List.IsPrefix.trans ?_ (ih _ _)
      exact List.prefix_append _ _
    · exact List.prefix_refl _

theorem copy_loop_full (d i : Nat) (n k : Nat) (st : dec_state) (h : d ≤ st.dst.length) :
    copy_loop d i n k st = st := by
  cases n with
  | zero => simp [copy_loop]
  | succ n => rw [copy_loop, if_neg (by omega)]

theorem copy_loop_length_le (d i : Nat) : ∀ (n k : Nat) (st : dec_state),
    st.dst.length ≤ d → (copy_loop d i n k st).dst.length ≤ d := by
  intro n
  induction n with
  | zero => intro k st h; simpa [copy_loop] using h
  | succ n ih =>
    intro k st h
    rw [copy_loop]
    split
    · apply ih
      simp only [List.length_append, List.length_singleton]
      omega
    · exact h

/-- Two runs of the copy loop that differ in the capacity only. -/
theorem copy_loop_two (c c' i : Nat) (hc : c ≤ c') : ∀ (n k : Nat) (st : dec_state),
    st.dst.length ≤ c →
    (copy_loop c i n k st = copy_loop c' i n k st ∧ (copy_loop c' i n k st).dst.length ≤ c) ∨
    ((copy_loop c i n k st).dst.length = c ∧
      (copy_loop c i n k st).dst = (copy_loop c' i n k st).dst.take c) := by
  intro n
  induction n with
  | zero => intro k st h; left; simpa [copy_loop] using h
  | succ n ih =>
    intro k st h
    by_cases hlt : st.dst.length < c
    · rw [copy_loop, copy_loop]
      rw [if_pos hlt, if_pos (by omega)]
      apply ih
      simp only [List.length_append, List.length_singleton]
      omega
    · have he : st.dst.length = c := by omega
      right
      rw [copy_loop_full c i _ _ st (by omega)]
      refine ⟨he, ?_⟩
      have hp := copy_loop_grows c' i (n + 1) k st
      rw [← he]
      exact (List.prefix_iff_eq_take.mp hp)

/-! ### The decoder loop: termination, monotonicity, capacity -/

theorem dec_reload_src {st st1 : dec_state} (h : dec_reload st = some st1) :
    st1.src.length ≤ st.src.length := by
  unfold dec_reload at h
  split at h
  · split at h
    · cases h
    · next c src1 hs => cases h; simp [hs]
  · cases h; simp

theorem dec_unit_src {d : Nat} {st st2 : dec_state} (h : dec_unit d st = some st2) :
    st2.src.length + 1 ≤ st.src.length := by
  unfold dec_unit at h
  split at h
  · split at h
    · cases h
    · next c src2 hs =>
      split at h
      · cases h; simp [hs]
      · cases h
  · split at h
    · next i j src3 hs =>
      cases h
      rw [(copy_loop_src _ _ _ _ _).1]
      simp [hs]
    · cases h

theorem dec_unit_grows {d : Nat} {st st2 : dec_state} (h : dec_unit d st = some st2) :
    st.dst <+: st2.dst := by
  unfold dec_unit at h
  split at h
  · split at h
    · cases h
    · split at h
      · cases h; exact List.prefix_append _ _
      · cases h
  · split at h
    · next i j src3 _ =>
      cases h
      exact copy_loop_grows d (pair_position i j) (pair_bound j + 1) 0
        ⟨st.text_buf, st.r, st.flags, src3, st.dst⟩
    · cases h

theorem dec_unit_full {d : Nat} {st st2 : dec_state} (hd : d ≤ st.dst.length)
    (h : dec_unit d st = some st2) : st2.dst = st.dst := by
  unfold dec_unit at h
  split at h
  · split at h
    · cases h
    · split at h
      · omega
      · cases h
  · split at h
    · cases h
      rw [copy_loop_full _ _ _ _ _ (by simpa using hd)]
    · cases h

/-- The decoder loop stops within `src.length + 1` iterations. -/
theorem decompress_loop_terminates (d : Nat) : ∀ (fuel : Nat) (st : dec_state),
    st.src.length + 1 ≤ fuel → ∃ out, decompress_loop d fuel st = some out := by
  intro fuel
  induction fuel with
  | zero => intro st h; omega
  | succ fuel ih =>
    intro st h
    rw [decompress_loop_succ]
    cases h1 : dec_reload st with
    | none => exact ⟨_, rfl⟩
    | some st1 =>
      dsimp only
      cases h2 : dec_unit d st1 with
      | none => exact ⟨_, rfl⟩
      | some st2 =>
        dsimp only
        have := dec_reload_src h1
        have := dec_unit_src h2
        exact ih st2 (by omega)

/-- Bytes once written stay: the final output extends the current one. -/
theorem decompress_loop_grows (d : Nat) : ∀ (fuel : Nat) (st : dec_state) (out : List Nat),
    decompress_loop d fuel st = some out → st.dst <+: out := by
  intro fuel
  induction fuel with
  | zero => intro st out h; simp [decompress_loop] at h
  | succ fuel ih =>
    intro st out h
    rw [decompress_loop_succ] at h
    cases h1 : dec_reload st with
    | none => rw [h1] at h; cases h; exact List.prefix_refl _
    | some st1 =>
      rw [h1] at h
      dsimp only at h
      cases h2 : dec_unit d st1 with
      | none => rw [h2] at h; cases h; exact List.prefix_refl _
      | some st2 =>
        rw [h2] at h
        dsimp only at h
        have := ih st2 out h
        have h3 := dec_unit_grows h2
        rw [(dec_reload_dst h1).1] at h3
        exact h3.trans this

/-- With a full destination the loop writes nothing more. -/
theorem decompress_loop_full (d : Nat) : ∀ (fuel : Nat) (st : dec_state) (out : List Nat),
    d ≤ st.dst.length → decompress_loop d fuel st = some out → out = st.dst := by
  intro fuel
  induction fuel with
  | zero => intro st out _ h; simp [decompress_loop] at h
  | succ fuel ih =>
    intro st out hd h
    rw [decompress_loop_succ] at h
    cases h1 : dec_reload st with
    | none => rw [h1] at h; cases h; rfl
    | some st1 =>
      rw [h1] at h
      dsimp only at h
      cases h2 : dec_unit d st1 with
      | none => rw [h2] at h; cases h; rfl
      | some st2 =>
        rw [h2] at h
        dsimp only at h
        have e1 := (dec_reload_dst h1).1
        have e2 := dec_unit_full (by rw [e1]; exact hd) h2
        have := ih st2 out (by rw [e2, e1]; exact hd) h
        rw [this, e2, e1]

/-- One unit decoded under two capacities `c ≤ c'` from the same state. -/
theorem dec_unit_two (c c' : Nat) (hc : c ≤ c') (st : dec_state) (hl : st.dst.length ≤ c) :
    (dec_unit c st = dec_unit c' st ∧ ∀ b, dec_unit c' st = some b → b.dst.length ≤ c) ∨
    (dec_unit c st = none ∧ st.dst.length = c) ∨
    (∃ a b, dec_unit c st = some a ∧ dec_unit c' st = some b ∧ a.dst.length = c ∧
      a.dst = b.dst.take c ∧ a.src = b.src) := by
  unfold dec_unit
  by_cases h1 : st.flags &&& 1 ≠ 0
  · simp only [if_pos h1]
    rcases hs : st.src with _ | ⟨c0, src2⟩
    · left; simp
    · dsimp only
      by_cases h2 : st.dst.length < c
      · left
        rw [if_pos h2, if_pos (by omega)]
        refine ⟨rfl, ?_⟩
        intro b hb
        cases hb
        simp only [List.length_append, List.length_singleton]
        omega
      · right; left
        rw [if_neg h2]
        exact ⟨rfl, by omega⟩
  · simp only [if_neg h1]
    rcases hs : st.src with _ | ⟨i, _ | ⟨j, src3⟩⟩
    · left; simp
    · left; simp
    · dsimp only
      rcases copy_loop_two c c' (pair_position i j) hc (pair_bound j + 1) 0
          ⟨st.text_buf, st.r, st.flags, src3, st.dst⟩ hl with h | h
      · left
        refine ⟨by rw [h.1], ?_⟩
        intro b hb
        cases hb
        exact h.2
      · right; right
        refine ⟨_, _, rfl, rfl, h.1, h.2, ?_⟩
        rw [(copy_loop_src _ _ _ _ _).1, (copy_loop_src _ _ _ _ _).1]

/-- The run with the smaller capacity writes the first `c` bytes of the other run. -/
theorem decompress_loop_two (c c' : Nat) (hc : c ≤ c') : ∀ (fuel : Nat) (st : dec_state),
    st.dst.length ≤ c → st.src.length + 1 ≤ fuel →
    decompress_loop c fuel st = (decompress_loop c' fuel st).map (List.take c) := by
  intro fuel
  induction fuel with
  | zero => intro st _ h; omega
  | succ fuel ih =>
    intro st hl hf
    rw [decompress_loop_succ, decompress_loop_succ]
    have htk : List.take c st.dst = st.dst := List.take_of_length_le hl
    cases h1 : dec_reload st with
    | none => simp [htk]
    | some st1 =>
      dsimp only
      have e1 := (dec_reload_dst h1).1
      have hs1 := dec_reload_src h1
      rcases dec_unit_two c c' hc st1 (by rw [e1]; exact hl) with h | h | h
      · rw [h.1]
        cases h2 : dec_unit c' st1 with
        | none => simp [htk]
        | some st2 =>
          dsimp only
          have := dec_unit_src h2
          exact ih st2 (h.2 st2 h2) (by omega)
      · rw [h.1]
        dsimp only
        cases h2 : dec_unit c' st1 with
        | none => simp [htk]
        | some st2 =>
          dsimp only
          have := dec_unit_src h2
          obtain ⟨out, ho⟩ := decompress_loop_terminates c' fuel st2 (by omega)
          rw [ho]
          have p1 := decompress_loop_grows _ _ _ _ ho
          have p2 := dec_unit_grows h2
          rw [e1] at p2
          have p3 := p2.trans p1
          simp only [Option.map_some', Option.some.injEq]
          have := List.prefix_iff_eq_take.mp p3
          have hlen : st.dst.length = c := by rw [← e1]; exact h.2
          rw [← hlen]
          exact this
      · obtain ⟨a, b, ha, hb, hac, hab, hsrc⟩ := h
        rw [ha, hb]
        dsimp only
        have := dec_unit_src hb
        obtain ⟨out, ho⟩ := decompress_loop_terminates c' fuel b (by omega)
        obtain ⟨outa, hoa⟩ := decompress_loop_terminates c fuel a (by rw [hsrc]; omega)
        have hfa := decompress_loop_full c fuel a outa (by omega) hoa
        rw [ho, hoa, hfa]
        simp only [Option.map_some', Option.some.injEq]
        obtain ⟨t, rfl⟩ := decompress_loop_grows _ _ _ _ ho
        have hbl : c ≤ b.dst.length := by
          have := congrArg List.length hab
          rw [List.length_take] at this
          omega
        rw [List.take_append_of_le_length hbl]
        exact hab

/-- The conversion to `int` keeps a count below `2^31`. -/
theorem int_cast_of_lt {n : Nat} (h : n < 2 ^ 31) : int_cast n = (n : Int) := by
  unfold int_cast
  have e : n % 2 ^ 32 = n := Nat.mod_eq_of_lt (by omega)
  rw [e, if_pos h]

/-- The value of an `int` is below `2^31`. -/
theorem int_cast_lt (n : Nat) : int_cast n < 2 ^ 31 := by
  unfold int_cast
  split
  · omega
  · have : n % 2 ^ 32 < 2 ^ 32 := Nat.mod_lt _ (by norm_num)
    omega

/-- The conversion to `int` never gives more than the count. -/
theorem int_cast_le (n : Nat) : int_cast n ≤ (n : Int) := by
  unfold int_cast
  have : n % 2 ^ 32 ≤ n := Nat.mod_le _ _
  split <;> omega

/-- A count of `2^31` is converted to `-2^31`. -/
theorem int_cast_two_pow : int_cast 2147483648 = -2147483648 := by
  unfold int_cast
  norm_num

/-- The function `decompress_lzss` returns on every source and capacity. -/
theorem decompress_lzss_total (stack : Nat → Nat) (d : Nat) (src : List Nat) :
    ∃ out, decompress_lzss stack d src = some (int_cast out.length, out) := by
  unfold decompress_lzss
  obtain ⟨out, ho⟩ := decompress_loop_terminates d (src.length + 1)
    (dec_init stack src) (le_refl _)
  exact ⟨out, by rw [ho]; rfl⟩

theorem decompress_lzss_two (stack : Nat → Nat) (src : List Nat) (c c' : Nat) (h : c ≤ c')
    (out' : List Nat) (h' : decompress_lzss stack c' src = some (int_cast out'.length, out')) :
    decompress_lzss stack c src =
      some (int_cast (min c out'.length), out'.take (min c out'.length)) := by
  unfold decompress_lzss at *
  rw [decompress_loop_two c c' h (src.length + 1)
    (dec_init stack src) (by simp [dec_init]) (le_refl _)]
  cases ho : decompress_loop c' (src.length + 1)
      (dec_init stack src) with
  | none => rw [ho] at h'; simp at h'
  | some o =>
    rw [ho] at h'
    simp only [Option.map_some', Option.some.injEq, Prod.mk.injEq] at h'
    obtain ⟨_, rfl⟩ := h'
    simp only [Option.map_some', List.length_take, Option.some.injEq, Prod.mk.injEq, true_and]
    rw [List.take_eq_take]
    simp

end LZSS

namespace LZSS

/-! ## Order of keys -/

theorem keyLt_irrefl (tb : Nat → Nat) (p : Nat) : ¬ keyLt tb p p := by
  rintro ⟨i, _, _, h⟩
  exact lt_irrefl _ h

theorem keyLt_trans {tb : Nat → Nat} {p q r : Nat} (h1 : keyLt tb p q) (h2 : keyLt tb q r) :
    keyLt tb p r := by
  obtain ⟨i1, hi1, e1, l1⟩ := h1
  obtain ⟨i2, hi2, e2, l2⟩ := h2
  rcases lt_trichotomy i1 i2 with h | h | h
  · refine ⟨i1, hi1, ?_, ?_⟩
    · intro j hj
      rw [e1 j hj, e2 j (by omega)]
    · rw [← e2 i1 h]; exact l1
  · subst h
    refine ⟨i1, hi1, ?_, lt_trans l1 l2⟩
    intro j hj
    rw [e1 j hj, e2 j hj]
  · refine ⟨i2, hi2, ?_, ?_⟩
    · intro j hj
      rw [e1 j (by omega), e2 j hj]
    · rw [e1 i2 h]; exact l2

theorem keyLt_asymm {tb : Nat → Nat} {p q : Nat} (h1 : keyLt tb p q) : ¬ keyLt tb q p :=
  fun h2 => keyLt_irrefl tb p (keyLt_trans h1 h2)

theorem keyLt_ne {tb : Nat → Nat} {p q : Nat} (h : keyLt tb p q) : p ≠ q := by
  rintro rfl
  exact keyLt_irrefl tb p h

theorem keyEq_symm {tb : Nat → Nat} {p q : Nat} (h : keyEq tb p q) : keyEq tb q p :=
  fun j hj => (h j hj).symm

theorem keyLt_not_keyEq {tb : Nat → Nat} {p q : Nat} (h : keyLt tb p q) : ¬ keyEq tb p q := by
  obtain ⟨i, hi, _, l⟩ := h
  intro e
  have := e i hi
  omega

theorem keyLt_not_keyEq' {tb : Nat → Nat} {p q : Nat} (h : keyLt tb p q) : ¬ keyEq tb q p :=
  fun e => keyLt_not_keyEq h (keyEq_symm e)

theorem keyLt_of_keyEq_left {tb : Nat → Nat} {p q r : Nat} (e : keyEq tb p q)
    (h : keyLt tb q r) : keyLt tb p r := by
  obtain ⟨i, hi, e2, l⟩ := h
  refine ⟨i, hi, ?_, ?_⟩
  · intro j hj; rw [e j (by omega), e2 j hj]
  · rw [e i hi]; exact l

theorem keyLt_of_keyEq_right {tb : Nat → Nat} {p q r : Nat} (h : keyLt tb p q)
    (e : keyEq tb q r) : keyLt tb p r := by
  obtain ⟨i, hi, e2, l⟩ := h
  refine ⟨i, hi, ?_, ?_⟩
  · intro j hj; rw [e2 j hj, e j (by omega)]
  · rw [← e i hi]; exact l

/-! ## Common prefixes -/

theorem common_run_spec (tb : Nat → Nat) (p q : Nat) : ∀ (n i : Nat),
    common_run tb p q n i ≤ n ∧
    (∀ j, j < common_run tb p q n i → tb (p + (i + j)) = tb (q + (i + j))) ∧
    (common_run tb p q n i < n →
      tb (p + (i + common_run tb p q n i)) ≠ tb (q + (i + common_run tb p q n i))) := by
  intro n
  induction n with
  | zero => intro i; simp [common_run]
  | succ n ih =>
    intro i
    rw [common_run]
    by_cases h : tb (p + i) = tb (q + i)
    · rw [if_pos h]
      obtain ⟨a, b, c⟩ := ih (i + 1)
      refine ⟨by omega, ?_, ?_⟩
      · intro j hj
        rcases j with _ | j
        · simpa using h
        · have := b j (by omega)
          rw [show i + (j + 1) = i + 1 + j by omega]
          exact this
      · intro hlt
        have := c (by omega)
        rw [show i + (common_run tb p q n (i + 1) + 1) = i + 1 + common_run tb p q n (i + 1)
          by omega]
        exact this
    · rw [if_neg h]
      refine ⟨by omega, ?_, ?_⟩
      · intro j hj; omega
      · intro _; simpa using h

theorem lcp_le (tb : Nat → Nat) (p q : Nat) : lcp tb p q ≤ F :=
  (common_run_spec tb p q F 0).1

theorem lcp_agree (tb : Nat → Nat) (p q : Nat) (j : Nat) (hj : j < lcp tb p q) :
    tb (p + j) = tb (q + j) := by
  have := (common_run_spec tb p q F 0).2.1 j hj
  simpa using this

theorem lcp_differ (tb : Nat → Nat) (p q : Nat) (h : lcp tb p q < F) :
    tb (p + lcp tb p q) ≠ tb (q + lcp tb p q) := by
  have := (common_run_spec tb p q F 0).2.2 h
  simpa using this

/-- The common prefix is the longest one: `m` leading bytes agree exactly when
`m` is at most `lcp`. -/
theorem le_lcp_iff (tb : Nat → Nat) (p q m : Nat) :
    m ≤ lcp tb p q ↔ m ≤ F ∧ ∀ j, j < m → tb (p + j) = tb (q + j) := by
  constructor
  · intro h
    exact ⟨le_trans h (lcp_le tb p q), fun j hj => lcp_agree tb p q j (by omega)⟩
  · rintro ⟨hF, ha⟩
    by_contra hlt
    have h1 : lcp tb p q < F := by omega
    exact lcp_differ tb p q h1 (ha _ (by omega))

theorem lcp_eq_of (tb : Nat → Nat) (p q m : Nat) (hF : m ≤ F)
    (ha : ∀ j, j < m → tb (p + j) = tb (q + j)) (hd : m < F → tb (p + m) ≠ tb (q + m)) :
    lcp tb p q = m := by
  have h1 : m ≤ lcp tb p q := (le_lcp_iff tb p q m).2 ⟨hF, ha⟩
  by_contra hne
  have h2 : m < lcp tb p q := by omega
  have := lcp_le tb p q
  exact hd (by omega) (lcp_agree tb p q m h2)

theorem lcp_eq_F_iff (tb : Nat → Nat) (p q : Nat) : lcp tb p q = F ↔ keyEq tb p q := by
  constructor
  · intro h j hj
    exact lcp_agree tb p q j (by omega)
  · intro h
    have := (le_lcp_iff tb p q F).2 ⟨le_refl _, h⟩
    have := lcp_le tb p q
    omega

/-- Keys that differ are ordered, and the first difference tells how. -/
theorem keyLt_of_lcp {tb : Nat → Nat} {p q : Nat} (h : lcp tb p q < F)
    (hlt : tb (p + lcp tb p q) < tb (q + lcp tb p q)) : keyLt tb p q :=
  ⟨lcp tb p q, h, fun j hj => lcp_agree tb p q j hj, hlt⟩

theorem keyLt_of_lcp' {tb : Nat → Nat} {p q : Nat} (h : lcp tb p q < F)
    (hlt : tb (q + lcp tb p q) < tb (p + lcp tb p q)) : keyLt tb q p :=
  ⟨lcp tb p q, h, fun j hj => (lcp_agree tb p q j hj).symm, hlt⟩

theorem keyLt_index {tb : Nat → Nat} {p q : Nat} (h : keyLt tb p q) :
    lcp tb p q < F ∧ tb (p + lcp tb p q) < tb (q + lcp tb p q) := by
  obtain ⟨i, hi, e, l⟩ := h
  have : lcp tb p q = i := lcp_eq_of tb p q i (by omega) e (fun _ => by omega)
  rw [this]
  exact ⟨hi, l⟩

theorem keyLt_index' {tb : Nat → Nat} {p q : Nat} (h : keyLt tb q p) :
    lcp tb p q < F ∧ tb (q + lcp tb p q) < tb (p + lcp tb p q) := by
  obtain ⟨i, hi, e, l⟩ := h
  have : lcp tb p q = i :=
    lcp_eq_of tb p q i (by omega) (fun j hj => (e j hj).symm) (fun _ => by omega)
  rw [this]
  exact ⟨hi, l⟩

/-- A key between two others shares with the lower one at least what the two
outer keys share. -/
theorem lcp_between_right {tb : Nat → Nat} {r q x : Nat} (h1 : keyLt tb r q)
    (h2 : keyLt tb q x) : lcp tb r x ≤ lcp tb r q := by
  by_contra hc
  have hk : lcp tb r q < lcp tb r x := by omega
  obtain ⟨hkF, hlt⟩ := keyLt_index h1
  have hrx := lcp_agree tb r x
  have hrq := lcp_agree tb r q
  obtain ⟨i2, hi2, e2, l2⟩ := h2
  rcases lt_trichotomy i2 (lcp tb r q) with h | h | h
  · have a := hrq i2 h
    have b := hrx i2 (by omega)
    omega
  · subst h
    have b := hrx (lcp tb r q) hk
    omega
  · have a := e2 (lcp tb r q) h
    have b := hrx (lcp tb r q) hk
    omega

theorem lcp_between_left {tb : Nat → Nat} {r q x : Nat} (h1 : keyLt tb q r)
    (h2 : keyLt tb x q) : lcp tb r x ≤ lcp tb r q := by
  by_contra hc
  have hk : lcp tb r q < lcp tb r x := by omega
  obtain ⟨hkF, hlt⟩ := keyLt_index' h1
  have hrx := lcp_agree tb r x
  have hrq := lcp_agree tb r q
  obtain ⟨i2, hi2, e2, l2⟩ := h2
  rcases lt_trichotomy i2 (lcp tb r q) with h | h | h
  · have a := hrq i2 h
    have b := hrx i2 (by omega)
    omega
  · subst h
    have b := hrx (lcp tb r q) hk
    omega
  · have a := e2 (lcp tb r q) h
    have b := hrx (lcp tb r q) hk
    omega

/-! ## The comparison loop of `insert_node` -/

theorem cmp_loop_spec (tb : Nat → Nat) (r p : Nat) : ∀ (n i : Nat) (c0 : Int),
    (cmp_loop tb r p n i c0).1 = i + common_run tb r p n i ∧
    (common_run tb r p n i < n →
      (cmp_loop tb r p n i c0).2 =
        (tb (r + (i + common_run tb r p n i)) : Int)
          - (tb (p + (i + common_run tb r p n i)) : Int)) := by
  intro n
  induction n with
  | zero => intro i c0; simp [cmp_loop, common_run]
  | succ n ih =>
    intro i c0
    rw [cmp_loop, common_run]
    by_cases h : tb (r + i) = tb (p + i)
    · have hz : ¬ ((tb (r + i) : Int) - (tb (p + i) : Int) ≠ 0) := by
        rw [h]; simp
      rw [if_pos h, if_neg hz]
      obtain ⟨a, b⟩ := ih (i + 1) ((tb (r + i) : Int) - (tb (p + i) : Int))
      refine ⟨by rw [a]; omega, ?_⟩
      intro hlt
      rw [b (by omega)]
      rw [show i + (common_run tb r p n (i + 1) + 1) = i + 1 + common_run tb r p n (i + 1)
        by omega]
    · have hz : ((tb (r + i) : Int) - (tb (p + i) : Int) ≠ 0) := by
        intro e
        apply h
        have : (tb (r + i) : Int) = (tb (p + i) : Int) := by omega
        exact_mod_cast this
      rw [if_neg h, if_pos hz]
      simp

/-- What the comparison loop returns for two keys with the same first byte:
the length of their common prefix, and a `cmp` whose sign orders the keys. -/
theorem cmp_loop_lcp (tb : Nat → Nat) (r p : Nat) (c0 : Int) (h0 : tb r = tb p) :
    (cmp_loop tb r p (F - 1) 1 c0).1 = lcp tb r p ∧
    (lcp tb r p < F →
      (cmp_loop tb r p (F - 1) 1 c0).2 =
        (tb (r + lcp tb r p) : Int) - (tb (p + lcp tb r p) : Int)) := by
  have hl : lcp tb r p = 1 + common_run tb r p (F - 1) 1 := by
    show common_run tb r p (17 + 1) 0 = 1 + common_run tb r p 17 1
    rw [common_run]
    simp only [Nat.add_zero, Nat.zero_add]
    rw [if_pos h0]
    omega
  obtain ⟨a, b⟩ := cmp_loop_spec tb r p (F - 1) 1 c0
  rw [hl]
  refine ⟨a, ?_⟩
  intro hlt
  apply b
  have : F = 18 := rfl
  omega

end LZSS

namespace LZSS

/-! ## Trees held in the arrays -/

@[simp] theorem toList_leaf : Tree.leaf.toList = [] := rfl
@[simp] theorem toList_node (l : Tree) (v : Nat) (r : Tree) :
    (Tree.node l v r).toList = l.toList ++ v :: r.toList := rfl

theorem Bst_nodup (tb : Nat → Nat) : ∀ t : Tree, Bst tb t → t.toList.Nodup := by
  intro t
  induction t with
  | leaf => intro _; simp
  | node l v r ihl ihr =>
    intro h
    obtain ⟨hl, hr, bl, br⟩ := h
    simp only [toList_node]
    rw [List.nodup_append]
    refine ⟨ihl bl, ?_, ?_⟩
    · rw [List.nodup_cons]
      exact ⟨fun hv => keyLt_irrefl tb v (hr v hv), ihr br⟩
    · intro x hx hx'
      rcases List.mem_cons.mp hx' with rfl | hx'
      · exact keyLt_irrefl tb x (hl x hx)
      · exact keyLt_asymm (hl x hx) (hr x hx')

theorem RepA_lt {lc rc pa : Nat → Nat} : ∀ (t : Tree) (par p : Nat),
    RepA lc rc pa par p t → ∀ x ∈ t.toList, x < N := by
  intro t
  induction t with
  | leaf => intro par p _ x hx; simp at hx
  | node l v r ihl ihr =>
    intro par p h x hx
    obtain ⟨_, hv, _, hl, hr⟩ := h
    simp only [toList_node, List.mem_append, List.mem_cons] at hx
    rcases hx with hx | rfl | hx
    · exact ihl _ _ hl x hx
    · exact hv
    · exact ihr _ _ hr x hx

/-- The representation of a tree looks at the arrays at the nodes of the tree only. -/
theorem RepA_congr {lc rc pa lc' rc' pa' : Nat → Nat} : ∀ (t : Tree) (par p : Nat),
    RepA lc rc pa par p t →
    (∀ x ∈ t.toList, lc' x = lc x ∧ rc' x = rc x ∧ pa' x = pa x) →
    RepA lc' rc' pa' par p t := by
  intro t
  induction t with
  | leaf => intro par p h _; exact h
  | node l v r ihl ihr =>
    intro par p h hf
    obtain ⟨hp, hv, hpa, hl, hr⟩ := h
    have hvf := hf v (by simp)
    refine ⟨hp, hv, by rw [hvf.2.2]; exact hpa, ?_, ?_⟩
    · rw [hvf.1]
      exact ihl _ _ hl (fun x hx => hf x (by simp [hx]))
    · rw [hvf.2.1]
      exact ihr _ _ hr (fun x hx => hf x (by simp [hx]))

/-- A tree can be hung under another owner by changing the `parent` of its root. -/
theorem RepA_reroot {lc rc pa lc' rc' pa' : Nat → Nat} (t : Tree) (par par' p : Nat)
    (h : RepA lc rc pa par p t) (hn : t.toList.Nodup)
    (hc : ∀ x ∈ t.toList, lc' x = lc x ∧ rc' x = rc x)
    (hpa : ∀ x ∈ t.toList, x ≠ p → pa' x = pa x)
    (hroot : p ≠ NIL → pa' p = par') :
    RepA lc' rc' pa' par' p t := by
  cases t with
  | leaf => exact h
  | node l v r =>
    obtain ⟨hp, hv, _, hl, hr⟩ := h
    subst hp
    simp only [toList_node] at hn hc hpa
    rw [List.nodup_append, List.nodup_cons] at hn
    obtain ⟨_, ⟨hvr, _⟩, hdis⟩ := hn
    have hvl : p ∉ l.toList := fun hx => hdis hx (by simp)
    have hcv := hc p (by simp)
    refine ⟨rfl, hv, hroot (by unfold NIL; omega), ?_, ?_⟩
    · rw [hcv.1]
      refine RepA_congr l _ _ hl (fun x hx => ?_)
      have := hc x (by simp [hx])
      exact ⟨this.1, this.2, hpa x (by simp [hx]) (fun e => hvl (e ▸ hx))⟩
    · rw [hcv.2]
      refine RepA_congr r _ _ hr (fun x hx => ?_)
      have := hc x (by simp [hx])
      exact ⟨this.1, this.2, hpa x (by simp [hx]) (fun e => hvr (e ▸ hx))⟩

/-- The link holding a tree is `NIL` or the root, which is a node of the tree. -/
theorem RepA_root {lc rc pa : Nat → Nat} {t : Tree} {par p : Nat} (h : RepA lc rc pa par p t) :
    (p = NIL ∧ t = Tree.leaf) ∨ (p < N ∧ p ∈ t.toList ∧ pa p = par) := by
  cases t with
  | leaf => left; exact ⟨h, rfl⟩
  | node l v r =>
    right
    obtain ⟨hp, hv, hpa, _, _⟩ := h
    subst hp
    exact ⟨hv, by simp, hpa⟩

theorem RepA_parent_ne {lc rc pa : Nat → Nat} : ∀ (t : Tree) (par p : Nat),
    RepA lc rc pa par p t → par ≠ NIL → ∀ x ∈ t.toList, pa x ≠ NIL := by
  intro t
  induction t with
  | leaf => intro par p _ _ x hx; simp at hx
  | node l v r ihl ihr =>
    intro par p h hpar x hx
    obtain ⟨_, hv, hpa, hl, hr⟩ := h
    have hvN : v ≠ NIL := by unfold NIL; omega
    simp only [toList_node, List.mem_append, List.mem_cons] at hx
    rcases hx with hx | rfl | hx
    · exact ihl _ _ hl hvN x hx
    · rw [hpa]; exact hpar
    · exact ihr _ _ hr hvN x hx

end LZSS

namespace LZSS

theorem upd_same (a : Nat → Nat) (i v : Nat) : upd a i v i = v := by simp [upd]
theorem upd_other (a : Nat → Nat) (i v j : Nat) (h : j ≠ i) : upd a i v j = a j := by
  simp [upd, h]

theorem link_right (sp : encode_state) (p : Nat) (cmp : Int) (h : cmp ≥ 0) :
    link sp p cmp = sp.rchild p := by
  unfold link; rw [if_pos h]

theorem link_left (sp : encode_state) (p : Nat) (cmp : Int) (h : ¬ cmp ≥ 0) :
    link sp p cmp = sp.lchild p := by
  unfold link; rw [if_neg h]

theorem replace_node_right (sp : encode_state) (r q par : Nat) (hrq : r ≠ q)
    (hpar : sp.parent q = par) (hlq : sp.lchild q ≠ q) (hrcq : sp.rchild q ≠ q)
    (hpr : par ≠ r) (h : sp.rchild par = q) :
    replace_node sp r q =
      { sp with lchild := upd sp.lchild r (sp.lchild q),
                rchild := upd (upd sp.rchild r (sp.rchild q)) par r,
                parent := upd (upd (upd (upd sp.parent r par) (sp.lchild q) r)
                            (sp.rchild q) r) q NIL } := by
  unfold replace_node
  have e1 : upd sp.lchild r (sp.lchild q) q = sp.lchild q := upd_other _ _ _ _ hrq.symm
  have e2 : upd sp.rchild r (sp.rchild q) q = sp.rchild q := upd_other _ _ _ _ hrq.symm
  simp only [e1, e2]
  have e3 : upd (upd (upd sp.parent r (sp.parent q)) (sp.lchild q) r) (sp.rchild q) r q = par := by
    rw [upd_other _ _ _ _ hrcq.symm, upd_other _ _ _ _ hlq.symm, upd_other _ _ _ _ hrq.symm, hpar]
  simp only [e3]
  have e4 : upd sp.rchild r (sp.rchild q) par = q := by
    rw [upd_other _ _ _ _ hpr, h]
  rw [if_pos e4, hpar]

theorem replace_node_left (sp : encode_state) (r q par : Nat) (hrq : r ≠ q)
    (hpar : sp.parent q = par) (hlq : sp.lchild q ≠ q) (hrcq : sp.rchild q ≠ q)
    (hpr : par ≠ r) (h : sp.rchild par ≠ q) :
    replace_node sp r q =
      { sp with lchild := upd (upd sp.lchild r (sp.lchild q)) par r,
                rchild := upd sp.rchild r (sp.rchild q),
                parent := upd (upd (upd (upd sp.parent r par) (sp.lchild q) r)
                            (sp.rchild q) r) q NIL } := by
  unfold replace_node
  have e1 : upd sp.lchild r (sp.lchild q) q = sp.lchild q := upd_other _ _ _ _ hrq.symm
  have e2 : upd sp.rchild r (sp.rchild q) q = sp.rchild q := upd_other _ _ _ _ hrq.symm
  simp only [e1, e2]
  have e3 : upd (upd (upd sp.parent r (sp.parent q)) (sp.lchild q) r) (sp.rchild q) r q = par := by
    rw [upd_other _ _ _ _ hrcq.symm, upd_other _ _ _ _ hlq.symm, upd_other _ _ _ _ hrq.symm, hpar]
  simp only [e3]
  have e4 : ¬ upd sp.rchild r (sp.rchild q) par = q := by
    rw [upd_other _ _ _ _ hpr]; exact h
  rw [if_neg e4, hpar]

/-- Node `r` takes the place of the root `q` of a tree held in the arrays. -/
theorem replace_node_spec (sp : encode_state) (r q par : Nat) (cmp : Int) (l rr : Tree)
    (hrep : Rep sp par q (Tree.node l q rr))
    (hlink : link sp par cmp = q)
    (hn : (Tree.node l q rr).toList.Nodup)
    (hr : r < N) (hrt : r ∉ (Tree.node l q rr).toList)
    (hpt : par ∉ (Tree.node l q rr).toList) (hpr : par ≠ r)
    (hside : cmp < 0 → sp.rchild par ≠ q) :
    Rep (replace_node sp r q) par (link (replace_node sp r q) par cmp) (Tree.node l r rr) ∧
    (replace_node sp r q).text_buf = sp.text_buf ∧
    (replace_node sp r q).match_length = sp.match_length ∧
    (replace_node sp r q).match_position = sp.match_position ∧
    (∀ x, x ∉ (Tree.node l q rr).toList → x ≠ r → x ≠ par →
      (replace_node sp r q).lchild x = sp.lchild x ∧
      (replace_node sp r q).rchild x = sp.rchild x) ∧
    (cmp ≥ 0 → (replace_node sp r q).lchild par = sp.lchild par) ∧
    (cmp < 0 → (replace_node sp r q).rchild par = sp.rchild par) ∧
    (∀ x, x ∉ (Tree.node l q rr).toList → x ≠ r → x ≠ NIL →
      (replace_node sp r q).parent x = sp.parent x) ∧
    (replace_node sp r q).parent q = NIL := by
  obtain ⟨_, hq, hpa, hl, hrr⟩ := hrep
  simp only [toList_node, List.mem_append, List.mem_cons, not_or] at hrt hpt
  simp only [toList_node] at hn
  rw [List.nodup_append, List.nodup_cons] at hn
  obtain ⟨hnl, ⟨hqr, hnr⟩, hdis⟩ := hn
  have hql : q ∉ l.toList := fun hx => hdis hx (by simp)
  have hqN : q ≠ NIL := by unfold NIL; omega
  have hrN : r ≠ NIL := by unfold NIL; omega
  have hrq : r ≠ q := hrt.2.1
  have hpq : par ≠ q := hpt.2.1
  -- the two children of `q`
  have hlc : sp.lchild q = NIL ∨ sp.lchild q ∈ l.toList := by
    rcases RepA_root hl with h | h
    · exact Or.inl h.1
    · exact Or.inr h.2.1
  have hrc : sp.rchild q = NIL ∨ sp.rchild q ∈ rr.toList := by
    rcases RepA_root hrr with h | h
    · exact Or.inl h.1
    · exact Or.inr h.2.1
  have hlq : sp.lchild q ≠ q := by
    rcases hlc with h | h
    · rw [h]; exact hqN.symm
    · exact fun e => hql (e ▸ h)
  have hrcq : sp.rchild q ≠ q := by
    rcases hrc with h | h
    · rw [h]; exact hqN.symm
    · exact fun e => hqr (e ▸ h)
  have hlr : sp.lchild q ≠ r := by
    rcases hlc with h | h
    · rw [h]; exact hrN.symm
    · exact fun e => hrt.1 (e ▸ h)
  have hrcr : sp.rchild q ≠ r := by
    rcases hrc with h | h
    · rw [h]; exact hrN.symm
    · exact fun e => hrt.2.2 (e ▸ h)
  have hmem_l : ∀ x ∈ l.toList, x ≠ q ∧ x ≠ r ∧ x ≠ par ∧ x ≠ sp.rchild q := by
    intro x hx
    refine ⟨fun e => hql (e ▸ hx), fun e => hrt.1 (e ▸ hx), fun e => hpt.1 (e ▸ hx), ?_⟩
    rcases hrc with h | h
    · rw [h]
      have := RepA_lt _ _ _ hl x hx
      unfold NIL; omega
    · exact fun e => hdis hx (by rw [e]; simp [h])
  have hmem_r : ∀ x ∈ rr.toList, x ≠ q ∧ x ≠ r ∧ x ≠ par ∧ x ≠ sp.lchild q := by
    intro x hx
    refine ⟨fun e => hqr (e ▸ hx), fun e => hrt.2.2 (e ▸ hx), fun e => hpt.2.2 (e ▸ hx), ?_⟩
    rcases hlc with h | h
    · rw [h]
      have := RepA_lt _ _ _ hrr x hx
      unfold NIL; omega
    · exact fun e => hdis h (by rw [← e]; simp [hx])
  -- the new parent array
  have key : ∀ (lc' rc' : Nat → Nat),
      (∀ x, x ≠ r → x ≠ par → lc' x = sp.lchild x ∧ rc' x = sp.rchild x) →
      lc' r = sp.lchild q → rc' r = sp.rchild q →
      RepA lc' rc' (upd (upd (upd (upd sp.parent r par) (sp.lchild q) r) (sp.rchild q) r) q NIL)
        par r (Tree.node l r rr) := by
    intro lc' rc' hf h1 h2
    refine ⟨rfl, hr, ?_, ?_, ?_⟩
    · simp [upd, hrq, hrcr.symm, hlr.symm]
    · rw [h1]
      refine RepA_reroot l q r _ hl hnl (fun x hx => ?_) (fun x hx hne => ?_) (fun hne => ?_)
      · obtain ⟨a, b, c, d⟩ := hmem_l x hx
        exact hf x b c
      · obtain ⟨a, b, c, d⟩ := hmem_l x hx
        simp [upd, a, b, d, hne]
      · rcases hlc with h | h
        · exact absurd h hne
        · obtain ⟨a, b, c, d⟩ := hmem_l _ h
          simp [upd, a, d]
    · rw [h2]
      refine RepA_reroot rr q r _ hrr hnr (fun x hx => ?_) (fun x hx hne => ?_) (fun hne => ?_)
      · obtain ⟨a, b, c, d⟩ := hmem_r x hx
        exact hf x b c
      · obtain ⟨a, b, c, d⟩ := hmem_r x hx
        simp [upd, a, b, d, hne]
      · simp [upd, hrcq]
  have hpaf : ∀ x, x ∉ (Tree.node l q rr).toList → x ≠ r → x ≠ NIL →
      upd (upd (upd (upd sp.parent r par) (sp.lchild q) r) (sp.rchild q) r) q NIL x
        = sp.parent x := by
    intro x hx hxr hxN
    simp only [toList_node, List.mem_append, List.mem_cons, not_or] at hx
    have a : x ≠ sp.lchild q := by
      rcases hlc with h | h
      · rw [h]; exact hxN
      · exact fun e => hx.1 (e ▸ h)
    have b : x ≠ sp.rchild q := by
      rcases hrc with h | h
      · rw [h]; exact hxN
      · exact fun e => hx.2.2 (e ▸ h)
    simp [upd, hx.2.1, a, b, hxr]
  by_cases hc : cmp ≥ 0
  · have hl1 : sp.rchild par = q := by rw [← link_right _ _ _ hc]; exact hlink
    rw [replace_node_right sp r q par hrq hpa hlq hrcq hpr hl1]
    refine ⟨?_, rfl, rfl, rfl, ?_, ?_, ?_, hpaf, ?_⟩
    · rw [link_right _ _ _ hc]
      show RepA _ _ _ par (upd (upd sp.rchild r (sp.rchild q)) par r par) _
      rw [upd_same]
      apply key
      · intro x hxr hxp
        simp [upd, hxr, hxp]
      · simp [upd]
      · simp [upd, hpr.symm]
    · intro x _ hxr hxp
      simp [upd, hxr, hxp]
    · intro _
      simp [upd, hpr]
    · intro h; omega
    · simp [upd]
  · have hl1 : sp.lchild par = q := by rw [← link_left _ _ _ hc]; exact hlink
    have hl2 : sp.rchild par ≠ q := hside (by omega)
    rw [replace_node_left sp r q par hrq hpa hlq hrcq hpr hl2]
    refine ⟨?_, rfl, rfl, rfl, ?_, ?_, ?_, hpaf, ?_⟩
    · rw [link_left _ _ _ hc]
      show RepA _ _ _ par (upd (upd sp.lchild r (sp.lchild q)) par r par) _
      rw [upd_same]
      apply key
      · intro x hxr hxp
        simp [upd, hxr, hxp]
      · simp [upd, hpr.symm]
      · simp [upd]
    · intro x _ hxr hxp
      simp [upd, hxr, hxp]
    · intro h; omega
    · intro _
      simp [upd, hpr]
    · simp [upd]

end LZSS

namespace LZSS

theorem insert_loop_nil (fuel : Nat) (sp : encode_state) (r p : Nat) (cmp : Int)
    (h : link sp p cmp = NIL) :
    insert_loop (fuel + 1) sp r p cmp =
      if cmp ≥ 0 then
        some { sp with rchild := upd sp.rchild p r, parent := upd sp.parent r p }
      else
        some { sp with lchild := upd sp.lchild p r, parent := upd sp.parent r p } := by
  rw [insert_loop]
  by_cases hc : cmp ≥ 0
  · rw [link_right _ _ _ hc] at h
    simp [hc, h]
  · rw [link_left _ _ _ hc] at h
    simp [hc, h]

theorem insert_loop_step (fuel : Nat) (sp : encode_state) (r p : Nat) (cmp : Int)
    (h : link sp p cmp ≠ NIL) :
    insert_loop (fuel + 1) sp r p cmp =
      if (cmp_loop sp.text_buf r (link sp p cmp) (F - 1) 1 cmp).1 > sp.match_length then
        if (cmp_loop sp.text_buf r (link sp p cmp) (F - 1) 1 cmp).1 ≥ F then
          some (replace_node
            { sp with match_position := link sp p cmp,
                      match_length := (cmp_loop sp.text_buf r (link sp p cmp) (F - 1) 1 cmp).1 }
            r (link sp p cmp))
        else
          insert_loop fuel
            { sp with match_position := link sp p cmp,
                      match_length := (cmp_loop sp.text_buf r (link sp p cmp) (F - 1) 1 cmp).1 }
            r (link sp p cmp) (cmp_loop sp.text_buf r (link sp p cmp) (F - 1) 1 cmp).2
      else
        insert_loop fuel sp r (link sp p cmp)
          (cmp_loop sp.text_buf r (link sp p cmp) (F - 1) 1 cmp).2 := by
  rw [insert_loop]
  by_cases hc : cmp ≥ 0
  · rw [link_right _ _ _ hc] at h ⊢
    simp only [hc, if_true, if_pos h]
  · rw [link_left _ _ _ hc] at h ⊢
    simp only [hc, if_false, if_pos h]

end LZSS

namespace LZSS

/-- The descent of `insert_node` through a search tree held in the arrays. -/
theorem insert_loop_spec (r : Nat) (hr : r < N) : ∀ (t : Tree) (fuel : Nat) (sp : encode_state)
    (par : Nat) (cmp : Int),
    Rep sp par (link sp par cmp) t →
    Bst sp.text_buf t →
    (∀ x ∈ t.toList, sp.text_buf x = sp.text_buf r) →
    r ∉ t.toList → par ∉ t.toList → par ≠ r → par ≠ NIL →
    (cmp < 0 → sp.rchild par ∉ t.toList) →
    sp.lchild r = NIL → sp.rchild r = NIL →
    sp.match_length < F →
    t.toList.length < fuel →
    ∃ sp' t', insert_loop fuel sp r par cmp = some sp' ∧ InsertPost sp r par cmp t sp' t' := by
  intro t
  induction t with
  | leaf =>
    intro fuel sp par cmp hrep _ _ _ _ hpr hpN _ hlr hrr hml hfuel
    obtain ⟨fuel, rfl⟩ : ∃ f, fuel = f + 1 := ⟨fuel - 1, by simp at hfuel; omega⟩
    have hnil : link sp par cmp = NIL := hrep
    rw [insert_loop_nil _ _ _ _ _ hnil]
    have hF : sp.match_length ≤ F := by omega
    by_cases hc : cmp ≥ 0
    · rw [if_pos hc]
      refine ⟨_, Tree.node Tree.leaf r Tree.leaf, rfl, ?_⟩
      refine ⟨?_, by simp, ⟨by simp, by simp, trivial, trivial⟩, rfl, ?_, ?_, ?_, ?_, by simp,
        le_refl _, hF, by simp, Or.inl ⟨rfl, rfl⟩⟩
      · rw [link_right _ _ _ hc]
        refine ⟨by simp [upd], hr, by simp [upd], ?_, ?_⟩
        · exact hlr
        · show upd sp.rchild par r r = NIL
          rw [upd_other _ _ _ _ hpr.symm]; exact hrr
      · intro x _ _ hxp
        exact ⟨rfl, by simp [upd, hxp]⟩
      · intro _; rfl
      · intro h; omega
      · intro x _ hxr _
        simp [upd, hxr]
    · rw [if_neg hc]
      refine ⟨_, Tree.node Tree.leaf r Tree.leaf, rfl, ?_⟩
      refine ⟨?_, by simp, ⟨by simp, by simp, trivial, trivial⟩, rfl, ?_, ?_, ?_, ?_, by simp,
        le_refl _, hF, by simp, Or.inl ⟨rfl, rfl⟩⟩
      · rw [link_left _ _ _ hc]
        refine ⟨by simp [upd], hr, by simp [upd], ?_, ?_⟩
        · show upd sp.lchild par r r = NIL
          rw [upd_other _ _ _ _ hpr.symm]; exact hlr
        · exact hrr
      · intro x _ _ hxp
        exact ⟨by simp [upd, hxp], rfl⟩
      · intro h; omega
      · intro _; rfl
      · intro x _ hxr _
        simp [upd, hxr]
  | node l q rr ihl ihr =>
    intro fuel sp par cmp hrep hbst hfirst hrt hpt hpr hpN hside hlr hrr hml hfuel
    obtain ⟨fuel, rfl⟩ : ∃ f, fuel = f + 1 := ⟨fuel - 1, by simp at hfuel; omega⟩
    have hn := Bst_nodup _ _ hbst
    obtain ⟨hbl, hbr, hbstl, hbstr⟩ := hbst
    have hrep0 := hrep
    obtain ⟨hq0, hq, hpa, hl, hrr'⟩ := hrep
    have hqN : q ≠ NIL := by unfold NIL; omega
    have hne : link sp par cmp ≠ NIL := by rw [hq0]; exact hqN
    rw [insert_loop_step _ _ _ _ _ hne, hq0]
    simp only [toList_node, List.mem_append, List.mem_cons, not_or] at hrt hpt
    simp only [toList_node, List.length_append, List.length_cons] at hfuel
    have hn' := hn
    simp only [toList_node] at hn'
    rw [List.nodup_append, List.nodup_cons] at hn'
    obtain ⟨hnl, ⟨hqr, hnr⟩, hdis⟩ := hn'
    have hql : q ∉ l.toList := fun hx => hdis hx (by simp)
    have h0 : sp.text_buf r = sp.text_buf q := (hfirst q (by simp)).symm
    obtain ⟨hi, hcmp⟩ := cmp_loop_lcp sp.text_buf r q cmp h0
    rw [hi]
    have hiF := lcp_le sp.text_buf r q
    -- the recursive descent
    have descend : lcp sp.text_buf r q < F → ∀ mp ml1 : Nat, ml1 < F → sp.match_length ≤ ml1 →
        lcp sp.text_buf r q ≤ ml1 →
        ((ml1 = sp.match_length ∧ mp = sp.match_position) ∨
          (mp = q ∧ ml1 = lcp sp.text_buf r q)) →
        ∃ sp' t', insert_loop fuel { sp with match_position := mp, match_length := ml1 } r q
            (cmp_loop sp.text_buf r q (F - 1) 1 cmp).2 = some sp' ∧
          InsertPost sp r par cmp (Tree.node l q rr) sp' t' := by
      intro hlt mp ml1 hml1 hge hile hfound
      have hc2 := hcmp hlt
      have hdiff := lcp_differ sp.text_buf r q hlt
      by_cases hc : (cmp_loop sp.text_buf r q (F - 1) 1 cmp).2 ≥ 0
      · -- to the right
        have hkl : keyLt sp.text_buf q r := by
          apply keyLt_of_lcp' hlt
          rw [hc2] at hc
          omega
        obtain ⟨sp', rr', hins, post⟩ := ihr fuel
          { sp with match_position := mp, match_length := ml1 } q
          (cmp_loop sp.text_buf r q (F - 1) 1 cmp).2
          (by rw [link_right _ _ _ hc]; exact hrr') hbstr
          (fun x hx => hfirst x (by simp [hx])) hrt.2.2 hqr (Ne.symm hrt.2.1) hqN
          (fun h => by omega) hlr hrr hml1 (by omega)
        refine ⟨sp', Tree.node l q rr', hins, ?_⟩
        have hpc := post.child par hpt.2.2 hpr hpt.2.1
        have hlinkq : link sp' q (cmp_loop sp.text_buf r q (F - 1) 1 cmp).2 = sp'.rchild q :=
          link_right _ _ _ hc
        have hnk_l : ∀ x ∈ l.toList, ¬ keyEq sp.text_buf x r :=
          fun x hx => keyLt_not_keyEq (keyLt_trans (hbl x hx) hkl)
        have hnk_q : ¬ keyEq sp.text_buf q r := keyLt_not_keyEq hkl
        constructor
        · -- rep
          have : link sp' par cmp = q := by
            rw [← hq0]; unfold link; rw [hpc.1, hpc.2]
          rw [this]
          refine ⟨rfl, hq, ?_, ?_, ?_⟩
          · exact (post.parent q hqr (Ne.symm hrt.2.1) hqN).trans hpa
          · rw [post.other_l hc]
            refine RepA_congr l _ _ hl (fun x hx => ?_)
            have hxr : x ∉ rr.toList := fun h => hdis hx (by simp [h])
            have hxr' : x ≠ r := fun e => hrt.1 (e ▸ hx)
            have hxq : x ≠ q := fun e => hql (e ▸ hx)
            have hxN : x ≠ NIL := by
              have := RepA_lt _ _ _ hl x hx
              unfold NIL; omega
            have a := post.child x hxr hxr' hxq
            exact ⟨a.1, a.2, post.parent x hxr hxr' hxN⟩
          · have := post.rep
            rw [hlinkq] at this
            exact this
        · -- mem
          intro x
          simp only [toList_node, List.mem_append, List.mem_cons]
          rw [post.mem x]
          constructor
          · rintro (h | h | h | h)
            · exact Or.inr ⟨Or.inl h, hnk_l x h⟩
            · exact Or.inr ⟨Or.inr (Or.inl h), h ▸ hnk_q⟩
            · exact Or.inl h
            · exact Or.inr ⟨Or.inr (Or.inr h.1), h.2⟩
          · rintro (h | ⟨h | h | h, hk⟩)
            · exact Or.inr (Or.inr (Or.inl h))
            · exact Or.inl h
            · exact Or.inr (Or.inl h)
            · exact Or.inr (Or.inr (Or.inr ⟨h, hk⟩))
        · -- bst
          refine ⟨hbl, ?_, hbstl, post.bst⟩
          intro x hx
          rcases (post.mem x).1 hx with h | h
          · rw [h]; exact hkl
          · exact hbr x h.1
        · exact post.text
        · intro x hx hxr hxp
          simp only [toList_node, List.mem_append, List.mem_cons, not_or] at hx
          exact post.child x hx.2.2 hxr hx.2.1
        · intro _; exact hpc.1
        · intro _; exact hpc.2
        · intro x hx hxr hxN
          simp only [toList_node, List.mem_append, List.mem_cons, not_or] at hx
          exact post.parent x hx.2.2 hxr hxN
        · intro x hx hk
          simp only [toList_node, List.mem_append, List.mem_cons] at hx
          rcases hx with h | h | h
          · exact absurd hk (hnk_l x h)
          · exact absurd hk (h ▸ hnk_q)
          · exact post.removed x h hk
        · exact le_trans hge post.len_ge
        · exact post.len_le
        · intro x hx
          simp only [toList_node, List.mem_append, List.mem_cons] at hx
          have := post.len_ge
          rcases hx with h | h | h
          · have := lcp_between_left hkl (hbl x h)
            exact le_trans this (le_trans hile post.len_ge)
          · rw [h]; exact le_trans hile post.len_ge
          · exact post.len_max x h
        · rcases post.found with ⟨h1, h2⟩ | ⟨h1, h2⟩
          · rcases hfound with ⟨g1, g2⟩ | ⟨g1, g2⟩
            · left; exact ⟨h1.trans g1, h2.trans g2⟩
            · right
              refine ⟨?_, ?_⟩
              · rw [h2]; simp [g1]
              · rw [h2, h1]; show lcp sp.text_buf r mp = ml1; rw [g1, g2]
          · right
            exact ⟨by simp [h1], h2⟩
      · -- to the left
        have hkl : keyLt sp.text_buf r q := by
          apply keyLt_of_lcp hlt
          rw [hc2] at hc
          omega
        have hrcq : sp.rchild q ∉ l.toList := by
          rcases RepA_root hrr' with h | h
          · rw [h.1]
            intro hx
            have := RepA_lt _ _ _ hl _ hx
            unfold NIL at this; omega
          · intro hx
            exact hdis hx (by simp [h.2.1])
        obtain ⟨sp', l', hins, post⟩ := ihl fuel
          { sp with match_position := mp, match_length := ml1 } q
          (cmp_loop sp.text_buf r q (F - 1) 1 cmp).2
          (by rw [link_left _ _ _ hc]; exact hl) hbstl
          (fun x hx => hfirst x (by simp [hx])) hrt.1 hql (Ne.symm hrt.2.1) hqN
          (fun _ => hrcq) hlr hrr hml1 (by omega)
        refine ⟨sp', Tree.node l' q rr, hins, ?_⟩
        have hpc := post.child par hpt.1 hpr hpt.2.1
        have hlinkq : link sp' q (cmp_loop sp.text_buf r q (F - 1) 1 cmp).2 = sp'.lchild q :=
          link_left _ _ _ hc
        have hnk_r : ∀ x ∈ rr.toList, ¬ keyEq sp.text_buf x r :=
          fun x hx => keyLt_not_keyEq' (keyLt_trans hkl (hbr x hx))
        have hnk_q : ¬ keyEq sp.text_buf q r := keyLt_not_keyEq' hkl
        constructor
        · -- rep
          have : link sp' par cmp = q := by
            rw [← hq0]; unfold link; rw [hpc.1, hpc.2]
          rw [this]
          refine ⟨rfl, hq, ?_, ?_, ?_⟩
          · exact (post.parent q hql (Ne.symm hrt.2.1) hqN).trans hpa
          · have := post.rep
            rw [hlinkq] at this
            exact this
          · rw [post.other_r (by omega)]
            refine RepA_congr rr _ _ hrr' (fun x hx => ?_)
            have hxl : x ∉ l.toList := fun h => hdis h (by simp [hx])
            have hxr' : x ≠ r := fun e => hrt.2.2 (e ▸ hx)
            have hxq : x ≠ q := fun e => hqr (e ▸ hx)
            have hxN : x ≠ NIL := by
              have := RepA_lt _ _ _ hrr' x hx
              unfold NIL; omega
            have a := post.child x hxl hxr' hxq
            exact ⟨a.1, a.2, post.parent x hxl hxr' hxN⟩
        · -- mem
          intro x
          simp only [toList_node, List.mem_append, List.mem_cons]
          rw [post.mem x]
          constructor
          · rintro ((h | h) | h | h)
            · exact Or.inl h
            · exact Or.inr ⟨Or.inl h.1, h.2⟩
            · exact Or.inr ⟨Or.inr (Or.inl h), h ▸ hnk_q⟩
            · exact Or.inr ⟨Or.inr (Or.inr h), hnk_r x h⟩
          · rintro (h | ⟨h | h | h, hk⟩)
            · exact Or.inl (Or.inl h)
            · exact Or.inl (Or.inr ⟨h, hk⟩)
            · exact Or.inr (Or.inl h)
            · exact Or.inr (Or.inr h)
        · -- bst
          refine ⟨?_, hbr, post.bst, hbstr⟩
          intro x hx
          rcases (post.mem x).1 hx with h | h
          · rw [h]; exact hkl
          · exact hbl x h.1
        · exact post.text
        · intro x hx hxr hxp
          simp only [toList_node, List.mem_append, List.mem_cons, not_or] at hx
          exact post.child x hx.1 hxr hx.2.1
        · intro _; exact hpc.1
        · intro _; exact hpc.2
        · intro x hx hxr hxN
          simp only [toList_node, List.mem_append, List.mem_cons, not_or] at hx
          exact post.parent x hx.1 hxr hxN
        · intro x hx hk
          simp only [toList_node, List.mem_append, List.mem_cons] at hx
          rcases hx with h | h | h
          · exact post.removed x h hk
          · exact absurd hk (h ▸ hnk_q)
          · exact absurd hk (hnk_r x h)
        · exact le_trans hge post.len_ge
        · exact post.len_le
        · intro x hx
          simp only [toList_node, List.mem_append, List.mem_cons] at hx
          have := post.len_ge
          rcases hx with h | h | h
          · exact post.len_max x h
          · rw [h]; exact le_trans hile post.len_ge
          · have := lcp_between_right hkl (hbr x h)
            exact le_trans this (le_trans hile post.len_ge)
        · rcases post.found with ⟨h1, h2⟩ | ⟨h1, h2⟩
          · rcases hfound with ⟨g1, g2⟩ | ⟨g1, g2⟩
            · left; exact ⟨h1.trans g1, h2.trans g2⟩
            · right
              refine ⟨?_, ?_⟩
              · rw [h2]; simp [g1]
              · rw [h2, h1]; show lcp sp.text_buf r mp = ml1; rw [g1, g2]
          · right
            exact ⟨by simp [h1], h2⟩
    by_cases hgt : lcp sp.text_buf r q > sp.match_length
    · rw [if_pos hgt]
      by_cases hF : lcp sp.text_buf r q ≥ F
      · rw [if_pos hF]
        have hiE : lcp sp.text_buf r q = F := by omega
        have hke : keyEq sp.text_buf r q := (lcp_eq_F_iff _ _ _).1 hiE
        have hk_l : ∀ x ∈ l.toList, keyLt sp.text_buf x r :=
          fun x hx => keyLt_of_keyEq_right (hbl x hx) (keyEq_symm hke)
        have hk_r : ∀ x ∈ rr.toList, keyLt sp.text_buf r x :=
          fun x hx => keyLt_of_keyEq_left hke (hbr x hx)
        obtain ⟨c1, c2, c3, c4, c5, c6, c7, c8, c9⟩ := replace_node_spec
          { sp with match_position := q, match_length := lcp sp.text_buf r q } r q par cmp l rr
          (by rw [hq0] at hrep0; exact hrep0) hq0 hn hr (by simpa using hrt) (by simpa using hpt) hpr
          (fun h e => hside h (by rw [show sp.rchild par = q from e]; simp))
        refine ⟨_, Tree.node l r rr, rfl, ?_⟩
        constructor
        · exact c1
        · intro x
          simp only [toList_node, List.mem_append, List.mem_cons]
          constructor
          · rintro (h | h | h)
            · exact Or.inr ⟨Or.inl h, keyLt_not_keyEq (hk_l x h)⟩
            · exact Or.inl h
            · exact Or.inr ⟨Or.inr (Or.inr h), keyLt_not_keyEq' (hk_r x h)⟩
          · rintro (h | ⟨h | h | h, hk⟩)
            · exact Or.inr (Or.inl h)
            · exact Or.inl h
            · exact absurd (h ▸ keyEq_symm hke) hk
            · exact Or.inr (Or.inr h)
        · exact ⟨hk_l, hk_r, hbstl, hbstr⟩
        · exact c2
        · exact c5
        · exact c6
        · exact c7
        · exact c8
        · intro x hx hk
          simp only [toList_node, List.mem_append, List.mem_cons] at hx
          rcases hx with h | h | h
          · exact absurd hk (keyLt_not_keyEq (hk_l x h))
          · rw [h]; exact c9
          · exact absurd hk (keyLt_not_keyEq' (hk_r x h))
        · rw [c3]; show sp.match_length ≤ lcp sp.text_buf r q; omega
        · rw [c3]; exact hiF
        · intro x _
          rw [c3]
          show lcp sp.text_buf r x ≤ lcp sp.text_buf r q
          rw [hiE]; exact lcp_le _ _ _
        · right
          rw [c3, c4]
          exact ⟨by simp, rfl⟩
      · rw [if_neg hF]
        exact descend (by omega) q (lcp sp.text_buf r q) (by omega) (by omega) (le_refl _)
          (Or.inr ⟨rfl, rfl⟩)
    · rw [if_neg hgt]
      exact descend (by omega) sp.match_position sp.match_length hml (le_refl _) (by omega)
        (Or.inl ⟨rfl, rfl⟩)

end LZSS

namespace LZSS

/-! ## The predecessor loop of `delete_node` -/

theorem popMax_mem (l : Tree) (v : Nat) : ∀ (r : Tree) (x : Nat),
    x ∈ (Tree.node l v r).toList ↔ x ∈ (popMax l v r).1.toList ∨ x = (popMax l v r).2 := by
  intro r
  induction r generalizing l v with
  | leaf => intro x; simp [popMax]
  | node rl rv rr _ ih =>
    intro x
    have := ih rl rv x
    simp only [toList_node, List.mem_append, List.mem_cons] at this
    simp only [popMax, toList_node, List.mem_append, List.mem_cons]
    tauto

theorem popMax_max_mem (l : Tree) (v : Nat) (r : Tree) :
    (popMax l v r).2 ∈ (Tree.node l v r).toList :=
  (popMax_mem l v r _).2 (Or.inr rfl)

theorem popMax_nodup (l : Tree) (v : Nat) : ∀ (r : Tree), (Tree.node l v r).toList.Nodup →
    (popMax l v r).1.toList.Nodup ∧ (popMax l v r).2 ∉ (popMax l v r).1.toList := by
  intro r
  induction r generalizing l v with
  | leaf =>
    intro h
    simp only [toList_node, toList_leaf] at h
    rw [List.nodup_append] at h
    simp only [popMax]
    exact ⟨h.1, fun hx => h.2.2 hx (by simp)⟩
  | node rl rv rr _ ih =>
    intro h
    simp only [toList_node] at h
    rw [List.nodup_append, List.nodup_cons] at h
    obtain ⟨hl, ⟨hv, hr⟩, hdis⟩ := h
    have hr' : (Tree.node rl rv rr).toList.Nodup := by simpa using hr
    obtain ⟨a, b⟩ := ih rl rv hr'
    have hm := popMax_max_mem rl rv rr
    have hsub : ∀ x, x ∈ (popMax rl rv rr).1.toList → x ∈ (Tree.node rl rv rr).toList :=
      fun x hx => (popMax_mem rl rv rr x).2 (Or.inl hx)
    simp only [popMax, toList_node]
    constructor
    · rw [List.nodup_append, List.nodup_cons]
      refine ⟨hl, ⟨fun hx => hv (by simpa using hsub _ hx), a⟩, ?_⟩
      intro x hx hx'
      rcases List.mem_cons.mp hx' with rfl | hx'
      · exact hdis hx (by simp)
      · exact hdis hx (by simpa using Or.inr (hsub x hx'))
    · simp only [List.mem_append, List.mem_cons, not_or]
      refine ⟨fun hx => hdis hx (by simpa using Or.inr hm), ?_, b⟩
      intro e
      exact hv (by rw [← e]; simpa using hm)

theorem popMax_bst (tb : Nat → Nat) (l : Tree) (v : Nat) : ∀ (r : Tree),
    Bst tb (Tree.node l v r) →
    Bst tb (popMax l v r).1 ∧ ∀ x ∈ (popMax l v r).1.toList, keyLt tb x (popMax l v r).2 := by
  intro r
  induction r generalizing l v with
  | leaf =>
    intro h
    simp only [popMax]
    exact ⟨h.2.2.1, h.1⟩
  | node rl rv rr _ ih =>
    intro h
    obtain ⟨hl, hr, bl, br⟩ := h
    obtain ⟨a, b⟩ := ih rl rv br
    have hm := popMax_max_mem rl rv rr
    have hsub : ∀ x, x ∈ (popMax rl rv rr).1.toList → x ∈ (Tree.node rl rv rr).toList :=
      fun x hx => (popMax_mem rl rv rr x).2 (Or.inl hx)
    simp only [popMax]
    constructor
    · exact ⟨hl, fun x hx => hr x (hsub x hx), bl, a⟩
    · intro x hx
      simp only [toList_node, List.mem_append, List.mem_cons] at hx
      rcases hx with h | h | h
      · exact keyLt_trans (hl x h) (hr _ hm)
      · rw [h]; exact hr _ hm
      · exact b x h

theorem pred_loop_succ (rc : Nat → Nat) (fuel q : Nat) :
    pred_loop rc (fuel + 1) q =
      if rc (rc q) ≠ NIL then pred_loop rc fuel (rc q) else some (rc q) := by
  rw [pred_loop]

/-- The predecessor loop walks down the right spine of the tree rooted at `a`
to its rightmost node `m`; unlinking `m` as lines 228-229 do leaves the tree
without `m`. -/
theorem pred_loop_spec (lc rc pa : Nat → Nat) : ∀ (lr ll : Tree) (a own fuel : Nat),
    lr ≠ Tree.leaf →
    RepA lc rc pa own a (Tree.node ll a lr) →
    (Tree.node ll a lr).toList.Nodup →
    lr.toList.length ≤ fuel →
    pred_loop rc fuel a = some (popMax ll a lr).2 ∧
    (popMax ll a lr).2 ∈ lr.toList ∧
    rc (popMax ll a lr).2 = NIL ∧
    pa (popMax ll a lr).2 ∈ (Tree.node ll a lr).toList ∧
    (lc (popMax ll a lr).2 = NIL ∨ lc (popMax ll a lr).2 ∈ lr.toList) ∧
    RepA lc (upd rc (pa (popMax ll a lr).2) (lc (popMax ll a lr).2))
      (upd pa (lc (popMax ll a lr).2) (pa (popMax ll a lr).2)) own a (popMax ll a lr).1 := by
  intro lr
  induction lr with
  | leaf => intro ll a own fuel h; exact absurd rfl h
  | node rl rv rr2 _ ih =>
    intro ll a own fuel _ hrep hn hfuel
    obtain ⟨fuel, rfl⟩ : ∃ f, fuel = f + 1 := ⟨fuel - 1, by simp at hfuel; omega⟩
    obtain ⟨_, ha, hpa, hll, hlr⟩ := hrep
    have hlr0 := hlr
    obtain ⟨hrv0, hrv, hparv, hrl, hrr2⟩ := hlr
    simp only [toList_node] at hn
    rw [List.nodup_append, List.nodup_cons] at hn
    obtain ⟨hnll, ⟨halr, hnlr⟩, hdis⟩ := hn
    have hall : a ∉ ll.toList := fun hx => hdis hx (by simp)
    have hnlr' : (Tree.node rl rv rr2).toList.Nodup := by simpa using hnlr
    have hnlr2 := hnlr
    rw [List.nodup_append, List.nodup_cons] at hnlr2
    obtain ⟨hnrl, ⟨hrvrr, hnrr2⟩, hdis2⟩ := hnlr2
    have hrvrl : rv ∉ rl.toList := fun hx => hdis2 hx (by simp)
    have halr' : a ∉ (Tree.node rl rv rr2).toList := by simpa using halr
    rw [pred_loop_succ, hrv0]
    rw [hrv0] at hlr0
    have hp : popMax ll a (Tree.node rl rv rr2) =
        (Tree.node ll a (popMax rl rv rr2).1, (popMax rl rv rr2).2) := rfl
    rw [hp]
    dsimp only
    cases rr2 with
    | leaf =>
      have hnil : rc rv = NIL := hrr2
      rw [if_neg (by simp [hnil])]
      have hp2 : popMax rl rv Tree.leaf = (rl, rv) := rfl
      rw [hp2]
      dsimp only
      have hlcrv : lc rv = NIL ∨ lc rv ∈ rl.toList := by
        rcases RepA_root hrl with h | h
        · exact Or.inl h.1
        · exact Or.inr h.2.1
      have halc : a ≠ lc rv := by
        rcases hlcrv with h | h
        · rw [h]; unfold NIL; omega
        · intro e; apply halr'; rw [e]; simp [h]
      refine ⟨rfl, by simp, hnil, by rw [hparv]; simp, ?_, ?_⟩
      · rcases hlcrv with h | h
        · exact Or.inl h
        · exact Or.inr (by simp [h])
      · rw [hparv]
        refine ⟨rfl, ha, ?_, ?_, ?_⟩
        · rw [upd_other _ _ _ _ halc]; exact hpa
        · refine RepA_congr ll _ _ hll (fun x hx => ?_)
          have hxa : x ≠ a := fun e => hall (e ▸ hx)
          have hxl : x ≠ lc rv := by
            rcases hlcrv with h | h
            · rw [h]
              have := RepA_lt _ _ _ hll x hx
              unfold NIL; omega
            · intro e; exact hdis hx (by rw [e]; simp [h])
          exact ⟨rfl, upd_other _ _ _ _ hxa, upd_other _ _ _ _ hxl⟩
        · rw [upd_same]
          refine RepA_reroot rl rv a _ hrl hnrl (fun x hx => ?_) (fun x hx hne => ?_) (fun _ => ?_)
          · have hxa : x ≠ a := by
              intro e; apply halr'; rw [← e]; simp [hx]
            exact ⟨rfl, upd_other _ _ _ _ hxa⟩
          · exact upd_other _ _ _ _ hne
          · exact upd_same _ _ _
    | node sl sv sr =>
      have hne : rc rv ≠ NIL := by
        obtain ⟨h1, h2, _⟩ := hrr2
        rw [h1]; unfold NIL; omega
      rw [if_pos hne]
      obtain ⟨i1, i2, i3, i4, i5, i6⟩ := ih rl rv a fuel (by simp) hlr0 hnlr'
        (by simp only [toList_node, List.length_append, List.length_cons] at hfuel ⊢; omega)
      generalize popMax rl rv (Tree.node sl sv sr) = pm at i1 i2 i3 i4 i5 i6 ⊢
      have hm_in : ∀ x, x ∈ (Tree.node sl sv sr).toList →
          x ∈ (Tree.node rl rv (Tree.node sl sv sr)).toList := by
        intro x hx
        rw [toList_node]
        exact List.mem_append_right _ (List.mem_cons_of_mem _ hx)
      have hlcm : lc pm.2 = NIL ∨
          lc pm.2 ∈ (Tree.node rl rv (Tree.node sl sv sr)).toList := by
        rcases i5 with h | h
        · exact Or.inl h
        · exact Or.inr (hm_in _ h)
      have hapm : a ≠ pa pm.2 := fun e => halr' (e ▸ i4)
      have halc : a ≠ lc pm.2 := by
        rcases hlcm with h | h
        · rw [h]; unfold NIL; omega
        · exact fun e => halr' (e ▸ h)
      refine ⟨i1, ?_, i3, ?_, ?_, ?_⟩
      · exact hm_in _ i2
      · rw [toList_node]
        exact List.mem_append_right _ (List.mem_cons_of_mem _ i4)
      · rcases i5 with h | h
        · exact Or.inl h
        · exact Or.inr (hm_in _ h)
      · refine ⟨rfl, ha, ?_, ?_, ?_⟩
        · rw [upd_other _ _ _ _ halc]; exact hpa
        · refine RepA_congr ll _ _ hll (fun x hx => ?_)
          have hx1 : x ≠ pa pm.2 := by
            intro e; exact hdis hx (by rw [e]; simpa using Or.inr i4)
          have hx2 : x ≠ lc pm.2 := by
            rcases hlcm with h | h
            · rw [h]
              have := RepA_lt _ _ _ hll x hx
              unfold NIL; omega
            · intro e; exact hdis hx (by rw [e]; simpa using Or.inr h)
          exact ⟨rfl, upd_other _ _ _ _ hx1, upd_other _ _ _ _ hx2⟩
        · rw [upd_other _ _ _ _ hapm, hrv0]
          exact i6

end LZSS

namespace LZSS

/-! ## `delete_node` at the root of a tree held in the arrays -/

theorem delete_link_right (sp : encode_state) (p q par : Nat) (hqp : p ≠ q)
    (hpar : sp.parent p = par) (h : sp.rchild par = p) :
    delete_link sp p q =
      { sp with rchild := upd sp.rchild par q,
                parent := upd (upd sp.parent q par) p NIL } := by
  unfold delete_link
  have e : upd sp.parent q (sp.parent p) p = par := by
    rw [upd_other _ _ _ _ hqp, hpar]
  simp only [e]
  rw [if_pos h, hpar]

theorem delete_link_left (sp : encode_state) (p q par : Nat) (hqp : p ≠ q)
    (hpar : sp.parent p = par) (h : sp.rchild par ≠ p) :
    delete_link sp p q =
      { sp with lchild := upd sp.lchild par q,
                parent := upd (upd sp.parent q par) p NIL } := by
  unfold delete_link
  have e : upd sp.parent q (sp.parent p) p = par := by
    rw [upd_other _ _ _ _ hqp, hpar]
  simp only [e]
  rw [if_neg h, hpar]

/-- The common part of the cases of `delete_node`: a state whose arrays are
those of `sp` except where the deletion of the root `p` writes, and which holds
`t'` at a new root `q`, meets `DeletePost`. -/
theorem delete_post_of (sp sp1 : encode_state) (p q par : Nat) (cmp : Int) (t t' : Tree)
    (hp : p ∈ t.toList) (_hpar : sp.parent p = par) (hlink : link sp par cmp = p)
    (hside : cmp < 0 → sp.rchild par ≠ p) (hqp : p ≠ q)
    (htext : sp1.text_buf = sp.text_buf) (hml : sp1.match_length = sp.match_length)
    (hmp : sp1.match_position = sp.match_position)
    (hpar1 : sp1.parent p = par)
    (hrc1 : sp1.rchild par = sp.rchild par) (hlc1 : sp1.lchild par = sp.lchild par)
    (hch : ∀ x, x ∉ t.toList → sp1.lchild x = sp.lchild x ∧ sp1.rchild x = sp.rchild x)
    (hpa : ∀ x, x ∉ t.toList → x ≠ NIL → sp1.parent x = sp.parent x)
    (hqt : q = NIL ∨ q ∈ t.toList)
    (hmem : ∀ x, x ∈ t'.toList ↔ x ∈ t.toList ∧ x ≠ p)
    (hbst : Bst sp.text_buf t')
    (hrep : ∀ lc' rc', (∀ x, x ≠ par → lc' x = sp1.lchild x ∧ rc' x = sp1.rchild x) →
      RepA lc' rc' (upd (upd sp1.parent q par) p NIL) par q t') :
    DeletePost sp p par cmp t (delete_link sp1 p q) t' := by
  have hpaf : ∀ x, x ∉ t.toList → x ≠ NIL →
      upd (upd sp1.parent q par) p NIL x = sp.parent x := by
    intro x hx hxN
    have a : x ≠ p := fun e => hx (e ▸ hp)
    have b : x ≠ q := by
      rcases hqt with h | h
      · rw [h]; exact hxN
      · exact fun e => hx (e ▸ h)
    rw [upd_other _ _ _ _ a, upd_other _ _ _ _ b]
    exact hpa x hx hxN
  by_cases hc : cmp ≥ 0
  · have hl1 : sp1.rchild par = p := by rw [hrc1, ← link_right _ _ _ hc]; exact hlink
    rw [delete_link_right sp1 p q par hqp hpar1 hl1]
    refine ⟨?_, hmem, hbst, htext, hml, hmp, ?_, ?_, ?_, hpaf, ?_⟩
    · rw [link_right _ _ _ hc]
      show RepA _ _ _ par (upd sp1.rchild par q par) _
      rw [upd_same]
      apply hrep
      intro x hx
      exact ⟨rfl, upd_other _ _ _ _ hx⟩
    · intro x hx hxp
      exact ⟨(hch x hx).1, (upd_other _ _ _ _ hxp).trans (hch x hx).2⟩
    · intro _; exact hlc1
    · intro h; omega
    · exact upd_same _ _ _
  · have hl1 : sp1.rchild par ≠ p := by rw [hrc1]; exact hside (by omega)
    rw [delete_link_left sp1 p q par hqp hpar1 hl1]
    refine ⟨?_, hmem, hbst, htext, hml, hmp, ?_, ?_, ?_, hpaf, ?_⟩
    · rw [link_left _ _ _ hc]
      show RepA _ _ _ par (upd sp1.lchild par q par) _
      rw [upd_same]
      apply hrep
      intro x hx
      exact ⟨upd_other _ _ _ _ hx, rfl⟩
    · intro x hx hxp
      exact ⟨(upd_other _ _ _ _ hxp).trans (hch x hx).1, (hch x hx).2⟩
    · intro h; omega
    · intro _; exact hrc1
    · exact upd_same _ _ _

end LZSS

namespace LZSS

/-- Facts about the root `p` of a search tree `node l p rr` held in the arrays. -/
theorem root_facts {sp : encode_state} {p par : Nat} {l rr : Tree}
    (hrep : Rep sp par p (Tree.node l p rr)) (hbst : Bst sp.text_buf (Tree.node l p rr)) :
    p < N ∧ sp.parent p = par ∧ p ∉ l.toList ∧ p ∉ rr.toList ∧
    l.toList.Nodup ∧ rr.toList.Nodup ∧ (∀ x, x ∈ l.toList → x ∉ rr.toList) ∧
    (sp.lchild p = NIL ∨ sp.lchild p ∈ l.toList) ∧
    (sp.rchild p = NIL ∨ sp.rchild p ∈ rr.toList) := by
  have hn := Bst_nodup _ _ hbst
  obtain ⟨_, hp, hpa, hl, hrr⟩ := hrep
  simp only [toList_node] at hn
  rw [List.nodup_append, List.nodup_cons] at hn
  obtain ⟨hnl, ⟨hpr, hnr⟩, hdis⟩ := hn
  refine ⟨hp, hpa, fun hx => hdis hx (by simp), hpr, hnl, hnr,
    fun x hx hx' => hdis hx (by simp [hx']), ?_, ?_⟩
  · rcases RepA_root hl with h | h
    · exact Or.inl h.1
    · exact Or.inr h.2.1
  · rcases RepA_root hrr with h | h
    · exact Or.inl h.1
    · exact Or.inr h.2.1

theorem ne_NIL_of_lt {x : Nat} (h : x < N) : x ≠ NIL := by unfold NIL; omega

theorem delete_root_right_empty (sp : encode_state) (p par : Nat) (cmp : Int) (l : Tree)
    (fuel : Nat)
    (hrep : Rep sp par p (Tree.node l p Tree.leaf)) (hlink : link sp par cmp = p)
    (hbst : Bst sp.text_buf (Tree.node l p Tree.leaf)) (hpN : par ≠ NIL)
    (hpt : par ∉ (Tree.node l p Tree.leaf).toList)
    (hside : cmp < 0 → sp.rchild par ≠ p) :
    ∃ sp' t', delete_node_fuel fuel sp p = some sp' ∧
      DeletePost sp p par cmp (Tree.node l p Tree.leaf) sp' t' := by
  obtain ⟨hp, hpa, hpl, _, hnl, _, _, hlc, _⟩ := root_facts hrep hbst
  obtain ⟨_, _, _, hl, hrr⟩ := hrep
  have hrcp : sp.rchild p = NIL := hrr
  have hpN' := ne_NIL_of_lt hp
  have hqp : p ≠ sp.lchild p := by
    rcases hlc with h | h
    · rw [h]; exact hpN'
    · exact fun e => hpl (e ▸ h)
  refine ⟨delete_link sp p (sp.lchild p), l, ?_, ?_⟩
  · unfold delete_node_fuel
    rw [if_neg (by rw [hpa]; exact hpN), if_pos hrcp]
  · apply delete_post_of sp sp p (sp.lchild p) par cmp _ l (by simp) hpa hlink hside hqp rfl rfl
      rfl hpa rfl rfl (fun x _ => ⟨rfl, rfl⟩) (fun x _ _ => rfl)
    · rcases hlc with h | h
      · exact Or.inl h
      · exact Or.inr (by simp [h])
    · intro x
      simp only [toList_node, toList_leaf, List.mem_append, List.mem_cons, List.not_mem_nil,
        or_false]
      constructor
      · intro h; exact ⟨Or.inl h, fun e => hpl (e ▸ h)⟩
      · rintro ⟨h | h, hne⟩
        · exact h
        · exact absurd h hne
    · exact hbst.2.2.1
    · intro lc' rc' hf
      refine RepA_reroot l p par _ hl hnl (fun x hx => ?_) (fun x hx hne => ?_) (fun _ => ?_)
      · exact hf x (fun e => hpt (by rw [← e]; simp [hx]))
      · have a : x ≠ p := fun e => hpl (e ▸ hx)
        rw [upd_other _ _ _ _ a, upd_other _ _ _ _ hne]
      · rw [upd_other _ _ _ _ hqp.symm, upd_same]

theorem delete_root_left_empty (sp : encode_state) (p par : Nat) (cmp : Int) (rr : Tree)
    (fuel : Nat) (hne : rr ≠ Tree.leaf)
    (hrep : Rep sp par p (Tree.node Tree.leaf p rr)) (hlink : link sp par cmp = p)
    (hbst : Bst sp.text_buf (Tree.node Tree.leaf p rr)) (hpN : par ≠ NIL)
    (hpt : par ∉ (Tree.node Tree.leaf p rr).toList)
    (hside : cmp < 0 → sp.rchild par ≠ p) :
    ∃ sp' t', delete_node_fuel fuel sp p = some sp' ∧
      DeletePost sp p par cmp (Tree.node Tree.leaf p rr) sp' t' := by
  obtain ⟨hp, hpa, _, hpr, _, hnr, _, _, hrc⟩ := root_facts hrep hbst
  obtain ⟨_, _, _, hl, hrr⟩ := hrep
  have hlcp : sp.lchild p = NIL := hl
  have hrcp : sp.rchild p ≠ NIL := by
    rcases RepA_root hrr with h | h
    · exact absurd h.2 hne
    · exact ne_NIL_of_lt h.1
  have hrc' : sp.rchild p ∈ rr.toList := by
    rcases hrc with h | h
    · exact absurd h hrcp
    · exact h
  have hpN' := ne_NIL_of_lt hp
  have hqp : p ≠ sp.rchild p := fun e => hpr (e ▸ hrc')
  refine ⟨delete_link sp p (sp.rchild p), rr, ?_, ?_⟩
  · unfold delete_node_fuel
    rw [if_neg (by rw [hpa]; exact hpN), if_neg hrcp, if_pos hlcp]
  · apply delete_post_of sp sp p (sp.rchild p) par cmp _ rr (by simp) hpa hlink hside hqp rfl rfl
      rfl hpa rfl rfl (fun x _ => ⟨rfl, rfl⟩) (fun x _ _ => rfl)
    · exact Or.inr (by simp [hrc'])
    · intro x
      simp only [toList_node, toList_leaf, List.mem_append, List.mem_cons, List.not_mem_nil,
        false_or]
      constructor
      · intro h; exact ⟨Or.inr h, fun e => hpr (e ▸ h)⟩
      · rintro ⟨h | h, hne⟩
        · exact absurd h hne
        · exact h
    · exact hbst.2.2.2
    · intro lc' rc' hf
      refine RepA_reroot rr p par _ hrr hnr (fun x hx => ?_) (fun x hx hne => ?_) (fun _ => ?_)
      · exact hf x (fun e => hpt (by rw [← e]; simp [hx]))
      · have a : x ≠ p := fun e => hpr (e ▸ hx)
        rw [upd_other _ _ _ _ a, upd_other _ _ _ _ hne]
      · rw [upd_other _ _ _ _ hqp.symm, upd_same]

end LZSS

namespace LZSS

theorem delete_root_short (sp : encode_state) (p par : Nat) (cmp : Int) (ll : Tree) (a : Nat)
    (rr : Tree) (fuel : Nat) (hne : rr ≠ Tree.leaf)
    (hrep : Rep sp par p (Tree.node (Tree.node ll a Tree.leaf) p rr))
    (hlink : link sp par cmp = p)
    (hbst : Bst sp.text_buf (Tree.node (Tree.node ll a Tree.leaf) p rr)) (hpN : par ≠ NIL)
    (hpt : par ∉ (Tree.node (Tree.node ll a Tree.leaf) p rr).toList)
    (hside : cmp < 0 → sp.rchild par ≠ p) :
    ∃ sp' t', delete_node_fuel fuel sp p = some sp' ∧
      DeletePost sp p par cmp (Tree.node (Tree.node ll a Tree.leaf) p rr) sp' t' := by
  obtain ⟨hp, hpa, hpl, hpr, hnl, hnr, hdis, _, hrc⟩ := root_facts hrep hbst
  obtain ⟨_, _, _, hl, hrr⟩ := hrep
  have hl0 := hl
  obtain ⟨hlcp, ha, hpaa, hll, hlr⟩ := hl
  have hrca : sp.rchild a = NIL := hlr
  have hrcp : sp.rchild p ≠ NIL := by
    rcases RepA_root hrr with h | h
    · exact absurd h.2 hne
    · exact ne_NIL_of_lt h.1
  have hrc' : sp.rchild p ∈ rr.toList := by
    rcases hrc with h | h
    · exact absurd h hrcp
    · exact h
  have hal : a ∈ (Tree.node ll a Tree.leaf).toList := by simp
  have hpa_ne : p ≠ a := fun e => hpl (e ▸ hal)
  have hprc : p ≠ sp.rchild p := fun e => hpr (e ▸ hrc')
  have harc : a ≠ sp.rchild p := fun e => hdis a hal (e ▸ hrc')
  have hpara : par ≠ a := fun e => hpt (by rw [e]; simp)
  have hall : a ∉ ll.toList := by
    have := hnl
    simp only [toList_node, toList_leaf] at this
    rw [List.nodup_append] at this
    exact fun hx => this.2.2 hx (by simp)
  obtain ⟨hbl, hbr, hbstl, hbstr⟩ := hbst
  have hrcp' : upd sp.rchild a (sp.rchild p) p = sp.rchild p := upd_other _ _ _ _ hpa_ne
  refine ⟨delete_link
    { sp with
      rchild := upd sp.rchild a (sp.rchild p)
      parent := upd sp.parent (sp.rchild p) a } p a, Tree.node ll a rr, ?_, ?_⟩
  · unfold delete_node_fuel
    rw [if_neg (by rw [hpa]; exact hpN), if_neg hrcp,
      if_neg (by rw [hlcp]; exact ne_NIL_of_lt ha)]
    simp only [hlcp, hrca, ne_eq, not_true_eq_false, if_false, hrcp']
  · refine delete_post_of sp _ p a par cmp _ (Tree.node ll a rr) (by simp) hpa hlink hside hpa_ne
      ?_ ?_ ?_ ?_ ?_ ?_ ?_ ?_ ?_ ?_ ?_ ?_
    · rfl
    · rfl
    · rfl
    · show upd sp.parent (sp.rchild p) a p = par
      rw [upd_other _ _ _ _ hprc, hpa]
    · exact upd_other _ _ _ _ hpara
    · rfl
    · intro x hx
      have : x ≠ a := fun e => hx (by rw [e]; simp)
      exact ⟨rfl, upd_other _ _ _ _ this⟩
    · intro x hx _
      have : x ≠ sp.rchild p := fun e => hx (by rw [e]; simp [hrc'])
      exact upd_other _ _ _ _ this
    · exact Or.inr (by simp)
    · intro x
      simp only [toList_node, toList_leaf, List.mem_append, List.mem_cons, List.not_mem_nil,
        or_false]
      constructor
      · rintro (h | h | h)
        · exact ⟨Or.inl (Or.inl h), fun e => hpl (by rw [← e]; simp [h])⟩
        · exact ⟨Or.inl (Or.inr h), fun e => hpa_ne (e.symm.trans h)⟩
        · exact ⟨Or.inr (Or.inr h), fun e => hpr (e ▸ h)⟩
      · rintro ⟨(h | h) | h | h, hne⟩
        · exact Or.inl h
        · exact Or.inr (Or.inl h)
        · exact absurd h hne
        · exact Or.inr (Or.inr h)
    · exact ⟨hbstl.1, fun x hx => keyLt_trans (hbl a hal) (hbr x hx), hbstl.2.2.1, hbstr⟩
    · intro lc' rc' hf
      have hfa := hf a hpara.symm
      refine ⟨rfl, ha, ?_, ?_, ?_⟩
      · rw [upd_other _ _ _ _ hpa_ne.symm, upd_same]
      · rw [hfa.1]
        refine RepA_congr ll _ _ hll (fun x hx => ?_)
        have hxl : x ∈ (Tree.node ll a Tree.leaf).toList := by simp [hx]
        have hxp : x ≠ par := fun e => hpt (by rw [← e]; simp [hx])
        have x1 : x ≠ a := fun e => hall (e ▸ hx)
        have x2 : x ≠ p := fun e => hpl (e ▸ hxl)
        have x3 : x ≠ sp.rchild p := fun e => hdis x hxl (e ▸ hrc')
        have := hf x hxp
        refine ⟨this.1, this.2.trans (upd_other _ _ _ _ x1), ?_⟩
        rw [upd_other _ _ _ _ x2, upd_other _ _ _ _ x1]
        exact upd_other _ _ _ _ x3
      · rw [hfa.2]
        show RepA _ _ _ a (upd sp.rchild a (sp.rchild p) a) rr
        rw [upd_same]
        refine RepA_reroot rr p a _ hrr hnr (fun x hx => ?_) (fun x hx hne => ?_) (fun _ => ?_)
        · have hxp : x ≠ par := fun e => hpt (by rw [← e]; simp [hx])
          have x1 : x ≠ a := fun e => hdis a hal (e ▸ hx)
          have := hf x hxp
          exact ⟨this.1, this.2.trans (upd_other _ _ _ _ x1)⟩
        · have x1 : x ≠ a := fun e => hdis a hal (e ▸ hx)
          have x2 : x ≠ p := fun e => hpr (e ▸ hx)
          rw [upd_other _ _ _ _ x2, upd_other _ _ _ _ x1]
          exact upd_other _ _ _ _ hne
        · rw [upd_other _ _ _ _ hprc.symm, upd_other _ _ _ _ harc.symm]
          exact upd_same _ _ _

end LZSS

namespace LZSS

theorem delete_root_long (sp : encode_state) (p par : Nat) (cmp : Int) (ll : Tree) (a : Nat)
    (lr rr : Tree) (fuel : Nat) (hne : rr ≠ Tree.leaf) (hnl : lr ≠ Tree.leaf)
    (hrep : Rep sp par p (Tree.node (Tree.node ll a lr) p rr))
    (hlink : link sp par cmp = p)
    (hbst : Bst sp.text_buf (Tree.node (Tree.node ll a lr) p rr)) (hpN : par ≠ NIL)
    (hpt : par ∉ (Tree.node (Tree.node ll a lr) p rr).toList)
    (hside : cmp < 0 → sp.rchild par ≠ p)
    (hfuel : lr.toList.length ≤ fuel) :
    ∃ sp' t', delete_node_fuel fuel sp p = some sp' ∧
      DeletePost sp p par cmp (Tree.node (Tree.node ll a lr) p rr) sp' t' := by
  obtain ⟨hp, hpa, hpl, hpr, hnodl, hnr, hdis, _, hrc⟩ := root_facts hrep hbst
  obtain ⟨_, _, _, hl, hrr⟩ := hrep
  have hl0 := hl
  obtain ⟨hlcp, ha, hpaa, hll, hlr⟩ := hl
  rw [hlcp] at hl0
  have hrcp : sp.rchild p ≠ NIL := by
    rcases RepA_root hrr with h | h
    · exact absurd h.2 hne
    · exact ne_NIL_of_lt h.1
  have hrca : sp.rchild a ≠ NIL := by
    rcases RepA_root hlr with h | h
    · exact absurd h.2 hnl
    · exact ne_NIL_of_lt h.1
  have hrc' : sp.rchild p ∈ rr.toList := by
    rcases hrc with h | h
    · exact absurd h hrcp
    · exact h
  obtain ⟨hbl, hbr, hbstl, hbstr⟩ := hbst
  obtain ⟨h1, h2, h3, h4, h5, h6⟩ :=
    pred_loop_spec sp.lchild sp.rchild sp.parent lr ll a p fuel hnl hl0 hnodl hfuel
  have hpm := popMax_mem ll a lr
  obtain ⟨hnd, hmt⟩ := popMax_nodup ll a lr hnodl
  obtain ⟨hbt, hbm⟩ := popMax_bst sp.text_buf ll a lr hbstl
  generalize (popMax ll a lr).2 = m at h1 h2 h3 h4 h5 h6 hpm hmt hbm
  generalize (popMax ll a lr).1 = t1 at h6 hpm hnd hmt hbt hbm
  have hml : m ∈ (Tree.node ll a lr).toList := by
    rw [toList_node]; exact List.mem_append_right _ (List.mem_cons_of_mem _ h2)
  have hal : a ∈ (Tree.node ll a lr).toList := by simp
  have hlcm : sp.lchild m = NIL ∨ sp.lchild m ∈ (Tree.node ll a lr).toList := by
    rcases h5 with h | h
    · exact Or.inl h
    · right; rw [toList_node]; exact List.mem_append_right _ (List.mem_cons_of_mem _ h)
  have hmN : m < N := RepA_lt _ _ _ hl0 m hml
  have hpm_ne : p ≠ m := fun e => hpl (e ▸ hml)
  have hpa_ne : p ≠ a := fun e => hpl (e ▸ hal)
  have hp_pam : p ≠ sp.parent m := fun e => hpl (e ▸ h4)
  have hp_lcm : p ≠ sp.lchild m := by
    rcases hlcm with h | h
    · rw [h]; exact ne_NIL_of_lt hp
    · exact fun e => hpl (e ▸ h)
  have hprc : p ≠ sp.rchild p := fun e => hpr (e ▸ hrc')
  have hm_rc : m ≠ sp.rchild p := fun e => hdis m hml (e ▸ hrc')
  have ha_rc : a ≠ sp.rchild p := fun e => hdis a hal (e ▸ hrc')
  have ham : a ≠ m := by
    intro e
    have hn2 := hnodl
    simp only [toList_node] at hn2
    rw [List.nodup_append, List.nodup_cons] at hn2
    exact hn2.2.1.1 (e ▸ h2)
  have hpar_m : par ≠ m := fun e => hpt (by rw [e, toList_node]; exact List.mem_append_left _ hml)
  have hpar_pam : par ≠ sp.parent m :=
    fun e => hpt (by rw [e, toList_node]; exact List.mem_append_left _ h4)
  have e1 : upd sp.lchild m (sp.lchild p) p = a := by
    rw [upd_other _ _ _ _ hpm_ne, hlcp]
  have e2 : upd sp.rchild (sp.parent m) (sp.lchild m) p = sp.rchild p :=
    upd_other _ _ _ _ hp_pam
  have e3 : upd (upd sp.rchild (sp.parent m) (sp.lchild m)) m (sp.rchild p) p = sp.rchild p := by
    rw [upd_other _ _ _ _ hpm_ne, e2]
  refine ⟨delete_link
    { sp with
      lchild := upd sp.lchild m a
      rchild := upd (upd sp.rchild (sp.parent m) (sp.lchild m)) m (sp.rchild p)
      parent := upd (upd (upd sp.parent (sp.lchild m) (sp.parent m)) a m) (sp.rchild p) m }
    p m, Tree.node t1 m rr, ?_, ?_⟩
  · unfold delete_node_fuel
    rw [if_neg (by rw [hpa]; exact hpN), if_neg hrcp,
      if_neg (by rw [hlcp]; exact ne_NIL_of_lt ha)]
    simp only [hlcp, hrca, ne_eq, not_false_eq_true, if_true, h1, e2, e3]
    rw [← hlcp, e1, hlcp]
  · refine delete_post_of sp _ p m par cmp _ (Tree.node t1 m rr) (by simp) hpa hlink hside hpm_ne
      ?_ ?_ ?_ ?_ ?_ ?_ ?_ ?_ ?_ ?_ ?_ ?_
    · rfl
    · rfl
    · rfl
    · show upd (upd (upd sp.parent (sp.lchild m) (sp.parent m)) a m) (sp.rchild p) m p = par
      rw [upd_other _ _ _ _ hprc, upd_other _ _ _ _ hpa_ne, upd_other _ _ _ _ hp_lcm, hpa]
    · show upd (upd sp.rchild (sp.parent m) (sp.lchild m)) m (sp.rchild p) par = sp.rchild par
      rw [upd_other _ _ _ _ hpar_m, upd_other _ _ _ _ hpar_pam]
    · exact upd_other _ _ _ _ hpar_m
    · intro x hx
      have x1 : x ≠ m := fun e => hx (by rw [e, toList_node]; exact List.mem_append_left _ hml)
      have x2 : x ≠ sp.parent m :=
        fun e => hx (by rw [e, toList_node]; exact List.mem_append_left _ h4)
      refine ⟨upd_other _ _ _ _ x1, ?_⟩
      show upd (upd sp.rchild (sp.parent m) (sp.lchild m)) m (sp.rchild p) x = sp.rchild x
      rw [upd_other _ _ _ _ x1, upd_other _ _ _ _ x2]
    · intro x hx hxN
      have x1 : x ≠ sp.rchild p := fun e => hx (by rw [e]; simp [hrc'])
      have x2 : x ≠ a := fun e => hx (by rw [e]; simp)
      have x3 : x ≠ sp.lchild m := by
        rcases hlcm with h | h
        · rw [h]; exact hxN
        · exact fun e => hx (by rw [e, toList_node]; exact List.mem_append_left _ h)
      show upd (upd (upd sp.parent (sp.lchild m) (sp.parent m)) a m) (sp.rchild p) m x = _
      rw [upd_other _ _ _ _ x1, upd_other _ _ _ _ x2, upd_other _ _ _ _ x3]
    · right; rw [toList_node]; exact List.mem_append_left _ hml
    · intro x
      rw [toList_node, toList_node (Tree.node ll a lr)]
      simp only [List.mem_append, List.mem_cons]
      rw [hpm x]
      constructor
      · rintro (h | h | h)
        · exact ⟨Or.inl (Or.inl h), fun e => hpl ((hpm x).2 (Or.inl h) |> fun h' => e ▸ h')⟩
        · exact ⟨Or.inl (Or.inr h), fun e => hpm_ne (e.symm.trans h)⟩
        · exact ⟨Or.inr (Or.inr h), fun e => hpr (e ▸ h)⟩
      · rintro ⟨(h | h) | h | h, hne⟩
        · exact Or.inl h
        · exact Or.inr (Or.inl h)
        · exact absurd h hne
        · exact Or.inr (Or.inr h)
    · exact ⟨hbm, fun x hx => keyLt_trans (hbl m hml) (hbr x hx), hbt, hbstr⟩
    · intro lc' rc' hf
      have hfm := hf m hpar_m.symm
      refine ⟨rfl, hmN, ?_, ?_, ?_⟩
      · rw [upd_other _ _ _ _ hpm_ne.symm, upd_same]
      · rw [hfm.1]
        show RepA _ _ _ m (upd sp.lchild m a m) t1
        rw [upd_same]
        refine RepA_reroot t1 p m a h6 hnd (fun x hx => ?_) (fun x hx hne => ?_) (fun _ => ?_)
        · have hxl : x ∈ (Tree.node ll a lr).toList := (hpm x).2 (Or.inl hx)
          have hxp : x ≠ par :=
            fun e => hpt (by rw [← e, toList_node]; exact List.mem_append_left _ hxl)
          have x1 : x ≠ m := fun e => hmt (e ▸ hx)
          have := hf x hxp
          refine ⟨this.1.trans (upd_other _ _ _ _ x1), this.2.trans ?_⟩
          exact upd_other _ _ _ _ x1
        · have hxl : x ∈ (Tree.node ll a lr).toList := (hpm x).2 (Or.inl hx)
          have x1 : x ≠ m := fun e => hmt (e ▸ hx)
          have x2 : x ≠ p := fun e => hpl (e ▸ hxl)
          have x3 : x ≠ sp.rchild p := fun e => hdis x hxl (e ▸ hrc')
          rw [upd_other _ _ _ _ x2, upd_other _ _ _ _ x1]
          show upd (upd (upd sp.parent (sp.lchild m) (sp.parent m)) a m) (sp.rchild p) m x = _
          rw [upd_other _ _ _ _ x3, upd_other _ _ _ _ hne]
        · rw [upd_other _ _ _ _ hpa_ne.symm, upd_other _ _ _ _ ham]
          show upd (upd (upd sp.parent (sp.lchild m) (sp.parent m)) a m) (sp.rchild p) m a = m
          rw [upd_other _ _ _ _ ha_rc, upd_same]
      · rw [hfm.2]
        show RepA _ _ _ m
          (upd (upd sp.rchild (sp.parent m) (sp.lchild m)) m (sp.rchild p) m) rr
        rw [upd_same]
        refine RepA_reroot rr p m _ hrr hnr (fun x hx => ?_) (fun x hx hne => ?_) (fun _ => ?_)
        · have hxp : x ≠ par := fun e => hpt (by rw [← e]; simp [hx])
          have x1 : x ≠ m := fun e => hdis m hml (e ▸ hx)
          have x2 : x ≠ sp.parent m := fun e => hdis _ h4 (e ▸ hx)
          have := hf x hxp
          refine ⟨this.1.trans (upd_other _ _ _ _ x1), this.2.trans ?_⟩
          show upd (upd sp.rchild (sp.parent m) (sp.lchild m)) m (sp.rchild p) x = sp.rchild x
          rw [upd_other _ _ _ _ x1, upd_other _ _ _ _ x2]
        · have x1 : x ≠ m := fun e => hdis m hml (e ▸ hx)
          have x2 : x ≠ p := fun e => hpr (e ▸ hx)
          have x3 : x ≠ a := fun e => hdis a hal (e ▸ hx)
          have x4 : x ≠ sp.lchild m := by
            rcases hlcm with h | h
            · rw [h]; exact ne_NIL_of_lt (RepA_lt _ _ _ hrr x hx)
            · exact fun e => hdis _ h (e ▸ hx)
          rw [upd_other _ _ _ _ x2, upd_other _ _ _ _ x1]
          show upd (upd (upd sp.parent (sp.lchild m) (sp.parent m)) a m) (sp.rchild p) m x = _
          rw [upd_other _ _ _ _ hne, upd_other _ _ _ _ x3, upd_other _ _ _ _ x4]
        · rw [upd_other _ _ _ _ hprc.symm, upd_other _ _ _ _ hm_rc.symm]
          show upd (upd (upd sp.parent (sp.lchild m) (sp.parent m)) a m) (sp.rchild p) m
            (sp.rchild p) = m
          rw [upd_same]

end LZSS

namespace LZSS

/-- The function `delete_node` on a member of a search tree held in the arrays. -/
theorem delete_spec (p : Nat) : ∀ (t : Tree) (fuel : Nat) (sp : encode_state) (par : Nat)
    (cmp : Int),
    Rep sp par (link sp par cmp) t →
    Bst sp.text_buf t →
    p ∈ t.toList → par ∉ t.toList → par ≠ NIL →
    (cmp < 0 → sp.rchild par ∉ t.toList) →
    t.toList.length ≤ fuel →
    ∃ sp' t', delete_node_fuel fuel sp p = some sp' ∧ DeletePost sp p par cmp t sp' t' := by
  intro t
  induction t with
  | leaf => intro fuel sp par cmp _ _ hp; simp at hp
  | node l q rr ihl ihr =>
    intro fuel sp par cmp hrep hbst hp hpt hpN hside hfuel
    have hq0 : link sp par cmp = q := hrep.1
    rw [hq0] at hrep
    by_cases hpq : p = q
    · subst hpq
      have hside' : cmp < 0 → sp.rchild par ≠ p := fun h e => hside h (by rw [e]; simp)
      cases rr with
      | leaf => exact delete_root_right_empty sp p par cmp l fuel hrep hq0 hbst hpN hpt hside'
      | node rl rv rr2 =>
        cases l with
        | leaf =>
          exact delete_root_left_empty sp p par cmp _ fuel (by simp) hrep hq0 hbst hpN hpt hside'
        | node ll a lr =>
          cases lr with
          | leaf =>
            exact delete_root_short sp p par cmp ll a _ fuel (by simp) hrep hq0 hbst hpN hpt
              hside'
          | node sl sv sr =>
            refine delete_root_long sp p par cmp ll a _ _ fuel (by simp) (by simp) hrep hq0
              hbst hpN hpt hside' ?_
            simp only [toList_node, List.length_append, List.length_cons] at hfuel ⊢
            omega
    · obtain ⟨hq, hpa, hql, hqr, hnl, hnr, hdis, hlc, hrc⟩ := root_facts hrep hbst
      obtain ⟨_, _, _, hl, hrr⟩ := hrep
      obtain ⟨hbl, hbr, hbstl, hbstr⟩ := hbst
      have hqN := ne_NIL_of_lt hq
      simp only [toList_node, List.mem_append, List.mem_cons] at hp
      simp only [toList_node, List.mem_append, List.mem_cons, not_or] at hpt
      simp only [toList_node, List.length_append, List.length_cons] at hfuel
      rcases hp with hp | hp | hp
      · -- in the left subtree
        have hrcq : sp.rchild q ∉ l.toList := by
          rcases hrc with h | h
          · rw [h]; exact fun hx => ne_NIL_of_lt (RepA_lt _ _ _ hl _ hx) rfl
          · exact fun hx => hdis _ hx h
        obtain ⟨sp', l', hdel, post⟩ := ihl fuel sp q (-1)
          (by rw [link_left _ _ _ (by omega)]; exact hl) hbstl hp hql hqN (fun _ => hrcq)
          (by omega)
        refine ⟨sp', Tree.node l' q rr, hdel, ?_⟩
        have hpc := post.child par hpt.1 hpt.2.1
        have hlq : link sp' q (-1) = sp'.lchild q := link_left _ _ _ (by omega)
        constructor
        · have : link sp' par cmp = q := by
            rw [← hq0]; unfold link; rw [hpc.1, hpc.2]
          rw [this]
          refine ⟨rfl, hq, ?_, ?_, ?_⟩
          · exact (post.parent q hql hqN).trans hpa
          · have := post.rep
            rw [hlq] at this
            exact this
          · rw [post.other_r (by omega)]
            refine RepA_congr rr _ _ hrr (fun x hx => ?_)
            have hxl : x ∉ l.toList := fun h => hdis x h hx
            have hxq : x ≠ q := fun e => hqr (e ▸ hx)
            have hxN : x ≠ NIL := ne_NIL_of_lt (RepA_lt _ _ _ hrr x hx)
            have a := post.child x hxl hxq
            exact ⟨a.1, a.2, post.parent x hxl hxN⟩
        · intro x
          simp only [toList_node, List.mem_append, List.mem_cons]
          rw [post.mem x]
          constructor
          · rintro (h | h | h)
            · exact ⟨Or.inl h.1, h.2⟩
            · exact ⟨Or.inr (Or.inl h), fun e => hpq (e.symm.trans h)⟩
            · exact ⟨Or.inr (Or.inr h), fun e => hdis _ hp (e ▸ h)⟩
          · rintro ⟨h | h | h, hne⟩
            · exact Or.inl ⟨h, hne⟩
            · exact Or.inr (Or.inl h)
            · exact Or.inr (Or.inr h)
        · exact ⟨fun x hx => hbl x ((post.mem x).1 hx).1, hbr, post.bst, hbstr⟩
        · exact post.text
        · exact post.mlen
        · exact post.mpos
        · intro x hx hxp
          simp only [toList_node, List.mem_append, List.mem_cons, not_or] at hx
          exact post.child x hx.1 hx.2.1
        · intro _; exact hpc.1
        · intro _; exact hpc.2
        · intro x hx hxN
          simp only [toList_node, List.mem_append, List.mem_cons, not_or] at hx
          exact post.parent x hx.1 hxN
        · exact post.gone
      · exact absurd hp hpq
      · -- in the right subtree
        obtain ⟨sp', rr', hdel, post⟩ := ihr fuel sp q 1
          (by rw [link_right _ _ _ (by omega)]; exact hrr) hbstr hp hqr hqN (fun h => by omega)
          (by omega)
        refine ⟨sp', Tree.node l q rr', hdel, ?_⟩
        have hpc := post.child par hpt.2.2 hpt.2.1
        have hlq : link sp' q 1 = sp'.rchild q := link_right _ _ _ (by omega)
        constructor
        · have : link sp' par cmp = q := by
            rw [← hq0]; unfold link; rw [hpc.1, hpc.2]
          rw [this]
          refine ⟨rfl, hq, ?_, ?_, ?_⟩
          · exact (post.parent q hqr hqN).trans hpa
          · rw [post.other_l (by omega)]
            refine RepA_congr l _ _ hl (fun x hx => ?_)
            have hxr : x ∉ rr.toList := hdis x hx
            have hxq : x ≠ q := fun e => hql (e ▸ hx)
            have hxN : x ≠ NIL := ne_NIL_of_lt (RepA_lt _ _ _ hl x hx)
            have a := post.child x hxr hxq
            exact ⟨a.1, a.2, post.parent x hxr hxN⟩
          · have := post.rep
            rw [hlq] at this
            exact this
        · intro x
          simp only [toList_node, List.mem_append, List.mem_cons]
          rw [post.mem x]
          constructor
          · rintro (h | h | h)
            · exact ⟨Or.inl h, fun e => hdis _ h (e ▸ hp)⟩
            · exact ⟨Or.inr (Or.inl h), fun e => hpq (e.symm.trans h)⟩
            · exact ⟨Or.inr (Or.inr h.1), h.2⟩
          · rintro ⟨h | h | h, hne⟩
            · exact Or.inl h
            · exact Or.inr (Or.inl h)
            · exact Or.inr (Or.inr ⟨h, hne⟩)
        · exact ⟨hbl, fun x hx => hbr x ((post.mem x).1 hx).1, hbstl, post.bst⟩
        · exact post.text
        · exact post.mlen
        · exact post.mpos
        · intro x hx hxp
          simp only [toList_node, List.mem_append, List.mem_cons, not_or] at hx
          exact post.child x hx.2.2 hx.2.1
        · intro _; exact hpc.1
        · intro _; exact hpc.2
        · intro x hx hxN
          simp only [toList_node, List.mem_append, List.mem_cons, not_or] at hx
          exact post.parent x hx.2.2 hxN
        · exact post.gone

end LZSS

namespace LZSS

/-! ## The forest of 256 trees -/

theorem length_le_of_nodup_lt (l : List Nat) (n : Nat) (hn : l.Nodup) (h : ∀ x ∈ l, x < n) :
    l.length ≤ n := by
  have h1 : l.toFinset ⊆ Finset.range n := by
    intro x hx
    rw [List.mem_toFinset] at hx
    exact Finset.mem_range.2 (h x hx)
  have h2 := Finset.card_le_card h1
  rw [List.toFinset_card_of_nodup hn, Finset.card_range] at h2
  exact h2

theorem Forest.size_le {sp : encode_state} {T : Nat → Tree} (h : Forest sp T) (c : Nat)
    (hc : c < 256) : (T c).toList.length ≤ N :=
  length_le_of_nodup_lt _ _ (Bst_nodup _ _ (h.bst c hc)) (RepA_lt _ _ _ (h.rep c hc))

theorem Forest.lt {sp : encode_state} {T : Nat → Tree} (h : Forest sp T) {x : Nat}
    (hx : Member T x) : x < N := by
  obtain ⟨c, hc, hx⟩ := hx
  exact RepA_lt _ _ _ (h.rep c hc) x hx

theorem Forest.parent_ne {sp : encode_state} {T : Nat → Tree} (h : Forest sp T) {x : Nat}
    (hx : Member T x) : sp.parent x ≠ NIL := by
  obtain ⟨c, hc, hx⟩ := hx
  exact RepA_parent_ne _ _ _ (h.rep c hc) (by unfold NIL; omega) x hx

theorem Forest.member_iff {sp : encode_state} {T : Nat → Tree} (h : Forest sp T) {x : Nat}
    (hx : x < N) : Member T x ↔ sp.parent x ≠ NIL :=
  ⟨fun hm => h.parent_ne hm, fun hp => h.live x hx hp⟩

theorem Forest.tree_of {sp : encode_state} {T : Nat → Tree} (h : Forest sp T) {x c : Nat}
    (hc : c < 256) (hx : x ∈ (T c).toList) : c = sp.text_buf x :=
  (h.first c hc x hx).symm

/-- The function `insert_node` on a state that satisfies the search-tree invariant. -/
theorem insert_node_forest (sp : encode_state) (T : Nat → Tree) (r : Nat)
    (hF : Forest sp T) (hr : r < N) (hb : sp.text_buf r < 256) (hnm : ¬ Member T r) :
    ∃ sp' T', insert_node sp r = some sp' ∧ Forest sp' T' ∧
      sp'.text_buf = sp.text_buf ∧
      (∀ x, Member T' x ↔ x = r ∨ (Member T x ∧ ¬ keyEq sp.text_buf x r)) ∧
      sp'.match_length ≤ F ∧
      (∀ x, Member T x → sp.text_buf x = sp.text_buf r →
        lcp sp.text_buf r x ≤ sp'.match_length) ∧
      (sp'.match_length = 0 ∨
        (Member T sp'.match_position ∧
          sp.text_buf sp'.match_position = sp.text_buf r ∧
          lcp sp.text_buf r sp'.match_position = sp'.match_length)) := by
  have hrc : r ∉ (T (sp.text_buf r)).toList := fun h => hnm ⟨_, hb, h⟩
  have hlt := RepA_lt _ _ _ (hF.rep _ hb)
  have hpar : N + 1 + sp.text_buf r ∉ (T (sp.text_buf r)).toList := by
    intro h
    have := hlt _ h
    omega
  obtain ⟨sp', t', hins, post⟩ := insert_loop_spec r hr (T (sp.text_buf r)) (N + 1)
    { sp with lchild := upd sp.lchild r NIL, rchild := upd sp.rchild r NIL, match_length := 0 }
    (N + 1 + sp.text_buf r) 1
    (by
      rw [link_right _ _ _ (by omega)]
      show RepA _ _ _ _ (upd sp.rchild r NIL (N + 1 + sp.text_buf r)) _
      rw [upd_other _ _ _ _ (by omega)]
      refine RepA_congr _ _ _ (hF.rep _ hb) (fun x hx => ?_)
      have : x ≠ r := fun e => hrc (e ▸ hx)
      exact ⟨upd_other _ _ _ _ this, upd_other _ _ _ _ this, rfl⟩)
    (hF.bst _ hb) (fun x hx => hF.first _ hb x hx) hrc hpar (by omega)
    (by unfold NIL; omega) (fun h => by omega) (upd_same _ _ _) (upd_same _ _ _)
    (by show 0 < F; decide) (by have := hF.size_le _ hb; omega)
  obtain ⟨T', hT1, hT2⟩ : ∃ T' : Nat → Tree, T' (sp.text_buf r) = t' ∧
      ∀ c, c ≠ sp.text_buf r → T' c = T c :=
    ⟨fun c => if c = sp.text_buf r then t' else T c, by simp, fun c hc => by simp [hc]⟩
  refine ⟨sp', T', hins, ?_, post.text, ?_, post.len_le, ?_, ?_⟩
  · -- the invariant
    constructor
    · intro c hc
      by_cases hcc : c = sp.text_buf r
      · subst hcc
        rw [hT1]
        have := post.rep
        rw [link_right _ _ _ (by omega)] at this
        exact this
      · rw [hT2 c hcc]
        have hroot : N + 1 + c ∉ (T (sp.text_buf r)).toList := by
          intro h
          have := hlt _ h
          omega
        have h1 := post.child (N + 1 + c) hroot (by omega) (by omega)
        rw [h1.2]
        show RepA _ _ _ _ (upd sp.rchild r NIL (N + 1 + c)) _
        rw [upd_other _ _ _ _ (by omega)]
        refine RepA_congr _ _ _ (hF.rep c hc) (fun x hx => ?_)
        have hxN := RepA_lt _ _ _ (hF.rep c hc) x hx
        have hxr : x ≠ r := fun e => hnm ⟨c, hc, e ▸ hx⟩
        have hxt : x ∉ (T (sp.text_buf r)).toList := by
          intro h
          have e1 := hF.first c hc x hx
          have e2 := hF.first _ hb x h
          exact hcc (e1.symm.trans e2)
        have h2 := post.child x hxt hxr (by omega)
        have h3 := post.parent x hxt hxr (ne_NIL_of_lt hxN)
        exact ⟨h2.1.trans (upd_other _ _ _ _ hxr), h2.2.trans (upd_other _ _ _ _ hxr), h3⟩
    · intro c hc
      rw [post.text]
      by_cases hcc : c = sp.text_buf r
      · rw [hcc, hT1]; exact post.bst
      · rw [hT2 c hcc]; exact hF.bst c hc
    · intro c hc x hx
      rw [post.text]
      by_cases hcc : c = sp.text_buf r
      · rw [hcc, hT1] at hx
        rcases (post.mem x).1 hx with h | h
        · rw [h, hcc]
        · rw [hcc]; exact hF.first _ hb x h.1
      · rw [hT2 c hcc] at hx
        exact hF.first c hc x hx
    · intro p hp hpar'
      by_cases hpr : p = r
      · exact ⟨sp.text_buf r, hb, by rw [hT1]; exact (post.mem p).2 (Or.inl hpr)⟩
      · by_cases hpt : p ∈ (T (sp.text_buf r)).toList
        · refine ⟨sp.text_buf r, hb, ?_⟩
          rw [hT1]
          refine (post.mem p).2 (Or.inr ⟨hpt, fun hk => hpar' (post.removed p hpt hk)⟩)
        · have h3 := post.parent p hpt hpr (ne_NIL_of_lt hp)
          rw [h3] at hpar'
          obtain ⟨c, hc, hx⟩ := hF.live p hp hpar'
          refine ⟨c, hc, ?_⟩
          have hcc : c ≠ sp.text_buf r := fun e => hpt (e ▸ hx)
          rw [hT2 c hcc]
          exact hx
  · -- the members
    intro x
    constructor
    · rintro ⟨c, hc, hx⟩
      by_cases hcc : c = sp.text_buf r
      · rw [hcc, hT1] at hx
        rcases (post.mem x).1 hx with h | h
        · exact Or.inl h
        · exact Or.inr ⟨⟨_, hb, h.1⟩, h.2⟩
      · rw [hT2 c hcc] at hx
        refine Or.inr ⟨⟨c, hc, hx⟩, fun hk => hcc ?_⟩
        have := hk 0 (by decide)
        simp only [Nat.add_zero] at this
        rw [← this]
        exact (hF.first c hc x hx).symm
    · rintro (h | ⟨⟨c, hc, hx⟩, hk⟩)
      · exact ⟨sp.text_buf r, hb, by rw [hT1]; exact (post.mem x).2 (Or.inl h)⟩
      · by_cases hcc : c = sp.text_buf r
        · subst hcc
          exact ⟨_, hc, by rw [hT1]; exact (post.mem x).2 (Or.inr ⟨hx, hk⟩)⟩
        · exact ⟨c, hc, by rw [hT2 c hcc]; exact hx⟩
  · -- the match is the longest
    rintro x ⟨c, hc, hx⟩ hxr
    have hcc : c = sp.text_buf r := (hF.first c hc x hx).symm.trans hxr
    subst hcc
    exact post.len_max x hx
  · rcases post.found with ⟨h1, _⟩ | ⟨h1, h2⟩
    · exact Or.inl h1
    · exact Or.inr ⟨⟨_, hb, h1⟩, hF.first _ hb _ h1, h2⟩

/-- The function `delete_node` on a state that satisfies the search-tree invariant. -/
theorem delete_node_forest (sp : encode_state) (T : Nat → Tree) (p : Nat)
    (hF : Forest sp T) (hp : p < N) :
    ∃ sp' T', delete_node sp p = some sp' ∧ Forest sp' T' ∧
      sp'.text_buf = sp.text_buf ∧ sp'.match_length = sp.match_length ∧
      sp'.match_position = sp.match_position ∧
      (∀ x, Member T' x ↔ Member T x ∧ x ≠ p) ∧
      sp'.parent p = NIL ∧ (sp.parent p = NIL → sp' = sp) := by
  by_cases hpar : sp.parent p = NIL
  · refine ⟨sp, T, ?_, hF, rfl, rfl, rfl, ?_, hpar, fun _ => rfl⟩
    · unfold delete_node delete_node_fuel
      rw [if_pos hpar]
    · intro x
      constructor
      · intro hx
        exact ⟨hx, fun e => hF.parent_ne hx (e ▸ hpar)⟩
      · exact fun h => h.1
  · obtain ⟨c, hc, hpc⟩ := hF.live p hp hpar
    have hlt := RepA_lt _ _ _ (hF.rep c hc)
    have hroot : N + 1 + c ∉ (T c).toList := by
      intro h
      have := hlt _ h
      omega
    obtain ⟨sp', t', hdel, post⟩ := delete_spec p (T c) N sp (N + 1 + c) 1
      (by rw [link_right _ _ _ (by omega)]; exact hF.rep c hc) (hF.bst c hc) hpc hroot
      (by unfold NIL; omega) (fun h => by omega) (hF.size_le c hc)
    obtain ⟨T', hT1, hT2⟩ : ∃ T' : Nat → Tree, T' c = t' ∧ ∀ c', c' ≠ c → T' c' = T c' :=
      ⟨fun c' => if c' = c then t' else T c', by simp, fun c' hc' => by simp [hc']⟩
    refine ⟨sp', T', hdel, ?_, post.text, post.mlen, post.mpos, ?_, post.gone,
      fun h => absurd h hpar⟩
    · constructor
      · intro c' hc'
        by_cases hcc : c' = c
        · subst hcc
          rw [hT1]
          have := post.rep
          rw [link_right _ _ _ (by omega)] at this
          exact this
        · rw [hT2 c' hcc]
          have hr' : N + 1 + c' ∉ (T c).toList := by
            intro h
            have := hlt _ h
            omega
          have h1 := post.child (N + 1 + c') hr' (by omega)
          rw [h1.2]
          refine RepA_congr _ _ _ (hF.rep c' hc') (fun x hx => ?_)
          have hxN := RepA_lt _ _ _ (hF.rep c' hc') x hx
          have hxt : x ∉ (T c).toList := by
            intro h
            have e1 := hF.first c' hc' x hx
            have e2 := hF.first c hc x h
            exact hcc (e1.symm.trans e2)
          have h2 := post.child x hxt (by omega)
          exact ⟨h2.1, h2.2, post.parent x hxt (ne_NIL_of_lt hxN)⟩
      · intro c' hc'
        rw [post.text]
        by_cases hcc : c' = c
        · rw [hcc, hT1]; exact post.bst
        · rw [hT2 c' hcc]; exact hF.bst c' hc'
      · intro c' hc' x hx
        rw [post.text]
        by_cases hcc : c' = c
        · rw [hcc, hT1] at hx
          rw [hcc]
          exact hF.first c hc x ((post.mem x).1 hx).1
        · rw [hT2 c' hcc] at hx
          exact hF.first c' hc' x hx
      · intro q hq hparq
        by_cases hqp : q = p
        · rw [hqp] at hparq
          exact absurd post.gone hparq
        · by_cases hqt : q ∈ (T c).toList
          · exact ⟨c, hc, by rw [hT1]; exact (post.mem q).2 ⟨hqt, hqp⟩⟩
          · rw [post.parent q hqt (ne_NIL_of_lt hq)] at hparq
            obtain ⟨c', hc', hx⟩ := hF.live q hq hparq
            have hcc : c' ≠ c := fun e => hqt (e ▸ hx)
            exact ⟨c', hc', by rw [hT2 c' hcc]; exact hx⟩
    · intro x
      constructor
      · rintro ⟨c', hc', hx⟩
        by_cases hcc : c' = c
        · rw [hcc, hT1] at hx
          have := (post.mem x).1 hx
          exact ⟨⟨c, hc, this.1⟩, this.2⟩
        · rw [hT2 c' hcc] at hx
          refine ⟨⟨c', hc', hx⟩, fun e => hcc ?_⟩
          have e1 := hF.first c' hc' x hx
          have e2 := hF.first c hc p hpc
          rw [e] at e1
          exact e1.symm.trans e2
      · rintro ⟨⟨c', hc', hx⟩, hne⟩
        by_cases hcc : c' = c
        · subst hcc
          exact ⟨c', hc', by rw [hT1]; exact (post.mem x).2 ⟨hx, hne⟩⟩
        · exact ⟨c', hc', by rw [hT2 c' hcc]; exact hx⟩

end LZSS

namespace LZSS

/-! ## Runs of the decoder loop -/

theorem decompress_loop_mono (d : Nat) : ∀ (fuel : Nat) (st : dec_state) (out : List Nat),
    decompress_loop d fuel st = some out → decompress_loop d (fuel + 1) st = some out := by
  intro fuel
  induction fuel with
  | zero => intro st out h; simp [decompress_loop] at h
  | succ fuel ih =>
    intro st out h
    rw [decompress_loop_succ] at h ⊢
    cases h1 : dec_reload st with
    | none => rw [h1] at h; exact h
    | some st1 =>
      rw [h1] at h
      dsimp only at h ⊢
      cases h2 : dec_unit d st1 with
      | none => rw [h2] at h; exact h
      | some st2 =>
        rw [h2] at h
        dsimp only at h ⊢
        exact ih st2 out h

theorem decompress_loop_mono_le (d : Nat) (st : dec_state) (out : List Nat) (f f' : Nat)
    (hf : f ≤ f') (h : decompress_loop d f st = some out) :
    decompress_loop d f' st = some out := by
  induction hf with
  | refl => exact h
  | step _ ih => exact decompress_loop_mono d _ st out ih

theorem Decodes.unique {d : Nat} {st : dec_state} {out out' : List Nat}
    (h : Decodes d st out) (h' : Decodes d st out') : out = out' := by
  obtain ⟨f, hf⟩ := h
  obtain ⟨f', hf'⟩ := h'
  have a := decompress_loop_mono_le d st out f (max f f') (le_max_left _ _) hf
  have b := decompress_loop_mono_le d st out' f' (max f f') (le_max_right _ _) hf'
  rw [a] at b
  exact Option.some.inj b

theorem Decodes.exists (d : Nat) (st : dec_state) : ∃ out, Decodes d st out := by
  obtain ⟨out, h⟩ := decompress_loop_terminates d (st.src.length + 1) st (le_refl _)
  exact ⟨out, _, h⟩

theorem Decodes.grows {d : Nat} {st : dec_state} {out : List Nat} (h : Decodes d st out) :
    st.dst <+: out := by
  obtain ⟨f, hf⟩ := h
  exact decompress_loop_grows d f st out hf

/-- A run of the loop started on entry is the result of `decompress_lzss`. -/
theorem Decodes.lzss {d : Nat} {stack : Nat → Nat} {src out : List Nat}
    (h : Decodes d (dec_init stack src) out) :
    decompress_lzss stack d src = some (int_cast out.length, out) := by
  obtain ⟨out', h'⟩ := decompress_loop_terminates d (src.length + 1) (dec_init stack src)
    (le_refl _)
  have : out = out' := h.unique ⟨_, h'⟩
  subst this
  unfold decompress_lzss
  rw [h']
  rfl

theorem Decodes.step {d : Nat} {st st1 st2 : dec_state} {out : List Nat}
    (h1 : dec_reload st = some st1) (h2 : dec_unit d st1 = some st2)
    (h : Decodes d st2 out) : Decodes d st out := by
  obtain ⟨f, hf⟩ := h
  refine ⟨f + 1, ?_⟩
  rw [decompress_loop_succ, h1]
  dsimp only
  rw [h2]
  exact hf

/-- With the source used up the loop is left at once. -/
theorem Decodes.nil (d : Nat) (st : dec_state) (h : st.src = []) : Decodes d st st.dst := by
  refine ⟨1, ?_⟩
  rw [decompress_loop_succ]
  cases h1 : dec_reload st with
  | none => rfl
  | some st1 =>
    dsimp only
    have hs : st1.src = [] := by
      have := dec_reload_src h1
      rw [h] at this
      exact List.eq_nil_of_length_eq_zero (by simpa using this)
    cases h2 : dec_unit d st1 with
    | none => rfl
    | some st2 =>
      have := dec_unit_src h2
      rw [hs] at this
      simp at this

end LZSS

namespace LZSS

/-! ## Flag bits -/

set_option maxRecDepth 100000 in
theorem flags_bits : ∀ fb, fb < 256 → ∀ i, i < 8 →
    ((fb ||| 0xFF00) >>> i) &&& 0x100 ≠ 0 ∧ ((fb ||| 0xFF00) >>> i) &&& 1 = (fb / 2 ^ i) % 2 := by
  decide

set_option maxRecDepth 100000 in
theorem flags_end : ∀ fb, fb < 256 → (((fb ||| 0xFF00) >>> 7) >>> 1) &&& 0x100 = 0 := by
  decide

theorem group_flag_lt : ∀ g : List Event, group_flag g < 2 ^ g.length := by
  intro g
  induction g with
  | nil => simp [group_flag]
  | cons u us ih =>
    have hu : unit_flag u ≤ 1 := by cases u <;> simp [unit_flag]
    simp only [group_flag, List.length_cons, pow_succ]
    omega

theorem group_flag_bit : ∀ (g : List Event) (i : Nat) (h : i < g.length),
    (group_flag g / 2 ^ i) % 2 = unit_flag (g.get ⟨i, h⟩) := by
  intro g
  induction g with
  | nil => intro i h; simp at h
  | cons u us ih =>
    intro i h
    have hu : unit_flag u ≤ 1 := by cases u <;> simp [unit_flag]
    cases i with
    | zero =>
      show (group_flag (u :: us) / 2 ^ 0) % 2 = unit_flag u
      simp only [group_flag, pow_zero, Nat.div_one]
      omega
    | succ i =>
      show (group_flag (u :: us) / 2 ^ (i + 1)) % 2 = unit_flag (us.get ⟨i, by simpa using h⟩)
      rw [← ih i (by simpa using h)]
      have e : group_flag (u :: us) / 2 ^ (i + 1) = group_flag us / 2 ^ i := by
        simp only [group_flag]
        rw [pow_succ, Nat.mul_comm (2 ^ i) 2, ← Nat.div_div_eq_div_mul]
        congr 1
        omega
      rw [e]

theorem group_flag_append (g : List Event) (u : Event) :
    group_flag (g ++ [u]) = group_flag g + unit_flag u * 2 ^ g.length := by
  induction g with
  | nil => simp [group_flag]
  | cons v vs ih =>
    show group_flag (v :: (vs ++ [u])) = group_flag (v :: vs) + unit_flag u * 2 ^ (vs.length + 1)
    simp only [group_flag, ih, pow_succ]
    ring

theorem group_bytes_append (g : List Event) (u : Event) :
    group_bytes (g ++ [u]) = group_bytes g ++ unit_bytes u := by
  induction g with
  | nil => simp [group_bytes]
  | cons v vs ih => simp [group_bytes, ih]

/-! ## Replay does not look at the flags or the source -/

theorem SameWin.refl (a : dec_state) : SameWin a a := ⟨rfl, rfl, rfl⟩

theorem SameWin.symm {a b : dec_state} (h : SameWin a b) : SameWin b a :=
  ⟨h.1.symm, h.2.1.symm, h.2.2.symm⟩

theorem SameWin.trans {a b c : dec_state} (h : SameWin a b) (h' : SameWin b c) : SameWin a c :=
  ⟨h.1.trans h'.1, h.2.1.trans h'.2.1, h.2.2.trans h'.2.2⟩

theorem copy_loop_same (d i : Nat) : ∀ (n k : Nat) (a b : dec_state), SameWin a b →
    SameWin (copy_loop d i n k a) (copy_loop d i n k b) := by
  intro n
  induction n with
  | zero => intro k a b h; simpa [copy_loop] using h
  | succ n ih =>
    intro k a b h
    obtain ⟨h1, h2, h3⟩ := h
    rw [copy_loop, copy_loop, h1, h2, h3]
    split
    · exact ih _ _ _ ⟨rfl, rfl, rfl⟩
    · exact ⟨h1, h2, h3⟩

theorem replay_unit_same (d : Nat) (a b : dec_state) (u : Event) (h : SameWin a b) :
    SameWin (replay_unit d a u) (replay_unit d b u) := by
  cases u with
  | literal c =>
    obtain ⟨h1, h2, h3⟩ := h
    simp only [replay_unit, h1, h2, h3]
    exact ⟨rfl, rfl, rfl⟩
  | pair mp ml => exact copy_loop_same d mp ml 0 a b h
  | inserted _ _ _ => exact h
  | deleted _ _ _ => exact h
  | stored _ _ _ => exact h

theorem replay_same (d : Nat) : ∀ (us : List Event) (a b : dec_state), SameWin a b →
    SameWin (replay d a us) (replay d b us) := by
  intro us
  induction us with
  | nil => intro a b h; exact h
  | cons u us ih =>
    intro a b h
    exact ih _ _ (replay_unit_same d a b u h)

theorem replay_cons (d : Nat) (st : dec_state) (u : Event) (us : List Event) :
    replay d st (u :: us) = replay d (replay_unit d st u) us := rfl

theorem replay_append (d : Nat) (st : dec_state) (us : List Event) (u : Event) :
    replay d st (us ++ [u]) = replay_unit d (replay d st us) u := by
  simp [replay, List.foldl_append]

theorem replay_unit_grows (d : Nat) (st : dec_state) (u : Event) :
    st.dst <+: (replay_unit d st u).dst := by
  cases u with
  | literal c => exact List.prefix_append _ _
  | pair mp ml => exact copy_loop_grows d mp ml 0 st
  | inserted _ _ _ => exact List.prefix_refl _
  | deleted _ _ _ => exact List.prefix_refl _
  | stored _ _ _ => exact List.prefix_refl _

theorem replay_grows (d : Nat) : ∀ (us : List Event) (st : dec_state),
    st.dst <+: (replay d st us).dst := by
  intro us
  induction us with
  | nil => intro st; exact List.prefix_refl _
  | cons u us ih => intro st; exact (replay_unit_grows d st u).trans (ih _)

end LZSS

namespace LZSS

/-! ## The decoder on a group of units -/

theorem unit_step (d : Nat) (R : dec_state) (u : Event) (rest : List Nat)
    (hu : UnitOk u) (hflag : R.flags &&& 1 = unit_flag u) (hsrc : R.src = unit_bytes u ++ rest)
    (hroom : (replay_unit d R u).dst.length ≤ d) :
    ∃ S2, dec_unit d R = some S2 ∧ SameWin S2 (replay_unit d R u) ∧ S2.flags = R.flags ∧
      S2.src = rest := by
  cases u with
  | literal c =>
    simp only [unit_flag] at hflag
    simp only [unit_bytes, List.singleton_append] at hsrc
    simp only [replay_unit, List.length_append, List.length_singleton] at hroom
    unfold dec_unit
    rw [if_pos (by rw [hflag]; decide), hsrc]
    dsimp only
    rw [if_pos (by omega)]
    exact ⟨_, rfl, ⟨rfl, rfl, rfl⟩, rfl, rfl⟩
  | pair mp ml =>
    simp only [unit_flag] at hflag
    simp only [unit_bytes, List.cons_append, List.nil_append] at hsrc
    obtain ⟨h1, h2, h3⟩ := hu
    obtain ⟨e1, e2⟩ := pair_roundtrip mp ml h1 h2 h3
    unfold dec_unit
    rw [if_neg (by rw [hflag]; decide), hsrc]
    dsimp only
    rw [e1, e2]
    refine ⟨_, rfl, ?_, ?_, ?_⟩
    · exact copy_loop_same d mp ml 0 _ _ ⟨rfl, rfl, rfl⟩
    · rw [(copy_loop_src _ _ _ _ _).2]
    · rw [(copy_loop_src _ _ _ _ _).1]
  | inserted _ _ _ => exact absurd hu (by simp [UnitOk])
  | deleted _ _ _ => exact absurd hu (by simp [UnitOk])
  | stored _ _ _ => exact absurd hu (by simp [UnitOk])

/-- The units of a group after the first: each iteration shifts the flags and
decodes one unit. -/
theorem decode_tail (d fb : Nat) (rest : List Nat) (hfb : fb < 256) (out : List Nat) :
    ∀ (us : List Event) (i : Nat) (S : dec_state), 1 ≤ i → i + us.length ≤ 8 →
    S.flags = (fb ||| 0xFF00) >>> (i - 1) →
    S.src = group_bytes us ++ rest →
    (∀ j (h : j < us.length), (fb / 2 ^ (i + j)) % 2 = unit_flag (us.get ⟨j, h⟩)) →
    (∀ u ∈ us, UnitOk u) →
    (replay d S us).dst.length ≤ d →
    (∀ S', SameWin S' (replay d S us) →
      S'.flags = (fb ||| 0xFF00) >>> (i + us.length - 1) → S'.src = rest →
      Decodes d S' out) →
    Decodes d S out := by
  intro us
  induction us with
  | nil =>
    intro i S _ _ hfl hsrc _ _ _ hfin
    exact hfin S (SameWin.refl _) (by simpa using hfl) (by simpa [group_bytes] using hsrc)
  | cons u us ih =>
    intro i S hi hlen hfl hsrc hbits hok hroom hfin
    simp only [List.length_cons] at hlen
    obtain ⟨b1, b2⟩ := flags_bits fb hfb i (by omega)
    have hsh : S.flags >>> 1 = (fb ||| 0xFF00) >>> i := by
      rw [hfl, ← Nat.shiftRight_add]
      congr 1
      omega
    have hrel : dec_reload S = some { S with flags := S.flags >>> 1 } := by
      unfold dec_reload
      rw [if_neg (by rw [hsh]; exact b1)]
    have hsw : SameWin { S with flags := S.flags >>> 1 } S := ⟨rfl, rfl, rfl⟩
    have hsw1 := replay_unit_same d _ _ u hsw
    have hsw2 := replay_same d us _ _ hsw1
    have hb0 : fb / 2 ^ i % 2 = unit_flag u := hbits 0 (by simp)
    have hfinal : (replay d S (u :: us)) = replay d (replay_unit d S u) us := rfl
    obtain ⟨S2, hS2, sw, hfl2, hsrc2⟩ := unit_step d { S with flags := S.flags >>> 1 } u
      (group_bytes us ++ rest) (hok u (by simp))
      (by show (S.flags >>> 1) &&& 1 = unit_flag u; rw [hsh, b2, hb0])
      (by show S.src = _; rw [hsrc]; simp [group_bytes])
      (by
        rw [hsw1.2.2]
        have := (replay_grows d us (replay_unit d S u)).length_le
        rw [← hfinal] at this
        omega)
    refine Decodes.step hrel hS2 ?_
    have sw3 : SameWin (replay d S2 us) (replay d S (u :: us)) :=
      (replay_same d us _ _ sw).trans hsw2
    refine ih (i + 1) S2 (by omega) (by omega) ?_ hsrc2 ?_ (fun v hv => hok v (by simp [hv]))
      (by rw [sw3.2.2]; exact hroom) ?_
    · rw [hfl2]
      exact hsh
    · intro j h
      have : fb / 2 ^ (i + (j + 1)) % 2 = unit_flag (us.get ⟨j, h⟩) :=
        hbits (j + 1) (by simpa using h)
      rw [show i + 1 + j = i + (j + 1) by omega]
      exact this
    · intro S' hS' hfl' hsrc'
      refine hfin S' (hS'.trans sw3) ?_ hsrc'
      rw [hfl']
      congr 1
      simp only [List.length_cons]
      omega

/-- A whole group: the flag byte is read, then the units are decoded. -/
theorem decode_group (d : Nat) (rest : List Nat) (out : List Nat) (g : List Event)
    (D0 : dec_state) (hne : g ≠ []) (hlen : g.length ≤ 8)
    (hrel : (D0.flags >>> 1) &&& 0x100 = 0)
    (hsrc : D0.src = group_flag g :: (group_bytes g ++ rest))
    (hok : ∀ u ∈ g, UnitOk u)
    (hroom : (replay d D0 g).dst.length ≤ d)
    (hfin : ∀ S', SameWin S' (replay d D0 g) →
      S'.flags = (group_flag g ||| 0xFF00) >>> (g.length - 1) → S'.src = rest →
      Decodes d S' out) :
    Decodes d D0 out := by
  obtain ⟨u, us, rfl⟩ := List.exists_cons_of_ne_nil hne
  simp only [List.length_cons] at hlen
  have hfb : group_flag (u :: us) < 256 := by
    have := group_flag_lt (u :: us)
    have h2 : 2 ^ (u :: us).length ≤ 2 ^ 8 := Nat.pow_le_pow_right (by omega) (by simpa using hlen)
    omega
  obtain ⟨b1, b2⟩ := flags_bits _ hfb 0 (by omega)
  have hrel' : dec_reload D0 =
      some { D0 with flags := group_flag (u :: us) ||| 0xFF00,
                     src := group_bytes (u :: us) ++ rest } := by
    unfold dec_reload
    rw [if_pos hrel, hsrc]
  have hsw : SameWin { D0 with flags := group_flag (u :: us) ||| 0xFF00,
                               src := group_bytes (u :: us) ++ rest } D0 := ⟨rfl, rfl, rfl⟩
  have hsw1 := replay_unit_same d _ _ u hsw
  have hsw2 := replay_same d us _ _ hsw1
  have hb0 : group_flag (u :: us) / 2 ^ 0 % 2 = unit_flag u :=
    group_flag_bit (u :: us) 0 (by simp)
  simp only [pow_zero, Nat.div_one] at hb0
  have hfinal : (replay d D0 (u :: us)) = replay d (replay_unit d D0 u) us := rfl
  obtain ⟨S2, hS2, sw, hfl2, hsrc2⟩ := unit_step d
    { D0 with flags := group_flag (u :: us) ||| 0xFF00, src := group_bytes (u :: us) ++ rest } u
    (group_bytes us ++ rest) (hok u (by simp))
    (by
      show (group_flag (u :: us) ||| 0xFF00) &&& 1 = unit_flag u
      have := b2
      simp only [Nat.shiftRight_zero, pow_zero, Nat.div_one] at this
      rw [this, hb0])
    (by show group_bytes (u :: us) ++ rest = _; simp [group_bytes])
    (by
      rw [hsw1.2.2]
      have := (replay_grows d us (replay_unit d D0 u)).length_le
      rw [← hfinal] at this
      omega)
  refine Decodes.step hrel' hS2 ?_
  have sw3 : SameWin (replay d S2 us) (replay d D0 (u :: us)) :=
    (replay_same d us _ _ sw).trans hsw2
  refine decode_tail d (group_flag (u :: us)) rest hfb out us 1 S2 (le_refl _) (by omega) ?_
    hsrc2 ?_ (fun v hv => hok v (by simp [hv])) (by rw [sw3.2.2]; exact hroom) ?_
  · rw [hfl2]
    rfl
  · intro j h
    have : group_flag (u :: us) / 2 ^ (j + 1) % 2 = unit_flag (us.get ⟨j, h⟩) :=
      group_flag_bit (u :: us) (j + 1) (by simpa using h)
    rw [show 1 + j = j + 1 by omega]
    exact this
  · intro S' hS' hfl' hsrc'
    refine hfin S' (hS'.trans sw3) ?_ hsrc'
    rw [hfl']
    congr 1
    simp only [List.length_cons]
    omega

end LZSS

namespace LZSS

/-! ## The tree operations in terms of the state alone -/

theorem lcp_eq_zero {tb : Nat → Nat} {p q : Nat} (h : tb p ≠ tb q) : lcp tb p q = 0 := by
  by_contra hne
  have := lcp_agree tb p q 0 (by omega)
  simp only [Nat.add_zero] at this
  exact h this

theorem Forest.of_eq {sp sp' : encode_state} {T : Nat → Tree} (h : Forest sp T)
    (h1 : sp'.lchild = sp.lchild) (h2 : sp'.rchild = sp.rchild) (h3 : sp'.parent = sp.parent)
    (h4 : sp'.text_buf = sp.text_buf) : Forest sp' T := by
  constructor
  · intro c hc
    show RepA sp'.lchild sp'.rchild sp'.parent _ (sp'.rchild _) _
    rw [h1, h2, h3]
    exact h.rep c hc
  · intro c hc; rw [h4]; exact h.bst c hc
  · intro c hc x hx; rw [h4]; exact h.first c hc x hx
  · intro p hp hpar; rw [h3] at hpar; exact h.live p hp hpar

theorem keyLt_congr {tb tb' : Nat → Nat} {p q : Nat}
    (hp : ∀ i, i < F → tb' (p + i) = tb (p + i)) (hq : ∀ i, i < F → tb' (q + i) = tb (q + i))
    (h : keyLt tb p q) : keyLt tb' p q := by
  obtain ⟨i, hi, e, l⟩ := h
  refine ⟨i, hi, ?_, ?_⟩
  · intro j hj
    rw [hp j (by omega), hq j (by omega)]
    exact e j hj
  · rw [hp i hi, hq i hi]
    exact l

theorem Bst_congr {tb tb' : Nat → Nat} : ∀ (t : Tree),
    (∀ x ∈ t.toList, ∀ i, i < F → tb' (x + i) = tb (x + i)) → Bst tb t → Bst tb' t := by
  intro t
  induction t with
  | leaf => intro _ _; trivial
  | node l v r ihl ihr =>
    intro hk h
    obtain ⟨hl, hr, bl, br⟩ := h
    have hv := hk v (by simp)
    refine ⟨?_, ?_, ihl (fun x hx => hk x (by simp [hx])) bl,
      ihr (fun x hx => hk x (by simp [hx])) br⟩
    · intro x hx
      exact keyLt_congr (hk x (by simp [hx])) hv (hl x hx)
    · intro x hx
      exact keyLt_congr hv (hk x (by simp [hx])) (hr x hx)

/-- A store into the ring buffer that leaves the keys of all members as they
are keeps the invariant. -/
theorem Forest.store {sp : encode_state} {T : Nat → Tree} (h : Forest sp T) (tb' : Nat → Nat)
    (hk : ∀ p, p < N → sp.parent p ≠ NIL → ∀ i, i < F → tb' (p + i) = sp.text_buf (p + i)) :
    Forest { sp with text_buf := tb' } T := by
  have hm : ∀ c, c < 256 → ∀ x ∈ (T c).toList, ∀ i, i < F → tb' (x + i) = sp.text_buf (x + i) :=
    fun c hc x hx => hk x (h.lt ⟨c, hc, hx⟩) (h.parent_ne ⟨c, hc, hx⟩)
  constructor
  · exact h.rep
  · intro c hc
    exact Bst_congr _ (hm c hc) (h.bst c hc)
  · intro c hc x hx
    have := hm c hc x hx 0 (by decide)
    simp only [Nat.add_zero] at this
    show tb' x = c
    rw [this]
    exact h.first c hc x hx
  · exact h.live

theorem insert_node_ok (sp : encode_state) (r : Nat) (hF : ∃ T, Forest sp T) (hr : r < N)
    (hb : sp.text_buf r < 256) (hnl : sp.parent r = NIL) :
    ∃ sp', insert_node sp r = some sp' ∧ EventOk (Event.inserted sp r sp') := by
  obtain ⟨T, hT⟩ := hF
  have hnm : ¬ Member T r := fun h => hT.parent_ne h hnl
  obtain ⟨sp', T', hins, hT', htext, hmem, hle, hmax, hfound⟩ :=
    insert_node_forest sp T r hT hr hb hnm
  refine ⟨sp', hins, hins, hb, hr, ⟨T, hT⟩, ⟨T', hT'⟩, hnl, htext, ?_, hle, ?_, ?_⟩
  · intro x hx
    rw [← hT'.member_iff hx, hmem x, hT.member_iff hx]
  · intro x hx hpar
    by_cases hxr : sp.text_buf x = sp.text_buf r
    · exact hmax x ((hT.member_iff hx).2 hpar) hxr
    · rw [lcp_eq_zero (fun e => hxr e.symm)]
      exact Nat.zero_le _
  · rcases hfound with h | ⟨h1, _, h3⟩
    · exact Or.inl h
    · exact Or.inr ⟨hT.lt h1, hT.parent_ne h1, h3⟩

theorem delete_node_ok (sp : encode_state) (p : Nat) (hF : ∃ T, Forest sp T) (hp : p < N) :
    ∃ sp', delete_node sp p = some sp' ∧ EventOk (Event.deleted sp p sp') ∧
      sp'.match_length = sp.match_length ∧ sp'.match_position = sp.match_position := by
  obtain ⟨T, hT⟩ := hF
  obtain ⟨sp', T', hdel, hT', htext, hml, hmp, hmem, _, hsame⟩ :=
    delete_node_forest sp T p hT hp
  refine ⟨sp', hdel, ⟨hdel, hp, ⟨T, hT⟩, ⟨T', hT'⟩, htext, ?_, hsame⟩, hml, hmp⟩
  intro x hx
  rw [← hT'.member_iff hx, hmem x, hT.member_iff hx]

end LZSS

namespace LZSS

/-! ## One step of the window -/

theorem land_4095 (a : Nat) : a &&& 4095 = a % 4096 := by
  have h := Nat.and_pow_two_sub_one_eq_mod a 12
  simpa using h

theorem land_N (a : Nat) : a &&& (N - 1) = a % N := by
  have e : N - 1 = 4095 := by decide
  have e2 : N = 4096 := rfl
  rw [e, e2]
  exact land_4095 a

theorem vstream_src (x : List Nat) (j : Nat) : vstream x (N - F + j) = x.getD j 0 := by
  simp only [vstream, N, F]
  split
  · omega
  · rw [show 4096 - 18 + j - (4096 - 18) = j by omega]

/-- The store of lines 327-334 moves the window on by one byte. -/
theorem Win.stored {x : List Nat} {tb : Nat → Nat} {hi : Nat} (h : Win x tb hi) (hN : N ≤ hi)
    (c : Nat) (hc : c = vstream x hi) :
    Win x (store_byte tb (hi % N) c) (hi + 1) := by
  unfold store_byte
  have hr := h.ring
  have ht := h.tail
  constructor
  · intro A hA1 hA2
    simp only [N, F] at *
    by_cases hAh : A = hi
    · subst hAh
      rw [← hc]
      split <;> simp [upd]
    · have h1 : A % 4096 ≠ hi % 4096 := by omega
      have h2 : A % 4096 ≠ hi % 4096 + 4096 := by omega
      rw [← hr A (by omega) (by omega)]
      split <;> simp [upd, h1, h2]
  · intro A hA0 hA1 hA2 hA3
    simp only [N, F] at *
    by_cases hAh : A = hi
    · subst hAh
      rw [← hc, if_pos hA3]
      simp [upd]
    · have h1 : A % 4096 ≠ hi % 4096 := by omega
      have h2 : A % 4096 + 4096 ≠ hi % 4096 := by omega
      rw [← ht A hA0 (by omega) (by omega) hA3]
      split <;> simp [upd, h1, h2]

/-- A byte of a key read by `insert_node`, at offset `i` from position
`A % N`, is the stream byte of index `A + i` while that one is in the window. -/
theorem Win.key {x : List Nat} {tb : Nat → Nat} {hi : Nat} (h : Win x tb hi) (A i : Nat)
    (hi1 : i < F) (h1 : A + i < hi) (h2 : hi ≤ A + i + N) :
    tb (A % N + i) = vstream x (A + i) := by
  have hr := h.ring (A + i) h1 h2
  have ht := h.tail (A + i)
  simp only [N, F] at hi1 h1 h2 hr ht ⊢
  by_cases hlt : A % 4096 + i < 4096
  · rw [← hr]
    congr 1
    omega
  · rw [← ht (by omega) h1 h2 (by omega)]
    congr 1
    omega

end LZSS

namespace LZSS

theorem store_byte_other (tb : Nat → Nat) (s c j : Nat) (h1 : j ≠ s) (h2 : j ≠ s + N) :
    store_byte tb s c j = tb j := by
  unfold store_byte
  split <;> simp [upd, h1, h2]

theorem store_byte_lt (tb : Nat → Nat) (s c : Nat) (h : ∀ i, tb i < 256) (hc : c < 256) :
    ∀ i, store_byte tb s c i < 256 := by
  intro i
  unfold store_byte upd
  split <;> dsimp only <;> repeat' split
  all_goals first | exact hc | exact h i

theorem drop_cons_next {x : List Nat} {j : Nat} {c : Nat} {rest : List Nat}
    (h : x.drop j = c :: rest) : j < x.length ∧ x.getD j 0 = c ∧ x.drop (j + 1) = rest := by
  have hlt : j < x.length := by
    by_contra hge
    rw [List.drop_eq_nil_of_le (by omega)] at h
    cases h
  refine ⟨hlt, ?_, ?_⟩
  · rw [List.drop_eq_getElem_cons hlt] at h
    rw [List.getD_eq_getElem _ _ hlt]
    exact (List.cons.inj h).1
  · rw [List.drop_eq_getElem_cons hlt] at h
    exact (List.cons.inj h).2

/-- One iteration of the loop that reads new bytes (lines 325-341). -/
theorem read_step (x : List Nat) (k : Nat) (st : comp_state) (c : Nat) (src' : List Nat)
    (hx : ∀ b ∈ x, b < 256) (hP : PosInv x k st) (hsrc : st.src = c :: src') :
    ∃ sp1 sp3, delete_node st.sp st.s = some sp1 ∧
      insert_node { sp1 with text_buf := store_byte sp1.text_buf st.s c }
        ((st.r + 1) &&& (N - 1)) = some sp3 ∧
      PosInv x (k + 1)
        { st with sp := sp3, s := (st.s + 1) &&& (N - 1), r := (st.r + 1) &&& (N - 1),
                  src := src',
                  log := st.log ++ [Event.deleted st.sp st.s sp1, Event.stored sp1 st.s c,
                    Event.inserted { sp1 with text_buf := store_byte sp1.text_buf st.s c }
                      ((st.r + 1) &&& (N - 1)) sp3] } ∧
      MatchInv (k + 1)
        { st with sp := sp3, s := (st.s + 1) &&& (N - 1), r := (st.r + 1) &&& (N - 1),
                  src := src',
                  log := st.log ++ [Event.deleted st.sp st.s sp1, Event.stored sp1 st.s c,
                    Event.inserted { sp1 with text_buf := store_byte sp1.text_buf st.s c }
                      ((st.r + 1) &&& (N - 1)) sp3] } := by
  have hlen : st.len = F := hP.full (by rw [hsrc]; simp)
  have hNv : N = 4096 := rfl
  have hFv : F = 18 := rfl
  have hlenN : st.len.toNat = 18 := by rw [hlen]; rfl
  have hsrc0 := hP.src_eq
  rw [hsrc, hlenN] at hsrc0
  obtain ⟨hk, hc, hdrop⟩ := drop_cons_next hsrc0.symm
  have hc256 : c < 256 := by
    rw [← hc, List.getD_eq_getElem _ _ hk]
    exact hx _ (List.getElem_mem _)
  have hs : st.s < N := by rw [hP.s_eq, hNv]; omega
  -- delete
  obtain ⟨sp1, hdel, hdok, _, _⟩ := delete_node_ok st.sp st.s hP.forest hs
  obtain ⟨_, _, _, hF1, htext1, hlive1, _⟩ := hdok
  have hrange1 : ∀ p, p < N → sp1.parent p ≠ NIL →
      ∃ A, k + 1 ≤ A ∧ A ≤ N - F + k ∧ p = A % N := by
    intro p hp hpar
    obtain ⟨h1, h2⟩ := (hlive1 p hp).1 hpar
    obtain ⟨A, a1, a2, a3⟩ := hP.range p hp h1
    refine ⟨A, ?_, a2, a3⟩
    rw [hP.s_eq] at h2
    by_contra hlt
    have : A = k := by omega
    rw [this] at a3
    exact h2 a3
  -- the store
  have hkeys : ∀ p, p < N → sp1.parent p ≠ NIL → ∀ i, i < F →
      p + i ≠ st.s ∧ p + i ≠ st.s + N := by
    intro p hp hpar i hi
    obtain ⟨A, a1, a2, a3⟩ := hrange1 p hp hpar
    rw [hP.s_eq]
    simp only [N, F] at *
    omega
  have hF2 : ∃ T, Forest { sp1 with text_buf := store_byte sp1.text_buf st.s c } T := by
    obtain ⟨T, hT⟩ := hF1
    refine ⟨T, hT.store _ ?_⟩
    intro p hp hpar i hi
    obtain ⟨h1, h2⟩ := hkeys p hp hpar i hi
    exact store_byte_other _ _ _ _ h1 h2
  have htb1 : ∀ i, sp1.text_buf i < 256 := by rw [htext1]; exact hP.tb_bytes
  have htb2 := store_byte_lt sp1.text_buf st.s c htb1 hc256
  -- insert
  have hr' : (st.r + 1) &&& (N - 1) = (N - F + (k + 1)) % N := by
    rw [land_N, hP.r_eq]
    simp only [N, F]
    omega
  have hs' : (st.s + 1) &&& (N - 1) = (k + 1) % N := by
    rw [land_N, hP.s_eq]
    simp only [N]
    omega
  have hrN : (st.r + 1) &&& (N - 1) < N := by rw [hr', hNv]; omega
  have hrfree : sp1.parent ((st.r + 1) &&& (N - 1)) = NIL := by
    by_contra hpar
    obtain ⟨A, a1, a2, a3⟩ := hrange1 _ hrN hpar
    rw [hr'] at a3
    simp only [N, F] at *
    omega
  obtain ⟨sp3, hins, hiok⟩ := insert_node_ok
    { sp1 with text_buf := store_byte sp1.text_buf st.s c } ((st.r + 1) &&& (N - 1)) hF2 hrN
    (htb2 _) hrfree
  have hiok0 := hiok
  obtain ⟨_, _, _, _, hF3, _, htext3, hlive3, hml, _, hfound⟩ := hiok
  refine ⟨sp1, sp3, hdel, hins, ?_, ?_⟩
  · constructor
    · exact hr'
    · exact hs'
    · exact hP.len_nonneg
    · exact hP.len_le
    · show k + 1 + st.len.toNat ≤ x.length
      rw [hlenN]; omega
    · show src' = x.drop (k + 1 + st.len.toNat)
      rw [hlenN, ← hdrop, show k + 1 + 18 = k + 18 + 1 by omega]
    · intro _; exact hlen
    · show Win x sp3.text_buf (N - F + (k + 1) + st.len.toNat)
      rw [htext3, hlenN]
      have hw := hP.win
      rw [hlenN, ← htext1] at hw
      have := hw.stored (by simp only [N, F]; omega) c (by
        rw [show N - F + k + 18 = N - F + (k + 18) by omega, vstream_src, hc])
      have e1 : (N - F + k + 18) % N = st.s := by
        rw [hP.s_eq]; simp only [N, F]; omega
      rw [e1] at this
      rw [show N - F + (k + 1) + 18 = N - F + k + 18 + 1 by omega]
      exact this
    · show ∀ i, sp3.text_buf i < 256
      rw [htext3]
      exact htb2
    · exact hF3
    · intro p hp hpar
      rcases (hlive3 p hp).1 hpar with h | h
      · exact ⟨N - F + (k + 1), by omega, by omega, by rw [h, hr']⟩
      · obtain ⟨A, a1, a2, a3⟩ := hrange1 p hp h.1
        exact ⟨A, a1, by omega, a3⟩
    · intro e he
      simp only [List.mem_append, List.mem_cons, List.mem_singleton, List.not_mem_nil,
        or_false] at he
      rcases he with he | rfl | rfl | rfl
      · exact hP.log_ok e he
      · exact ⟨hdel, hs, hP.forest, hF1, htext1, hlive1, by assumption⟩
      · exact ⟨hs, hc256, hF1, hkeys⟩
      · exact hiok0
  · refine ⟨hml, ?_⟩
    rcases hfound with h | ⟨h1, h2, h3⟩
    · exact Or.inl h
    · right
      obtain ⟨A, a1, a2, a3⟩ := hrange1 _ h1 h2
      refine ⟨A, a1, by omega, a3, ?_⟩
      intro i hi
      show sp3.text_buf (sp3.match_position + i) = sp3.text_buf (((st.r + 1) &&& (N - 1)) + i)
      rw [htext3]
      exact (lcp_agree _ _ _ i (by rw [h3]; exact hi)).symm

end LZSS

namespace LZSS

/-- One iteration of the loop that runs after the end of the source (lines
344-351). -/
theorem drain_step (x : List Nat) (k : Nat) (st : comp_state)
    (hP : PosInv x k st) (hsrc : st.src = []) (hlen : 1 ≤ st.len) :
    ∃ sp1, delete_node st.sp st.s = some sp1 ∧
      (st.len - 1 ≠ 0 → ∃ sp2, insert_node sp1 ((st.r + 1) &&& (N - 1)) = some sp2 ∧
        PosInv x (k + 1)
          { st with sp := sp2, s := (st.s + 1) &&& (N - 1), r := (st.r + 1) &&& (N - 1),
                    len := st.len - 1,
                    log := st.log ++ [Event.deleted st.sp st.s sp1,
                      Event.inserted sp1 ((st.r + 1) &&& (N - 1)) sp2] } ∧
        MatchInv (k + 1)
          { st with sp := sp2, s := (st.s + 1) &&& (N - 1), r := (st.r + 1) &&& (N - 1),
                    len := st.len - 1,
                    log := st.log ++ [Event.deleted st.sp st.s sp1,
                      Event.inserted sp1 ((st.r + 1) &&& (N - 1)) sp2] }) ∧
      (st.len - 1 = 0 →
        PosInv x (k + 1)
          { st with sp := sp1, s := (st.s + 1) &&& (N - 1), r := (st.r + 1) &&& (N - 1),
                    len := st.len - 1,
                    log := st.log ++ [Event.deleted st.sp st.s sp1] }) := by
  have hNv : N = 4096 := rfl
  have hFv : F = 18 := rfl
  have hs : st.s < N := by rw [hP.s_eq, hNv]; omega
  obtain ⟨sp1, hdel, hdok, _, _⟩ := delete_node_ok st.sp st.s hP.forest hs
  have hdok0 := hdok
  obtain ⟨_, _, _, hF1, htext1, hlive1, _⟩ := hdok
  have hrange1 : ∀ p, p < N → sp1.parent p ≠ NIL →
      ∃ A, k + 1 ≤ A ∧ A ≤ N - F + k ∧ p = A % N := by
    intro p hp hpar
    obtain ⟨h1, h2⟩ := (hlive1 p hp).1 hpar
    obtain ⟨A, a1, a2, a3⟩ := hP.range p hp h1
    refine ⟨A, ?_, a2, a3⟩
    rw [hP.s_eq] at h2
    by_contra hlt
    have : A = k := by omega
    rw [this] at a3
    exact h2 a3
  have htb1 : ∀ i, sp1.text_buf i < 256 := by rw [htext1]; exact hP.tb_bytes
  have hr' : (st.r + 1) &&& (N - 1) = (N - F + (k + 1)) % N := by
    rw [land_N, hP.r_eq]
    simp only [N, F]
    omega
  have hs' : (st.s + 1) &&& (N - 1) = (k + 1) % N := by
    rw [land_N, hP.s_eq]
    simp only [N]
    omega
  have hrN : (st.r + 1) &&& (N - 1) < N := by rw [hr', hNv]; omega
  have hrfree : sp1.parent ((st.r + 1) &&& (N - 1)) = NIL := by
    by_contra hpar
    obtain ⟨A, a1, a2, a3⟩ := hrange1 _ hrN hpar
    rw [hr'] at a3
    simp only [N, F] at *
    omega
  have hlen1 : (st.len - 1).toNat + 1 = st.len.toNat := by omega
  have hkl : k + 1 + (st.len - 1).toNat = k + st.len.toNat := by omega
  have hwin : Win x sp1.text_buf (N - F + (k + 1) + (st.len - 1).toNat) := by
    rw [htext1, show N - F + (k + 1) + (st.len - 1).toNat = N - F + k + st.len.toNat by omega]
    exact hP.win
  have hlog1 : EventOk (Event.deleted st.sp st.s sp1) := hdok0
  refine ⟨sp1, hdel, ?_, ?_⟩
  · intro hne
    obtain ⟨sp2, hins, hiok⟩ := insert_node_ok sp1 ((st.r + 1) &&& (N - 1)) hF1 hrN
      (htb1 _) hrfree
    have hiok0 := hiok
    obtain ⟨_, _, _, _, hF3, _, htext3, hlive3, hml, _, hfound⟩ := hiok
    refine ⟨sp2, hins, ?_, ?_⟩
    · constructor
      · exact hr'
      · exact hs'
      · show 0 ≤ st.len - 1
        omega
      · show st.len - 1 ≤ F
        have := hP.len_le
        omega
      · show k + 1 + (st.len - 1).toNat ≤ x.length
        rw [hkl]; exact hP.k_le
      · show st.src = x.drop (k + 1 + (st.len - 1).toNat)
        rw [hkl]; exact hP.src_eq
      · intro h; exact absurd hsrc h
      · show Win x sp2.text_buf _
        rw [htext3]; exact hwin
      · show ∀ i, sp2.text_buf i < 256
        rw [htext3]; exact htb1
      · exact hF3
      · intro p hp hpar
        rcases (hlive3 p hp).1 hpar with h | h
        · exact ⟨N - F + (k + 1), by omega, by omega, by rw [h, hr']⟩
        · obtain ⟨A, a1, a2, a3⟩ := hrange1 p hp h.1
          exact ⟨A, a1, by omega, a3⟩
      · intro e he
        simp only [List.mem_append, List.mem_cons, List.mem_singleton, List.not_mem_nil,
          or_false] at he
        rcases he with he | rfl | rfl
        · exact hP.log_ok e he
        · exact hlog1
        · exact hiok0
    · refine ⟨hml, ?_⟩
      rcases hfound with h | ⟨h1, h2, h3⟩
      · exact Or.inl h
      · right
        obtain ⟨A, a1, a2, a3⟩ := hrange1 _ h1 h2
        refine ⟨A, a1, by omega, a3, ?_⟩
        intro i hi
        show sp2.text_buf (sp2.match_position + i) = sp2.text_buf (((st.r + 1) &&& (N - 1)) + i)
        rw [htext3]
        exact (lcp_agree _ _ _ i (by rw [h3]; exact hi)).symm
  · intro he
    constructor
    · exact hr'
    · exact hs'
    · show 0 ≤ st.len - 1
      omega
    · show st.len - 1 ≤ F
      have := hP.len_le
      omega
    · show k + 1 + (st.len - 1).toNat ≤ x.length
      rw [hkl]; exact hP.k_le
    · show st.src = x.drop (k + 1 + (st.len - 1).toNat)
      rw [hkl]; exact hP.src_eq
    · intro h; exact absurd hsrc h
    · exact hwin
    · exact htb1
    · exact hF1
    · intro p hp hpar
      obtain ⟨A, a1, a2, a3⟩ := hrange1 p hp hpar
      exact ⟨A, a1, by omega, a3⟩
    · intro e he
      simp only [List.mem_append, List.mem_singleton] at he
      rcases he with he | rfl
      · exact hP.log_ok e he
      · exact hlog1

end LZSS

namespace LZSS

theorem SameOut.same (st : comp_state) : SameOut st st := ⟨rfl, rfl, rfl, rfl⟩

theorem SameOut.chain {a b c : comp_state} (h : SameOut a b) (h' : SameOut b c) : SameOut a c :=
  ⟨h'.1.trans h.1, h'.2.1.trans h.2.1, h'.2.2.1.trans h.2.2.1, h'.2.2.2.trans h.2.2.2⟩

/-- The loop that reads new bytes (lines 324-342). -/
theorem read_loop_spec (x : List Nat) (hx : ∀ b ∈ x, b < 256) : ∀ (n i k : Nat)
    (st : comp_state), PosInv x k st →
    ∃ i' st', read_loop n i st = some (i', st') ∧ i ≤ i' ∧ i' ≤ i + n ∧
      PosInv x (k + (i' - i)) st' ∧ (i' < i + n → st'.src = []) ∧
      (i < i' ∨ MatchInv k st → MatchInv (k + (i' - i)) st') ∧ st'.len = st.len ∧
      SameOut st st' := by
  intro n
  induction n with
  | zero =>
    intro i k st hP
    refine ⟨i, st, rfl, le_refl _, le_refl _, by simpa using hP, fun h => by omega,
      ?_, rfl, SameOut.same _⟩
    rintro (h | h)
    · omega
    · simpa using h
  | succ n ih =>
    intro i k st hP
    rw [read_loop]
    cases hsrc : st.src with
    | nil =>
      refine ⟨i, st, rfl, le_refl _, by omega, by simpa using hP, fun _ => hsrc,
        ?_, rfl, SameOut.same _⟩
      rintro (h | h)
      · omega
      · simpa using h
    | cons c src' =>
      obtain ⟨sp1, sp3, hdel, hins, hP', hM'⟩ := read_step x k st c src' hx hP hsrc
      dsimp only
      rw [hdel]
      dsimp only
      rw [hins]
      dsimp only
      obtain ⟨i', st', hrun, h1, h2, h3, h4, h5, h6, h7⟩ := ih (i + 1) (k + 1) _ hP'
      refine ⟨i', st', hrun, by omega, by omega, ?_, fun h => h4 (by omega), ?_, h6,
        ⟨h7.1, h7.2.1, h7.2.2.1, h7.2.2.2⟩⟩
      · rw [show k + (i' - i) = k + 1 + (i' - (i + 1)) by omega]
        exact h3
      · intro _
        rw [show k + (i' - i) = k + 1 + (i' - (i + 1)) by omega]
        exact h5 (Or.inr hM')

/-- The loop that runs after the end of the source (lines 343-352). -/
theorem drain_loop_spec (x : List Nat) : ∀ (n k : Nat) (st : comp_state),
    PosInv x k st → st.src = [] → (n : Int) ≤ st.len →
    ∃ st', drain_loop n st = some st' ∧ PosInv x (k + n) st' ∧ st'.len = st.len - n ∧
      st'.src = [] ∧
      ((1 ≤ n ∨ MatchInv k st) → 0 < st'.len → MatchInv (k + n) st') ∧ SameOut st st' := by
  intro n
  induction n with
  | zero =>
    intro k st hP hsrc _
    refine ⟨st, rfl, hP, by simp, hsrc, ?_, SameOut.same _⟩
    rintro (h | h) _
    · omega
    · exact h
  | succ n ih =>
    intro k st hP hsrc hlen
    obtain ⟨sp1, hdel, hne, he⟩ := drain_step x k st hP hsrc (by omega)
    rw [drain_loop, hdel]
    dsimp only
    by_cases hz : st.len - 1 = 0
    · -- `len` has reached zero: this was the last iteration
      have hn : n = 0 := by omega
      subst hn
      rw [if_neg (by simpa using hz)]
      have hP' := he hz
      refine ⟨_, rfl, hP', ?_, hsrc, ?_, ⟨rfl, rfl, rfl, rfl⟩⟩
      · show st.len - 1 = st.len - ((0 + 1 : Nat) : Int)
        omega
      · intro _ hpos
        have : (st.len - 1 : Int) > 0 := hpos
        omega
    · rw [if_pos hz]
      obtain ⟨sp2, hins, hP', hM'⟩ := hne hz
      rw [hins]
      dsimp only
      obtain ⟨st', hrun, h1, h2, h3, h4, h5⟩ := ih (k + 1) _ hP' hsrc (by
        show (n : Int) ≤ st.len - 1
        omega)
      refine ⟨st', hrun, ?_, ?_, h3, ?_, ⟨h5.1, h5.2.1, h5.2.2.1, h5.2.2.2⟩⟩
      · rw [show k + (n + 1) = k + 1 + n by omega]; exact h1
      · rw [h2]
        show st.len - 1 - (n : Int) = st.len - ((n + 1 : Nat) : Int)
        omega
      · intro _ hpos
        rw [show k + (n + 1) = k + 1 + n by omega]
        exact h4 (Or.inr hM') hpos

end LZSS

namespace LZSS

/-! ## The decoder window -/

theorem take_succ_getD (x : List Nat) (m : Nat) (h : m < x.length) :
    x.take (m + 1) = x.take m ++ [x.getD m 0] := by
  rw [List.take_succ, List.getD_eq_getElem _ _ h]
  simp [List.getElem?_eq_getElem h]

/-- Writing the next byte of `x` moves the decoder window on by one. -/
theorem DecWin.push {x : List Nat} {m : Nat} {S : dec_state} (h : DecWin x m S)
    (hm : m < x.length) (c : Nat) (hc : c = x.getD m 0) :
    DecWin x (m + 1)
      { S with dst := S.dst ++ [c], text_buf := upd S.text_buf S.r c,
               r := (S.r + 1) &&& (N - 1) } := by
  constructor
  · show S.dst ++ [c] = x.take (m + 1)
    rw [take_succ_getD x m hm, h.out, hc]
  · show (S.r + 1) &&& (N - 1) = (N - F + (m + 1)) % N
    rw [land_N, h.rpos]
    simp only [N, F]
    omega
  · intro A hA1 hA2
    show upd S.text_buf S.r c (A % N) = vstream x A
    by_cases hA : A = N - F + m
    · rw [hA, ← h.rpos, upd_same, vstream_src, hc]
    · have hw := h.win A (by omega) (by omega)
      have hne : A % N ≠ S.r := by
        rw [h.rpos]
        simp only [N, F] at *
        omega
      rw [upd_other _ _ _ _ hne]
      exact hw

/-- The copy loop of the decoder on a pair whose source bytes are the next
bytes of `x`. -/
theorem copy_loop_window (x : List Nat) (d k Am : Nat) (hd : x.length ≤ d)
    (hA1 : k ≤ Am) (hA2 : Am < N - F + k) : ∀ (n j : Nat) (S : dec_state),
    DecWin x (k + j) S → k + j + n ≤ x.length →
    (∀ i, j ≤ i → i < j + n → vstream x (Am + i) = x.getD (k + i) 0) →
    DecWin x (k + j + n) (copy_loop d (Am % N) n j S) := by
  intro n
  induction n with
  | zero => intro j S h _ _; simpa [copy_loop] using h
  | succ n ih =>
    intro j S h hle hsrc
    rw [copy_loop]
    have hlen : S.dst.length = k + j := by
      rw [h.out, List.length_take]
      omega
    rw [if_pos (by omega)]
    have hc : S.text_buf ((Am % N + j) &&& (N - 1)) = x.getD (k + j) 0 := by
      rw [land_N, ← hsrc j (le_refl _) (by omega),
        ← h.win (Am + j) (by omega) (by omega)]
      congr 1
      simp only [N]
      omega
    have := h.push (by omega) _ hc
    have := ih (j + 1) _ this (by omega) (fun i hi1 hi2 => hsrc i (by omega) (by omega))
    rw [show k + j + (n + 1) = k + (j + 1) + n by omega]
    exact this

end LZSS

namespace LZSS

/-! ## One unit of code -/

theorem or_two_pow (a n : Nat) (h : a < 2 ^ n) : a ||| 2 ^ n = a + 2 ^ n := by
  have := Nat.mul_add_lt_is_or h 1
  rw [Nat.mul_one] at this
  rw [Nat.lor_comm, ← this, Nat.add_comm]

theorem PosInv.frame {x : List Nat} {k : Nat} {st st' : comp_state} (h : PosInv x k st)
    (h1 : st'.sp.lchild = st.sp.lchild) (h2 : st'.sp.rchild = st.sp.rchild)
    (h3 : st'.sp.parent = st.sp.parent) (h4 : st'.sp.text_buf = st.sp.text_buf)
    (h5 : st'.r = st.r) (h6 : st'.s = st.s) (h7 : st'.len = st.len) (h8 : st'.src = st.src)
    (h9 : ∀ e ∈ st'.log, EventOk e) : PosInv x k st' := by
  constructor
  · rw [h5]; exact h.r_eq
  · rw [h6]; exact h.s_eq
  · rw [h7]; exact h.len_nonneg
  · rw [h7]; exact h.len_le
  · rw [h7]; exact h.k_le
  · rw [h7, h8]; exact h.src_eq
  · rw [h7, h8]; exact h.full
  · rw [h7, h4]; exact h.win
  · rw [h4]; exact h.tb_bytes
  · obtain ⟨T, hT⟩ := h.forest
    exact ⟨T, hT.of_eq h1 h2 h3 h4⟩
  · rw [h3]; exact h.range
  · exact h9

/-- The byte at `r` is the next source byte. -/
theorem PosInv.at_r {x : List Nat} {k : Nat} {st : comp_state} (h : PosInv x k st)
    (i : Nat) (hi : (i : Int) < st.len) :
    st.sp.text_buf (st.r + i) = x.getD (k + i) 0 := by
  have h1 := h.len_le
  have hF : F = 18 := rfl
  rw [h.r_eq, h.win.key (N - F + k) i (by omega) (by omega) (by simp only [N]; omega),
    show N - F + k + i = N - F + (k + i) by omega, vstream_src]

theorem out_literal (x : List Nat) (stack : Nat → Nat) (d k : Nat) (st st1 : comp_state)
    (D0 : dec_state) (cur : List Event) (g P : Nat) (c : Nat)
    (hO : OutInv x stack d k st D0 cur g P) (hmask : st.mask = 2 ^ cur.length)
    (hk : k < x.length) (hc : c = x.getD k 0)
    (h1 : st1.dst = st.dst)
    (h2 : st1.code_buf = upd (upd st.code_buf 0 (st.code_buf 0 ||| st.mask)) st.code_buf_ptr c)
    (h3 : st1.code_buf_ptr = st.code_buf_ptr + 1) :
    OutInv x stack d (k + 1) st1 D0 (cur ++ [Event.literal c]) g P := by
  have hptr := hO.ptr
  constructor
  · rw [h1]; exact hO.chain
  · exact hO.reload
  · intro u hu
    rcases List.mem_append.mp hu with h | h
    · exact hO.units u h
    · rw [List.mem_singleton.mp h]; trivial
  · rw [h2, upd_other _ _ _ _ (by omega), upd_same, hO.flag, hmask,
      or_two_pow _ _ (group_flag_lt cur), group_flag_append]
    simp [unit_flag]
  · rw [h3, hptr, group_bytes_append]
    simp only [unit_bytes, List.length_append, List.length_singleton]
    omega
  · intro i hi
    rw [group_bytes_append] at hi ⊢
    simp only [unit_bytes, List.length_append, List.length_singleton] at hi
    rw [h2]
    by_cases hlt : i < (group_bytes cur).length
    · rw [upd_other _ _ _ _ (by omega), upd_other _ _ _ _ (by omega), hO.buf i hlt,
        List.getD_append _ _ _ _ hlt]
    · have hi' : i = (group_bytes cur).length := by omega
      rw [hi', ← hptr, upd_same, List.getD_append_right _ _ _ _ (le_refl _)]
      simp [unit_bytes]
  · rw [replay_append]
    exact hO.dec.push hk c hc
  · rw [h1]; exact hO.size
  · have := hO.units_le
    simp only [List.length_append, List.length_singleton]
    omega
  · have := hO.bytes_le
    rw [group_bytes_append]
    simp only [unit_bytes, List.length_append, List.length_singleton]
    omega

theorem out_pair (x : List Nat) (stack : Nat → Nat) (d k : Nat) (st st1 : comp_state)
    (D0 : dec_state) (cur : List Event) (g P : Nat) (Am ml : Nat)
    (hO : OutInv x stack d k st D0 cur g P) (hd : x.length ≤ d)
    (hA1 : k ≤ Am) (hA2 : Am < N - F + k) (hml1 : THRESHOLD < ml) (hml2 : ml ≤ F)
    (hk : k + ml ≤ x.length)
    (hsrc : ∀ i, i < ml → vstream x (Am + i) = x.getD (k + i) 0)
    (h1 : st1.dst = st.dst)
    (h2 : st1.code_buf = upd (upd st.code_buf st.code_buf_ptr (pair_byte0 (Am % N)))
      (st.code_buf_ptr + 1) (pair_byte1 (Am % N) ml))
    (h3 : st1.code_buf_ptr = st.code_buf_ptr + 2) :
    OutInv x stack d (k + ml) st1 D0 (cur ++ [Event.pair (Am % N) ml]) g P := by
  have hptr := hO.ptr
  have hT : THRESHOLD = 2 := rfl
  constructor
  · rw [h1]; exact hO.chain
  · exact hO.reload
  · intro u hu
    rcases List.mem_append.mp hu with h | h
    · exact hO.units u h
    · rw [List.mem_singleton.mp h]
      exact ⟨Nat.mod_lt _ (by decide), hml1, hml2⟩
  · rw [h2, upd_other _ _ _ _ (by omega), upd_other _ _ _ _ (by omega), hO.flag,
      group_flag_append]
    simp [unit_flag]
  · rw [h3, hptr, group_bytes_append]
    simp only [unit_bytes, List.length_append, List.length_cons, List.length_nil]
    omega
  · intro i hi
    rw [group_bytes_append] at hi ⊢
    simp only [unit_bytes, List.length_append, List.length_cons, List.length_nil] at hi
    rw [h2]
    by_cases hlt : i < (group_bytes cur).length
    · rw [upd_other _ _ _ _ (by omega), upd_other _ _ _ _ (by omega), hO.buf i hlt,
        List.getD_append _ _ _ _ hlt]
    · rw [List.getD_append_right _ _ _ _ (by omega)]
      by_cases hi' : i = (group_bytes cur).length
      · rw [hi', upd_other _ _ _ _ (by omega), ← hptr, upd_same]
        simp [unit_bytes]
      · have hi2 : i = (group_bytes cur).length + 1 := by omega
        rw [hi2, show 1 + ((group_bytes cur).length + 1) = st.code_buf_ptr + 1 by omega,
          upd_same]
        simp [unit_bytes]
  · rw [replay_append]
    show DecWin x (k + ml) (copy_loop d (Am % N) ml 0 (replay d D0 cur))
    have := copy_loop_window x d k Am hd hA1 hA2 ml 0 (replay d D0 cur)
      (by simpa using hO.dec) (by omega) (fun i _ hi => hsrc i (by omega))
    simpa using this
  · rw [h1]; exact hO.size
  · have := hO.units_le
    simp only [List.length_append, List.length_singleton]
    omega
  · have := hO.bytes_le
    rw [group_bytes_append]
    simp only [unit_bytes, List.length_append, List.length_cons, List.length_nil]
    omega

end LZSS

namespace LZSS

/-- Lines 300-312: one unit of code is put into the code buffer. -/
theorem emit_spec (x : List Nat) (stack : Nat → Nat) (d k : Nat) (st : comp_state)
    (D0 : dec_state) (cur : List Event) (g P : Nat) (hd : x.length ≤ d)
    (hP : PosInv x k st) (hM : MatchInv k st) (hO : OutInv x stack d k st D0 cur g P)
    (hmask : st.mask = 2 ^ cur.length) (hlen : 0 < st.len) :
    ∃ u, UnitOk u ∧ EventOk u ∧
      1 ≤ (emit_unit st).sp.match_length ∧ ((emit_unit st).sp.match_length : Int) ≤ st.len ∧
      OutInv x stack d (k + (emit_unit st).sp.match_length) (emit_unit st) D0 (cur ++ [u]) g P ∧
      PosInv x k (emit_unit st) ∧ (emit_unit st).mask = st.mask ∧
      (emit_unit st).log = st.log ++ [u] := by
  have hT : THRESHOLD = 2 := rfl
  have hFv : F = 18 := rfl
  have hkl := hP.k_le
  have hll := hP.len_le
  have hmlle : (if (st.sp.match_length : Int) > st.len then st.len.toNat
      else st.sp.match_length) ≤ st.sp.match_length := by
    split <;> omega
  have hmllen : ((if (st.sp.match_length : Int) > st.len then st.len.toNat
      else st.sp.match_length : Nat) : Int) ≤ st.len := by
    split <;> omega
  unfold emit_unit
  dsimp only
  generalize (if (st.sp.match_length : Int) > st.len then st.len.toNat
      else st.sp.match_length) = ml at hmlle hmllen ⊢
  by_cases hle : ml ≤ THRESHOLD
  · -- an uncoded byte
    simp only [if_pos hle]
    have hc := hP.at_r 0 (by simpa using hlen)
    simp only [Nat.add_zero] at hc
    have hc256 := hP.tb_bytes st.r
    refine ⟨Event.literal (st.sp.text_buf st.r), trivial, hc256, le_refl _, ?_,
      ?_, ?_, trivial, rfl⟩
    · show ((1 : Nat) : Int) ≤ st.len
      omega
    · exact out_literal x stack d k st _ D0 cur g P _ hO hmask (by omega) hc rfl rfl rfl
    · refine hP.frame rfl rfl rfl rfl rfl rfl rfl rfl ?_
      intro e he
      rcases List.mem_append.mp he with h | h
      · exact hP.log_ok e h
      · rw [List.mem_singleton.mp h]; exact hc256
  · -- a pair
    simp only [if_neg hle]
    obtain ⟨hmF, hmatch⟩ := hM
    obtain ⟨A, a1, a2, a3, a4⟩ := hmatch.resolve_left (by omega)
    have hsrc : ∀ i, i < ml → vstream x (A + i) = x.getD (k + i) 0 := by
      intro i hi
      rw [← hP.at_r i (by omega), ← a4 i (by omega), a3]
      exact (hP.win.key A i (by omega) (by omega) (by simp only [N]; omega)).symm
    refine ⟨Event.pair st.sp.match_position ml, ?_, ?_, ?_, hmllen, ?_, ?_,
      trivial, rfl⟩
    · rw [a3]; exact ⟨Nat.mod_lt _ (by decide), by omega, by omega⟩
    · rw [a3]; exact ⟨Nat.mod_lt _ (by decide), by omega, by omega⟩
    · show 1 ≤ ml
      omega
    · show OutInv x stack d (k + ml) _ D0 (cur ++ [Event.pair st.sp.match_position ml]) g P
      rw [a3]
      refine out_pair x stack d k st _ D0 cur g P A ml hO hd a1 a2 (by omega) (by omega)
        (by omega) hsrc rfl rfl rfl
    · refine hP.frame rfl rfl rfl rfl rfl rfl rfl rfl ?_
      intro e he
      rcases List.mem_append.mp he with h | h
      · exact hP.log_ok e h
      · rw [List.mem_singleton.mp h, a3]
        exact ⟨Nat.mod_lt _ (by decide), by omega, by omega⟩

end LZSS

namespace LZSS

/-! ## Sending the code buffer -/

theorem flush_loop_ok (d : Nat) (cb : Nat → Nat) : ∀ (n i : Nat) (dst : List Nat),
    dst.length + n ≤ d →
    flush_loop d cb n i dst = (dst ++ (List.range n).map (fun j => cb (i + j)), true) := by
  intro n
  induction n with
  | zero => intro i dst _; simp [flush_loop]
  | succ n ih =>
    intro i dst h
    rw [flush_loop, if_pos (by omega), ih (i + 1) _ (by simp; omega)]
    rw [List.range_succ_eq_map]
    simp only [List.map_cons, List.map_map, Nat.add_zero, List.append_assoc, List.singleton_append]
    congr 3
    apply List.map_congr_left
    intro j _
    simp only [Function.comp]
    congr 1
    omega

theorem flush_loop_fail (d : Nat) (cb : Nat → Nat) : ∀ (n i : Nat) (dst : List Nat),
    dst.length ≤ d → d < dst.length + n → (flush_loop d cb n i dst).2 = false := by
  intro n
  induction n with
  | zero => intro i dst h h'; omega
  | succ n ih =>
    intro i dst h h'
    rw [flush_loop]
    split
    · exact ih _ _ (by simp; omega) (by simp; omega)
    · rfl

theorem flush_loop_grows (d : Nat) (cb : Nat → Nat) : ∀ (n i : Nat) (dst : List Nat),
    dst <+: (flush_loop d cb n i dst).1 := by
  intro n
  induction n with
  | zero => intro i dst; exact List.prefix_refl _
  | succ n ih =>
    intro i dst
    rw [flush_loop]
    split
    · exact (List.prefix_append _ _).trans (ih _ _)
    · exact List.prefix_refl _

/-- The code buffer holds the flag byte of the units kept in it, then their bytes. -/
theorem code_buf_bytes {x : List Nat} {stack : Nat → Nat} {d k : Nat} {st : comp_state}
    {D0 : dec_state} {cur : List Event} {g P : Nat} (hO : OutInv x stack d k st D0 cur g P) :
    (List.range st.code_buf_ptr).map (fun j => st.code_buf (0 + j)) =
      group_flag cur :: group_bytes cur := by
  rw [hO.ptr, Nat.add_comm 1, List.range_succ_eq_map]
  simp only [List.map_cons, Nat.add_zero, List.map_map, hO.flag, Nat.zero_add]
  congr 1
  apply List.ext_getElem
  · simp
  · intro i h1 h2
    simp only [List.getElem_map, List.getElem_range, Function.comp]
    rw [show i.succ = 1 + i by omega, hO.buf i h2, List.getD_eq_getElem _ _ h2]

theorem dec_state_ext {a b : dec_state} (h : SameWin a b) (hf : a.flags = b.flags)
    (hs : a.src = b.src) : a = b := by
  obtain ⟨h1, h2, h3⟩ := h
  cases a; cases b
  simp only at h1 h2 h3 hf hs
  subst h1 h2 h3 hf hs
  rfl

/-- A decoder that has read what was written before reads the units of the
code buffer once these are written too. -/
theorem flush_chain {x : List Nat} {stack : Nat → Nat} {d k : Nat} {st : comp_state}
    {D0 : dec_state} {cur : List Event} {g P : Nat} (hO : OutInv x stack d k st D0 cur g P)
    (hd : x.length ≤ d) (hne : cur ≠ []) (hlen : cur.length ≤ 8) (rest out : List Nat)
    (h : Decodes d { replay d D0 cur with
                     flags := (group_flag cur ||| 0xFF00) >>> (cur.length - 1),
                     src := rest } out) :
    Decodes d (dec_init stack (st.dst ++ (group_flag cur :: group_bytes cur) ++ rest)) out := by
  rw [List.append_assoc]
  apply hO.chain
  have hsw : SameWin (replay d { D0 with src := group_flag cur :: group_bytes cur ++ rest } cur)
      (replay d D0 cur) := replay_same d cur _ _ ⟨rfl, rfl, rfl⟩
  refine decode_group d rest out cur _ hne hlen hO.reload ?_ hO.units ?_ ?_
  · simp
  · rw [hsw.2.2, hO.dec.out, List.length_take]
    omega
  · intro S' hS' hfl hsrc
    have : S' = { replay d D0 cur with
                  flags := (group_flag cur ||| 0xFF00) >>> (cur.length - 1),
                  src := rest } := by
      apply dec_state_ext
      · exact hS'.trans ⟨hsw.1, hsw.2.1, hsw.2.2⟩
      · exact hfl
      · exact hsrc
    rw [this]
    exact h

end LZSS

namespace LZSS

theorem mask_shift : ∀ m, m < 9 → 1 ≤ m →
    ((2 ^ (m - 1)) <<< 1) % 256 = if m = 8 then 0 else 2 ^ m := by
  decide

theorem size_bound (g P k n m b : Nat) (h1 : 8 * g + m ≤ k) (h2 : P + b ≤ k) (hm : 1 ≤ m)
    (hk : k ≤ n) : g + P + (1 + b) ≤ n + (n + 7) / 8 := by
  omega

/-- Lines 313-322: the mask is shifted, and a full code buffer is sent. -/
theorem shift_mask_spec (x : List Nat) (stack : Nat → Nat) (d k c : Nat) (st : comp_state)
    (D0 : dec_state) (cur : List Event) (g P : Nat) (hd : x.length ≤ d)
    (hO : OutInv x stack d k st D0 cur g P) (hne : cur ≠ []) (hlen : cur.length ≤ 8)
    (hmask : st.mask = 2 ^ (cur.length - 1)) (hk : k ≤ x.length) (hdst : st.dst.length ≤ c) :
    (∃ st2 D0' cur' g' P', shift_mask c st = Sum.inl st2 ∧
      OutInv x stack d k st2 D0' cur' g' P' ∧ cur'.length < 8 ∧ st2.mask = 2 ^ cur'.length ∧
      st2.sp = st.sp ∧ st2.s = st.s ∧ st2.r = st.r ∧ st2.len = st.len ∧ st2.src = st.src ∧
      st2.log = st.log ∧ st2.dst.length ≤ c) ∨
    (∃ dst', shift_mask c st = Sum.inr dst' ∧ c < x.length + (x.length + 7) / 8) := by
  have hpos : 1 ≤ cur.length := by
    cases cur with
    | nil => exact absurd rfl hne
    | cons _ _ => simp
  have hms := mask_shift cur.length (by omega) hpos
  unfold shift_mask
  dsimp only
  rw [hmask, hms]
  by_cases h8 : cur.length = 8
  · rw [if_pos h8]
    simp only [if_true]
    have hsz := size_bound g P k x.length cur.length (group_bytes cur).length hO.units_le
      hO.bytes_le hpos hk
    by_cases hroom : st.dst.length + st.code_buf_ptr ≤ c
    · left
      rw [flush_loop_ok c st.code_buf st.code_buf_ptr 0 st.dst hroom, code_buf_bytes hO]
      simp only [if_true]
      refine ⟨_, { replay d D0 cur with
                   flags := (group_flag cur ||| 0xFF00) >>> (cur.length - 1) },
        [], g + 1, P + (group_bytes cur).length, rfl, ?_, by simp, rfl, rfl, rfl, rfl, rfl, rfl,
        rfl, ?_⟩
      · constructor
        · intro rest out h
          exact flush_chain hO hd hne hlen rest out h
        · have hfb : group_flag cur < 256 := by
            have := group_flag_lt cur
            rw [h8] at this
            omega
          show (((group_flag cur ||| 0xFF00) >>> (cur.length - 1)) >>> 1) &&& 0x100 = 0
          rw [h8]
          exact flags_end _ hfb
        · intro u hu; simp at hu
        · show upd st.code_buf 0 0 0 = group_flag []
          rw [upd_same]; rfl
        · rfl
        · intro i hi; simp [group_bytes] at hi
        · exact ⟨hO.dec.out, hO.dec.rpos, hO.dec.win⟩
        · show (st.dst ++ (group_flag cur :: group_bytes cur)).length = _
          rw [List.length_append, hO.size, List.length_cons]
          omega
        · have := hO.units_le
          simp only [List.length_nil]
          omega
        · have := hO.bytes_le
          simp only [group_bytes, List.length_nil]
          omega
      · show (st.dst ++ (group_flag cur :: group_bytes cur)).length ≤ c
        rw [List.length_append, List.length_cons]
        have := hO.ptr
        omega
    · right
      have hf := flush_loop_fail c st.code_buf st.code_buf_ptr 0 st.dst hdst (by omega)
      rw [hf]
      simp only [Bool.false_eq_true, if_false]
      refine ⟨_, rfl, ?_⟩
      have := hO.ptr
      have := hO.size
      omega
  · left
    rw [if_neg h8]
    have hne0 : (2 : Nat) ^ cur.length ≠ 0 := by positivity
    rw [if_neg hne0]
    refine ⟨_, D0, cur, g, P, rfl, ?_, by omega, rfl, rfl, rfl, rfl, rfl, rfl, rfl, hdst⟩
    exact ⟨hO.chain, hO.reload, hO.units, hO.flag, hO.ptr, hO.buf, hO.dec, hO.size, hO.units_le,
      hO.bytes_le⟩

end LZSS

namespace LZSS

theorem OutInv.frame_out {x : List Nat} {stack : Nat → Nat} {d k : Nat} {st st' : comp_state}
    {D0 : dec_state} {cur : List Event} {g P : Nat} (hO : OutInv x stack d k st D0 cur g P)
    (h : SameOut st st') : OutInv x stack d k st' D0 cur g P := by
  obtain ⟨h1, h2, h3, _⟩ := h
  constructor
  · rw [h1]; exact hO.chain
  · exact hO.reload
  · exact hO.units
  · rw [h2]; exact hO.flag
  · rw [h3]; exact hO.ptr
  · rw [h2]; exact hO.buf
  · exact hO.dec
  · rw [h1]; exact hO.size
  · exact hO.units_le
  · exact hO.bytes_le

theorem unit_bytes_pos {u : Event} (h : UnitOk u) : 1 ≤ (unit_bytes u).length := by
  cases u <;> simp [UnitOk, unit_bytes] at h ⊢

theorem group_bytes_nil {cur : List Event} (hu : ∀ u ∈ cur, UnitOk u)
    (h : (group_bytes cur).length = 0) : cur = [] := by
  cases cur with
  | nil => rfl
  | cons u us =>
    have := unit_bytes_pos (hu u (by simp))
    simp only [group_bytes, List.length_append] at h
    omega

theorem decodes_end (x : List Nat) (d : Nat) (S : dec_state) (rest : List Nat)
    (hS : S.dst = x) (hsrc : S.src = rest) :
    ∃ out, Decodes d S out ∧ x <+: out ∧ (rest = [] → out = x) := by
  obtain ⟨out, ho⟩ := Decodes.exists d S
  refine ⟨out, ho, ?_, ?_⟩
  · rw [← hS]; exact ho.grows
  · intro hr
    have := Decodes.nil d S (by rw [hsrc, hr])
    rw [← hS]
    exact ho.unique this

/-- Lines 355-368: the remaining code is sent. -/
theorem finish_spec (x : List Nat) (stack : Nat → Nat) (d c : Nat) (st : comp_state)
    (D0 : dec_state) (cur : List Event) (g P : Nat) (hd : x.length ≤ d)
    (hO : OutInv x stack d x.length st D0 cur g P) (hlen : cur.length < 8)
    (hlog : ∀ e ∈ st.log, EventOk e) (hdst : st.dst.length ≤ c) :
    MainPost x stack d c (finish c st) := by
  have hout : (replay d D0 cur).dst = x := by
    rw [hO.dec.out]; exact List.take_length x
  unfold finish
  by_cases hptr : st.code_buf_ptr > 1
  · rw [if_pos hptr]
    dsimp only
    have hne : cur ≠ [] := by
      intro h
      have := hO.ptr
      rw [h] at this
      simp [group_bytes] at this
      omega
    have hpos : 1 ≤ cur.length := by
      cases cur with
      | nil => exact absurd rfl hne
      | cons _ _ => simp
    have hsz := size_bound g P x.length x.length cur.length (group_bytes cur).length
      hO.units_le hO.bytes_le hpos (le_refl _)
    have hp := hO.ptr
    have hs := hO.size
    by_cases hroom : st.dst.length + st.code_buf_ptr ≤ c
    · rw [flush_loop_ok c st.code_buf st.code_buf_ptr 0 st.dst hroom, code_buf_bytes hO]
      simp only [if_true]
      constructor
      · exact hlog
      · right; rfl
      · intro _ rest
        obtain ⟨out, h1, h2, h3⟩ := decodes_end x d
          { replay d D0 cur with
            flags := (group_flag cur ||| 0xFF00) >>> (cur.length - 1), src := rest } rest hout rfl
        exact ⟨out, flush_chain hO hd hne (by omega) rest out h1, h2, h3⟩
      · intro _
        show (st.dst ++ (group_flag cur :: group_bytes cur)).length ≤ _
        rw [List.length_append, List.length_cons]
        omega
      · intro _; simp
    · have hf := flush_loop_fail c st.code_buf st.code_buf_ptr 0 st.dst hdst (by omega)
      rw [hf]
      simp only [Bool.false_eq_true, if_false]
      constructor
      · exact hlog
      · left; rfl
      · intro h; exact absurd rfl h
      · intro h; exact absurd rfl h
      · intro hc; omega
  · rw [if_neg hptr]
    have hnil : cur = [] := by
      apply group_bytes_nil hO.units
      have := hO.ptr
      omega
    subst hnil
    constructor
    · exact hlog
    · right; rfl
    · intro _ rest
      obtain ⟨out, h1, h2, h3⟩ := decodes_end x d { D0 with src := rest } rest hout rfl
      exact ⟨out, hO.chain rest out h1, h2, h3⟩
    · intro _
      have h1 := hO.units_le
      have h2 := hO.bytes_le
      have h3 := hO.size
      simp only [List.length_nil, group_bytes] at h1 h2
      show st.dst.length ≤ _
      omega
    · intro _; simp

end LZSS

namespace LZSS

/-- The main loop of `compress_lzss` and the code after it. -/
theorem main_loop_spec (x : List Nat) (hx : ∀ b ∈ x, b < 256) (stack : Nat → Nat) (d c : Nat)
    (hd : x.length ≤ d) : ∀ (fuel k : Nat) (st : comp_state) (D0 : dec_state)
    (cur : List Event) (g P : Nat),
    PosInv x k st → MatchInv k st → OutInv x stack d k st D0 cur g P →
    cur.length < 8 → st.mask = 2 ^ cur.length → 0 < st.len → st.dst.length ≤ c →
    x.length - k < fuel →
    ∃ res, main_loop c fuel st = some res ∧ MainPost x stack d c res := by
  intro fuel
  induction fuel with
  | zero => intro k st D0 cur g P _ _ _ _ _ _ _ h; omega
  | succ fuel ih =>
    intro k st D0 cur g P hP hM hO hcur hmask hlen hdst hfuel
    obtain ⟨u, hu, heu, hml1, hml2, hO1, hP1, hmask1, hlog1⟩ :=
      emit_spec x stack d k st D0 cur g P hd hP hM hO hmask hlen
    have hkl := hP.k_le
    have hlen1 : (emit_unit st).len = st.len := by
      unfold emit_unit; dsimp only; repeat' split
      all_goals rfl
    have hdst1 : (emit_unit st).dst = st.dst := by
      unfold emit_unit; dsimp only; repeat' split
      all_goals rfl
    rw [main_loop]
    dsimp only
    generalize emit_unit st = st1 at hml1 hml2 hO1 hP1 hmask1 hlog1 hlen1 hdst1 ⊢
    have hkml : k + st1.sp.match_length ≤ x.length := by omega
    rcases shift_mask_spec x stack d (k + st1.sp.match_length) c st1 D0 (cur ++ [u]) g P hd hO1
        (by simp) (by simp; omega) (by simp [hmask1, hmask]) hkml (by rw [hdst1]; exact hdst)
      with ⟨st2, D0', cur', g', P', hsm, hO2, hcur2, hmask2, e1, e2, e3, e4, e5, e6, hdst2⟩ |
        ⟨dst', hsm, hcap⟩
    · rw [hsm]
      dsimp only
      have hP2 : PosInv x k st2 := hP1.frame (by rw [e1]) (by rw [e1]) (by rw [e1]) (by rw [e1])
        e3 e2 e4 e5 (by rw [e6]; exact hP1.log_ok)
      obtain ⟨i', st3, hread, r1, r2, hP3, hsrc3, hM3, hlen3, hso3⟩ :=
        read_loop_spec x hx st1.sp.match_length 0 k st2 hP2
      rw [e1, hread]
      dsimp only
      simp only [Nat.sub_zero, Nat.zero_add] at hP3 hM3 r2 hsrc3
      have hlen3' : st3.len = st.len := by rw [hlen3, e4, hlen1]
      -- the second loop
      have hdrain : ∃ st4, drain_loop (st1.sp.match_length - i') st3 = some st4 ∧
          PosInv x (k + st1.sp.match_length) st4 ∧
          st4.len = st3.len - ((st1.sp.match_length - i' : Nat) : Int) ∧
          (0 < st4.len → MatchInv (k + st1.sp.match_length) st4) ∧ SameOut st3 st4 ∧
          (i' < st1.sp.match_length → st4.src = []) := by
        by_cases hi : i' < st1.sp.match_length
        · obtain ⟨st4, h1, h2, h3, h4, h5, h6⟩ := drain_loop_spec x
            (st1.sp.match_length - i') (k + i') st3 hP3 (hsrc3 hi) (by omega)
          refine ⟨st4, h1, ?_, h3, ?_, h6, fun _ => h4⟩
          · rw [show k + st1.sp.match_length = k + i' + (st1.sp.match_length - i') by omega]
            exact h2
          · intro hpos
            rw [show k + st1.sp.match_length = k + i' + (st1.sp.match_length - i') by omega]
            exact h5 (Or.inl (by omega)) hpos
        · have hi' : i' = st1.sp.match_length := by omega
          rw [hi', Nat.sub_self]
          refine ⟨st3, rfl, ?_, by simp, ?_, SameOut.same _, fun h => by omega⟩
          · rw [← hi']; exact hP3
          · intro _
            rw [← hi']
            exact hM3 (Or.inl (by omega))
      obtain ⟨st4, hdr, hP4, hlen4, hM4, hso4, hsrc4⟩ := hdrain
      rw [hdr]
      dsimp only
      have hO4 : OutInv x stack d (k + st1.sp.match_length) st4 D0' cur' g' P' :=
        (hO2.frame_out hso3).frame_out hso4
      have hmask4 : st4.mask = 2 ^ cur'.length := by
        rw [hso4.2.2.2, hso3.2.2.2, hmask2]
      have hdst4 : st4.dst.length ≤ c := by
        rw [hso4.1, hso3.1]; exact hdst2
      by_cases hpos : st4.len > 0
      · rw [if_pos hpos]
        exact ih (k + st1.sp.match_length) st4 D0' cur' g' P' hP4 (hM4 hpos) hO4 hcur2 hmask4
          hpos hdst4 (by omega)
      · rw [if_neg hpos]
        have hlen0 : st4.len = 0 := by
          have := hP4.len_nonneg
          omega
        have hi : i' < st1.sp.match_length := by
          by_contra hge
          have : st1.sp.match_length - i' = 0 := by omega
          rw [this] at hlen4
          simp at hlen4
          omega
        have hend : k + st1.sp.match_length = x.length := by
          have h1 := hP4.src_eq
          rw [hsrc4 hi, hlen0] at h1
          simp only [Int.toNat_zero, Nat.add_zero] at h1
          have := List.drop_eq_nil_iff.mp h1.symm
          omega
        rw [hend] at hO4
        exact ⟨_, rfl, finish_spec x stack d c st4 D0' cur' g' P' hd hO4 hcur2 hP4.log_ok hdst4⟩
    · rw [hsm]
      refine ⟨_, rfl, ?_⟩
      constructor
      · exact hP1.log_ok
      · left; rfl
      · intro h; exact absurd rfl h
      · intro h; exact absurd rfl h
      · intro hc; omega

end LZSS

namespace LZSS

/-! ## The start of `compress_lzss` -/

theorem fill_loop_spec (r : Nat) : ∀ (n len : Nat) (tb : Nat → Nat) (src : List Nat),
    (fill_loop r n len tb src).1 = len + min n src.length ∧
    (fill_loop r n len tb src).2.2 = src.drop (min n src.length) ∧
    ∀ j, (fill_loop r n len tb src).2.1 j =
      if r + len ≤ j ∧ j < r + len + min n src.length then src.getD (j - (r + len)) 0
      else tb j := by
  intro n
  induction n with
  | zero =>
    intro len tb src
    refine ⟨by simp [fill_loop], by simp [fill_loop], ?_⟩
    intro j
    rw [if_neg (by simp)]
    rfl
  | succ n ih =>
    intro len tb src
    cases src with
    | nil =>
      refine ⟨by simp [fill_loop], by simp [fill_loop], ?_⟩
      intro j
      rw [if_neg (by simp)]
      rfl
    | cons c src =>
      obtain ⟨h1, h2, h3⟩ := ih (len + 1) (upd tb (r + len) c) src
      rw [fill_loop]
      refine ⟨?_, ?_, ?_⟩
      · rw [h1]; simp only [List.length_cons]; omega
      · rw [h2]
        simp only [List.length_cons]
        rw [show min (n + 1) (src.length + 1) = min n src.length + 1 by omega, List.drop_succ_cons]
      · intro j
        rw [h3]
        simp only [List.length_cons]
        by_cases hj : j = r + len
        · rw [if_neg (by omega), if_pos (by omega), hj, upd_same]
          simp
        · rw [upd_other _ _ _ _ hj]
          by_cases hin : r + (len + 1) ≤ j ∧ j < r + (len + 1) + min n src.length
          · rw [if_pos hin, if_pos (by omega)]
            rw [show j - (r + len) = (j - (r + (len + 1))) + 1 by omega, List.getD_cons_succ]
          · rw [if_neg hin, if_neg (by omega)]

theorem forest_init (tb : Nat → Nat) :
    Forest { init_state with text_buf := tb } (fun _ => Tree.leaf) := by
  constructor
  · intro c hc
    show init_state.rchild (N + 1 + c) = NIL
    simp only [init_state]
    rw [if_pos (by omega)]
  · intro c _; trivial
  · intro c _ y hy; simp at hy
  · intro p hp hpar
    exfalso
    apply hpar
    show init_state.parent p = NIL
    simp only [init_state]
    rw [if_pos hp]

theorem seed_loop_spec : ∀ (n i : Nat) (sp : encode_state) (log : List Event),
    1 ≤ i → i + n ≤ F + 1 → (∃ T, Forest sp T) → (∀ j, sp.text_buf j < 256) →
    (∀ p, p < N → sp.parent p ≠ NIL → N - F - i < p ∧ p < N - F) →
    (∀ e ∈ log, EventOk e) →
    ∃ sp' log', seed_loop (N - F) n i sp log = some (sp', log') ∧ (∃ T, Forest sp' T) ∧
      sp'.text_buf = sp.text_buf ∧
      (∀ p, p < N → sp'.parent p ≠ NIL → N - F - (i + n) < p ∧ p < N - F) ∧
      ∀ e ∈ log', EventOk e := by
  intro n
  induction n with
  | zero =>
    intro i sp log _ _ hF _ hr hl
    exact ⟨sp, log, rfl, hF, rfl, hr, hl⟩
  | succ n ih =>
    intro i sp log hi hin hF htb hr hl
    have hrN : N - F - i < N := by simp only [N, F]; omega
    have hfree : sp.parent (N - F - i) = NIL := by
      by_contra h
      have := hr _ hrN h
      omega
    obtain ⟨sp1, hins, hok⟩ := insert_node_ok sp (N - F - i) hF hrN (htb _) hfree
    have hok0 := hok
    obtain ⟨_, _, _, _, hF1, _, htext, hlive, _⟩ := hok
    rw [seed_loop, hins]
    dsimp only
    obtain ⟨sp', log', h1, h2, h3, h4, h5⟩ := ih (i + 1) sp1
      (log ++ [Event.inserted sp (N - F - i) sp1]) (by omega) (by omega) hF1
      (by rw [htext]; exact htb)
      (by
        intro p hp hpar
        rcases (hlive p hp).1 hpar with h | h
        · simp only [N, F] at *; omega
        · have := hr p hp h.1
          simp only [N, F] at *; omega)
      (by
        intro e he
        rcases List.mem_append.1 he with he | he
        · exact hl e he
        · rw [List.mem_singleton.1 he]; exact hok0)
    refine ⟨sp', log', h1, h2, by rw [h3, htext], ?_, h5⟩
    intro p hp hpar
    have := h4 p hp hpar
    simp only [N, F] at *
    omega

end LZSS

namespace LZSS

/-- The encoder on a non-empty source of bytes reaches its main loop, in a
state that meets the invariants of the loop. -/
theorem loop_entry_spec (x : List Nat) (hne : x ≠ []) (hx : ∀ b ∈ x, b < 256)
    (stack : Nat → Nat) (d : Nat) :
    ∃ st0, loop_entry x = some st0 ∧
      (∀ c, compress_lzss c x = main_loop c (x.length + 1) st0) ∧
      PosInv x 0 st0 ∧ MatchInv 0 st0 ∧
      OutInv x stack d 0 st0 (dec_init stack []) [] 0 0 ∧
      st0.mask = 1 ∧ 0 < st0.len ∧ st0.dst = [] := by
  have hNv : N = 4096 := rfl
  have hFv : F = 18 := rfl
  have hpos : 0 < x.length := List.length_pos.2 hne
  obtain ⟨f1, f2, f3⟩ := fill_loop_spec (N - F) F 0 init_state.text_buf x
  rw [Nat.zero_add] at f1
  simp only [Nat.add_zero] at f3
  have htb0 : ∀ j, (fill_loop (N - F) F 0 init_state.text_buf x).2.1 j < 256 := by
    intro j
    rw [f3]
    split
    · by_cases hj : j - (N - F) < x.length
      · rw [List.getD_eq_getElem _ _ hj]
        exact hx _ (List.getElem_mem _)
      · rw [List.getD_eq_default _ _ (by omega)]
        omega
    · simp only [init_state]
      split <;> omega
  obtain ⟨sp1, log1, hseed, hF1, htext1, hlive1, hlog1⟩ :=
    seed_loop_spec F 1 { init_state with text_buf := (fill_loop (N - F) F 0 init_state.text_buf x).2.1 } [] (by omega) (by omega)
      ⟨_, forest_init _⟩ htb0
      (by
        intro p hp hpar
        exfalso
        apply hpar
        show init_state.parent p = NIL
        simp only [init_state]
        rw [if_pos hp])
      (by intro e he; simp at he)
  have htext1' : sp1.text_buf = (fill_loop (N - F) F 0 init_state.text_buf x).2.1 := htext1
  have hrN : N - F < N := by simp only [N, F]; omega
  obtain ⟨sp2, hins, hok⟩ := insert_node_ok sp1 (N - F) hF1 hrN
    (by rw [htext1']; exact htb0 _)
    (by
      by_contra h
      have := hlive1 _ hrN h
      omega)
  have hok0 := hok
  obtain ⟨_, _, _, _, hF2, _, htext2, hlive2, hml, _, hfound⟩ := hok
  have hmin : ((fill_loop (N - F) F 0 init_state.text_buf x).1 : Int).toNat =
      min F x.length := by rw [f1]; rfl
  have hentry : loop_entry x = some ⟨sp2, upd (fun _ => 0) 0 0, 1, 1, 0, N - F,
      (fill_loop (N - F) F 0 init_state.text_buf x).1,
      (fill_loop (N - F) F 0 init_state.text_buf x).2.2, [],
      log1 ++ [Event.inserted sp1 (N - F) sp2]⟩ := by
    unfold loop_entry
    dsimp only
    rw [if_neg (by rw [f1]; omega), hseed]
    dsimp only
    rw [hins]
  refine ⟨_, hentry, ?_, ?_, ?_, ?_, rfl, ?_, rfl⟩
  · intro c
    unfold compress_lzss
    dsimp only
    rw [if_neg (by rw [f1]; omega), hseed]
    dsimp only
    rw [hins]
  · constructor
    · show N - F = (N - F + 0) % N
      simp only [N, F]
    · rfl
    · show (0 : Int) ≤ ((fill_loop (N - F) F 0 init_state.text_buf x).1 : Int)
      omega
    · show ((fill_loop (N - F) F 0 init_state.text_buf x).1 : Int) ≤ F
      rw [f1]
      have : min F x.length ≤ F := Nat.min_le_left _ _
      exact_mod_cast this
    · show 0 + ((fill_loop (N - F) F 0 init_state.text_buf x).1 : Int).toNat ≤ x.length
      rw [hmin]; omega
    · show (fill_loop (N - F) F 0 init_state.text_buf x).2.2 =
        x.drop (0 + ((fill_loop (N - F) F 0 init_state.text_buf x).1 : Int).toNat)
      rw [hmin, f2, Nat.zero_add]
    · intro hsrc
      show ((fill_loop (N - F) F 0 init_state.text_buf x).1 : Int) = F
      have hsrc' : (fill_loop (N - F) F 0 init_state.text_buf x).2.2 ≠ [] := hsrc
      rw [f2] at hsrc'
      have hlt : min F x.length < x.length := by
        by_contra hge
        exact hsrc' (List.drop_eq_nil_iff.2 (by omega))
      rw [f1]
      have : min F x.length = F := by omega
      exact_mod_cast this
    · show Win x sp2.text_buf
        (N - F + 0 + ((fill_loop (N - F) F 0 init_state.text_buf x).1 : Int).toNat)
      rw [hmin, htext2, htext1']
      constructor
      · intro A h1 h2
        have hA : A % N = A := Nat.mod_eq_of_lt (by simp only [N, F] at *; omega)
        rw [hA, f3]
        unfold vstream
        by_cases hlt : A < N - F
        · rw [if_neg (by omega), if_pos hlt]
          simp only [init_state]
          rw [if_pos hlt]
        · rw [if_pos (by omega), if_neg hlt]
      · intro A h1 h2
        simp only [N, F] at *
        omega
    · show ∀ i, sp2.text_buf i < 256
      rw [htext2, htext1']
      exact htb0
    · exact hF2
    · intro p hp hpar
      rcases (hlive2 p hp).1 hpar with h | h
      · exact ⟨N - F, by omega, by omega, by rw [h, Nat.mod_eq_of_lt hrN]⟩
      · have := hlive1 p hp h.1
        exact ⟨p, by omega, by omega, (Nat.mod_eq_of_lt hp).symm⟩
    · intro e he
      rcases List.mem_append.1 he with he | he
      · exact hlog1 e he
      · rw [List.mem_singleton.1 he]; exact hok0
  · refine ⟨hml, ?_⟩
    rcases hfound with h | ⟨h1, h2, h3⟩
    · exact Or.inl h
    · right
      have := hlive1 _ h1 h2
      refine ⟨sp2.match_position, by omega, by omega, (Nat.mod_eq_of_lt h1).symm, ?_⟩
      intro i hi
      show sp2.text_buf (sp2.match_position + i) = sp2.text_buf (N - F + i)
      rw [htext2]
      exact (lcp_agree _ _ _ i (by rw [h3]; exact hi)).symm
  · constructor
    · intro rest out h
      exact h
    · show ((0 : Nat) >>> 1) &&& 0x100 = 0
      decide
    · intro u hu; simp at hu
    · rfl
    · rfl
    · intro i hi
      simp [group_bytes] at hi
    · constructor
      · rfl
      · show N - F = (N - F + 0) % N
        simp only [N, F]
      · intro A h1 h2
        have hA : A % N = A := Nat.mod_eq_of_lt (by simp only [N, F] at *; omega)
        show (dec_init stack []).text_buf (A % N) = vstream x A
        rw [hA]
        unfold vstream dec_init
        dsimp only
        rw [if_pos (by omega), if_pos (by omega)]
    · rfl
    · simp
    · simp [group_bytes]
  · show (0 : Int) < ((fill_loop (N - F) F 0 init_state.text_buf x).1 : Int)
    rw [f1]
    have : 0 < min F x.length := by omega
    exact_mod_cast this

/-- The encoder on a non-empty source of bytes: it returns, and what it returns
is as `MainPost` says, for every decoder capacity `d` that holds the source. -/
theorem compress_lzss_spec (x : List Nat) (hne : x ≠ []) (hx : ∀ b ∈ x, b < 256)
    (stack : Nat → Nat) (d c : Nat) (hd : x.length ≤ d) :
    ∃ res, compress_lzss c x = some res ∧ MainPost x stack d c res := by
  obtain ⟨st0, _, hrun, hP, hM, hO, hmask, hlen, hdst⟩ := loop_entry_spec x hne hx stack d
  rw [hrun c]
  exact main_loop_spec x hx stack d c hd (x.length + 1) 0 st0 (dec_init stack []) [] 0 0
    hP hM hO (by simp) (by rw [hmask]; rfl) hlen (by rw [hdst]; simp) (by omega)

end LZSS

namespace LZSS

/-! ## The destination capacity of the encoder -/

theorem flush_loop_cap (cb : Nat → Nat) (n i : Nat) (dst : List Nat) (c' : Nat)
    (h : (flush_loop c' cb n i dst).2 = true) (hd : dst.length ≤ c') :
    (flush_loop c' cb n i dst).1.length = dst.length + n ∧ dst.length + n ≤ c' ∧
    ∀ c, dst.length ≤ c →
      (dst.length + n ≤ c → flush_loop c cb n i dst = flush_loop c' cb n i dst) ∧
      (c < dst.length + n → (flush_loop c cb n i dst).2 = false) := by
  have hle : dst.length + n ≤ c' := by
    by_contra hlt
    rw [flush_loop_fail c' cb n i dst hd (by omega)] at h
    exact Bool.false_ne_true h
  refine ⟨?_, hle, ?_⟩
  · rw [flush_loop_ok c' cb n i dst hle]
    simp
  · intro c hc
    refine ⟨?_, ?_⟩
    · intro h1
      rw [flush_loop_ok c cb n i dst h1, flush_loop_ok c' cb n i dst hle]
    · intro h1
      exact flush_loop_fail c cb n i dst hc h1

theorem shift_mask_cap (st st2 : comp_state) (c' : Nat) (h : shift_mask c' st = Sum.inl st2)
    (hd : st.dst.length ≤ c') :
    st.dst.length ≤ st2.dst.length ∧ st2.dst.length ≤ c' ∧
    ∀ c, st.dst.length ≤ c →
      (st2.dst.length ≤ c → shift_mask c st = Sum.inl st2) ∧
      (c < st2.dst.length → ∃ o, shift_mask c st = Sum.inr o) := by
  unfold shift_mask at h
  dsimp only at h
  by_cases hm : (st.mask <<< 1) % 256 = 0
  · rw [if_pos hm] at h
    by_cases hf : (flush_loop c' st.code_buf st.code_buf_ptr 0 st.dst).2 = true
    · rw [if_pos hf] at h
      obtain ⟨f1, f2, f3⟩ := flush_loop_cap st.code_buf st.code_buf_ptr 0 st.dst c' hf hd
      have e : st2.dst = (flush_loop c' st.code_buf st.code_buf_ptr 0 st.dst).1 := by
        rw [← Sum.inl.inj h]
      refine ⟨by rw [e, f1]; omega, by rw [e, f1]; exact f2, ?_⟩
      intro c hc
      obtain ⟨g1, g2⟩ := f3 c hc
      rw [e, f1]
      refine ⟨?_, ?_⟩
      · intro hle
        unfold shift_mask
        dsimp only
        rw [if_pos hm, g1 hle, if_pos hf]
        exact h
      · intro hlt
        unfold shift_mask
        dsimp only
        rw [if_pos hm, if_neg (by rw [g2 hlt]; exact Bool.false_ne_true)]
        exact ⟨_, rfl⟩
    · rw [if_neg hf] at h
      cases h
  · rw [if_neg hm] at h
    have e : st2.dst = st.dst := by rw [← Sum.inl.inj h]
    refine ⟨by rw [e], by rw [e]; exact hd, ?_⟩
    intro c hc
    rw [e]
    refine ⟨?_, fun hlt => by omega⟩
    intro _
    unfold shift_mask
    dsimp only
    rw [if_neg hm]
    exact h

theorem finish_cap (st : comp_state) (c' : Nat) (h : (finish c' st).result ≠ none)
    (hd : st.dst.length ≤ c') :
    (finish c' st).result = some (finish c' st).dst.length ∧
    st.dst.length ≤ (finish c' st).dst.length ∧
    ∀ c, st.dst.length ≤ c →
      ((finish c' st).dst.length ≤ c → finish c st = finish c' st) ∧
      (c < (finish c' st).dst.length → (finish c st).result = none) := by
  unfold finish at h ⊢
  dsimp only at h ⊢
  by_cases hp : st.code_buf_ptr > 1
  · simp only [if_pos hp] at h ⊢
    by_cases hf : (flush_loop c' st.code_buf st.code_buf_ptr 0 st.dst).2 = true
    · simp only [if_pos hf] at h ⊢
      obtain ⟨f1, f2, f3⟩ := flush_loop_cap st.code_buf st.code_buf_ptr 0 st.dst c' hf hd
      refine ⟨trivial, by rw [f1]; omega, ?_⟩
      intro c hc
      obtain ⟨g1, g2⟩ := f3 c hc
      refine ⟨?_, ?_⟩
      · intro hle
        rw [f1] at hle
        rw [g1 hle, if_pos hf]
      · intro hlt
        rw [f1] at hlt
        rw [if_neg (by rw [g2 hlt]; exact Bool.false_ne_true)]
    · simp only [if_neg hf] at h
      exact absurd rfl h
  · simp only [if_neg hp] at h ⊢
    refine ⟨trivial, le_refl _, ?_⟩
    intro c hc
    exact ⟨fun _ => trivial, fun hlt => by omega⟩

theorem read_loop_dst : ∀ (n i : Nat) (st : comp_state) (i' : Nat) (st' : comp_state),
    read_loop n i st = some (i', st') → st'.dst = st.dst := by
  intro n
  induction n with
  | zero =>
    intro i st i' st' h
    rw [read_loop] at h
    cases h
    rfl
  | succ n ih =>
    intro i st i' st' h
    rw [read_loop] at h
    cases hs : st.src with
    | nil =>
      rw [hs] at h
      cases h
      rfl
    | cons c src =>
      rw [hs] at h
      dsimp only at h
      cases hdel : delete_node st.sp st.s with
      | none => rw [hdel] at h; cases h
      | some sp1 =>
        rw [hdel] at h
        dsimp only at h
        cases hins : insert_node { sp1 with text_buf := store_byte sp1.text_buf st.s c }
            ((st.r + 1) &&& (N - 1)) with
        | none => rw [hins] at h; cases h
        | some sp3 =>
          rw [hins] at h
          dsimp only at h
          have e := ih _ _ _ _ h
          exact e

theorem drain_loop_dst : ∀ (n : Nat) (st st' : comp_state),
    drain_loop n st = some st' → st'.dst = st.dst := by
  intro n
  induction n with
  | zero =>
    intro st st' h
    rw [drain_loop] at h
    cases h
    rfl
  | succ n ih =>
    intro st st' h
    rw [drain_loop] at h
    cases hdel : delete_node st.sp st.s with
    | none => rw [hdel] at h; cases h
    | some sp1 =>
      rw [hdel] at h
      dsimp only at h
      by_cases hl : st.len - 1 ≠ 0
      · rw [if_pos hl] at h
        cases hins : insert_node sp1 ((st.r + 1) &&& (N - 1)) with
        | none => rw [hins] at h; cases h
        | some sp2 =>
          rw [hins] at h
          dsimp only at h
          have e := ih _ _ h
          exact e
      · rw [if_neg hl] at h
        have e := ih _ _ h
        exact e

end LZSS

namespace LZSS

theorem emit_unit_dst (st : comp_state) : (emit_unit st).dst = st.dst := by
  unfold emit_unit; dsimp only; repeat' split
  all_goals rfl

/-- A successful run of the main loop with capacity `c2` against the run with
any other capacity `c`. -/
theorem main_loop_cap (c2 : Nat) : ∀ (fuel : Nat) (st : comp_state) (res2 : compress_result),
    main_loop c2 fuel st = some res2 → res2.result ≠ none → st.dst.length ≤ c2 →
    res2.result = some res2.dst.length ∧ st.dst.length ≤ res2.dst.length ∧
    ∀ c, st.dst.length ≤ c → ∃ res, main_loop c fuel st = some res ∧
      (res2.dst.length ≤ c → res = res2) ∧ (c < res2.dst.length → res.result = none) := by
  intro fuel
  induction fuel with
  | zero => intro st res2 h; rw [main_loop] at h; cases h
  | succ fuel ih =>
    intro st res2 h hok hd
    rw [main_loop] at h
    dsimp only at h
    have hd1 : (emit_unit st).dst.length ≤ c2 := by rw [emit_unit_dst]; exact hd
    cases hsm : shift_mask c2 (emit_unit st) with
    | inr o =>
      rw [hsm] at h
      dsimp only at h
      rw [← Option.some.inj h] at hok
      exact absurd rfl hok
    | inl st2 =>
      rw [hsm] at h
      dsimp only at h
      obtain ⟨s1, s2, s3⟩ := shift_mask_cap (emit_unit st) st2 c2 hsm hd1
      rw [emit_unit_dst] at s1 s3
      cases hrd : read_loop st2.sp.match_length 0 st2 with
      | none => rw [hrd] at h; cases h
      | some p =>
        obtain ⟨i, st3⟩ := p
        rw [hrd] at h
        dsimp only at h
        have e3 := read_loop_dst _ _ _ _ _ hrd
        cases hdr : drain_loop (st2.sp.match_length - i) st3 with
        | none => rw [hdr] at h; cases h
        | some st4 =>
          rw [hdr] at h
          dsimp only at h
          have e4 : st4.dst = st2.dst := by rw [drain_loop_dst _ _ _ hdr, e3]
          -- what the rest of the run gives
          have hrest : res2.result = some res2.dst.length ∧ st4.dst.length ≤ res2.dst.length ∧
              ∀ c, st4.dst.length ≤ c → ∃ res,
                (if st4.len > 0 then main_loop c fuel st4 else some (finish c st4)) = some res ∧
                (res2.dst.length ≤ c → res = res2) ∧
                (c < res2.dst.length → res.result = none) := by
            by_cases hl : st4.len > 0
            · rw [if_pos hl] at h
              obtain ⟨a1, a2, a3⟩ := ih st4 res2 h hok (by rw [e4]; exact s2)
              refine ⟨a1, a2, ?_⟩
              intro c hc
              rw [if_pos hl]
              exact a3 c hc
            · rw [if_neg hl] at h
              have hres : res2 = finish c2 st4 := (Option.some.inj h).symm
              rw [hres] at hok ⊢
              obtain ⟨a1, a2, a3⟩ := finish_cap st4 c2 hok (by rw [e4]; exact s2)
              refine ⟨a1, a2, ?_⟩
              intro c hc
              rw [if_neg hl]
              exact ⟨_, rfl, a3 c hc⟩
          obtain ⟨r1, r2, r3⟩ := hrest
          rw [e4] at r2 r3
          refine ⟨r1, by omega, ?_⟩
          intro c hc
          obtain ⟨g1, g2⟩ := s3 c hc
          rw [main_loop]
          dsimp only
          by_cases hle : st2.dst.length ≤ c
          · rw [g1 hle]
            dsimp only
            rw [hrd]
            dsimp only
            rw [hdr]
            dsimp only
            exact r3 c hle
          · obtain ⟨o, ho⟩ := g2 (by omega)
            rw [ho]
            exact ⟨_, rfl, fun h1 => by omega, fun _ => rfl⟩

/-- A successful run of the encoder with capacity `c2` against the run with any
other capacity `c`. -/
theorem compress_lzss_cap (x : List Nat) (c2 : Nat) (res2 : compress_result)
    (h : compress_lzss c2 x = some res2) (hok : res2.result ≠ none) :
    res2.result = some res2.dst.length ∧
    ∀ c, ∃ res, compress_lzss c x = some res ∧
      (res2.dst.length ≤ c → res = res2) ∧ (c < res2.dst.length → res.result = none) := by
  unfold compress_lzss at h
  dsimp only at h
  by_cases h0 : (fill_loop (N - F) F 0 init_state.text_buf x).1 = 0
  · rw [if_pos h0] at h
    rw [← Option.some.inj h] at hok
    exact absurd rfl hok
  · rw [if_neg h0] at h
    cases hseed : seed_loop (N - F) F 1
        { init_state with text_buf := (fill_loop (N - F) F 0 init_state.text_buf x).2.1 } [] with
    | none => rw [hseed] at h; cases h
    | some p =>
      obtain ⟨sp1, log1⟩ := p
      rw [hseed] at h
      dsimp only at h
      cases hins : insert_node sp1 (N - F) with
      | none => rw [hins] at h; cases h
      | some sp2 =>
        rw [hins] at h
        dsimp only at h
        obtain ⟨a1, _, a3⟩ := main_loop_cap c2 _ _ res2 h hok (Nat.zero_le _)
        refine ⟨a1, ?_⟩
        intro c
        unfold compress_lzss
        dsimp only
        rw [if_neg h0, hseed]
        dsimp only
        rw [hins]
        exact a3 c (Nat.zero_le _)

end LZSS

namespace LZSS

/-! ## The log only grows -/

theorem emit_unit_log (st : comp_state) : ∀ e, e ∈ st.log → e ∈ (emit_unit st).log := by
  intro e he
  unfold emit_unit
  dsimp only
  repeat' split
  all_goals exact List.mem_append_left _ he

theorem shift_mask_log (c : Nat) (st st2 : comp_state) (h : shift_mask c st = Sum.inl st2) :
    st2.log = st.log := by
  unfold shift_mask at h
  dsimp only at h
  by_cases hm : (st.mask <<< 1) % 256 = 0
  · rw [if_pos hm] at h
    by_cases hf : (flush_loop c st.code_buf st.code_buf_ptr 0 st.dst).2 = true
    · rw [if_pos hf] at h
      rw [← Sum.inl.inj h]
    · rw [if_neg hf] at h
      cases h
  · rw [if_neg hm] at h
    rw [← Sum.inl.inj h]

theorem finish_log (c : Nat) (st : comp_state) : (finish c st).log = st.log := by
  unfold finish
  dsimp only
  repeat' split
  all_goals rfl

theorem read_loop_log : ∀ (n i : Nat) (st : comp_state) (i' : Nat) (st' : comp_state),
    read_loop n i st = some (i', st') → ∀ e, e ∈ st.log → e ∈ st'.log := by
  intro n
  induction n with
  | zero =>
    intro i st i' st' h e he
    rw [read_loop] at h
    cases h
    exact he
  | succ n ih =>
    intro i st i' st' h e he
    rw [read_loop] at h
    cases hs : st.src with
    | nil =>
      rw [hs] at h
      cases h
      exact he
    | cons c src =>
      rw [hs] at h
      dsimp only at h
      cases hdel : delete_node st.sp st.s with
      | none => rw [hdel] at h; cases h
      | some sp1 =>
        rw [hdel] at h
        dsimp only at h
        cases hins : insert_node { sp1 with text_buf := store_byte sp1.text_buf st.s c }
            ((st.r + 1) &&& (N - 1)) with
        | none => rw [hins] at h; cases h
        | some sp3 =>
          rw [hins] at h
          dsimp only at h
          exact ih _ _ _ _ h e (List.mem_append_left _ he)

theorem drain_loop_log : ∀ (n : Nat) (st st' : comp_state),
    drain_loop n st = some st' → ∀ e, e ∈ st.log → e ∈ st'.log := by
  intro n
  induction n with
  | zero =>
    intro st st' h e he
    rw [drain_loop] at h
    cases h
    exact he
  | succ n ih =>
    intro st st' h e he
    rw [drain_loop] at h
    cases hdel : delete_node st.sp st.s with
    | none => rw [hdel] at h; cases h
    | some sp1 =>
      rw [hdel] at h
      dsimp only at h
      by_cases hl : st.len - 1 ≠ 0
      · rw [if_pos hl] at h
        cases hins : insert_node sp1 ((st.r + 1) &&& (N - 1)) with
        | none => rw [hins] at h; cases h
        | some sp2 =>
          rw [hins] at h
          dsimp only at h
          exact ih _ _ h e (List.mem_append_left _ he)
      · rw [if_neg hl] at h
        exact ih _ _ h e (List.mem_append_left _ he)

theorem main_loop_log (c : Nat) : ∀ (fuel : Nat) (st : comp_state) (res : compress_result),
    main_loop c fuel st = some res → ∀ e, e ∈ st.log → e ∈ res.log := by
  intro fuel
  induction fuel with
  | zero => intro st res h; rw [main_loop] at h; cases h
  | succ fuel ih =>
    intro st res h e he
    rw [main_loop] at h
    dsimp only at h
    have he1 := emit_unit_log st e he
    cases hsm : shift_mask c (emit_unit st) with
    | inr o =>
      rw [hsm] at h
      dsimp only at h
      rw [← Option.some.inj h]
      exact he1
    | inl st2 =>
      rw [hsm] at h
      dsimp only at h
      have he2 : e ∈ st2.log := by rw [shift_mask_log c _ _ hsm]; exact he1
      cases hrd : read_loop st2.sp.match_length 0 st2 with
      | none => rw [hrd] at h; cases h
      | some p =>
        obtain ⟨i, st3⟩ := p
        rw [hrd] at h
        dsimp only at h
        have he3 := read_loop_log _ _ _ _ _ hrd e he2
        cases hdr : drain_loop (st2.sp.match_length - i) st3 with
        | none => rw [hdr] at h; cases h
        | some st4 =>
          rw [hdr] at h
          dsimp only at h
          have he4 := drain_loop_log _ _ _ hdr e he3
          by_cases hl : st4.len > 0
          · rw [if_pos hl] at h
            exact ih st4 res h e he4
          · rw [if_neg hl] at h
            rw [← Option.some.inj h, finish_log]
            exact he4

/-- The call `insert_node(sp, r)` made before the main loop, at `r = N - F`, is
in the log of every run on a non-empty source. -/
theorem compress_lzss_first_insert (x : List Nat) (hne : x ≠ []) (c : Nat)
    (res : compress_result) (h : compress_lzss c x = some res) :
    ∃ before after, Event.inserted before (N - F) after ∈ res.log := by
  unfold compress_lzss at h
  dsimp only at h
  obtain ⟨f1, _, _⟩ := fill_loop_spec (N - F) F 0 init_state.text_buf x
  have hpos : 0 < x.length := List.length_pos.2 hne
  have h0 : ¬ (fill_loop (N - F) F 0 init_state.text_buf x).1 = 0 := by
    rw [f1]
    simp only [F]
    omega
  rw [if_neg h0] at h
  cases hseed : seed_loop (N - F) F 1
      { init_state with text_buf := (fill_loop (N - F) F 0 init_state.text_buf x).2.1 } [] with
  | none => rw [hseed] at h; cases h
  | some p =>
    obtain ⟨sp1, log1⟩ := p
    rw [hseed] at h
    dsimp only at h
    cases hins : insert_node sp1 (N - F) with
    | none => rw [hins] at h; cases h
    | some sp2 =>
      rw [hins] at h
      dsimp only at h
      exact ⟨sp1, sp2, main_loop_log c _ _ res h _
        (List.mem_append_right _ (List.mem_singleton.2 rfl))⟩

end LZSS

namespace LZSS

/-! ## The encoder as a whole -/

theorem compress_lzss_nil (dstlen : Nat) : compress_lzss dstlen [] = some ⟨none, [], []⟩ := by
  unfold compress_lzss
  dsimp only
  rw [if_pos]
  rfl

/-- Every logged event of a run of the encoder is as `EventOk` says. -/
theorem compress_lzss_log (x : List Nat) (hx : ∀ b ∈ x, b < 256) (c : Nat) :
    ∃ res, compress_lzss c x = some res ∧ ∀ e ∈ res.log, EventOk e := by
  by_cases hne : x = []
  · subst hne
    refine ⟨_, compress_lzss_nil c, ?_⟩
    intro e he
    simp at he
  · obtain ⟨res, h, hM⟩ := compress_lzss_spec x hne hx (fun _ => 0) x.length c (le_refl _)
    exact ⟨res, h, hM.log_ok⟩

/-- The round trip on `n` bytes `0`: with room the encoder succeeds, within the
bound on its output, and the decoder writes the bytes back and returns their
number converted to `int`. -/
theorem zeros_round_trip (n c d : Nat) (stack : Nat → Nat) (hn : 0 < n)
    (hc : n + (n + 7) / 8 ≤ c) (hd : n ≤ d) :
    ∃ res, compress_lzss c (List.replicate n 0) = some res ∧ res.result ≠ none ∧
      res.dst.length ≤ n + (n + 7) / 8 ∧
      decompress_lzss stack d res.dst = some (int_cast n, List.replicate n 0) := by
  have hx : ∀ b ∈ List.replicate n 0, b < 256 := by
    intro b hb
    rw [List.eq_of_mem_replicate hb]
    decide
  have hne : List.replicate n 0 ≠ [] := by
    intro e
    have e2 := congrArg List.length e
    rw [List.length_replicate, List.length_nil] at e2
    omega
  obtain ⟨res, h, hM⟩ := compress_lzss_spec (List.replicate n 0) hne hx stack d c
    (by rw [List.length_replicate]; exact hd)
  have hs : res.result ≠ none := hM.enough (by rw [List.length_replicate]; exact hc)
  have hb := hM.bound hs
  rw [List.length_replicate] at hb
  refine ⟨res, h, hs, hb, ?_⟩
  obtain ⟨out, ho, _, heq⟩ := hM.decodes hs []
  rw [List.append_nil] at ho
  have e := heq rfl
  subst e
  have e3 := ho.lzss
  rw [List.length_replicate] at e3
  exact e3

theorem copy_loop_length (d i : Nat) : ∀ (n k : Nat) (st : dec_state),
    st.dst.length + n ≤ d → (copy_loop d i n k st).dst.length = st.dst.length + n := by
  intro n
  induction n with
  | zero => intro k st _; rfl
  | succ n ih =>
    intro k st h
    rw [copy_loop]
    rw [if_pos (by omega)]
    rw [ih]
    · simp only [List.length_append, List.length_singleton]; omega
    · simp only [List.length_append, List.length_singleton]; omega

theorem pair_byte0_eq (pos : Nat) : pair_byte0 pos = pos &&& 0xFF := by
  unfold pair_byte0
  exact (Nat.and_pow_two_sub_one_eq_mod pos 8).symm

theorem pair_byte1_raw (pos len : Nat) (hp : pos < N) (h1 : THRESHOLD + 1 ≤ len)
    (h2 : len ≤ F) : pair_byte1 pos len = ((pos >>> 4) &&& 0xF0) ||| (len - 3) := by
  simp only [N, F, THRESHOLD] at hp h1 h2
  have h := pair_byte1_eq pos len hp h1 h2
  unfold pair_byte1 THRESHOLD at h ⊢
  have hlt : ((pos >>> 4) &&& 0xF0) ||| (len - 3) < 256 := by
    rw [Nat.shiftRight_eq_div_pow, land_F0_of_lt _ (by omega)]
    have e : pos / 2 ^ 4 / 16 * 16 = 2 ^ 4 * (pos / 256) := by omega
    rw [e, ← Nat.mul_add_lt_is_or (by omega)]
    omega
  exact Nat.mod_eq_of_lt hlt

end LZSS

namespace LZSS

/-! ## The claims -/

/-- C1, as the code has it: round trip. For every non-empty sequence `x` of
bytes and every destination capacity `c`, `compress_lzss` returns; with
`len(x) + ceil(len(x) / 8) <= c` it succeeds; and whenever it succeeds, its
result is the end of the bytes written and `decompress_lzss`, given exactly
those bytes and any capacity `d >= len(x)`, whatever its uninitialised window
held, writes exactly `x` and returns `(int)len(x)`: that is `len(x)` when
`len(x) < 2^31`. -/
theorem round_trip (x : List Nat) (hne : x ≠ []) (hx : ∀ b ∈ x, b < 256) (c d : Nat)
    (stack : Nat → Nat) (hd : x.length ≤ d) :
    ∃ res, compress_lzss c x = some res ∧
      (x.length + (x.length + 7) / 8 ≤ c → res.result ≠ none) ∧
      (res.result ≠ none → res.result = some res.dst.length ∧
        decompress_lzss stack d res.dst = some (int_cast x.length, x) ∧
        (x.length < 2 ^ 31 →
          decompress_lzss stack d res.dst = some ((x.length : Int), x))) := by
  obtain ⟨res, h, hM⟩ := compress_lzss_spec x hne hx stack d c hd
  refine ⟨res, h, hM.enough, ?_⟩
  intro hs
  have hdec : decompress_lzss stack d res.dst = some (int_cast x.length, x) := by
    obtain ⟨out, ho, _, heq⟩ := hM.decodes hs []
    rw [List.append_nil] at ho
    have e := heq rfl
    subst e
    exact ho.lzss
  refine ⟨?_, hdec, ?_⟩
  · rcases hM.result with h0 | h0
    · exact absurd h0 hs
    · exact h0
  · intro hlt
    rw [hdec, int_cast_of_lt hlt]

set_option maxRecDepth 1000000 in
theorem round_trip_witness :
    (compress_lzss 2 [65]).map (fun r => (r.result, r.dst)) = some (some 2, [1, 65]) ∧
    decompress_lzss (fun _ => 0) 1 [1, 65] = some (1, [65]) ∧
    ∃ res, compress_lzss 2 [65] = some res ∧
      ([65].length + ([65].length + 7) / 8 ≤ 2 → res.result ≠ none) ∧
      (res.result ≠ none → res.result = some res.dst.length ∧
        decompress_lzss (fun _ => 0) 1 res.dst = some (int_cast [65].length, [65]) ∧
        ([65].length < 2 ^ 31 →
          decompress_lzss (fun _ => 0) 1 res.dst = some (([65].length : Int), [65]))) :=
  ⟨by rfl, by rfl, round_trip [65] (by simp) (by simp) 2 1 (fun _ => 0) (by simp)⟩

/-- C1, as stated, fails: the `2^31` bytes `0` are compressed with success into
a destination of `2^32 - 1` bytes, in fewer than `2^32` bytes, and on exactly
these `decompress_lzss` with capacity `2^31` writes the `2^31` bytes back but
returns `(int)2^31 = -2^31`, not `len(x) = 2^31`, which no `int` is. -/
theorem round_trip_count_not_int :
    ∃ res, compress_lzss 4294967295 (List.replicate 2147483648 0) = some res ∧
      res.result ≠ none ∧ res.dst.length < 4294967296 ∧
      decompress_lzss (fun _ => 0) 2147483648 res.dst =
        some (-2147483648, List.replicate 2147483648 0) ∧
      decompress_lzss (fun _ => 0) 2147483648 res.dst ≠
        some (((List.replicate 2147483648 0).length : Int), List.replicate 2147483648 0) := by
  obtain ⟨res, h, hs, hb, hdec⟩ := zeros_round_trip 2147483648 4294967295 2147483648
    (fun _ => 0) (by norm_num) (by norm_num) (le_refl _)
  rw [int_cast_two_pow] at hdec
  refine ⟨res, h, hs, by omega, hdec, ?_⟩
  rw [hdec, List.length_replicate]
  intro e
  have e2 := congrArg (fun p => p.1) (Option.some.inj e)
  simp only at e2
  omega

/-- C2: the self-check of the driver. For every sequence `x` of bytes, the
empty one included, a destination capacity `c` of at least
`len(x) + ceil(len(x) / 8)` (the driver gives twice the largest length), any
bytes `rest` following the stream in the source buffer and any capacity
`d >= len(x)`: `compress_lzss` returns, and `decompress_lzss` over the bytes it
wrote followed by `rest` writes at least `len(x)` bytes, the first `len(x)` of
which are `x`. -/
theorem driver_self_check (x : List Nat) (hx : ∀ b ∈ x, b < 256) (c d : Nat)
    (stack : Nat → Nat) (rest : List Nat) (hc : x.length + (x.length + 7) / 8 ≤ c)
    (hd : x.length ≤ d) :
    ∃ res out, compress_lzss c x = some res ∧
      decompress_lzss stack d (res.dst ++ rest) = some (int_cast out.length, out) ∧
      x.length ≤ out.length ∧ out.take x.length = x := by
  by_cases hne : x = []
  · subst hne
    obtain ⟨out, ho⟩ := decompress_lzss_total stack d ([] ++ rest)
    exact ⟨_, out, compress_lzss_nil c, ho, Nat.zero_le _, rfl⟩
  · obtain ⟨res, h, hM⟩ := compress_lzss_spec x hne hx stack d c hd
    obtain ⟨out, ho, hpre, _⟩ := hM.decodes (hM.enough hc) rest
    refine ⟨res, out, h, ho.lzss, hpre.length_le, ?_⟩
    exact (List.prefix_iff_eq_take.1 hpre).symm

theorem driver_self_check_witness :
    ∃ res out, compress_lzss 8192 [104, 105] = some res ∧
      decompress_lzss (fun _ => 7) 4096 (res.dst ++ [0, 200, 13]) =
        some (int_cast out.length, out) ∧
      [104, 105].length ≤ out.length ∧ out.take [104, 105].length = [104, 105] :=
  driver_self_check [104, 105] (by simp) 8192 4096 (fun _ => 7) [0, 200, 13] (by simp) (by simp)

/-- C3: destination exhaustion is a failure, and only that. For every non-empty
sequence `x` of bytes there is a stream `out`, of length `L = len(out)`, such
that for every destination capacity `c` the encoder returns, returns `NULL`
when `c < L`, and when `c >= L` returns the end of exactly the bytes `out`. -/
theorem capacity_decides_failure (x : List Nat) (hne : x ≠ []) (hx : ∀ b ∈ x, b < 256) :
    ∃ out : List Nat, ∀ c, ∃ res, compress_lzss c x = some res ∧
      (c < out.length → res.result = none) ∧
      (out.length ≤ c → res.result = some out.length ∧ res.dst = out) := by
  obtain ⟨res2, h2, hM⟩ := compress_lzss_spec x hne hx (fun _ => 0) x.length
    (x.length + (x.length + 7) / 8) (le_refl _)
  obtain ⟨a1, a2⟩ := compress_lzss_cap x _ res2 h2 (hM.enough (le_refl _))
  refine ⟨res2.dst, ?_⟩
  intro c
  obtain ⟨res, h, b1, b2⟩ := a2 c
  refine ⟨res, h, b2, ?_⟩
  intro hle
  rw [b1 hle]
  exact ⟨a1, rfl⟩

theorem capacity_decides_failure_witness :
    ∃ out : List Nat, ∀ c, ∃ res, compress_lzss c [1, 2, 3] = some res ∧
      (c < out.length → res.result = none) ∧
      (out.length ≤ c → res.result = some out.length ∧ res.dst = out) :=
  capacity_decides_failure [1, 2, 3] (by simp) (by simp)

/-- C4, as the code has it: on an empty source, whatever the destination
capacity, `compress_lzss` returns `NULL`, the failure result, through the guard
`if (!len) goto finish`, having written nothing and called no tree operation. -/
theorem empty_input_returns_null (dstlen : Nat) :
    ∃ res, compress_lzss dstlen [] = some res ∧ res.result = none ∧ res.dst = [] ∧
      res.log = [] :=
  ⟨_, compress_lzss_nil dstlen, rfl, rfl, rfl⟩

/-- C4, as stated, fails: with an empty source and a destination of 16 bytes
the encoder does not return a non-failure result. -/
theorem empty_input_not_success :
    ¬ ∃ res, compress_lzss 16 [] = some res ∧ res.result ≠ none := by
  rintro ⟨res, h, hs⟩
  rw [compress_lzss_nil] at h
  rw [← Option.some.inj h] at hs
  exact hs rfl

/-- C5: bounded expansion. For every non-empty sequence `x` of bytes and every
destination capacity `c`, `compress_lzss` returns, and when it succeeds the
stream it wrote has at most `len(x) + ceil(len(x) / 8)` bytes, hence at most
`2 * len(x)`; a capacity of `len(x) + ceil(len(x) / 8)` makes it succeed. -/
theorem bounded_expansion (x : List Nat) (hne : x ≠ []) (hx : ∀ b ∈ x, b < 256) (c : Nat) :
    ∃ res, compress_lzss c x = some res ∧
      (x.length + (x.length + 7) / 8 ≤ c → res.result ≠ none) ∧
      (res.result ≠ none → res.result = some res.dst.length ∧
        res.dst.length ≤ x.length + (x.length + 7) / 8 ∧ res.dst.length ≤ 2 * x.length) := by
  obtain ⟨res, h, hM⟩ := compress_lzss_spec x hne hx (fun _ => 0) x.length c (le_refl _)
  refine ⟨res, h, hM.enough, ?_⟩
  intro hs
  have hb := hM.bound hs
  have hpos : 0 < x.length := List.length_pos.2 hne
  refine ⟨?_, hb, by omega⟩
  rcases hM.result with h0 | h0
  · exact absurd h0 hs
  · exact h0

theorem bounded_expansion_witness :
    ∃ res, compress_lzss 5 [9, 9, 9, 9] = some res ∧
      ([9, 9, 9, 9].length + ([9, 9, 9, 9].length + 7) / 8 ≤ 5 → res.result ≠ none) ∧
      (res.result ≠ none → res.result = some res.dst.length ∧
        res.dst.length ≤ [9, 9, 9, 9].length + ([9, 9, 9, 9].length + 7) / 8 ∧
        res.dst.length ≤ 2 * [9, 9, 9, 9].length) :=
  bounded_expansion [9, 9, 9, 9] (by simp) (by simp) 5

end LZSS

namespace LZSS

/-- C6: the longest match is found. In every run of `compress_lzss` on a
sequence of bytes (a run on a non-empty one makes such calls, the one at
`r = N - F` among them), every call `insert_node(r)` it makes returns, in a state
that held a forest `T` just before, and on return `match_length` is at most `F`,
is at least the length of the common prefix (capped at `F`) of the keys of `r`
and of any member of the trees before the call, and is either 0 or attained by
`match_position`, itself a member before the call. -/
theorem longest_match_found (x : List Nat) (hx : ∀ b ∈ x, b < 256) (c : Nat) :
    ∃ res, compress_lzss c x = some res ∧
      (x ≠ [] → ∃ before after, Event.inserted before (N - F) after ∈ res.log) ∧
      ∀ before r after, Event.inserted before r after ∈ res.log →
        insert_node before r = some after ∧
        ∃ T, Forest before T ∧ after.match_length ≤ F ∧
          (∀ p, Member T p → lcp before.text_buf r p ≤ after.match_length) ∧
          (after.match_length = 0 ∨
            (Member T after.match_position ∧
              lcp before.text_buf r after.match_position = after.match_length)) := by
  obtain ⟨res, h, hlog⟩ := compress_lzss_log x hx c
  refine ⟨res, h, fun hne => compress_lzss_first_insert x hne c res h, ?_⟩
  intro before r after he
  obtain ⟨hcall, _, _, ⟨T, hT⟩, _, _, _, _, hle, hmax, hfound⟩ := hlog _ he
  refine ⟨hcall, T, hT, hle, ?_, ?_⟩
  · intro p hp
    exact hmax p (hT.lt hp) (hT.parent_ne hp)
  · rcases hfound with h0 | ⟨h1, h2, h3⟩
    · exact Or.inl h0
    · exact Or.inr ⟨(hT.member_iff h1).2 h2, h3⟩

theorem longest_match_found_witness :
    ∃ res, compress_lzss 64 [7, 7, 7, 7, 8] = some res ∧
      ([7, 7, 7, 7, 8] ≠ [] → ∃ before after, Event.inserted before (N - F) after ∈ res.log) ∧
      ∀ before r after, Event.inserted before r after ∈ res.log →
        insert_node before r = some after ∧
        ∃ T, Forest before T ∧ after.match_length ≤ F ∧
          (∀ p, Member T p → lcp before.text_buf r p ≤ after.match_length) ∧
          (after.match_length = 0 ∨
            (Member T after.match_position ∧
              lcp before.text_buf r after.match_position = after.match_length)) :=
  longest_match_found [7, 7, 7, 7, 8] (by simp) 64

/-- C7: format invariant at the encoder. In every run of `compress_lzss` on a
sequence of bytes, each pair it emits packs a `match_position` below 4096 and a
`match_length` from 3 to 18, so that `match_length - 3` is below 16, and the two
bytes written decode to that position and that length. -/
theorem emitted_pairs_in_range (x : List Nat) (hx : ∀ b ∈ x, b < 256) (c : Nat) :
    ∃ res, compress_lzss c x = some res ∧
      ∀ mp ml, Event.pair mp ml ∈ res.log →
        mp < 4096 ∧ 3 ≤ ml ∧ ml ≤ 18 ∧ ml - 3 < 16 ∧
        pair_position (pair_byte0 mp) (pair_byte1 mp ml) = mp ∧
        pair_bound (pair_byte1 mp ml) + 1 = ml := by
  obtain ⟨res, h, hlog⟩ := compress_lzss_log x hx c
  refine ⟨res, h, ?_⟩
  intro mp ml he
  obtain ⟨h1, h2, h3⟩ := hlog _ he
  obtain ⟨r1, r2⟩ := pair_roundtrip mp ml h1 h2 h3
  simp only [N, F, THRESHOLD] at h1 h2 h3
  exact ⟨h1, h2, h3, by omega, r1, r2⟩

set_option maxRecDepth 1000000 in
theorem emitted_pairs_in_range_witness :
    (compress_lzss 64 [5, 5, 5, 5, 5, 5]).map (fun r => (pair_events r.log, r.dst)) =
      some ([(4078, 5)], [1, 5, 238, 242]) ∧
    ∃ res, compress_lzss 64 [5, 5, 5, 5, 5, 5] = some res ∧
      ∀ mp ml, Event.pair mp ml ∈ res.log →
        mp < 4096 ∧ 3 ≤ ml ∧ ml ≤ 18 ∧ ml - 3 < 16 ∧
        pair_position (pair_byte0 mp) (pair_byte1 mp ml) = mp ∧
        pair_bound (pair_byte1 mp ml) + 1 = ml :=
  ⟨by rfl, emitted_pairs_in_range [5, 5, 5, 5, 5, 5] (by simp) 64⟩

/-- C8: token packing round trip. For a position below `N = 4096` and a length
from `THRESHOLD + 1 = 3` to `F = 18`, the bytes the encoder writes are
`b0 = position & 0xFF` and `b1 = ((position >> 4) & 0xF0) | (length - 3)`; the
decoder parses them as the same position and a loop bound of `length - 1`; and
a decoder step on a pair unit made of them, with room for `length` bytes, writes
exactly `length` bytes. -/
theorem pair_packing_round_trip (pos len : Nat) (hp : pos < N) (h1 : THRESHOLD + 1 ≤ len)
    (h2 : len ≤ F) :
    pair_byte0 pos = pos &&& 0xFF ∧
    pair_byte1 pos len = ((pos >>> 4) &&& 0xF0) ||| (len - 3) ∧
    pair_position (pair_byte0 pos) (pair_byte1 pos len) = pos ∧
    pair_bound (pair_byte1 pos len) + 1 = len ∧
    ∀ (d : Nat) (st : dec_state) (rest : List Nat), st.flags &&& 1 = 0 →
      st.src = pair_byte0 pos :: pair_byte1 pos len :: rest → st.dst.length + len ≤ d →
      dec_unit d st = some (copy_loop d pos len 0 { st with src := rest }) ∧
      (copy_loop d pos len 0 { st with src := rest }).dst.length = st.dst.length + len := by
  obtain ⟨r1, r2⟩ := pair_roundtrip pos len hp h1 h2
  refine ⟨pair_byte0_eq pos, pair_byte1_raw pos len hp h1 h2, r1, r2, ?_⟩
  intro d st rest hf hs hroom
  refine ⟨?_, copy_loop_length d pos len 0 _ hroom⟩
  unfold dec_unit
  rw [if_neg (by rw [hf]; simp), hs]
  dsimp only
  rw [r1, r2]

theorem pair_packing_round_trip_witness :
    pair_byte0 4078 = 4078 &&& 0xFF ∧
    pair_byte1 4078 3 = ((4078 >>> 4) &&& 0xF0) ||| (3 - 3) ∧
    pair_position (pair_byte0 4078) (pair_byte1 4078 3) = 4078 ∧
    pair_bound (pair_byte1 4078 3) + 1 = 3 ∧
    ∀ (d : Nat) (st : dec_state) (rest : List Nat), st.flags &&& 1 = 0 →
      st.src = pair_byte0 4078 :: pair_byte1 4078 3 :: rest → st.dst.length + 3 ≤ d →
      dec_unit d st = some (copy_loop d 4078 3 0 { st with src := rest }) ∧
      (copy_loop d 4078 3 0 { st with src := rest }).dst.length = st.dst.length + 3 :=
  pair_packing_round_trip 4078 3 (by decide) (by decide) (by decide)

/-- C9, as the code has it: the destination capacity only truncates decoding.
For every source, well-formed or not, every content of the uninitialised window
and capacities `c <= c2`: `decompress_lzss` returns with both; with `c2` it
writes bytes `out2`, `m2` of them, and returns `(int)m2`; with `c` it writes
the first `min(c, m2)` bytes of `out2`, never more than `c`, and returns
`(int)min(c, m2)`, which is at most `c`. When `min(c, m2) < 2^31` the count
returned with `c` is `min(c, m2)`, and when `m2 < 2^31` the count returned with
`c2` is `n2 = m2` and the one returned with `c` is `min(c, n2)`. -/
theorem capacity_truncates_decoding (stack : Nat → Nat) (src : List Nat) (c c2 : Nat)
    (h : c ≤ c2) :
    ∃ out2, decompress_lzss stack c2 src = some (int_cast out2.length, out2) ∧
      decompress_lzss stack c src =
        some (int_cast (min c out2.length), out2.take (min c out2.length)) ∧
      min c out2.length ≤ c ∧ int_cast (min c out2.length) ≤ (c : Int) ∧
      (min c out2.length < 2 ^ 31 →
        decompress_lzss stack c src =
          some (((min c out2.length : Nat) : Int), out2.take (min c out2.length))) ∧
      (out2.length < 2 ^ 31 →
        decompress_lzss stack c2 src = some ((out2.length : Int), out2) ∧
        decompress_lzss stack c src =
          some (min (c : Int) (out2.length : Int), out2.take (min c out2.length))) := by
  obtain ⟨out2, h2⟩ := decompress_lzss_total stack c2 src
  have h1 := decompress_lzss_two stack src c c2 h out2 h2
  refine ⟨out2, h2, h1, Nat.min_le_left _ _, ?_, ?_, ?_⟩
  · have a := int_cast_le (min c out2.length)
    have b : min c out2.length ≤ c := Nat.min_le_left _ _
    omega
  · intro hlt
    rw [h1, int_cast_of_lt hlt]
  · intro hlt
    have hm : min c out2.length < 2 ^ 31 := lt_of_le_of_lt (Nat.min_le_right _ _) hlt
    rw [h2, h1, int_cast_of_lt hlt, int_cast_of_lt hm]
    refine ⟨rfl, ?_⟩
    rw [Nat.cast_min]

theorem capacity_truncates_decoding_witness :
    decompress_lzss (fun _ => 0) 5 [255, 1, 2, 3] = some (3, [1, 2, 3]) ∧
    decompress_lzss (fun _ => 0) 2 [255, 1, 2, 3] = some (2, [1, 2]) ∧
    ∃ out2, decompress_lzss (fun _ => 0) 5 [255, 1, 2, 3] = some (int_cast out2.length, out2) ∧
      decompress_lzss (fun _ => 0) 2 [255, 1, 2, 3] =
        some (int_cast (min 2 out2.length), out2.take (min 2 out2.length)) ∧
      min 2 out2.length ≤ 2 ∧ int_cast (min 2 out2.length) ≤ ((2 : Nat) : Int) ∧
      (min 2 out2.length < 2 ^ 31 →
        decompress_lzss (fun _ => 0) 2 [255, 1, 2, 3] =
          some (((min 2 out2.length : Nat) : Int), out2.take (min 2 out2.length))) ∧
      (out2.length < 2 ^ 31 →
        decompress_lzss (fun _ => 0) 5 [255, 1, 2, 3] = some ((out2.length : Int), out2) ∧
        decompress_lzss (fun _ => 0) 2 [255, 1, 2, 3] =
          some (min ((2 : Nat) : Int) (out2.length : Int), out2.take (min 2 out2.length))) :=
  ⟨by rfl, by rfl, capacity_truncates_decoding (fun _ => 0) [255, 1, 2, 3] 2 5 (by decide)⟩

/-- C9, as stated, fails: on the stream that `compress_lzss` writes for the
`2^31` bytes `0`, of fewer than `2^32` bytes, `decompress_lzss` with capacity
`c2 = 2^31` writes `2^31` bytes and returns `n2 = (int)2^31 = -2^31`; with
capacity `c = 1 <= c2` it writes one byte and returns 1, which is not
`min(c, n2) = -2^31`. -/
theorem count_not_min_beyond_int :
    ∃ res, compress_lzss 4294967295 (List.replicate 2147483648 0) = some res ∧
      res.result ≠ none ∧ res.dst.length < 4294967296 ∧
      decompress_lzss (fun _ => 0) 2147483648 res.dst =
        some (-2147483648, List.replicate 2147483648 0) ∧
      decompress_lzss (fun _ => 0) 1 res.dst = some (1, [0]) ∧
      (1 : Int) ≠ min ((1 : Nat) : Int) (-2147483648) := by
  obtain ⟨res, h, hs, hb, hdec⟩ := zeros_round_trip 2147483648 4294967295 2147483648
    (fun _ => 0) (by norm_num) (by norm_num) (le_refl _)
  have h1 := decompress_lzss_two (fun _ => 0) res.dst 1 2147483648 (by norm_num)
    (List.replicate 2147483648 0) (by rw [List.length_replicate]; exact hdec)
  rw [List.length_replicate] at h1
  have hm : min 1 2147483648 = 1 := by norm_num
  rw [hm, int_cast_of_lt (by norm_num)] at h1
  have ht : List.take 1 (List.replicate 2147483648 0) = [0] := by
    rw [List.take_replicate, hm]
    rfl
  rw [ht] at h1
  rw [int_cast_two_pow] at hdec
  refine ⟨res, h, hs, by omega, hdec, h1, ?_⟩
  norm_num

/-- C10: the search-tree invariant. In every run of `compress_lzss` on a
sequence of bytes (a run on a non-empty one calls `insert_node` at `r = N - F`
at least), the state before and the state after each call of
`insert_node` and of `delete_node` hold a forest `T` of 256 search trees as
`Forest` says (links of parents and children agree, keys strictly ordered), and
every position below `N` whose `parent` is not `NIL` has a byte as first
character, is a node of the tree of that byte and of no other tree. -/
theorem search_tree_invariant (x : List Nat) (hx : ∀ b ∈ x, b < 256) (c : Nat) :
    ∃ res, compress_lzss c x = some res ∧
      (x ≠ [] → ∃ before after, Event.inserted before (N - F) after ∈ res.log) ∧
      ∀ before q after,
        Event.inserted before q after ∈ res.log ∨ Event.deleted before q after ∈ res.log →
        ∀ sp, sp = before ∨ sp = after →
          ∃ T, Forest sp T ∧ ∀ p, p < N → sp.parent p ≠ NIL →
            sp.text_buf p < 256 ∧ p ∈ (T (sp.text_buf p)).toList ∧
            ∀ b, b < 256 → p ∈ (T b).toList → b = sp.text_buf p := by
  obtain ⟨res, h, hlog⟩ := compress_lzss_log x hx c
  refine ⟨res, h, fun hne => compress_lzss_first_insert x hne c res h, ?_⟩
  intro before q after he sp hsp
  have hF : ∃ T, Forest sp T := by
    rcases he with he | he
    · obtain ⟨_, _, _, hb, ha, _⟩ := hlog _ he
      rcases hsp with e | e
      · rw [e]; exact hb
      · rw [e]; exact ha
    · obtain ⟨_, _, hb, ha, _⟩ := hlog _ he
      rcases hsp with e | e
      · rw [e]; exact hb
      · rw [e]; exact ha
  obtain ⟨T, hT⟩ := hF
  refine ⟨T, hT, ?_⟩
  intro p hp hpar
  obtain ⟨b, hb, hmem⟩ := hT.live p hp hpar
  have e := hT.first b hb p hmem
  refine ⟨by rw [e]; exact hb, by rw [e]; exact hmem, ?_⟩
  intro b2 hb2 hmem2
  exact (hT.first b2 hb2 p hmem2).symm

theorem search_tree_invariant_witness :
    ∃ res, compress_lzss 64 [3, 1, 3, 1, 3, 1] = some res ∧
      ([3, 1, 3, 1, 3, 1] ≠ [] →
        ∃ before after, Event.inserted before (N - F) after ∈ res.log) ∧
      ∀ before q after,
        Event.inserted before q after ∈ res.log ∨ Event.deleted before q after ∈ res.log →
        ∀ sp, sp = before ∨ sp = after →
          ∃ T, Forest sp T ∧ ∀ p, p < N → sp.parent p ≠ NIL →
            sp.text_buf p < 256 ∧ p ∈ (T (sp.text_buf p)).toList ∧
            ∀ b, b < 256 → p ∈ (T b).toList → b = sp.text_buf p :=
  search_tree_invariant [3, 1, 3, 1, 3, 1] (by simp) 64

end LZSS

namespace LZSS

/-- C12: match soundness. In every run of `compress_lzss` on a sequence of
bytes, when a call `insert_node(r)` returns with `match_length = m > 0`, then
`m <= F`, `match_position` is a position below `N` other than `r`, a member of
the trees before the call, and `text_buf[match_position + k] = text_buf[r + k]`
for every `k < m`, `k = 0` included. -/
theorem match_is_sound (x : List Nat) (hx : ∀ b ∈ x, b < 256) (c : Nat) :
    ∃ res, compress_lzss c x = some res ∧
      ∀ before r after, Event.inserted before r after ∈ res.log →
        0 < after.match_length →
        after.match_length ≤ F ∧ after.match_position < N ∧ after.match_position ≠ r ∧
        before.parent after.match_position ≠ NIL ∧
        ∀ k, k < after.match_length →
          after.text_buf (after.match_position + k) = after.text_buf (r + k) := by
  obtain ⟨res, h, hlog⟩ := compress_lzss_log x hx c
  refine ⟨res, h, ?_⟩
  intro before r after he hpos
  obtain ⟨_, _, _, _, _, hfree, htext, _, hle, _, hfound⟩ := hlog _ he
  rcases hfound with h0 | ⟨h1, h2, h3⟩
  · omega
  · refine ⟨hle, h1, ?_, h2, ?_⟩
    · intro e
      rw [e] at h2
      exact h2 hfree
    · intro k hk
      rw [htext]
      exact (lcp_agree _ _ _ k (by rw [h3]; exact hk)).symm

set_option maxRecDepth 1000000 in
theorem match_is_sound_witness :
    (compress_lzss 64 [5, 5, 5, 5, 5, 5]).map (fun r => pair_events r.log) =
      some [(4078, 5)] ∧
    ∃ res, compress_lzss 64 [5, 5, 5, 5, 5, 5] = some res ∧
      ∀ before r after, Event.inserted before r after ∈ res.log →
        0 < after.match_length →
        after.match_length ≤ F ∧ after.match_position < N ∧ after.match_position ≠ r ∧
        before.parent after.match_position ≠ NIL ∧
        ∀ k, k < after.match_length →
          after.text_buf (after.match_position + k) = after.text_buf (r + k) :=
  ⟨by rfl, match_is_sound [5, 5, 5, 5, 5, 5] (by simp) 64⟩

/-- C15: `delete_node` removes exactly one member. For every state holding a
forest `T` as `Forest` says and every position `p < N`, `delete_node(p)` returns;
if `parent[p] = NIL` the state is unchanged; in every case the result holds a
forest `T2` as `Forest` says whose members are those of `T` other than `p`,
`parent[p] = NIL` afterwards, and the ring buffer and the match are untouched. -/
theorem delete_removes_one_member (sp : encode_state) (T : Nat → Tree) (p : Nat)
    (hF : Forest sp T) (hp : p < N) :
    ∃ sp2 T2, delete_node sp p = some sp2 ∧ Forest sp2 T2 ∧
      (sp.parent p = NIL → sp2 = sp) ∧
      (∀ y, Member T2 y ↔ Member T y ∧ y ≠ p) ∧
      sp2.parent p = NIL ∧ sp2.text_buf = sp.text_buf ∧
      sp2.match_length = sp.match_length ∧ sp2.match_position = sp.match_position := by
  obtain ⟨sp2, T2, h1, h2, h3, h4, h5, h6, h7, h8⟩ := delete_node_forest sp T p hF hp
  exact ⟨sp2, T2, h1, h2, h8, h6, h7, h3, h4, h5⟩

theorem forest_one_node : Forest one_node_state one_node_forest := by
  constructor
  · intro c hc
    unfold one_node_forest
    by_cases h : c = 32
    · subst h
      rw [if_pos rfl]
      refine ⟨?_, by decide, ?_, ?_, ?_⟩ <;> simp [one_node_state, upd, N, NIL, RepA]
    · rw [if_neg h]
      show one_node_state.rchild (N + 1 + c) = NIL
      simp only [one_node_state, upd, init_state, N, NIL]
      rw [if_neg (by omega), if_neg (by omega), if_pos (by omega)]
  · intro c _
    unfold one_node_forest
    split
    · simp [Bst]
    · trivial
  · intro c _ y hy
    unfold one_node_forest at hy
    split at hy
    · next h =>
      simp at hy
      subst hy
      rw [h]
      simp [one_node_state, init_state, N, F]
    · simp at hy
  · intro p hp hpar
    have h5 : p = 5 := by
      by_contra hne
      apply hpar
      simp only [one_node_state, upd, init_state]
      rw [if_neg hne, if_pos hp]
    exact ⟨32, by decide, by rw [h5]; simp [one_node_forest]⟩

theorem delete_removes_one_member_witness :
    ∃ sp2 T2, delete_node one_node_state 5 = some sp2 ∧ Forest sp2 T2 ∧
      (one_node_state.parent 5 = NIL → sp2 = one_node_state) ∧
      (∀ y, Member T2 y ↔ Member one_node_forest y ∧ y ≠ 5) ∧
      sp2.parent 5 = NIL ∧ sp2.text_buf = one_node_state.text_buf ∧
      sp2.match_length = one_node_state.match_length ∧
      sp2.match_position = one_node_state.match_position :=
  delete_removes_one_member one_node_state one_node_forest 5 forest_one_node (by decide)

/-- C16: keys of tree members never change. In every run of `compress_lzss` on
a sequence of bytes, at each store `text_buf[s] = c`, with its copy at `s + N`,
the state holds a forest and no member `p` has `s` or `s + N` among the indices
`p .. p + F - 1` of its key, so that the store leaves every member's key as it
was; and the calls of `insert_node` and `delete_node` leave `text_buf` as it
was. -/
theorem member_keys_constant (x : List Nat) (hx : ∀ b ∈ x, b < 256) (c : Nat) :
    ∃ res, compress_lzss c x = some res ∧
      (∀ before s ch, Event.stored before s ch ∈ res.log →
        s < N ∧ ∃ T, Forest before T ∧ ∀ p, Member T p → ∀ i, i < F →
          p + i ≠ s ∧ p + i ≠ s + N ∧
          store_byte before.text_buf s ch (p + i) = before.text_buf (p + i)) ∧
      (∀ before q after,
        Event.inserted before q after ∈ res.log ∨ Event.deleted before q after ∈ res.log →
        after.text_buf = before.text_buf) := by
  obtain ⟨res, h, hlog⟩ := compress_lzss_log x hx c
  refine ⟨res, h, ?_, ?_⟩
  · intro before s ch he
    obtain ⟨hs, _, ⟨T, hT⟩, hk⟩ := hlog _ he
    refine ⟨hs, T, hT, ?_⟩
    intro p hp i hi
    obtain ⟨a, b⟩ := hk p (hT.lt hp) (hT.parent_ne hp) i hi
    exact ⟨a, b, store_byte_other _ _ _ _ a b⟩
  · intro before q after he
    rcases he with he | he
    · obtain ⟨_, _, _, _, _, _, htext, _⟩ := hlog _ he
      exact htext
    · obtain ⟨_, _, _, _, htext, _⟩ := hlog _ he
      exact htext

set_option maxRecDepth 1000000 in
theorem member_keys_constant_witness :
    (compress_lzss 64 [0, 1, 2, 3, 4, 5, 6, 7, 8, 9, 10, 11, 12, 13, 14, 15, 16, 17, 18]).map
      (fun r => store_events r.log) = some [(0, 18)] ∧
    ∃ res, compress_lzss 64
        [0, 1, 2, 3, 4, 5, 6, 7, 8, 9, 10, 11, 12, 13, 14, 15, 16, 17, 18] = some res ∧
      (∀ before s ch, Event.stored before s ch ∈ res.log →
        s < N ∧ ∃ T, Forest before T ∧ ∀ p, Member T p → ∀ i, i < F →
          p + i ≠ s ∧ p + i ≠ s + N ∧
          store_byte before.text_buf s ch (p + i) = before.text_buf (p + i)) ∧
      (∀ before q after,
        Event.inserted before q after ∈ res.log ∨ Event.deleted before q after ∈ res.log →
        after.text_buf = before.text_buf) :=
  ⟨by rfl, member_keys_constant
    [0, 1, 2, 3, 4, 5, 6, 7, 8, 9, 10, 11, 12, 13, 14, 15, 16, 17, 18] (by decide) 64⟩

/-- C18: the decoder reads no uninitialised window byte on compressor output.
`decompress_lzss` starts with spaces at the window positions below `N - F` and
with whatever its stack held at the others; for every sequence `x` of bytes,
every stream a successful `compress_lzss` wrote for it, and every capacity
`d >= len(x)`, the count returned and the bytes written by `decompress_lzss` on
exactly that stream are the same for any two stack contents. -/
theorem decoder_ignores_stack (x : List Nat) (hx : ∀ b ∈ x, b < 256) (c d : Nat)
    (stack1 stack2 : Nat → Nat) (hd : x.length ≤ d) :
    (∀ src i, (dec_init stack1 src).text_buf i = if i < N - F then 32 else stack1 i) ∧
    ∃ res, compress_lzss c x = some res ∧
      (x ≠ [] → x.length + (x.length + 7) / 8 ≤ c → res.result ≠ none) ∧
      (res.result ≠ none →
        decompress_lzss stack1 d res.dst = decompress_lzss stack2 d res.dst) := by
  refine ⟨fun _ _ => rfl, ?_⟩
  by_cases hne : x = []
  · subst hne
    refine ⟨_, compress_lzss_nil c, fun h => absurd rfl h, fun h => absurd rfl h⟩
  · obtain ⟨res, h, hM⟩ := compress_lzss_spec x hne hx stack1 d c hd
    obtain ⟨res2, h2, hM2⟩ := compress_lzss_spec x hne hx stack2 d c hd
    rw [h] at h2
    have e : res2 = res := (Option.some.inj h2).symm
    subst e
    refine ⟨res2, h, fun _ => hM.enough, ?_⟩
    intro hs
    obtain ⟨out, ho, _, heq⟩ := hM.decodes hs []
    obtain ⟨out2, ho2, _, heq2⟩ := hM2.decodes hs []
    rw [List.append_nil] at ho ho2
    rw [ho.lzss, ho2.lzss, heq rfl, heq2 rfl]

theorem decoder_ignores_stack_witness :
    (∀ src i, (dec_init (fun _ => 0) src).text_buf i = if i < N - F then 32 else 0) ∧
    ∃ res, compress_lzss 64 [8, 8, 8, 8, 8] = some res ∧
      ([8, 8, 8, 8, 8] ≠ [] → [8, 8, 8, 8, 8].length + ([8, 8, 8, 8, 8].length + 7) / 8 ≤ 64 →
        res.result ≠ none) ∧
      (res.result ≠ none →
        decompress_lzss (fun _ => 0) 5 res.dst = decompress_lzss (fun i => i % 256) 5 res.dst) :=
  decoder_ignores_stack [8, 8, 8, 8, 8] (by simp) 64 5 (fun _ => 0) (fun i => i % 256) (by simp)

theorem copy_loop_writes_le (d i : Nat) : ∀ (n k : Nat) (st : dec_state),
    (copy_loop d i n k st).dst.length ≤ st.dst.length + n := by
  intro n
  induction n with
  | zero => intro k st; exact le_refl _
  | succ n ih =>
    intro k st
    rw [copy_loop]
    by_cases h : st.dst.length < d
    · rw [if_pos h]
      refine le_trans (ih _ _) ?_
      simp only [List.length_append, List.length_singleton]
      omega
    · rw [if_neg h]
      omega

/-- C19: the decoder terminates. For every source, every capacity and every
stack content `decompress_lzss` returns, its loop being left within
`src_len + 1` iterations; an iteration that does not leave the loop consumes at
least one source byte; and the copy of a pair runs at most 18 times and writes
at most that many bytes. -/
theorem decoder_terminates (stack : Nat → Nat) (d : Nat) (src : List Nat) :
    (∃ out, decompress_loop d (src.length + 1) (dec_init stack src) = some out ∧
      decompress_lzss stack d src = some (int_cast out.length, out)) ∧
    (∀ fuel st, decompress_loop d (fuel + 1) st =
      match dec_reload st with
      | none => some st.dst
      | some st1 =>
        match dec_unit d st1 with
        | none => some st.dst
        | some st2 => decompress_loop d fuel st2) ∧
    (∀ st st1 st2, dec_reload st = some st1 → dec_unit d st1 = some st2 →
      st2.src.length < st.src.length) ∧
    (∀ j, pair_bound j + 1 ≤ 18) ∧
    (∀ i n k st, (copy_loop d i n k st).dst.length ≤ st.dst.length + n) := by
  refine ⟨?_, fun fuel st => decompress_loop_succ d fuel st, ?_, ?_, ?_⟩
  · obtain ⟨out, ho⟩ := decompress_loop_terminates d (src.length + 1) (dec_init stack src)
      (le_refl _)
    refine ⟨out, ho, ?_⟩
    unfold decompress_lzss
    rw [ho]
    rfl
  · intro st st1 st2 h1 h2
    have a := dec_reload_src h1
    have b := dec_unit_src h2
    omega
  · intro j
    unfold pair_bound THRESHOLD
    have := @Nat.and_le_right j 0x0F
    omega
  · intro i n k st
    exact copy_loop_writes_le d i n k st

end LZSS

namespace LZSS

/-! ## What a failed run has written -/

theorem flush_loop_take (c : Nat) (cb : Nat → Nat) : ∀ (n i : Nat) (dst : List Nat),
    dst.length ≤ c → c < dst.length + n →
    (flush_loop c cb n i dst).1 = (dst ++ (List.range n).map (fun j => cb (i + j))).take c := by
  intro n
  induction n with
  | zero => intro i dst h h'; omega
  | succ n ih =>
    intro i dst h h'
    rw [flush_loop]
    by_cases hlt : dst.length < c
    · rw [if_pos hlt]
      by_cases hfit : (dst ++ [cb i]).length + n ≤ c
      · simp only [List.length_append, List.length_singleton] at hfit
        omega
      · rw [ih (i + 1) (dst ++ [cb i])
          (by simp only [List.length_append, List.length_singleton]; omega)
          (by simp only [List.length_append, List.length_singleton]; omega)]
        congr 1
        rw [List.range_succ_eq_map, List.map_cons, List.map_map, List.append_assoc]
        congr 1
        rw [List.singleton_append, Nat.add_zero]
        congr 1
        apply List.map_congr_left
        intro j _
        show cb (i + 1 + j) = cb (i + (j + 1))
        rw [Nat.add_assoc, Nat.add_comm 1 j]
    · rw [if_neg hlt]
      have e : c = dst.length := by omega
      rw [e, List.take_left]

theorem shift_mask_grows (c : Nat) (st st2 : comp_state) (h : shift_mask c st = Sum.inl st2) :
    st.dst <+: st2.dst := by
  unfold shift_mask at h
  dsimp only at h
  by_cases hm : (st.mask <<< 1) % 256 = 0
  · rw [if_pos hm] at h
    by_cases hf : (flush_loop c st.code_buf st.code_buf_ptr 0 st.dst).2 = true
    · rw [if_pos hf] at h
      rw [← Sum.inl.inj h]
      exact flush_loop_grows c st.code_buf st.code_buf_ptr 0 st.dst
    · rw [if_neg hf] at h
      cases h
  · rw [if_neg hm] at h
    rw [← Sum.inl.inj h]

theorem finish_grows (c : Nat) (st : comp_state) : st.dst <+: (finish c st).dst := by
  unfold finish
  dsimp only
  by_cases hp : st.code_buf_ptr > 1
  · rw [if_pos hp]
    by_cases hf : (flush_loop c st.code_buf st.code_buf_ptr 0 st.dst).2 = true
    · rw [if_pos hf]
      exact flush_loop_grows c st.code_buf st.code_buf_ptr 0 st.dst
    · rw [if_neg hf]
      exact flush_loop_grows c st.code_buf st.code_buf_ptr 0 st.dst
  · rw [if_neg hp]

/-- The bytes written by the main loop are never taken back. -/
theorem main_loop_grows (c : Nat) : ∀ (fuel : Nat) (st : comp_state) (res : compress_result),
    main_loop c fuel st = some res → st.dst <+: res.dst := by
  intro fuel
  induction fuel with
  | zero => intro st res h; rw [main_loop] at h; cases h
  | succ fuel ih =>
    intro st res h
    rw [main_loop] at h
    dsimp only at h
    cases hsm : shift_mask c (emit_unit st) with
    | inr o =>
      rw [hsm] at h
      dsimp only at h
      rw [← Option.some.inj h]
      show st.dst <+: o
      unfold shift_mask at hsm
      dsimp only at hsm
      by_cases hm : ((emit_unit st).mask <<< 1) % 256 = 0
      · rw [if_pos hm] at hsm
        by_cases hf : (flush_loop c (emit_unit st).code_buf (emit_unit st).code_buf_ptr 0
            (emit_unit st).dst).2 = true
        · rw [if_pos hf] at hsm
          cases hsm
        · rw [if_neg hf] at hsm
          rw [← Sum.inr.inj hsm]
          have := flush_loop_grows c (emit_unit st).code_buf (emit_unit st).code_buf_ptr 0
            (emit_unit st).dst
          rw [emit_unit_dst] at this ⊢
          exact this
      · rw [if_neg hm] at hsm
        cases hsm
    | inl st2 =>
      rw [hsm] at h
      dsimp only at h
      have g2 := shift_mask_grows c _ _ hsm
      rw [emit_unit_dst] at g2
      cases hrd : read_loop st2.sp.match_length 0 st2 with
      | none => rw [hrd] at h; cases h
      | some p =>
        obtain ⟨i, st3⟩ := p
        rw [hrd] at h
        dsimp only at h
        have e3 := read_loop_dst _ _ _ _ _ hrd
        cases hdr : drain_loop (st2.sp.match_length - i) st3 with
        | none => rw [hdr] at h; cases h
        | some st4 =>
          rw [hdr] at h
          dsimp only at h
          have e4 : st4.dst = st2.dst := by rw [drain_loop_dst _ _ _ hdr, e3]
          by_cases hl : st4.len > 0
          · rw [if_pos hl] at h
            have := ih st4 res h
            rw [e4] at this
            exact g2.trans this
          · rw [if_neg hl] at h
            rw [← Option.some.inj h]
            have := finish_grows c st4
            rw [e4] at this
            exact g2.trans this

theorem take_of_grows {a b : List Nat} (h : a <+: b) (c : Nat) (hc : c ≤ a.length) :
    b.take c = a.take c := by
  obtain ⟨t, rfl⟩ := h
  rw [List.take_append_of_le_length hc]

theorem shift_mask_fail_dst (st st2 : comp_state) (c2 c : Nat)
    (h : shift_mask c2 st = Sum.inl st2) (hd : st.dst.length ≤ c2) (hc : st.dst.length ≤ c)
    (hlt : c < st2.dst.length) (o : List Nat) (ho : shift_mask c st = Sum.inr o) :
    o = st2.dst.take c := by
  unfold shift_mask at h ho
  dsimp only at h ho
  by_cases hm : (st.mask <<< 1) % 256 = 0
  · rw [if_pos hm] at h ho
    by_cases hf : (flush_loop c2 st.code_buf st.code_buf_ptr 0 st.dst).2 = true
    · rw [if_pos hf] at h
      obtain ⟨f1, f2, _⟩ := flush_loop_cap st.code_buf st.code_buf_ptr 0 st.dst c2 hf hd
      have e : st2.dst = (flush_loop c2 st.code_buf st.code_buf_ptr 0 st.dst).1 := by
        rw [← Sum.inl.inj h]
      rw [e, f1] at hlt
      rw [e, flush_loop_ok c2 st.code_buf st.code_buf_ptr 0 st.dst f2]
      by_cases hf2 : (flush_loop c st.code_buf st.code_buf_ptr 0 st.dst).2 = true
      · rw [if_pos hf2] at ho
        cases ho
      · rw [if_neg hf2] at ho
        rw [← Sum.inr.inj ho]
        exact flush_loop_take c st.code_buf st.code_buf_ptr 0 st.dst hc hlt
    · rw [if_neg hf] at h
      cases h
  · rw [if_neg hm] at ho
    cases ho

theorem finish_fail_dst (st : comp_state) (c2 c : Nat) (h : (finish c2 st).result ≠ none)
    (hd : st.dst.length ≤ c2) (hc : st.dst.length ≤ c) (hlt : c < (finish c2 st).dst.length) :
    (finish c st).dst = (finish c2 st).dst.take c := by
  unfold finish at h hlt ⊢
  dsimp only at h hlt ⊢
  by_cases hp : st.code_buf_ptr > 1
  · simp only [if_pos hp] at h hlt ⊢
    by_cases hf : (flush_loop c2 st.code_buf st.code_buf_ptr 0 st.dst).2 = true
    · simp only [if_pos hf] at h hlt ⊢
      obtain ⟨f1, f2, _⟩ := flush_loop_cap st.code_buf st.code_buf_ptr 0 st.dst c2 hf hd
      rw [f1] at hlt
      have e := flush_loop_take c st.code_buf st.code_buf_ptr 0 st.dst hc hlt
      rw [flush_loop_ok c2 st.code_buf st.code_buf_ptr 0 st.dst f2, ← e]
      split <;> rfl
    · simp only [if_neg hf] at h
      exact absurd rfl h
  · simp only [if_neg hp] at h hlt ⊢
    omega

/-- A run of the main loop that fails for lack of room has written the first
`c` bytes of what a run with enough room writes. -/
theorem main_loop_fail_dst (c2 : Nat) : ∀ (fuel : Nat) (st : comp_state)
    (res2 : compress_result),
    main_loop c2 fuel st = some res2 → res2.result ≠ none → st.dst.length ≤ c2 →
    ∀ c, st.dst.length ≤ c → c < res2.dst.length →
      ∀ res, main_loop c fuel st = some res → res.dst = res2.dst.take c := by
  intro fuel
  induction fuel with
  | zero => intro st res2 h; rw [main_loop] at h; cases h
  | succ fuel ih =>
    intro st res2 h hok hd c hc hlt res hres
    have hgrow : ∀ st2, shift_mask c2 (emit_unit st) = Sum.inl st2 → st2.dst <+: res2.dst := by
      intro st2 hsm
      rw [main_loop] at h
      dsimp only at h
      rw [hsm] at h
      dsimp only at h
      cases hrd : read_loop st2.sp.match_length 0 st2 with
      | none => rw [hrd] at h; cases h
      | some p =>
        obtain ⟨i, st3⟩ := p
        rw [hrd] at h
        dsimp only at h
        have e3 := read_loop_dst _ _ _ _ _ hrd
        cases hdr : drain_loop (st2.sp.match_length - i) st3 with
        | none => rw [hdr] at h; cases h
        | some st4 =>
          rw [hdr] at h
          dsimp only at h
          have e4 : st4.dst = st2.dst := by rw [drain_loop_dst _ _ _ hdr, e3]
          by_cases hl : st4.len > 0
          · rw [if_pos hl] at h
            have := main_loop_grows c2 fuel st4 res2 h
            rw [e4] at this
            exact this
          · rw [if_neg hl] at h
            rw [← Option.some.inj h]
            have := finish_grows c2 st4
            rw [e4] at this
            exact this
    rw [main_loop] at h hres
    dsimp only at h hres
    have hd1 : (emit_unit st).dst.length ≤ c2 := by rw [emit_unit_dst]; exact hd
    have hc1 : (emit_unit st).dst.length ≤ c := by rw [emit_unit_dst]; exact hc
    cases hsm : shift_mask c2 (emit_unit st) with
    | inr o =>
      rw [hsm] at h
      dsimp only at h
      rw [← Option.some.inj h] at hok
      exact absurd rfl hok
    | inl st2 =>
      have hg := hgrow st2 hsm
      rw [hsm] at h
      dsimp only at h
      obtain ⟨s1, s2, s3⟩ := shift_mask_cap (emit_unit st) st2 c2 hsm hd1
      obtain ⟨g1, g2⟩ := s3 c hc1
      by_cases hle : st2.dst.length ≤ c
      · rw [g1 hle] at hres
        dsimp only at hres
        cases hrd : read_loop st2.sp.match_length 0 st2 with
        | none => rw [hrd] at h; cases h
        | some p =>
          obtain ⟨i, st3⟩ := p
          rw [hrd] at h hres
          dsimp only at h hres
          have e3 := read_loop_dst _ _ _ _ _ hrd
          cases hdr : drain_loop (st2.sp.match_length - i) st3 with
          | none => rw [hdr] at h; cases h
          | some st4 =>
            rw [hdr] at h hres
            dsimp only at h hres
            have e4 : st4.dst = st2.dst := by rw [drain_loop_dst _ _ _ hdr, e3]
            by_cases hl : st4.len > 0
            · rw [if_pos hl] at h hres
              exact ih st4 res2 h hok (by rw [e4]; exact s2) c (by rw [e4]; exact hle) hlt
                res hres
            · rw [if_neg hl] at h hres
              have hr2 : res2 = finish c2 st4 := (Option.some.inj h).symm
              rw [hr2] at hok hlt ⊢
              rw [← Option.some.inj hres]
              exact finish_fail_dst st4 c2 c hok (by rw [e4]; exact s2)
                (by rw [e4]; exact hle) hlt
      · obtain ⟨o, ho⟩ := g2 (by omega)
        rw [ho] at hres
        dsimp only at hres
        rw [← Option.some.inj hres]
        show o = res2.dst.take c
        rw [shift_mask_fail_dst _ st2 c2 c hsm hd1 hc1 (by omega) o ho]
        exact (take_of_grows hg c (by omega)).symm

/-- A run of the encoder that fails for lack of room has filled the
destination with the first bytes of what a run with enough room writes. -/
theorem compress_lzss_fail_dst (x : List Nat) (c2 : Nat) (res2 : compress_result)
    (h : compress_lzss c2 x = some res2) (hok : res2.result ≠ none) (c : Nat)
    (hlt : c < res2.dst.length) (res : compress_result) (hres : compress_lzss c x = some res) :
    res.dst = res2.dst.take c := by
  unfold compress_lzss at h hres
  dsimp only at h hres
  by_cases h0 : (fill_loop (N - F) F 0 init_state.text_buf x).1 = 0
  · rw [if_pos h0] at h
    rw [← Option.some.inj h] at hok
    exact absurd rfl hok
  · rw [if_neg h0] at h hres
    cases hseed : seed_loop (N - F) F 1
        { init_state with text_buf := (fill_loop (N - F) F 0 init_state.text_buf x).2.1 } [] with
    | none => rw [hseed] at h; cases h
    | some p =>
      obtain ⟨sp1, log1⟩ := p
      rw [hseed] at h hres
      dsimp only at h hres
      cases hins : insert_node sp1 (N - F) with
      | none => rw [hins] at h; cases h
      | some sp2 =>
        rw [hins] at h hres
        dsimp only at h hres
        exact main_loop_fail_dst c2 _ _ res2 h hok (Nat.zero_le _) c (Nat.zero_le _) hlt
          res hres

end LZSS

namespace LZSS

set_option maxRecDepth 10000000 in
/-- The encoder evaluated on 100 bytes `0xAA` with room for 14 bytes. -/
theorem hundred_aa_eval :
    (compress_lzss 14 (List.replicate 100 170)).map
        (fun r => (r.result, r.dst, pair_events r.log)) =
      some (some 14, [1, 170, 238, 255, 0, 15, 18, 15, 36, 15, 54, 15, 64, 6],
        [(4078, 18), (0, 18), (18, 18), (36, 18), (54, 18), (64, 9)]) := by
  rfl

/-- C11: the scenario of 100 bytes `0xAA`. With any capacity of at least 14,
`compress_lzss` succeeds and writes the 14 bytes `01 AA EE FF 00 0F 12 0F 24 0F
36 0F 40 06`: the flag byte `0x01`, the literal `0xAA` and six pairs, of lengths
18, 18, 18, 18, 18 and 9; and `decompress_lzss` on these bytes with capacity
100, whatever its stack held, returns 100 and writes 100 bytes `0xAA`. -/
theorem hundred_aa_scenario (c : Nat) (stack : Nat → Nat) (hc : 14 ≤ c) :
    ∃ res, compress_lzss c (List.replicate 100 170) = some res ∧
      res.result = some 14 ∧
      res.dst = [1, 170, 238, 255, 0, 15, 18, 15, 36, 15, 54, 15, 64, 6] ∧
      pair_events res.log = [(4078, 18), (0, 18), (18, 18), (36, 18), (54, 18), (64, 9)] ∧
      res.dst.length < 100 ∧
      decompress_lzss stack 100 [1, 170, 238, 255, 0, 15, 18, 15, 36, 15, 54, 15, 64, 6] =
        some (100, List.replicate 100 170) := by
  have hx : ∀ b ∈ List.replicate 100 170, b < 256 := by
    intro b hb
    rw [List.eq_of_mem_replicate hb]
    decide
  have hne : List.replicate 100 170 ≠ [] := by simp
  obtain ⟨res2, h2, hM⟩ := compress_lzss_spec (List.replicate 100 170) hne hx stack 100 14
    (by simp)
  have e := hundred_aa_eval
  rw [h2] at e
  simp only [Option.map_some', Option.some.injEq, Prod.mk.injEq] at e
  obtain ⟨e1, e2, e3⟩ := e
  have hs : res2.result ≠ none := by rw [e1]; simp
  obtain ⟨_, a2⟩ := compress_lzss_cap _ 14 res2 h2 hs
  obtain ⟨res, h, b1, _⟩ := a2 c
  have er : res = res2 := b1 (by rw [e2]; exact hc)
  subst er
  refine ⟨res, h, e1, e2, e3, by rw [e2]; decide, ?_⟩
  obtain ⟨out, ho, _, heq⟩ := hM.decodes hs []
  rw [List.append_nil, e2] at ho
  rw [ho.lzss, heq rfl, List.length_replicate, int_cast_of_lt (by norm_num)]
  rfl

theorem hundred_aa_scenario_witness :
    ∃ res, compress_lzss 8192 (List.replicate 100 170) = some res ∧
      res.result = some 14 ∧
      res.dst = [1, 170, 238, 255, 0, 15, 18, 15, 36, 15, 54, 15, 64, 6] ∧
      pair_events res.log = [(4078, 18), (0, 18), (18, 18), (36, 18), (54, 18), (64, 9)] ∧
      res.dst.length < 100 ∧
      decompress_lzss (fun _ => 0) 100
          [1, 170, 238, 255, 0, 15, 18, 15, 36, 15, 54, 15, 64, 6] =
        some (100, List.replicate 100 170) :=
  hundred_aa_scenario 8192 (fun _ => 0) (by decide)

/-- C14, as the code has it: for every non-empty sequence `x` of bytes there is
a stream `out`, the one written when there is room, such that with a capacity
`c` below `len(out)` the encoder returns `NULL` after it has filled the
destination: the `c` bytes it has written are the first `c` bytes of `out`, and
they stay written. -/
theorem failure_keeps_written_bytes (x : List Nat) (hne : x ≠ []) (hx : ∀ b ∈ x, b < 256) :
    ∃ out : List Nat,
      (∀ c, out.length ≤ c → ∃ res, compress_lzss c x = some res ∧
        res.result = some out.length ∧ res.dst = out) ∧
      (∀ c, c < out.length → ∃ res, compress_lzss c x = some res ∧
        res.result = none ∧ res.dst = out.take c ∧ res.dst.length = c) := by
  obtain ⟨res2, h2, hM⟩ := compress_lzss_spec x hne hx (fun _ => 0) x.length
    (x.length + (x.length + 7) / 8) (le_refl _)
  have hs := hM.enough (le_refl _)
  obtain ⟨a1, a2⟩ := compress_lzss_cap x _ res2 h2 hs
  refine ⟨res2.dst, ?_, ?_⟩
  · intro c hc
    obtain ⟨res, h, b1, _⟩ := a2 c
    refine ⟨res, h, ?_⟩
    rw [b1 hc]
    exact ⟨a1, rfl⟩
  · intro c hc
    obtain ⟨res, h, _, b2⟩ := a2 c
    have e := compress_lzss_fail_dst x _ res2 h2 hs c hc res h
    refine ⟨res, h, b2 hc, e, ?_⟩
    rw [e, List.length_take]
    omega

theorem failure_keeps_written_bytes_witness :
    ∃ out : List Nat,
      (∀ c, out.length ≤ c → ∃ res, compress_lzss c [7] = some res ∧
        res.result = some out.length ∧ res.dst = out) ∧
      (∀ c, c < out.length → ∃ res, compress_lzss c [7] = some res ∧
        res.result = none ∧ res.dst = out.take c ∧ res.dst.length = c) :=
  failure_keeps_written_bytes [7] (by simp) (by simp)

set_option maxRecDepth 1000000 in
/-- C14, as stated, fails: on the source `07` with room for one byte the
encoder returns `NULL` and has written the flag byte `01` to the destination. -/
theorem failure_is_not_all_or_nothing :
    ¬ ∀ res, compress_lzss 1 [7] = some res → res.result = none → res.dst = [] := by
  intro hall
  have e : (compress_lzss 1 [7]).map (fun r => (r.result, r.dst)) = some (none, [1]) := by rfl
  cases hc : compress_lzss 1 [7] with
  | none => rw [hc] at e; cases e
  | some res =>
    rw [hc] at e
    simp only [Option.map_some', Option.some.injEq, Prod.mk.injEq] at e
    have := hall res hc e.1
    rw [e.2] at this
    cases this

end LZSS

namespace LZSS

/-! ## The nodes visited by `insert_node` -/

theorem insert_visits_nil (fuel : Nat) (sp : encode_state) (r p : Nat) (cmp : Int)
    (h : link sp p cmp = NIL) : insert_visits (fuel + 1) sp r p cmp = [] := by
  rw [insert_visits]
  by_cases hc : cmp ≥ 0
  · rw [link_right _ _ _ hc] at h
    simp [hc, h]
  · rw [link_left _ _ _ hc] at h
    simp [hc, h]

theorem insert_visits_step (fuel : Nat) (sp : encode_state) (r p : Nat) (cmp : Int)
    (h : link sp p cmp ≠ NIL) :
    insert_visits (fuel + 1) sp r p cmp =
      if (cmp_loop sp.text_buf r (link sp p cmp) (F - 1) 1 cmp).1 > sp.match_length then
        if (cmp_loop sp.text_buf r (link sp p cmp) (F - 1) 1 cmp).1 ≥ F then
          [(link sp p cmp, (cmp_loop sp.text_buf r (link sp p cmp) (F - 1) 1 cmp).1)]
        else
          (link sp p cmp, (cmp_loop sp.text_buf r (link sp p cmp) (F - 1) 1 cmp).1) ::
            insert_visits fuel
              { sp with match_position := link sp p cmp,
                        match_length := (cmp_loop sp.text_buf r (link sp p cmp) (F - 1) 1 cmp).1 }
              r (link sp p cmp) (cmp_loop sp.text_buf r (link sp p cmp) (F - 1) 1 cmp).2
      else
        (link sp p cmp, (cmp_loop sp.text_buf r (link sp p cmp) (F - 1) 1 cmp).1) ::
          insert_visits fuel sp r (link sp p cmp)
            (cmp_loop sp.text_buf r (link sp p cmp) (F - 1) 1 cmp).2 := by
  rw [insert_visits]
  by_cases hc : cmp ≥ 0
  · rw [link_right _ _ _ hc] at h ⊢
    simp only [hc, if_true, if_pos h]
  · rw [link_left _ _ _ hc] at h ⊢
    simp only [hc, if_false, if_pos h]

theorem replace_node_match (sp : encode_state) (r p : Nat) :
    (replace_node sp r p).match_length = sp.match_length ∧
    (replace_node sp r p).match_position = sp.match_position := by
  unfold replace_node
  dsimp only
  split <;> exact ⟨rfl, rfl⟩

/-- The match that the descent reports is the first visited node whose `i` is
the largest: a later node replaces it only with a strictly larger `i`. -/
theorem insert_loop_first_max (r : Nat) : ∀ (fuel : Nat) (sp : encode_state) (p : Nat)
    (cmp : Int) (sp2 : encode_state), insert_loop fuel sp r p cmp = some sp2 →
    ((∀ v ∈ insert_visits fuel sp r p cmp, v.2 ≤ sp.match_length) ∧
      sp2.match_length = sp.match_length ∧ sp2.match_position = sp.match_position) ∨
    (∃ pre post, insert_visits fuel sp r p cmp =
        pre ++ (sp2.match_position, sp2.match_length) :: post ∧
      (∀ v ∈ pre, v.2 < sp2.match_length) ∧ sp.match_length < sp2.match_length ∧
      (∀ v ∈ post, v.2 ≤ sp2.match_length)) := by
  intro fuel
  induction fuel with
  | zero => intro sp p cmp sp2 h; rw [insert_loop] at h; cases h
  | succ fuel ih =>
    intro sp p cmp sp2 h
    by_cases hnil : link sp p cmp = NIL
    · rw [insert_loop_nil _ _ _ _ _ hnil] at h
      rw [insert_visits_nil _ _ _ _ _ hnil]
      left
      refine ⟨by simp, ?_⟩
      split at h <;> (rw [← Option.some.inj h]; exact ⟨rfl, rfl⟩)
    · rw [insert_loop_step _ _ _ _ _ hnil] at h
      rw [insert_visits_step _ _ _ _ _ hnil]
      generalize link sp p cmp = q at h ⊢
      generalize cmp_loop sp.text_buf r q (F - 1) 1 cmp = ic at h ⊢
      by_cases hgt : ic.1 > sp.match_length
      · rw [if_pos hgt] at h ⊢
        by_cases hF : ic.1 ≥ F
        · rw [if_pos hF] at h ⊢
          right
          have e := replace_node_match { sp with match_position := q, match_length := ic.1 } r q
          rw [Option.some.inj h] at e
          refine ⟨[], [], ?_, by simp, ?_, by simp⟩
          · rw [e.1, e.2]
            rfl
          · rw [e.1]
            exact hgt
        · rw [if_neg hF] at h ⊢
          right
          rcases ih _ _ _ _ h with ⟨a1, a2, a3⟩ | ⟨pre, post, b1, b2, b3, b4⟩
          · refine ⟨[], insert_visits fuel
                { sp with match_position := q, match_length := ic.1 } r q ic.2,
              ?_, by simp, ?_, ?_⟩
            · rw [a2, a3]
              rfl
            · rw [a2]
              exact hgt
            · rw [a2]
              exact a1
          · refine ⟨(q, ic.1) :: pre, post, ?_, ?_, ?_, b4⟩
            · rw [b1]
              rfl
            · intro v hv
              rcases List.mem_cons.1 hv with hv | hv
              · rw [hv]
                exact b3
              · exact b2 v hv
            · exact lt_trans hgt b3
      · rw [if_neg hgt] at h ⊢
        rcases ih _ _ _ _ h with ⟨a1, a2, a3⟩ | ⟨pre, post, b1, b2, b3, b4⟩
        · left
          refine ⟨?_, a2, a3⟩
          intro v hv
          rcases List.mem_cons.1 hv with hv | hv
          · rw [hv]
            exact Nat.le_of_not_gt hgt
          · exact a1 v hv
        · right
          refine ⟨(q, ic.1) :: pre, post, ?_, ?_, b3, b4⟩
          · rw [b1]
            rfl
          · intro v hv
            rcases List.mem_cons.1 hv with hv | hv
            · rw [hv]
              exact lt_of_le_of_lt (Nat.le_of_not_gt hgt) b3
            · exact b2 v hv

/-- The nodes visited by the descent are nodes of the tree it descends, and the
`i` of each is the length of the common prefix of its key and the key of `r`. -/
theorem insert_visits_mem (r : Nat) : ∀ (t : Tree) (fuel : Nat) (sp : encode_state)
    (par : Nat) (cmp : Int),
    Rep sp par (link sp par cmp) t →
    (∀ x ∈ t.toList, sp.text_buf x = sp.text_buf r) →
    ∀ v ∈ insert_visits fuel sp r par cmp,
      v.1 ∈ t.toList ∧ v.2 = lcp sp.text_buf r v.1 := by
  intro t
  induction t with
  | leaf =>
    intro fuel sp par cmp hrep _ v hv
    cases fuel with
    | zero => rw [insert_visits] at hv; cases hv
    | succ fuel =>
      have hnil : link sp par cmp = NIL := hrep
      rw [insert_visits_nil _ _ _ _ _ hnil] at hv
      cases hv
  | node l q rr ihl ihr =>
    intro fuel sp par cmp hrep hfirst v hv
    cases fuel with
    | zero => rw [insert_visits] at hv; cases hv
    | succ fuel =>
      obtain ⟨hq0, hq, hpa, hl, hrr⟩ := hrep
      have hqN : q ≠ NIL := by unfold NIL; omega
      have hne : link sp par cmp ≠ NIL := by rw [hq0]; exact hqN
      rw [insert_visits_step _ _ _ _ _ hne, hq0] at hv
      have h0 : sp.text_buf r = sp.text_buf q := (hfirst q (by simp)).symm
      obtain ⟨hi, _⟩ := cmp_loop_lcp sp.text_buf r q cmp h0
      have hhead : ∀ w : Nat × Nat, w = (q, (cmp_loop sp.text_buf r q (F - 1) 1 cmp).1) →
          w.1 ∈ (Tree.node l q rr).toList ∧ w.2 = lcp sp.text_buf r w.1 := by
        intro w hw
        rw [hw]
        exact ⟨by simp, hi⟩
      have hrest : ∀ (mp ml : Nat) (w : Nat × Nat),
          w ∈ insert_visits fuel { sp with match_position := mp, match_length := ml } r q
            (cmp_loop sp.text_buf r q (F - 1) 1 cmp).2 →
          w.1 ∈ (Tree.node l q rr).toList ∧ w.2 = lcp sp.text_buf r w.1 := by
        intro mp ml w hw
        by_cases hc : (cmp_loop sp.text_buf r q (F - 1) 1 cmp).2 ≥ 0
        · have := ihr fuel { sp with match_position := mp, match_length := ml } q _
            (by rw [link_right _ _ _ hc]; exact hrr) (fun x hx => hfirst x (by simp [hx])) w hw
          exact ⟨by simp [this.1], this.2⟩
        · have := ihl fuel { sp with match_position := mp, match_length := ml } q _
            (by rw [link_left _ _ _ hc]; exact hl) (fun x hx => hfirst x (by simp [hx])) w hw
          exact ⟨by simp [this.1], this.2⟩
      split at hv
      · split at hv
        · exact hhead v (List.mem_singleton.1 hv)
        · rcases List.mem_cons.1 hv with hv | hv
          · exact hhead v hv
          · exact hrest _ _ v hv
      · rcases List.mem_cons.1 hv with hv | hv
        · exact hhead v hv
        · exact hrest sp.match_position sp.match_length v hv

/-- A call `insert_node(sp, r)` on a state that holds a forest: the nodes it
visits are members of the tree of the first character of `r`, each with the
length of the common prefix as its `i`, and the match reported is the first
visited node with the largest `i`. -/
theorem insert_node_visits_spec (sp : encode_state) (T : Nat → Tree) (r : Nat)
    (hF : Forest sp T) (hr : r < N) (hb : sp.text_buf r < 256) (hfree : sp.parent r = NIL)
    (sp2 : encode_state) (h : insert_node sp r = some sp2) :
    (∀ v ∈ insert_node_visits sp r, Member T v.1 ∧ sp.text_buf v.1 = sp.text_buf r ∧
      v.2 = lcp sp.text_buf r v.1) ∧
    ((insert_node_visits sp r = [] ∧ sp2.match_length = 0) ∨
      ∃ pre post, insert_node_visits sp r =
          pre ++ (sp2.match_position, sp2.match_length) :: post ∧
        (∀ v ∈ pre, v.2 < sp2.match_length) ∧ (∀ v ∈ post, v.2 ≤ sp2.match_length)) := by
  have hrc : r ∉ (T (sp.text_buf r)).toList := fun hm => hF.parent_ne ⟨_, hb, hm⟩ hfree
  have hmem := insert_visits_mem r (T (sp.text_buf r)) (N + 1)
    { sp with lchild := upd sp.lchild r NIL, rchild := upd sp.rchild r NIL, match_length := 0 }
    (N + 1 + sp.text_buf r) 1
    (by
      rw [link_right _ _ _ (by omega)]
      show RepA _ _ _ _ (upd sp.rchild r NIL (N + 1 + sp.text_buf r)) _
      rw [upd_other _ _ _ _ (by omega)]
      refine RepA_congr _ _ _ (hF.rep _ hb) (fun x hx => ?_)
      have : x ≠ r := fun e => hrc (e ▸ hx)
      exact ⟨upd_other _ _ _ _ this, upd_other _ _ _ _ this, rfl⟩)
    (fun x hx => hF.first _ hb x hx)
  have hmem2 : ∀ v ∈ insert_node_visits sp r, Member T v.1 ∧
      sp.text_buf v.1 = sp.text_buf r ∧ v.2 = lcp sp.text_buf r v.1 := by
    intro v hv
    obtain ⟨a, b⟩ := hmem v hv
    exact ⟨⟨_, hb, a⟩, hF.first _ hb _ a, b⟩
  refine ⟨hmem2, ?_⟩
  have h2 : insert_loop (N + 1)
      { sp with lchild := upd sp.lchild r NIL, rchild := upd sp.rchild r NIL, match_length := 0 }
      r (N + 1 + sp.text_buf r) 1 = some sp2 := h
  rcases insert_loop_first_max r _ _ _ _ _ h2 with ⟨a1, a2, _⟩ | ⟨pre, post, b1, b2, _, b4⟩
  · left
    refine ⟨?_, a2⟩
    cases hvs : insert_node_visits sp r with
    | nil => rfl
    | cons v vs =>
      exfalso
      have hv : v ∈ insert_node_visits sp r := by rw [hvs]; simp
      obtain ⟨_, e1, e2⟩ := hmem2 v hv
      have h1 : 1 ≤ lcp sp.text_buf r v.1 := by
        rw [le_lcp_iff]
        refine ⟨by decide, ?_⟩
        intro j hj
        have : j = 0 := by omega
        rw [this]
        exact e1.symm
      have h3 : v.2 ≤ 0 := a1 v hv
      omega
  · right
    exact ⟨pre, post, b1, b2, b4⟩

end LZSS

namespace LZSS

/-- C13, as the code has it: in every run of `compress_lzss` on a sequence of
bytes, the nodes visited by the descent of a call `insert_node(r)` are members
of the trees, each with the length of the common prefix of its key and the key
of `r`; and when there are any, the `match_position` reported is the first node
visited whose length is the largest, the nodes visited before it being strictly
shorter and those visited after it not longer: a later candidate of the same
length does not replace it, whenever it was inserted. -/
theorem tie_break_first_visited (x : List Nat) (hx : ∀ b ∈ x, b < 256) (c : Nat) :
    ∃ res, compress_lzss c x = some res ∧
      ∀ before r after, Event.inserted before r after ∈ res.log →
        ∃ T, Forest before T ∧
          (∀ v ∈ insert_node_visits before r,
            Member T v.1 ∧ v.2 = lcp before.text_buf r v.1) ∧
          ((insert_node_visits before r = [] ∧ after.match_length = 0) ∨
            ∃ pre post, insert_node_visits before r =
                pre ++ (after.match_position, after.match_length) :: post ∧
              (∀ v ∈ pre, v.2 < after.match_length) ∧
              (∀ v ∈ post, v.2 ≤ after.match_length)) := by
  obtain ⟨res, h, hlog⟩ := compress_lzss_log x hx c
  refine ⟨res, h, ?_⟩
  intro before r after he
  obtain ⟨hcall, hb, hr, ⟨T, hT⟩, _, hfree, _⟩ := hlog _ he
  obtain ⟨a, b⟩ := insert_node_visits_spec before T r hT hr hb hfree after hcall
  exact ⟨T, hT, fun v hv => ⟨(a v hv).1, (a v hv).2.2⟩, b⟩

set_option maxRecDepth 1000000 in
/-- The calls of `insert_node` made by the encoder on "abcXabcYabcZ" after the
`F` calls that seed the trees: position, nodes visited with their lengths, and
the match reported. -/
theorem abc_reports :
    (compress_lzss 64 [97, 98, 99, 88, 97, 98, 99, 89, 97, 98, 99, 90]).map
        (fun r => (r.log.filterMap insert_report).drop 18) =
      some [(4078, [], 4061, 0), (4079, [], 4061, 0), (4080, [], 4061, 0), (4081, [], 4061, 0),
        (4082, [(4078, 3)], 4078, 3), (4083, [(4079, 2)], 4079, 2),
        (4084, [(4080, 1)], 4080, 1), (4085, [], 4080, 0),
        (4086, [(4078, 3), (4082, 3)], 4078, 3), (4087, [(4079, 2), (4083, 2)], 4079, 2),
        (4088, [(4080, 1), (4084, 1)], 4080, 1), (4089, [], 4080, 0)] := by
  rfl

theorem tie_break_first_visited_witness :
    ∃ res, compress_lzss 64 [97, 98, 99, 88, 97, 98, 99, 89, 97, 98, 99, 90] = some res ∧
      ∀ before r after, Event.inserted before r after ∈ res.log →
        ∃ T, Forest before T ∧
          (∀ v ∈ insert_node_visits before r,
            Member T v.1 ∧ v.2 = lcp before.text_buf r v.1) ∧
          ((insert_node_visits before r = [] ∧ after.match_length = 0) ∨
            ∃ pre post, insert_node_visits before r =
                pre ++ (after.match_position, after.match_length) :: post ∧
              (∀ v ∈ pre, v.2 < after.match_length) ∧
              (∀ v ∈ post, v.2 ≤ after.match_length)) :=
  tie_break_first_visited [97, 98, 99, 88, 97, 98, 99, 89, 97, 98, 99, 90] (by decide) 64

/-- C13, as stated, fails on "abcXabcYabcZ": position 4078 is inserted, later
position 4082 is inserted, neither is inserted again, and the call
`insert_node(4086)` for the third "abc" visits both with length 3, the largest,
and reports 4078, not the more recently inserted 4082. -/
theorem tie_break_not_most_recent :
    ¬ ∀ res, compress_lzss 64 [97, 98, 99, 88, 97, 98, 99, 89, 97, 98, 99, 90] = some res →
      ∀ (l1 l2 l3 l4 : List (Nat × List (Nat × Nat) × Nat × Nat)) (q1 q2 r : Nat)
        (v1 v2 vs : List (Nat × Nat)) (m1 n1 m2 n2 mp ml : Nat),
        res.log.filterMap insert_report =
          l1 ++ (q1, v1, m1, n1) :: (l2 ++ (q2, v2, m2, n2) :: (l3 ++ (r, vs, mp, ml) :: l4)) →
        (∀ e ∈ l2, e.1 ≠ q1) → (∀ e ∈ l3, e.1 ≠ q1) →
        (q1, ml) ∈ vs → (q2, ml) ∈ vs → q1 ≠ q2 → mp ≠ q1 := by
  intro hall
  have e := abc_reports
  cases hc : compress_lzss 64 [97, 98, 99, 88, 97, 98, 99, 89, 97, 98, 99, 90] with
  | none => rw [hc] at e; cases e
  | some res =>
    rw [hc] at e
    simp only [Option.map_some', Option.some.injEq] at e
    have hsplit := (List.take_append_drop 18 (res.log.filterMap insert_report)).symm
    rw [e] at hsplit
    obtain ⟨l1, hl1⟩ : ∃ l1, res.log.filterMap insert_report = l1 ++ _ := ⟨_, hsplit⟩
    have := hall res hc l1
      [(4079, [], 4061, 0), (4080, [], 4061, 0), (4081, [], 4061, 0)]
      [(4083, [(4079, 2)], 4079, 2), (4084, [(4080, 1)], 4080, 1), (4085, [], 4080, 0)]
      [(4087, [(4079, 2), (4083, 2)], 4079, 2), (4088, [(4080, 1), (4084, 1)], 4080, 1),
        (4089, [], 4080, 0)]
      4078 4082 4086 [] [(4078, 3)] [(4078, 3), (4082, 3)] 4061 0 4078 3 4078 3
      (by rw [hl1]; rfl) (by decide) (by decide) (by simp) (by simp) (by decide)
    exact this rfl

end LZSS

namespace LZSS

/-! ## One iteration of the main loop -/

theorem emit_unit_len (st : comp_state) : (emit_unit st).len = st.len := by
  unfold emit_unit; dsimp only; repeat' split
  all_goals rfl

theorem loop_body_fail (c : Nat) (st : comp_state) (o : List Nat)
    (h : shift_mask c (emit_unit st) = Sum.inr o) : loop_body c st = none := by
  unfold loop_body
  rw [h]

/-- One iteration of the main loop from a state that meets the invariants:
either it leaves through `goto finish`, or it ends in a state that meets them
again, further in the source. -/
theorem loop_body_spec (x : List Nat) (hx : ∀ b ∈ x, b < 256) (c k : Nat) (st : comp_state)
    (hP : PosInv x k st) (hM : MatchInv k st) (hO : OutOk x c k st) (hlen : 0 < st.len) :
    (∃ o, shift_mask c (emit_unit st) = Sum.inr o) ∨
    (∃ st4 k2, loop_body c st = some st4 ∧ k < k2 ∧ PosInv x k2 st4 ∧
      (0 < st4.len → MatchInv k2 st4) ∧ OutOk x c k2 st4 ∧ st4.len ≤ st.len ∧
      (st4.len ≤ 0 → k2 = x.length) ∧ k + st.len.toNat ≤ k2 + st4.len.toNat) := by
  obtain ⟨D0, cur, g, P, hO, hcur, hmask, hdst⟩ := hO
  obtain ⟨u, hu, heu, hml1, hml2, hO1, hP1, hmask1, hlog1⟩ :=
    emit_spec x (fun _ => 0) x.length k st D0 cur g P (le_refl _) hP hM hO hmask hlen
  have hkl := hP.k_le
  have hlen1 := emit_unit_len st
  have hdst1 := emit_unit_dst st
  unfold loop_body
  generalize emit_unit st = st1 at hml1 hml2 hO1 hP1 hmask1 hlog1 hlen1 hdst1 ⊢
  have hkml : k + st1.sp.match_length ≤ x.length := by omega
  rcases shift_mask_spec x (fun _ => 0) x.length (k + st1.sp.match_length) c st1 D0
      (cur ++ [u]) g P (le_refl _) hO1
      (by simp) (by simp; omega) (by simp [hmask1, hmask]) hkml (by rw [hdst1]; exact hdst)
    with ⟨st2, D0', cur', g', P', hsm, hO2, hcur2, hmask2, e1, e2, e3, e4, e5, e6, hdst2⟩ |
      ⟨dst', hsm, hcap⟩
  · right
    rw [hsm]
    dsimp only
    have hP2 : PosInv x k st2 := hP1.frame (by rw [e1]) (by rw [e1]) (by rw [e1]) (by rw [e1])
      e3 e2 e4 e5 (by rw [e6]; exact hP1.log_ok)
    obtain ⟨i', st3, hread, r1, r2, hP3, hsrc3, hM3, hlen3, hso3⟩ :=
      read_loop_spec x hx st1.sp.match_length 0 k st2 hP2
    rw [e1, hread]
    dsimp only
    simp only [Nat.sub_zero, Nat.zero_add] at hP3 hM3 r2 hsrc3
    have hlen3' : st3.len = st.len := by rw [hlen3, e4, hlen1]
    have hdrain : ∃ st4, drain_loop (st1.sp.match_length - i') st3 = some st4 ∧
        PosInv x (k + st1.sp.match_length) st4 ∧
        st4.len = st3.len - ((st1.sp.match_length - i' : Nat) : Int) ∧
        (0 < st4.len → MatchInv (k + st1.sp.match_length) st4) ∧ SameOut st3 st4 ∧
        (i' < st1.sp.match_length → st4.src = []) := by
      by_cases hi : i' < st1.sp.match_length
      · obtain ⟨st4, h1, h2, h3, h4, h5, h6⟩ := drain_loop_spec x
          (st1.sp.match_length - i') (k + i') st3 hP3 (hsrc3 hi) (by omega)
        refine ⟨st4, h1, ?_, h3, ?_, h6, fun _ => h4⟩
        · rw [show k + st1.sp.match_length = k + i' + (st1.sp.match_length - i') by omega]
          exact h2
        · intro hpos
          rw [show k + st1.sp.match_length = k + i' + (st1.sp.match_length - i') by omega]
          exact h5 (Or.inl (by omega)) hpos
      · have hi' : i' = st1.sp.match_length := by omega
        rw [hi', Nat.sub_self]
        refine ⟨st3, rfl, ?_, by simp, ?_, SameOut.same _, fun h => by omega⟩
        · rw [← hi']; exact hP3
        · intro _
          rw [← hi']
          exact hM3 (Or.inl (by omega))
    obtain ⟨st4, hdr, hP4, hlen4, hM4, hso4, hsrc4⟩ := hdrain
    have hnn := hP4.len_nonneg
    refine ⟨st4, k + st1.sp.match_length, hdr, by omega, hP4, hM4, ?_, by omega, ?_,
      by omega⟩
    · refine ⟨D0', cur', g', P', (hO2.frame_out hso3).frame_out hso4, hcur2, ?_, ?_⟩
      · rw [hso4.2.2.2, hso3.2.2.2, hmask2]
      · rw [hso4.1, hso3.1]; exact hdst2
    · intro hle
      have hlen0 : st4.len = 0 := by
        have := hP4.len_nonneg
        omega
      have hi : i' < st1.sp.match_length := by
        by_contra hge
        have : st1.sp.match_length - i' = 0 := by omega
        rw [this] at hlen4
        simp at hlen4
        omega
      have h1 := hP4.src_eq
      rw [hsrc4 hi, hlen0] at h1
      simp only [Int.toNat_zero, Nat.add_zero] at h1
      have := List.drop_eq_nil_iff.mp h1.symm
      omega
  · left
    exact ⟨dst', hsm⟩

/-- The states at the heads of the iterations of the main loop, and the state
in which the loop is left, meet the invariants. -/
theorem loop_heads_inv (x : List Nat) (hx : ∀ b ∈ x, b < 256) (c : Nat) :
    ∀ (fuel k : Nat) (st : comp_state),
    PosInv x k st → MatchInv k st → OutOk x c k st → 0 < st.len →
    (∀ s ∈ loop_heads c fuel st,
      ∃ k2, PosInv x k2 s ∧ MatchInv k2 s ∧ OutOk x c k2 s ∧ 0 < s.len) ∧
    (∀ s, loop_exit c fuel st = some s → PosInv x x.length s ∧ OutOk x c x.length s) := by
  intro fuel
  induction fuel with
  | zero =>
    intro k st _ _ _ _
    refine ⟨fun s hs => ?_, fun s hs => ?_⟩
    · rw [loop_heads] at hs; cases hs
    · rw [loop_exit] at hs; cases hs
  | succ fuel ih =>
    intro k st hP hM hO hlen
    rw [loop_heads, loop_exit]
    rcases loop_body_spec x hx c k st hP hM hO hlen with ⟨o, ho⟩ |
      ⟨st4, k2, hb, hk, hP4, hM4, hO4, _, hend, _⟩
    · rw [loop_body_fail c st o ho]
      dsimp only
      refine ⟨fun s hs => ?_, fun s hs => by cases hs⟩
      rw [List.mem_singleton.1 hs]
      exact ⟨k, hP, hM, hO, hlen⟩
    · rw [hb]
      dsimp only
      by_cases hl : st4.len > 0
      · simp only [if_pos hl]
        obtain ⟨a, b⟩ := ih k2 st4 hP4 (hM4 hl) hO4 hl
        refine ⟨fun s hs => ?_, b⟩
        rcases List.mem_cons.1 hs with hs | hs
        · rw [hs]
          exact ⟨k, hP, hM, hO, hlen⟩
        · exact a s hs
      · simp only [if_neg hl]
        refine ⟨fun s hs => ?_, fun s hs => ?_⟩
        · rw [List.mem_singleton.1 hs]
          exact ⟨k, hP, hM, hO, hlen⟩
        · rw [← Option.some.inj hs, ← hend (by omega)]
          exact ⟨hP4, hO4⟩

/-- The main loop in terms of its iterations. -/
theorem main_loop_body (c fuel : Nat) (st : comp_state) :
    main_loop c (fuel + 1) st =
      match shift_mask c (emit_unit st) with
      | Sum.inr dst => some ⟨none, dst, (emit_unit st).log⟩
      | Sum.inl _ =>
        match loop_body c st with
        | none => none
        | some st4 => if st4.len > 0 then main_loop c fuel st4 else some (finish c st4) := by
  rw [main_loop]
  unfold loop_body
  dsimp only
  cases shift_mask c (emit_unit st) with
  | inr o => rfl
  | inl st2 =>
    dsimp only
    cases read_loop st2.sp.match_length 0 st2 with
    | none => try rfl
    | some p =>
      obtain ⟨i, st3⟩ := p
      rfl

/-- An iteration of the main loop consumes source bytes or decreases `len`. -/
theorem loop_body_decreases (x : List Nat) (hx : ∀ b ∈ x, b < 256) (c k : Nat)
    (st st4 : comp_state) (hP : PosInv x k st) (hM : MatchInv k st) (hO : OutOk x c k st)
    (hlen : 0 < st.len) (hb : loop_body c st = some st4) :
    (st4.src.length < st.src.length ∧ st4.len ≤ st.len) ∨
    (st4.src.length ≤ st.src.length ∧ st4.len < st.len) := by
  rcases loop_body_spec x hx c k st hP hM hO hlen with ⟨o, ho⟩ |
    ⟨st5, k2, hb5, hk, hP4, _, _, hle, _, hsum⟩
  · rw [loop_body_fail c st o ho] at hb
    cases hb
  · rw [hb] at hb5
    have e : st5 = st4 := (Option.some.inj hb5).symm
    subst e
    have s1 := hP.src_eq
    have s2 := hP4.src_eq
    have k1 := hP.k_le
    have k2' := hP4.k_le
    have n1 := hP.len_nonneg
    have n2 := hP4.len_nonneg
    have l1 : st.src.length = x.length - (k + st.len.toNat) := by rw [s1, List.length_drop]
    have l2 : st5.src.length = x.length - (k2 + st5.len.toNat) := by
      rw [s2, List.length_drop]
    by_cases heq : st5.len = st.len
    · left
      rw [heq] at l2 k2' hsum ⊢
      exact ⟨by omega, le_refl _⟩
    · right
      exact ⟨by omega, by omega⟩

theorem length_lt_of_nodup_lt (l : List Nat) (n r : Nat) (hn : l.Nodup)
    (h : ∀ y ∈ l, y < n) (hr : r < n) (hrl : r ∉ l) : l.length < n := by
  have := length_le_of_nodup_lt (r :: l) n (List.nodup_cons.2 ⟨hrl, hn⟩)
    (by
      intro y hy
      rcases List.mem_cons.1 hy with hy | hy
      · rw [hy]; exact hr
      · exact h y hy)
  simp only [List.length_cons] at this
  omega

theorem insert_loop_mono (r : Nat) : ∀ (fuel : Nat) (sp : encode_state) (p : Nat) (cmp : Int)
    (sp2 : encode_state), insert_loop fuel sp r p cmp = some sp2 →
    insert_loop (fuel + 1) sp r p cmp = some sp2 := by
  intro fuel
  induction fuel with
  | zero => intro sp p cmp sp2 h; rw [insert_loop] at h; cases h
  | succ fuel ih =>
    intro sp p cmp sp2 h
    by_cases hnil : link sp p cmp = NIL
    · rw [insert_loop_nil _ _ _ _ _ hnil] at h ⊢
      exact h
    · rw [insert_loop_step _ _ _ _ _ hnil] at h ⊢
      by_cases h1 : (cmp_loop sp.text_buf r (link sp p cmp) (F - 1) 1 cmp).1 > sp.match_length
      · rw [if_pos h1] at h ⊢
        by_cases h2 : (cmp_loop sp.text_buf r (link sp p cmp) (F - 1) 1 cmp).1 ≥ F
        · rw [if_pos h2] at h ⊢
          exact h
        · rw [if_neg h2] at h ⊢
          exact ih _ _ _ _ h
      · rw [if_neg h1] at h ⊢
        exact ih _ _ _ _ h

/-- The descent of `insert_node` on a state that holds a forest stops within
`N` iterations. -/
theorem insert_node_steps (sp : encode_state) (T : Nat → Tree) (r : Nat)
    (hF : Forest sp T) (hr : r < N) (hb : sp.text_buf r < 256) (hfree : sp.parent r = NIL)
    (sp2 : encode_state) (h : insert_node sp r = some sp2) :
    insert_node_fuel N sp r = some sp2 := by
  have hrc : r ∉ (T (sp.text_buf r)).toList := fun hm => hF.parent_ne ⟨_, hb, hm⟩ hfree
  have hlt := RepA_lt _ _ _ (hF.rep _ hb)
  have hpar : N + 1 + sp.text_buf r ∉ (T (sp.text_buf r)).toList := by
    intro h
    have := hlt _ h
    omega
  obtain ⟨sp3, t3, hins, _⟩ := insert_loop_spec r hr (T (sp.text_buf r)) N
    { sp with lchild := upd sp.lchild r NIL, rchild := upd sp.rchild r NIL, match_length := 0 }
    (N + 1 + sp.text_buf r) 1
    (by
      rw [link_right _ _ _ (by omega)]
      show RepA _ _ _ _ (upd sp.rchild r NIL (N + 1 + sp.text_buf r)) _
      rw [upd_other _ _ _ _ (by omega)]
      refine RepA_congr _ _ _ (hF.rep _ hb) (fun x hx => ?_)
      have : x ≠ r := fun e => hrc (e ▸ hx)
      exact ⟨upd_other _ _ _ _ this, upd_other _ _ _ _ this, rfl⟩)
    (hF.bst _ hb) (fun x hx => hF.first _ hb x hx) hrc hpar (by omega)
    (by unfold NIL; omega) (fun h => by omega) (upd_same _ _ _) (upd_same _ _ _)
    (by show 0 < F; decide)
    (length_lt_of_nodup_lt _ N r (Bst_nodup _ _ (hF.bst _ hb)) hlt hr hrc)
  have h1 := insert_loop_mono r _ _ _ _ _ hins
  have h2 : insert_loop (N + 1)
      { sp with lchild := upd sp.lchild r NIL, rchild := upd sp.rchild r NIL, match_length := 0 }
      r (N + 1 + sp.text_buf r) 1 = some sp2 := h
  rw [h1] at h2
  show insert_loop N
      { sp with lchild := upd sp.lchild r NIL, rchild := upd sp.rchild r NIL, match_length := 0 }
      r (N + 1 + sp.text_buf r) 1 = some sp2
  rw [hins, Option.some.inj h2]

end LZSS

namespace LZSS

/-- C20: the encoder terminates. For every sequence `x` of bytes and every
capacity, `compress_lzss` returns. Every call of `insert_node` and of
`delete_node` it makes starts in a state that holds a forest of finite trees;
the descent of `insert_node` stops within `N` iterations and the predecessor
loop of `delete_node` within `N`. The main loop, entered on a non-empty source,
is left within `len(x) + 1` iterations, and each iteration that reaches the
loop condition from a state at the head of the loop has consumed source bytes
or decreased `len`, increasing neither. -/
theorem encoder_terminates (x : List Nat) (hx : ∀ b ∈ x, b < 256) (c : Nat) :
    ∃ res, compress_lzss c x = some res ∧
      (∀ before r after, Event.inserted before r after ∈ res.log →
        (∃ T, Forest before T) ∧ insert_node_fuel N before r = some after) ∧
      (∀ before p after, Event.deleted before p after ∈ res.log →
        (∃ T, Forest before T) ∧ delete_node_fuel N before p = some after) ∧
      (x ≠ [] → ∃ st0, loop_entry x = some st0 ∧
        compress_lzss c x = main_loop c (x.length + 1) st0 ∧
        ∀ s ∈ loop_heads c (x.length + 1) st0, ∀ s2, loop_body c s = some s2 →
          (s2.src.length < s.src.length ∧ s2.len ≤ s.len) ∨
          (s2.src.length ≤ s.src.length ∧ s2.len < s.len)) ∧
      (∀ fuel st, main_loop c (fuel + 1) st =
        match shift_mask c (emit_unit st) with
        | Sum.inr dst => some ⟨none, dst, (emit_unit st).log⟩
        | Sum.inl _ =>
          match loop_body c st with
          | none => none
          | some st4 => if st4.len > 0 then main_loop c fuel st4 else some (finish c st4)) := by
  obtain ⟨res, h, hlog⟩ := compress_lzss_log x hx c
  refine ⟨res, h, ?_, ?_, ?_, fun fuel st => main_loop_body c fuel st⟩
  · intro before r after he
    obtain ⟨hcall, hb, hr, ⟨T, hT⟩, _, hfree, _⟩ := hlog _ he
    exact ⟨⟨T, hT⟩, insert_node_steps before T r hT hr hb hfree after hcall⟩
  · intro before p after he
    obtain ⟨hcall, _, hT, _⟩ := hlog _ he
    exact ⟨hT, hcall⟩
  · intro hne
    obtain ⟨st0, hentry, hrun, hP, hM, hO, hmask, hlen, hdst⟩ :=
      loop_entry_spec x hne hx (fun _ => 0) x.length
    refine ⟨st0, hentry, hrun c, ?_⟩
    have hO0 : OutOk x c 0 st0 :=
      ⟨_, [], 0, 0, hO, by simp, by rw [hmask]; rfl, by rw [hdst]; simp⟩
    obtain ⟨hheads, _⟩ := loop_heads_inv x hx c (x.length + 1) 0 st0 hP hM hO0 hlen
    intro s hs s2 hb
    obtain ⟨k2, a1, a2, a3, a4⟩ := hheads s hs
    exact loop_body_decreases x hx c k2 s s2 a1 a2 a3 a4 hb

theorem encoder_terminates_witness :
    ∃ res, compress_lzss 64 [1, 2, 1, 2, 1, 2, 1] = some res ∧
      (∀ before r after, Event.inserted before r after ∈ res.log →
        (∃ T, Forest before T) ∧ insert_node_fuel N before r = some after) ∧
      (∀ before p after, Event.deleted before p after ∈ res.log →
        (∃ T, Forest before T) ∧ delete_node_fuel N before p = some after) ∧
      ([1, 2, 1, 2, 1, 2, 1] ≠ [] → ∃ st0, loop_entry [1, 2, 1, 2, 1, 2, 1] = some st0 ∧
        compress_lzss 64 [1, 2, 1, 2, 1, 2, 1] =
          main_loop 64 ([1, 2, 1, 2, 1, 2, 1].length + 1) st0 ∧
        ∀ s ∈ loop_heads 64 ([1, 2, 1, 2, 1, 2, 1].length + 1) st0, ∀ s2,
          loop_body 64 s = some s2 →
          (s2.src.length < s.src.length ∧ s2.len ≤ s.len) ∨
          (s2.src.length ≤ s.src.length ∧ s2.len < s.len)) ∧
      (∀ fuel st, main_loop 64 (fuel + 1) st =
        match shift_mask 64 (emit_unit st) with
        | Sum.inr dst => some ⟨none, dst, (emit_unit st).log⟩
        | Sum.inl _ =>
          match loop_body 64 st with
          | none => none
          | some st4 => if st4.len > 0 then main_loop 64 fuel st4 else some (finish 64 st4)) :=
  encoder_terminates [1, 2, 1, 2, 1, 2, 1] (by decide) 64

end LZSS

namespace LZSS

/-! ## The links of tree members -/

theorem RepA_links {lc rc pa : Nat → Nat} : ∀ (t : Tree) (par p : Nat),
    RepA lc rc pa par p t → ∀ y ∈ t.toList,
      y < N ∧ (lc y = NIL ∨ (lc y ∈ t.toList ∧ pa (lc y) = y)) ∧
      (rc y = NIL ∨ (rc y ∈ t.toList ∧ pa (rc y) = y)) ∧
      (pa y ∈ t.toList ∨ (y = p ∧ pa y = par)) := by
  intro t
  induction t with
  | leaf => intro par p _ y hy; simp at hy
  | node l v r ihl ihr =>
    intro par p h y hy
    obtain ⟨hp, hv, hpa, hl, hr⟩ := h
    simp only [toList_node, List.mem_append, List.mem_cons] at hy ⊢
    rcases hy with hy | hy | hy
    · obtain ⟨a, b, c, d⟩ := ihl v (lc v) hl y hy
      refine ⟨a, ?_, ?_, ?_⟩
      · rcases b with b | ⟨b, b2⟩
        · exact Or.inl b
        · exact Or.inr ⟨Or.inl b, b2⟩
      · rcases c with c | ⟨c, c2⟩
        · exact Or.inl c
        · exact Or.inr ⟨Or.inl c, c2⟩
      · rcases d with d | ⟨_, d⟩
        · exact Or.inl (Or.inl d)
        · exact Or.inl (Or.inr (Or.inl d))
    · subst hy
      refine ⟨hv, ?_, ?_, Or.inr ⟨hp.symm, hpa⟩⟩
      · rcases RepA_root hl with ⟨a, _⟩ | ⟨_, a, a2⟩
        · exact Or.inl a
        · exact Or.inr ⟨Or.inl a, a2⟩
      · rcases RepA_root hr with ⟨a, _⟩ | ⟨_, a, a2⟩
        · exact Or.inl a
        · exact Or.inr ⟨Or.inr (Or.inr a), a2⟩
    · obtain ⟨a, b, c, d⟩ := ihr v (rc v) hr y hy
      refine ⟨a, ?_, ?_, ?_⟩
      · rcases b with b | ⟨b, b2⟩
        · exact Or.inl b
        · exact Or.inr ⟨Or.inr (Or.inr b), b2⟩
      · rcases c with c | ⟨c, c2⟩
        · exact Or.inl c
        · exact Or.inr ⟨Or.inr (Or.inr c), c2⟩
      · rcases d with d | ⟨_, d⟩
        · exact Or.inl (Or.inr (Or.inr d))
        · exact Or.inl (Or.inr (Or.inl d))

/-- A state that holds a forest keeps the links of its members among them. -/
theorem Forest.node_ok {sp : encode_state} {T : Nat → Tree} (h : Forest sp T) :
    NodeOk sp.lchild sp.rchild sp.parent (Member T) := by
  intro y hy
  obtain ⟨c, hc, hy⟩ := hy
  obtain ⟨a, b, d, e⟩ := RepA_links (T c) _ _ (h.rep c hc) y hy
  refine ⟨a, ?_, ?_, ?_⟩
  · rcases b with b | ⟨b, b2⟩
    · exact Or.inl b
    · exact Or.inr ⟨⟨c, hc, b⟩, b2⟩
  · rcases d with d | ⟨d, d2⟩
    · exact Or.inl d
    · exact Or.inr ⟨⟨c, hc, d⟩, d2⟩
  · rcases e with e | ⟨e1, e2⟩
    · exact Or.inl ⟨c, hc, e⟩
    · right
      rw [e2]
      exact ⟨by omega, by omega, e1.symm⟩

/-- The root link of a tree of a forest is `NIL` or a member. -/
theorem Forest.root_link {sp : encode_state} {T : Nat → Tree} (h : Forest sp T) (c : Nat)
    (hc : c < 256) : sp.rchild (N + 1 + c) = NIL ∨ Member T (sp.rchild (N + 1 + c)) := by
  rcases RepA_root (h.rep c hc) with ⟨a, _⟩ | ⟨_, a, _⟩
  · exact Or.inl a
  · exact Or.inr ⟨c, hc, a⟩

end LZSS

namespace LZSS

/-! ## The accesses of `insert_node` are in bounds -/

theorem cmp_loop_trace_ok (tb : Nat → Nat) (r p : Nat) (hr : r < N) (hp : p < N) :
    ∀ (n i : Nat), i + n ≤ F → ∀ a ∈ cmp_loop_trace tb r p n i, a.in_bounds := by
  intro n
  induction n with
  | zero => intro i _ a ha; rw [cmp_loop_trace] at ha; cases ha
  | succ n ih =>
    intro i hi a ha
    rw [cmp_loop_trace] at ha
    rcases List.mem_cons.1 ha with ha | ha
    · rw [ha]
      show r + i < N + F - 1
      simp only [N, F] at *
      omega
    · rcases List.mem_cons.1 ha with ha | ha
      · rw [ha]
        show p + i < N + F - 1
        simp only [N, F] at *
        omega
      · split at ha
        · cases ha
        · exact ih (i + 1) (by omega) a ha

theorem upd_self_val (a : Nat → Nat) (i j : Nat) : upd a i (a j) j = a j := by
  unfold upd
  split <;> rfl

theorem replace_node_trace_ok (sp : encode_state) (M : Nat → Prop) (r p : Nat)
    (hN : NodeOk sp.lchild sp.rchild sp.parent M) (hM : ∀ y, M y → y < N)
    (hr : r < N) (hp : M p) : ∀ a ∈ replace_node_trace sp r p, a.in_bounds := by
  obtain ⟨hpN, hl, hrc, hpa⟩ := hN p hp
  have hl' : sp.lchild p ≤ N := by
    rcases hl with h | h
    · rw [h]; exact le_refl _
    · exact le_of_lt (hM _ h.1)
  have hrc' : sp.rchild p ≤ N := by
    rcases hrc with h | h
    · rw [h]; exact le_refl _
    · exact le_of_lt (hM _ h.1)
  have hpa' : sp.parent p < N ∨ (N < sp.parent p ∧ sp.parent p ≤ N + 256 ∧
      sp.rchild (sp.parent p) = p) := by
    rcases hpa with h | h
    · exact Or.inl (hM _ h)
    · exact Or.inr h
  intro a ha
  unfold replace_node_trace at ha
  dsimp only at ha
  rw [upd_self_val sp.lchild r p, upd_self_val sp.rchild r p] at ha
  generalize hq : upd (upd (upd sp.parent r (sp.parent p)) (sp.lchild p) r) (sp.rchild p) r p
    = q at ha
  have hq' : q = r ∨ q = sp.parent p := by
    rw [← hq]
    unfold upd
    split
    · exact Or.inl rfl
    · split
      · exact Or.inl rfl
      · split <;> exact Or.inr rfl
  have hq1 : q < N + 257 := by
    rcases hq' with h | h
    · rw [h]; omega
    · rw [h]; omega
  have hq2 : upd sp.rchild r (sp.rchild p) q ≠ p → q < N + 1 := by
    intro hne
    rcases hq' with h | h
    · rw [h]; omega
    · rcases hpa' with h2 | ⟨h2, _, h4⟩
      · rw [h]; omega
      · exfalso
        apply hne
        rw [h, upd_other _ _ _ _ (by omega)]
        exact h4
  simp only [List.mem_append, List.mem_cons, List.mem_singleton, List.not_mem_nil,
    or_false] at ha
  rcases ha with (ha | ha) | ha
  rotate_left
  · by_cases hc : upd sp.rchild r (sp.rchild p) q = p
    · rw [if_pos hc] at ha
      simp only [List.mem_cons, List.mem_singleton, List.not_mem_nil, or_false] at ha
      rcases ha with ha | ha
      · rw [ha]; show p < N + 1; omega
      · rw [ha]; exact hq1
    · rw [if_neg hc] at ha
      simp only [List.mem_cons, List.mem_singleton, List.not_mem_nil, or_false] at ha
      rcases ha with ha | ha
      · rw [ha]; show p < N + 1; omega
      · rw [ha]; exact hq2 hc
  · rw [ha]; show p < N + 1; omega
  rcases ha with ha | ha | ha | ha | ha | ha | ha | ha | ha | ha | ha | ha
  · rw [ha]; show p < N + 1; omega
  · rw [ha]; show r < N + 1; omega
  · rw [ha]; show p < N + 1; omega
  · rw [ha]; show r < N + 1; omega
  · rw [ha]; show p < N + 257; omega
  · rw [ha]; show r < N + 257; omega
  · rw [ha]; show p < N + 1; omega
  · rw [ha]; show sp.lchild p < N + 1; omega
  · rw [ha]; show p < N + 257; omega
  · rw [ha]; show sp.rchild p < N + 1; omega
  · rw [ha]; show p < N + 1; omega
  · rw [ha]; exact hq1

theorem insert_trace_nil (fuel : Nat) (sp : encode_state) (r p : Nat) (cmp : Int)
    (h : link sp p cmp = NIL) :
    insert_trace (fuel + 1) sp r p cmp =
      (if cmp ≥ 0 then Access.rchild p else Access.lchild p) ::
      (if cmp ≥ 0 then Access.rchild p else Access.lchild p) :: [Access.parent r] := by
  rw [insert_trace]
  by_cases hc : cmp ≥ 0
  · rw [link_right _ _ _ hc] at h
    simp [hc, h]
  · rw [link_left _ _ _ hc] at h
    simp [hc, h]

theorem insert_trace_step (fuel : Nat) (sp : encode_state) (r p : Nat) (cmp : Int)
    (h : link sp p cmp ≠ NIL) :
    insert_trace (fuel + 1) sp r p cmp =
      (if cmp ≥ 0 then Access.rchild p else Access.lchild p) ::
      (if cmp ≥ 0 then Access.rchild p else Access.lchild p) ::
      (cmp_loop_trace sp.text_buf r (link sp p cmp) (F - 1) 1 ++
      (if (cmp_loop sp.text_buf r (link sp p cmp) (F - 1) 1 cmp).1 > sp.match_length then
        if (cmp_loop sp.text_buf r (link sp p cmp) (F - 1) 1 cmp).1 ≥ F then
          replace_node_trace
            { sp with match_position := link sp p cmp,
                      match_length := (cmp_loop sp.text_buf r (link sp p cmp) (F - 1) 1 cmp).1 }
            r (link sp p cmp)
        else
          insert_trace fuel
            { sp with match_position := link sp p cmp,
                      match_length := (cmp_loop sp.text_buf r (link sp p cmp) (F - 1) 1 cmp).1 }
            r (link sp p cmp) (cmp_loop sp.text_buf r (link sp p cmp) (F - 1) 1 cmp).2
      else
        insert_trace fuel sp r (link sp p cmp)
          (cmp_loop sp.text_buf r (link sp p cmp) (F - 1) 1 cmp).2)) := by
  rw [insert_trace]
  by_cases hc : cmp ≥ 0
  · rw [link_right _ _ _ hc] at h ⊢
    simp only [hc, if_true, if_pos h]
  · rw [link_left _ _ _ hc] at h ⊢
    simp only [hc, if_false, if_pos h]

/-- The accesses of the descent of `insert_node` are in bounds when the links
of the members stay among the members and the descent starts at a member, or
at a root index with `cmp >= 0`. -/
theorem insert_trace_ok (M : Nat → Prop) (r : Nat) (hr : r < N) :
    ∀ (fuel : Nat) (sp : encode_state) (p : Nat) (cmp : Int),
    NodeOk sp.lchild sp.rchild sp.parent M →
    (M p ∨ (p ≤ N + 256 ∧ cmp ≥ 0 ∧ (sp.rchild p = NIL ∨ M (sp.rchild p)))) →
    ∀ a ∈ insert_trace fuel sp r p cmp, a.in_bounds := by
  intro fuel
  induction fuel with
  | zero => intro sp p cmp _ _ a ha; rw [insert_trace] at ha; cases ha
  | succ fuel ih =>
    intro sp p cmp hN hp a ha
    have hhead : (if cmp ≥ 0 then Access.rchild p else Access.lchild p).in_bounds := by
      by_cases hc : cmp ≥ 0
      · rw [if_pos hc]
        show p < N + 257
        rcases hp with h | h
        · have := (hN p h).1
          omega
        · omega
      · rw [if_neg hc]
        show p < N + 1
        rcases hp with h | h
        · have := (hN p h).1
          omega
        · exact absurd h.2.1 hc
    by_cases hnil : link sp p cmp = NIL
    · rw [insert_trace_nil _ _ _ _ _ hnil] at ha
      simp only [List.mem_cons, List.mem_singleton, List.not_mem_nil, or_false] at ha
      rcases ha with ha | ha | ha
      · rw [ha]; exact hhead
      · rw [ha]; exact hhead
      · rw [ha]; show r < N + 1; omega
    · have hq : M (link sp p cmp) := by
        by_cases hc : cmp ≥ 0
        · rw [link_right _ _ _ hc] at hnil ⊢
          rcases hp with h | h
          · rcases (hN p h).2.2.1 with h2 | h2
            · exact absurd h2 hnil
            · exact h2.1
          · rcases h.2.2 with h2 | h2
            · exact absurd h2 hnil
            · exact h2
        · rw [link_left _ _ _ hc] at hnil ⊢
          rcases hp with h | h
          · rcases (hN p h).2.1 with h2 | h2
            · exact absurd h2 hnil
            · exact h2.1
          · exact absurd h.2.1 hc
      rw [insert_trace_step _ _ _ _ _ hnil] at ha
      generalize link sp p cmp = q at hq ha
      rcases List.mem_cons.1 ha with ha | ha
      · rw [ha]; exact hhead
      rcases List.mem_cons.1 ha with ha | ha
      · rw [ha]; exact hhead
      rcases List.mem_append.1 ha with ha | ha
      · exact cmp_loop_trace_ok sp.text_buf r q hr (hN q hq).1 (F - 1) 1 (by decide) a ha
      · by_cases h1 : (cmp_loop sp.text_buf r q (F - 1) 1 cmp).1 > sp.match_length
        · rw [if_pos h1] at ha
          by_cases h2 : (cmp_loop sp.text_buf r q (F - 1) 1 cmp).1 ≥ F
          · rw [if_pos h2] at ha
            exact replace_node_trace_ok _ M r q hN (fun y hy => (hN y hy).1) hr hq a ha
          · rw [if_neg h2] at ha
            exact ih { sp with match_position := q,
                               match_length := (cmp_loop sp.text_buf r q (F - 1) 1 cmp).1 }
              q _ hN (Or.inl hq) a ha
        · rw [if_neg h1] at ha
          exact ih _ q _ hN (Or.inl hq) a ha

/-- The accesses of a call `insert_node(sp, r)` are in bounds when the state
holds a forest, `r` is a position that is not a member, and its first
character is a byte. -/
theorem insert_node_trace_ok (sp : encode_state) (T : Nat → Tree) (r : Nat)
    (hF : Forest sp T) (hr : r < N) (hb : sp.text_buf r < 256) (hfree : sp.parent r = NIL) :
    ∀ a ∈ insert_node_trace sp r, a.in_bounds := by
  have hnm : ¬ Member T r := fun hm => hF.parent_ne hm hfree
  have hN := hF.node_ok
  have hN0 : NodeOk (upd sp.lchild r NIL) (upd sp.rchild r NIL) sp.parent (Member T) := by
    intro y hy
    obtain ⟨a, b, c, d⟩ := hN y hy
    have hyr : y ≠ r := fun e => hnm (e ▸ hy)
    rw [upd_other _ _ _ _ hyr, upd_other _ _ _ _ hyr]
    refine ⟨a, b, c, ?_⟩
    rcases d with d | ⟨d1, d2, d3⟩
    · exact Or.inl d
    · exact Or.inr ⟨d1, d2, by rw [upd_other _ _ _ _ (by omega)]; exact d3⟩
  intro a ha
  unfold insert_node_trace at ha
  dsimp only at ha
  rcases List.mem_cons.1 ha with ha | ha
  · rw [ha]; show r < N + F - 1; simp only [N, F] at *; omega
  rcases List.mem_cons.1 ha with ha | ha
  · rw [ha]; show r < N + 257; omega
  rcases List.mem_cons.1 ha with ha | ha
  · rw [ha]; show r < N + 1; omega
  refine insert_trace_ok (Member T) r hr (N + 1)
    { sp with lchild := upd sp.lchild r NIL, rchild := upd sp.rchild r NIL, match_length := 0 }
    (N + 1 + sp.text_buf r) 1 hN0 ?_ a ha
  right
  refine ⟨by omega, by decide, ?_⟩
  show upd sp.rchild r NIL (N + 1 + sp.text_buf r) = NIL ∨
    Member T (upd sp.rchild r NIL (N + 1 + sp.text_buf r))
  rw [upd_other _ _ _ _ (by omega)]
  exact hF.root_link _ hb

end LZSS

namespace LZSS

/-! ## The accesses of `delete_node` are in bounds -/

theorem pred_loop_trace_ok (rc pa : Nat → Nat) (M : Nat → Prop)
    (hN : ∀ y, M y → y < N ∧ (rc y = NIL ∨ (M (rc y) ∧ pa (rc y) = y))) :
    ∀ (fuel q : Nat), M q → rc q ≠ NIL →
    (∀ a ∈ pred_loop_trace rc fuel q, a.in_bounds) ∧
    (∀ q2, pred_loop rc fuel q = some q2 → M q2 ∧ pa q2 < N ∧ rc q2 = NIL) := by
  intro fuel
  induction fuel with
  | zero =>
    intro q _ _
    refine ⟨fun a ha => ?_, fun q2 h => ?_⟩
    · rw [pred_loop_trace] at ha; cases ha
    · rw [pred_loop] at h; cases h
  | succ fuel ih =>
    intro q hq hne
    obtain ⟨hqN, hrc⟩ := hN q hq
    rcases hrc with h | ⟨h1, h2⟩
    · exact absurd h hne
    · obtain ⟨hq1N, hrc1⟩ := hN (rc q) h1
      refine ⟨fun a ha => ?_, fun q2 h => ?_⟩
      · rw [pred_loop_trace] at ha
        rcases List.mem_cons.1 ha with ha | ha
        · rw [ha]; show q < N + 257; omega
        rcases List.mem_cons.1 ha with ha | ha
        · rw [ha]; show rc q < N + 257; omega
        by_cases hc : rc (rc q) ≠ NIL
        · rw [if_pos hc] at ha
          exact (ih (rc q) h1 hc).1 a ha
        · rw [if_neg hc] at ha
          cases ha
      · rw [pred_loop] at h
        by_cases hc : rc (rc q) ≠ NIL
        · rw [if_pos hc] at h
          exact (ih (rc q) h1 hc).2 q2 h
        · rw [if_neg hc] at h
          rw [← Option.some.inj h]
          refine ⟨h1, by rw [h2]; exact hqN, ?_⟩
          by_contra hx
          exact hc hx

theorem delete_link_trace_ok (sp : encode_state) (p q : Nat) (hp : p < N) (hq : q ≤ N)
    (h1 : sp.parent p ≤ N + 256) (h2 : sp.rchild (sp.parent p) ≠ p → sp.parent p ≤ N) :
    ∀ a ∈ delete_link_trace sp p q, a.in_bounds := by
  intro a ha
  unfold delete_link_trace at ha
  dsimp only at ha
  rw [upd_self_val sp.parent q p] at ha
  rcases List.mem_append.1 ha with ha | ha
  · rcases List.mem_append.1 ha with ha | ha
    · simp only [List.mem_cons, List.mem_singleton, List.not_mem_nil, or_false] at ha
      rcases ha with ha | ha | ha | ha
      · rw [ha]; show p < N + 1; omega
      · rw [ha]; show q < N + 1; omega
      · rw [ha]; show p < N + 1; omega
      · rw [ha]; show sp.parent p < N + 257; omega
    · by_cases hc : sp.rchild (sp.parent p) = p
      · rw [if_pos hc] at ha
        simp only [List.mem_cons, List.mem_singleton, List.not_mem_nil, or_false] at ha
        rcases ha with ha | ha
        · rw [ha]; show p < N + 1; omega
        · rw [ha]; show sp.parent p < N + 257; omega
      · rw [if_neg hc] at ha
        simp only [List.mem_cons, List.mem_singleton, List.not_mem_nil, or_false] at ha
        rcases ha with ha | ha
        · rw [ha]; show p < N + 1; omega
        · rw [ha]; show sp.parent p < N + 1
          have := h2 hc
          omega
  · rw [List.mem_singleton.1 ha]; show p < N + 1; omega

theorem upd_val_cases (a : Nat → Nat) (i v j : Nat) : upd a i v j = v ∨ upd a i v j = a j := by
  unfold upd
  split
  · exact Or.inl rfl
  · exact Or.inr rfl

/-- The accesses of a call `delete_node(sp, p)` are in bounds when the state
holds a forest and `p` is a position. -/
theorem delete_node_trace_ok (sp : encode_state) (T : Nat → Tree) (p : Nat)
    (hF : Forest sp T) (hp : p < N) : ∀ a ∈ delete_node_trace sp p, a.in_bounds := by
  have hN := hF.node_ok
  intro a ha
  unfold delete_node_trace at ha
  rcases List.mem_cons.1 ha with ha | ha
  · rw [ha]; show p < N + 1; omega
  by_cases hpar : sp.parent p = NIL
  · rw [if_pos hpar] at ha
    cases ha
  rw [if_neg hpar] at ha
  have hM : Member T p := (hF.member_iff hp).2 hpar
  obtain ⟨_, hl, hrc, hpa⟩ := hN p hM
  have hl' : sp.lchild p ≤ N := by
    rcases hl with h | h
    · rw [h]; exact le_refl _
    · exact le_of_lt (hN _ h.1).1
  have hrc' : sp.rchild p ≤ N := by
    rcases hrc with h | h
    · rw [h]; exact le_refl _
    · exact le_of_lt (hN _ h.1).1
  have hpa1 : sp.parent p ≤ N + 256 := by
    rcases hpa with h | h
    · have := (hN _ h).1
      omega
    · exact h.2.1
  have hpa2 : N < sp.parent p → sp.rchild (sp.parent p) = p := by
    intro hgt
    rcases hpa with h | h
    · have := (hN _ h).1
      omega
    · exact h.2.2
  rcases List.mem_cons.1 ha with ha | ha
  · rw [ha]; show p < N + 257; omega
  by_cases h1 : sp.rchild p = NIL
  · rw [if_pos h1] at ha
    rcases List.mem_cons.1 ha with ha | ha
    · rw [ha]; show p < N + 1; omega
    refine delete_link_trace_ok sp p _ hp hl' hpa1 (fun hne => ?_) a ha
    by_contra hgt
    exact hne (hpa2 (by omega))
  rw [if_neg h1] at ha
  rcases List.mem_cons.1 ha with ha | ha
  · rw [ha]; show p < N + 1; omega
  by_cases h2 : sp.lchild p = NIL
  · rw [if_pos h2] at ha
    rcases List.mem_cons.1 ha with ha | ha
    · rw [ha]; show p < N + 257; omega
    refine delete_link_trace_ok sp p _ hp hrc' hpa1 (fun hne => ?_) a ha
    by_contra hgt
    exact hne (hpa2 (by omega))
  rw [if_neg h2] at ha
  dsimp only at ha
  rcases List.mem_cons.1 ha with ha | ha
  · rw [ha]; show p < N + 1; omega
  rcases List.mem_cons.1 ha with ha | ha
  · rw [ha]; show sp.lchild p < N + 257; omega
  have hq0 : Member T (sp.lchild p) := by
    rcases hl with h | h
    · exact absurd h h2
    · exact h.1
  have hq0N := (hN _ hq0).1
  by_cases h3 : sp.rchild (sp.lchild p) ≠ NIL
  · rw [if_pos h3] at ha
    obtain ⟨t1, t2⟩ := pred_loop_trace_ok sp.rchild sp.parent (Member T)
      (fun y hy => ⟨(hN y hy).1, (hN y hy).2.2.1⟩) N (sp.lchild p) hq0 h3
    rcases List.mem_append.1 ha with ha | ha
    · exact t1 a ha
    cases hpl : pred_loop sp.rchild N (sp.lchild p) with
    | none => rw [hpl] at ha; cases ha
    | some q =>
      rw [hpl] at ha
      dsimp only at ha
      obtain ⟨hqM, hpq, hrq⟩ := t2 q hpl
      obtain ⟨hqN, hlq, _, _⟩ := hN q hqM
      have hlq' : sp.lchild q ≤ N := by
        rcases hlq with h | h
        · rw [h]; exact le_refl _
        · exact le_of_lt (hN _ h.1).1
      rw [upd_self_val sp.lchild q p,
        upd_self_val (upd sp.rchild (sp.parent q) (sp.lchild q)) q p] at ha
      have hv : upd sp.rchild (sp.parent q) (sp.lchild q) p ≤ N := by
        rcases upd_val_cases sp.rchild (sp.parent q) (sp.lchild q) p with h | h
        · rw [h]; exact hlq'
        · rw [h]; exact hrc'
      rcases List.mem_append.1 ha with ha | ha
      · simp only [List.mem_cons, List.mem_singleton, List.not_mem_nil, or_false] at ha
        rcases ha with ha | ha | ha | ha | ha | ha | ha | ha | ha | ha | ha | ha | ha | ha
        · rw [ha]; show q < N + 1; omega
        · rw [ha]; show q < N + 1; omega
        · rw [ha]; show sp.parent q < N + 257; omega
        · rw [ha]; show q < N + 1; omega
        · rw [ha]; show q < N + 1; omega
        · rw [ha]; show sp.lchild q < N + 1; omega
        · rw [ha]; show p < N + 1; omega
        · rw [ha]; show q < N + 1; omega
        · rw [ha]; show p < N + 1; omega
        · rw [ha]; show sp.lchild p < N + 1; omega
        · rw [ha]; show p < N + 257; omega
        · rw [ha]; show q < N + 257; omega
        · rw [ha]; show p < N + 257; omega
        · rw [ha]; show upd sp.rchild (sp.parent q) (sp.lchild q) p < N + 1; omega
      · generalize hv3 : upd (upd (upd sp.parent (sp.lchild q) (sp.parent q)) (sp.lchild p) q)
          (upd sp.rchild (sp.parent q) (sp.lchild q) p) q p = v at ha
        have hv3' : v = q ∨ v = sp.parent q ∨ v = sp.parent p := by
          rw [← hv3]
          rcases upd_val_cases (upd (upd sp.parent (sp.lchild q) (sp.parent q)) (sp.lchild p) q)
            (upd sp.rchild (sp.parent q) (sp.lchild q) p) q p with h | h
          · exact Or.inl h
          · rw [h]
            rcases upd_val_cases (upd sp.parent (sp.lchild q) (sp.parent q)) (sp.lchild p) q p
              with h | h
            · exact Or.inl h
            · rw [h]
              rcases upd_val_cases sp.parent (sp.lchild q) (sp.parent q) p with h | h
              · exact Or.inr (Or.inl h)
              · exact Or.inr (Or.inr h)
        refine delete_link_trace_ok _ p q hp (le_of_lt hqN) ?_ ?_ a ha
        · show upd (upd (upd sp.parent (sp.lchild q) (sp.parent q)) (sp.lchild p) q)
            (upd sp.rchild (sp.parent q) (sp.lchild q) p) q p ≤ N + 256
          rw [hv3]
          rcases hv3' with h | h | h
          · rw [h]; omega
          · rw [h]; omega
          · rw [h]; exact hpa1
        · show upd (upd sp.rchild (sp.parent q) (sp.lchild q)) q
              (upd sp.rchild (sp.parent q) (sp.lchild q) p)
              (upd (upd (upd sp.parent (sp.lchild q) (sp.parent q)) (sp.lchild p) q)
                (upd sp.rchild (sp.parent q) (sp.lchild q) p) q p) ≠ p →
            upd (upd (upd sp.parent (sp.lchild q) (sp.parent q)) (sp.lchild p) q)
              (upd sp.rchild (sp.parent q) (sp.lchild q) p) q p ≤ N
          rw [hv3]
          intro hne
          rcases hv3' with h | h | h
          · rw [h]; omega
          · rw [h]; omega
          · by_contra hgt
            apply hne
            rw [h] at hgt ⊢
            rw [upd_other _ _ _ _ (by omega), upd_other _ _ _ _ (by omega)]
            exact hpa2 (by omega)
  · rw [if_neg h3] at ha
    rw [upd_self_val sp.rchild (sp.lchild p) p] at ha
    rcases List.mem_append.1 ha with ha | ha
    · simp only [List.mem_cons, List.mem_singleton, List.not_mem_nil, or_false] at ha
      rcases ha with ha | ha | ha | ha
      · rw [ha]; show p < N + 257; omega
      · rw [ha]; show sp.lchild p < N + 257; omega
      · rw [ha]; show p < N + 257; omega
      · rw [ha]; show sp.rchild p < N + 1; omega
    · have hv : upd sp.parent (sp.rchild p) (sp.lchild p) p = sp.lchild p ∨
          upd sp.parent (sp.rchild p) (sp.lchild p) p = sp.parent p :=
        upd_val_cases _ _ _ _
      refine delete_link_trace_ok _ p (sp.lchild p) hp hl' ?_ ?_ a ha
      · show upd sp.parent (sp.rchild p) (sp.lchild p) p ≤ N + 256
        rcases hv with h | h
        · rw [h]; omega
        · rw [h]; exact hpa1
      · show upd sp.rchild (sp.lchild p) (sp.rchild p)
            (upd sp.parent (sp.rchild p) (sp.lchild p) p) ≠ p →
          upd sp.parent (sp.rchild p) (sp.lchild p) p ≤ N
        intro hne
        rcases hv with h | h
        · rw [h]; omega
        · by_contra hgt
          apply hne
          rw [h] at hgt ⊢
          rw [upd_other _ _ _ _ (by omega)]
          exact hpa2 (by omega)

end LZSS

namespace LZSS

/-! ## The accesses of `compress_lzss` are in bounds -/

theorem init_state_trace_ok : ∀ a ∈ init_state_trace, a.in_bounds := by
  intro a ha
  unfold init_state_trace at ha
  rcases List.mem_append.1 ha with ha | ha
  · rcases List.mem_append.1 ha with ha | ha
    · obtain ⟨i, hi, rfl⟩ := List.mem_map.1 ha
      rw [List.mem_range] at hi
      show i < N + F - 1
      simp only [N, F] at *
      omega
    · obtain ⟨i, hi, rfl⟩ := List.mem_map.1 ha
      rw [List.mem_range] at hi
      show N + 1 + i < N + 257
      omega
  · obtain ⟨i, hi, rfl⟩ := List.mem_map.1 ha
    rw [List.mem_range] at hi
    show i < N + 1
    omega

theorem fill_trace_ok : ∀ (n len : Nat) (src : List Nat), len + n ≤ F →
    ∀ a ∈ fill_trace (N - F) n len src, a.in_bounds := by
  intro n
  induction n with
  | zero => intro len src _ a ha; rw [fill_trace] at ha; cases ha
  | succ n ih =>
    intro len src h a ha
    cases src with
    | nil => rw [fill_trace] at ha; cases ha
    | cons b src =>
      rw [fill_trace] at ha
      rcases List.mem_cons.1 ha with ha | ha
      · rw [ha]
        show N - F + len < N + F - 1
        simp only [N, F] at *
        omega
      · exact ih (len + 1) src (by omega) a ha

theorem flush_trace_ok (dstlen : Nat) : ∀ (n i len : Nat), i + n ≤ 17 →
    ∀ a ∈ flush_trace dstlen n i len, a.in_bounds := by
  intro n
  induction n with
  | zero => intro i len _ a ha; rw [flush_trace] at ha; cases ha
  | succ n ih =>
    intro i len h a ha
    rw [flush_trace] at ha
    by_cases hc : len < dstlen
    · rw [if_pos hc] at ha
      rcases List.mem_cons.1 ha with ha | ha
      · rw [ha]; show i < 17; omega
      · exact ih (i + 1) (len + 1) (by omega) a ha
    · rw [if_neg hc] at ha
      cases ha

theorem unit_trace_ok (st : comp_state) (hr : st.r < N) (hp : st.code_buf_ptr + 1 < 17) :
    ∀ a ∈ unit_trace st, a.in_bounds := by
  intro a ha
  unfold unit_trace at ha
  dsimp only at ha
  generalize (if (st.sp.match_length : Int) > st.len then st.len.toNat
    else st.sp.match_length) = ml at ha
  by_cases hml : ml ≤ THRESHOLD
  · rw [if_pos hml] at ha
    simp only [List.mem_cons, List.mem_singleton, List.not_mem_nil, or_false] at ha
    rcases ha with ha | ha | ha
    · rw [ha]; show 0 < 17; omega
    · rw [ha]; show st.r < N + F - 1; simp only [N, F] at *; omega
    · rw [ha]; show st.code_buf_ptr < 17; omega
  · rw [if_neg hml] at ha
    simp only [List.mem_cons, List.mem_singleton, List.not_mem_nil, or_false] at ha
    rcases ha with ha | ha
    · rw [ha]; show st.code_buf_ptr < 17; omega
    · rw [ha]; show st.code_buf_ptr + 1 < 17; omega

theorem emit_unit_ptr (st : comp_state) :
    (emit_unit st).code_buf_ptr ≤ st.code_buf_ptr + 2 := by
  unfold emit_unit
  dsimp only
  generalize (if (st.sp.match_length : Int) > st.len then st.len.toNat
    else st.sp.match_length) = ml
  by_cases hml : ml ≤ THRESHOLD
  · rw [if_pos hml]
    show st.code_buf_ptr + 1 ≤ st.code_buf_ptr + 2
    omega
  · rw [if_neg hml]

theorem shift_trace_ok (dstlen : Nat) (st : comp_state) (hp : st.code_buf_ptr ≤ 17) :
    ∀ a ∈ shift_trace dstlen st, a.in_bounds := by
  intro a ha
  unfold shift_trace at ha
  split at ha
  · rcases List.mem_append.1 ha with ha | ha
    · exact flush_trace_ok dstlen _ 0 _ (by omega) a ha
    · split at ha
      · rw [List.mem_singleton.1 ha]; show 0 < 17; omega
      · cases ha
  · cases ha

theorem exit_trace_ok (dstlen : Nat) (st : comp_state) (hp : st.code_buf_ptr ≤ 17) :
    ∀ a ∈ exit_trace dstlen st, a.in_bounds := by
  intro a ha
  unfold exit_trace at ha
  split at ha
  · exact flush_trace_ok dstlen _ 0 _ (by omega) a ha
  · cases ha

theorem event_trace_ok (e : Event) (h : EventOk e) : ∀ a ∈ event_trace e, a.in_bounds := by
  cases e with
  | inserted before r after =>
    obtain ⟨_, hb, hr, ⟨T, hT⟩, _, hfree, _⟩ := h
    exact insert_node_trace_ok before T r hT hr hb hfree
  | deleted before p after =>
    obtain ⟨_, hp, ⟨T, hT⟩, _⟩ := h
    exact delete_node_trace_ok before T p hT hp
  | stored before s c =>
    obtain ⟨hs, _⟩ := h
    intro a ha
    unfold event_trace at ha
    rcases List.mem_cons.1 ha with ha | ha
    · rw [ha]; show s < N + F - 1; simp only [N, F] at *; omega
    · split at ha
      · rw [List.mem_singleton.1 ha]
        show s + N < N + F - 1
        simp only [N, F] at *
        omega
      · cases ha
  | literal c => intro a ha; cases ha
  | pair mp ml => intro a ha; cases ha

theorem group_bytes_length (cur : List Event) (h : ∀ u ∈ cur, UnitOk u) :
    (group_bytes cur).length ≤ 2 * cur.length := by
  induction cur with
  | nil => simp [group_bytes]
  | cons u us ih =>
    rw [group_bytes, List.length_append, List.length_cons]
    have hu := h u (by simp)
    have := ih (fun v hv => h v (by simp [hv]))
    have h2 : (unit_bytes u).length ≤ 2 := by
      cases u with
      | literal c => simp [unit_bytes]
      | pair mp ml => simp [unit_bytes]
      | inserted _ _ _ => cases hu
      | deleted _ _ _ => cases hu
      | stored _ _ _ => cases hu
    omega

theorem OutOk.ptr_le {x : List Nat} {c k : Nat} {st : comp_state} (h : OutOk x c k st) :
    st.code_buf_ptr ≤ 15 := by
  obtain ⟨D0, cur, g, P, hO, hcur, _, _⟩ := h
  have := group_bytes_length cur hO.units
  rw [hO.ptr]
  omega

end LZSS

namespace LZSS

theorem loop_entry_nil : loop_entry [] = none := by
  unfold loop_entry
  dsimp only
  rw [if_pos]
  rfl

/-- C17: array-bounds safety of the encoder. For every sequence `x` of bytes and
every capacity, `compress_lzss` returns, and every array access of the run, as
`compress_trace` lists them for `init_state`, `insert_node`, `delete_node` and
`compress_lzss` itself, is within the array as declared: `lchild` and `parent`
below `N + 1`, `rchild` below `N + 257`, `text_buf` below `N + F - 1` and
`code_buf` below 17. -/
theorem encoder_accesses_in_bounds (x : List Nat) (hx : ∀ b ∈ x, b < 256) (c : Nat) :
    (∃ res, compress_lzss c x = some res) ∧
    (x ≠ [] → ∃ st0, loop_entry x = some st0) ∧
    ∀ a ∈ compress_trace c x, a.in_bounds := by
  obtain ⟨res, h, hlog⟩ := compress_lzss_log x hx c
  refine ⟨⟨res, h⟩, ?_, ?_⟩
  · intro hne
    obtain ⟨st0, hentry, _⟩ := loop_entry_spec x hne hx (fun _ => 0) x.length
    exact ⟨st0, hentry⟩
  intro a ha
  unfold compress_trace at ha
  rcases List.mem_append.1 ha with ha | ha
  · rcases List.mem_append.1 ha with ha | ha
    · rcases List.mem_append.1 ha with ha | ha
      · exact init_state_trace_ok a ha
      · rcases List.mem_cons.1 ha with ha | ha
        · rw [ha]; show 0 < 17; omega
        · exact fill_trace_ok F 0 x (by omega) a ha
    · rw [h] at ha
      dsimp only at ha
      obtain ⟨e, he, hae⟩ := List.mem_flatMap.1 ha
      exact event_trace_ok e (hlog e he) a hae
  · by_cases hne : x = []
    · subst hne
      rw [loop_entry_nil] at ha
      cases ha
    · obtain ⟨st0, hentry, _, hP, hM, hO, hmask, hlen, hdst⟩ :=
        loop_entry_spec x hne hx (fun _ => 0) x.length
      have hO0 : OutOk x c 0 st0 :=
        ⟨_, [], 0, 0, hO, by simp, by rw [hmask]; rfl, by rw [hdst]; simp⟩
      obtain ⟨hheads, hexit⟩ := loop_heads_inv x hx c (x.length + 1) 0 st0 hP hM hO0 hlen
      rw [hentry] at ha
      dsimp only at ha
      rcases List.mem_append.1 ha with ha | ha
      · obtain ⟨s, hs, has⟩ := List.mem_flatMap.1 ha
        obtain ⟨k2, a1, _, a3, _⟩ := hheads s hs
        have hp := a3.ptr_le
        rcases List.mem_append.1 has with has | has
        · refine unit_trace_ok s ?_ (by omega) a has
          rw [a1.r_eq]
          exact Nat.mod_lt _ (by decide)
        · have := emit_unit_ptr s
          exact shift_trace_ok c (emit_unit s) (by omega) a has
      · cases hex : loop_exit c (x.length + 1) st0 with
        | none => rw [hex] at ha; cases ha
        | some s =>
          rw [hex] at ha
          dsimp only at ha
          have hp := (hexit s hex).2.ptr_le
          exact exit_trace_ok c s (by omega) a ha

set_option maxRecDepth 1000000 in
theorem encoder_accesses_in_bounds_witness :
    (loop_entry [3, 3, 3, 3, 1]).map unit_trace =
      some [Access.code_buf 0, Access.text_buf 4078, Access.code_buf 1] ∧
    (∃ res, compress_lzss 64 [3, 3, 3, 3, 1] = some res) ∧
    ([3, 3, 3, 3, 1] ≠ [] → ∃ st0, loop_entry [3, 3, 3, 3, 1] = some st0) ∧
    ∀ a ∈ compress_trace 64 [3, 3, 3, 3, 1], a.in_bounds :=
  ⟨by rfl, encoder_accesses_in_bounds [3, 3, 3, 3, 1] (by decide) 64⟩

end LZSS
